import Mathlib

/-!
# Pintos project 4: buffer cache, indexed inodes, swap area, virtual memory

A shallow embedding of `filesys/cache.c`, `filesys/inode.c`, `vm/swap.c`,
`vm/page.c`, `vm/frame.c`, of the pointer and buffer checks, `mmap` and
`munmap` of `userprog/syscall.c`, and of the path resolution of
`filesys/filesys.c`.

Conventions of the embedding.

* A sector's contents (`Block`) is the function from byte index to byte value;
  only the indices `0 .. 511` are meaningful.  A block device (`Disk`) maps a
  sector number to its contents.
* `disk_sector_t`, `size_t` and `uint32_t` values are natural numbers; where
  the C arithmetic is unsigned 32-bit and could wrap, the reduction modulo
  `2^32` is written out.
* `off_t` quantities (lengths, offsets, sizes) are taken non-negative and are
  natural numbers.  Where the C code forms a signed difference that may be
  negative and only tests it against zero (`inode_left`, `chunk_size`), the
  truncated difference takes the same branch.
* Pointers to list elements are positions in the list; `NULL`, a kernel
  `PANIC`/failed `ASSERT` and an exhausted loop budget are `none`.
* Locks are not modelled: every function is run to completion on its own.
-/

namespace Pintos

/-! ## Block device -/

abbrev DISK_SECTOR_SIZE : Nat := 512

/-- The bytes of one sector, by byte index. -/
abbrev Block := Nat → Nat

/-- A block device: sector number to sector contents. -/
abbrev Disk := Nat → Block

/-- Effect of `disk_write (d, s, b)`. -/
def disk_write (d : Disk) (s : Nat) (b : Block) : Disk :=
  fun t => if t = s then b else d t

/-- The static all-zero sector `zeros` of `inode_grow`. -/
def zeros : Block := fun _ => 0

/-- Entry `i` of a sector viewed as `disk_sector_t buf[128]`: the little-endian
32-bit word stored in bytes `4i .. 4i+3`. -/
def block_word (b : Block) (i : Nat) : Nat :=
  b (4 * i) % 256 + 256 * (b (4 * i + 1) % 256) + 65536 * (b (4 * i + 2) % 256)
    + 16777216 * (b (4 * i + 3) % 256)

/-- The bytes of an array of 32-bit words (little endian), as `disk_write`
stores a `disk_sector_t buf[128]`. -/
def words_block (w : Nat → Nat) : Block :=
  fun k => (w (k / 4) / 256 ^ (k % 4)) % 256

/-- Effect of `memcpy (dst + dofs, src + sofs, n)` on `dst`. -/
def memcpy (dst : Nat → Nat) (dofs : Nat) (src : Nat → Nat) (sofs n : Nat) : Nat → Nat :=
  fun i => if dofs ≤ i ∧ i < dofs + n then src (sofs + (i - dofs)) else dst i

/-- Assignment `buf[i] = v` on an array of words. -/
def set_word (buf : Nat → Nat) (i v : Nat) : Nat → Nat :=
  fun j => if j = i then v else buf j

/-! ## Buffer cache (`filesys/cache.c`) -/

/-- A line of the buffer cache (`struct cache_line`). -/
structure cache_line where
  block : Block
  sector_idx : Nat
  accessed : Nat
  dirty : Nat

/-- The globals `buffer_cache` and `buffer_cache_size`. -/
structure BufferCache where
  buffer_cache : List cache_line
  buffer_cache_size : Nat

/-- State of `init_buffer_cache`: empty list, size 0. -/
def init_buffer_cache : BufferCache := ⟨[], 0⟩

/-- Position of the first line holding `sector_idx`, `none` for `NULL`
(`find_cache_line`). -/
def find_cache_line : List cache_line → Nat → Option Nat
  | [], _ => none
  | cl :: rest, sector_idx =>
    if sector_idx = cl.sector_idx then some 0
    else (find_cache_line rest sector_idx).map (· + 1)

/-- The `while(1)` loop of `evict_cache_line`, with cursor `e` (a position in
the list) and a step budget.  Returns the list, the disk and the position of
the victim. -/
def evict_loop : Nat → List cache_line → Disk → Nat → Option (List cache_line × Disk × Nat)
  | 0, _, _, _ => none
  | fuel + 1, ls, d, e =>
    match ls[e]? with
    | none => none
    | some cl =>
      if cl.accessed ≠ 0 then
        let ls1 := ls.set e { cl with accessed := 0 }
        let e1 := if e + 1 = ls.length then 0 else e + 1
        evict_loop fuel ls1 d e1
      else
        let d1 := if cl.dirty ≠ 0 then disk_write d cl.sector_idx cl.block else d
        some (ls, d1, e)

/-- Second-chance eviction (`evict_cache_line`): the scan starts at the head
of the list; two passes over the list are always enough. -/
def evict_cache_line (ls : List cache_line) (d : Disk) : Option (List cache_line × Disk × Nat) :=
  evict_loop (2 * ls.length + 1) ls d 0

/-- Adding a line for `sector_idx` (`add_cache_line`).  `fresh` is the storage
`malloc` returns when the cache is not full; its `accessed` and `dirty` fields
are not initialised by this function. -/
def add_cache_line (c : BufferCache) (d : Disk) (sector_idx : Nat) (fresh : cache_line) :
    Option (BufferCache × Disk × Nat) :=
  if c.buffer_cache_size > 63 then
    match evict_cache_line c.buffer_cache d with
    | none => none
    | some (ls, d1, i) =>
      match ls[i]? with
      | none => none
      | some cl =>
        some ({ c with buffer_cache :=
                  ls.set i { cl with sector_idx := sector_idx, block := d1 sector_idx } },
              d1, i)
  else
    some ({ buffer_cache :=
              c.buffer_cache ++ [{ fresh with sector_idx := sector_idx, block := d sector_idx }],
            buffer_cache_size := c.buffer_cache_size + 1 },
          d, c.buffer_cache.length)

/-- Storage as `malloc` hands it to `add_cache_line` inside `get_cache_line`,
which overwrites both flags before returning. -/
def blank_line : cache_line := ⟨zeros, 0, 0, 0⟩

/-- The line for `sector_idx`, loading it when absent (`get_cache_line`).
Returns the new cache, the new disk and the position of the line. -/
def get_cache_line (c : BufferCache) (d : Disk) (sector_idx dirty : Nat) :
    Option (BufferCache × Disk × Nat) :=
  match find_cache_line c.buffer_cache sector_idx with
  | some i =>
    match c.buffer_cache[i]? with
    | none => none
    | some cl =>
      let cl1 := if dirty ≠ 0 then { cl with dirty := 1 } else cl
      some ({ c with buffer_cache := c.buffer_cache.set i { cl1 with accessed := 1 } }, d, i)
  | none =>
    match add_cache_line c d sector_idx blank_line with
    | none => none
    | some (c1, d1, i) =>
      match c1.buffer_cache[i]? with
      | none => none
      | some cl =>
        some ({ c1 with buffer_cache :=
                  c1.buffer_cache.set i { cl with dirty := dirty, accessed := 1 } }, d1, i)

/-- The loop of `write_behind_all` over the lines from the cursor on: a dirty
line is written and cleaned; with `done` every line is dropped from the list
and the size decremented. -/
def write_behind_loop (done : Bool) : List cache_line → Disk → Nat → List cache_line × Disk × Nat
  | [], d, n => ([], d, n)
  | cl :: rest, d, n =>
    let d1 := if cl.dirty ≠ 0 then disk_write d cl.sector_idx cl.block else d
    let cl1 := if cl.dirty ≠ 0 then { cl with dirty := 0 } else cl
    if done then write_behind_loop done rest d1 (n - 1)
    else
      let r := write_behind_loop done rest d1 n
      (cl1 :: r.1, r.2.1, r.2.2)

/-- Write-behind of all lines (`write_behind_all`). -/
def write_behind_all (c : BufferCache) (d : Disk) (done : Bool) : BufferCache × Disk :=
  let r := write_behind_loop done c.buffer_cache d c.buffer_cache_size
  (⟨r.1, r.2.2⟩, r.2.1)

/-- One round of the read-ahead thread (`read_ahead_get`) for the dequeued
sector: load the sector unless a line holds it.  `fresh` is the storage
`malloc` returns; nothing here initialises its flags. -/
def read_ahead_get (c : BufferCache) (d : Disk) (sector : Nat) (fresh : cache_line) :
    Option (BufferCache × Disk) :=
  match find_cache_line c.buffer_cache sector with
  | some _ => some (c, d)
  | none =>
    match add_cache_line c d sector fresh with
    | none => none
    | some (c1, d1, _) => some (c1, d1)

/-! ## Free map -/

/-- Modelled from the spec: the free map (`filesys/free-map.c` is not among
the sources) is used as a black box.  It is kept as the sequence of free
sectors in the order in which allocation hands them out; an empty sequence is
an exhausted free map. -/
structure FreeMap where
  free : List Nat

/-- Modelled from the spec: `free_map_allocate (1, sectorp)`.  Returns whether
a sector was found, the new free map and the new value of `*sectorp`, which is
left as it was when the free map is exhausted. -/
def free_map_allocate (fm : FreeMap) (sectorp : Nat) : Bool × FreeMap × Nat :=
  match fm.free with
  | [] => (false, fm, sectorp)
  | s :: rest => (true, ⟨rest⟩, s)

/-- Modelled from the spec: `free_map_release (sector, 1)` makes the sector
available again. -/
def free_map_release (fm : FreeMap) (sector : Nat) : FreeMap :=
  ⟨fm.free ++ [sector]⟩

/-! ## Inodes (`filesys/inode.c`) -/

abbrev INODE_MAGIC : Nat := 0x494e4f44

abbrev MAX_FILE_SIZE : Nat := 8388096

/-- In-memory inode (`struct inode`), without the list element and the lock. -/
structure inode where
  sector : Nat
  open_cnt : Int
  removed : Bool
  deny_write_cnt : Int
  length : Nat
  read_length : Nat
  direct_ptr : Nat
  indirect_ptr : Nat
  doubly_indirect_ptr : Nat
  is_dir : Nat
  parent : Nat

/-- Number of sectors for `size` bytes (`bytes_to_sectors`, i.e.
`DIV_ROUND_UP (size, DISK_SECTOR_SIZE)`). -/
def bytes_to_sectors (size : Nat) : Nat :=
  (size + DISK_SECTOR_SIZE - 1) / DISK_SECTOR_SIZE

/-- The disk sector holding byte `pos` of the inode, `(disk_sector_t) -1` when
`pos` is not below `length` (`byte_to_sector`).  The pointer blocks are read
from the disk itself, not through the cache.  `index` is a `uint32_t`, and
`pos -= index*DISK_SECTOR_SIZE*128` is carried out in unsigned arithmetic. -/
def byte_to_sector (d : Disk) (ino : inode) (pos length : Nat) : Nat :=
  if pos ≥ length then 4294967295
  else if pos < DISK_SECTOR_SIZE then ino.direct_ptr
  else if pos < DISK_SECTOR_SIZE * 129 then
    let indirect_buffer := block_word (d ino.indirect_ptr)
    let pos1 := pos - DISK_SECTOR_SIZE
    let index := (pos1 / DISK_SECTOR_SIZE) % 4294967296
    indirect_buffer index
  else
    let indirect_buffer := block_word (d ino.doubly_indirect_ptr)
    let pos1 := pos - DISK_SECTOR_SIZE * 129
    let index := (pos1 / (DISK_SECTOR_SIZE * 128)) % 4294967296
    let indirect_buffer2 := block_word (d (indirect_buffer index))
    let pos2 := (pos1 + 4294967296 - (index * DISK_SECTOR_SIZE * 128) % 4294967296) % 4294967296
    let index2 := (pos2 / DISK_SECTOR_SIZE) % 4294967296
    indirect_buffer2 index2

/-- The file system state the inode layer works on. -/
structure Filesys where
  disk : Disk
  cache : BufferCache
  read_ahead_queue : List Nat
  free_map : FreeMap

/-- Producer side of read-ahead (`read_ahead_put`): the sector is appended to
the queue. -/
def read_ahead_put (fs : Filesys) (sector : Nat) : Filesys :=
  { fs with read_ahead_queue := fs.read_ahead_queue ++ [sector] }

/-- Local state of `inode_grow`. -/
structure GrowState where
  disk : Disk
  free_map : FreeMap
  ino : inode
  indirect_buffer : Nat → Nat
  indirect_buffer2 : Nat → Nat
  old_sectors : Nat
  sectors_to_add : Nat

/-- The exits of `inode_grow`: `inode->length = new_length; return`. -/
def grow_finish (g : GrowState) (new_length : Nat) : GrowState :=
  { g with ino := { g.ino with length := new_length } }

/-- Case 1 of `inode_grow`: the direct sector.  The flag tells whether the
function returned. -/
def grow_case1 (g : GrowState) (new_length : Nat) : GrowState × Bool :=
  if g.old_sectors = 0 then
    let a := free_map_allocate g.free_map g.ino.direct_ptr
    let g1 : GrowState :=
      { g with free_map := a.2.1, ino := { g.ino with direct_ptr := a.2.2 },
               disk := disk_write g.disk a.2.2 zeros,
               sectors_to_add := g.sectors_to_add - 1, old_sectors := g.old_sectors + 1 }
    if g1.sectors_to_add = 0 then (grow_finish g1 new_length, true) else (g1, false)
  else (g, false)

/-- The loop `while (old_sectors < 129)` of case 2. -/
def grow_indirect_loop : Nat → GrowState → Nat → Option (GrowState × Bool)
  | fuel, g, new_length =>
    if g.old_sectors < 129 then
      match fuel with
      | 0 => none
      | fuel + 1 =>
        let index := g.old_sectors - 1
        let a := free_map_allocate g.free_map (g.indirect_buffer index)
        let g1 : GrowState :=
          { g with free_map := a.2.1, indirect_buffer := set_word g.indirect_buffer index a.2.2,
                   disk := disk_write g.disk a.2.2 zeros,
                   sectors_to_add := g.sectors_to_add - 1, old_sectors := g.old_sectors + 1 }
        if g1.sectors_to_add = 0 then
          some (grow_finish
            { g1 with disk := disk_write g1.disk g1.ino.indirect_ptr
                                (words_block g1.indirect_buffer) } new_length, true)
        else grow_indirect_loop fuel g1 new_length
    else some (g, false)

/-- Case 2 of `inode_grow`: the indirect block. -/
def grow_case2 (g : GrowState) (new_length : Nat) : Option (GrowState × Bool) :=
  let g1 : GrowState :=
    if g.old_sectors = 1 then
      let a := free_map_allocate g.free_map g.ino.indirect_ptr
      { g with free_map := a.2.1, ino := { g.ino with indirect_ptr := a.2.2 } }
    else { g with indirect_buffer := block_word (g.disk g.ino.indirect_ptr) }
  match grow_indirect_loop g1.sectors_to_add g1 new_length with
  | none => none
  | some (g2, true) => some (g2, true)
  | some (g2, false) =>
    some ({ g2 with disk := disk_write g2.disk g2.ino.indirect_ptr
                              (words_block g2.indirect_buffer) }, false)

/-- The inner loop `while (old_sectors < 129+(index+1)*128)` of case 3. -/
def grow_inner_loop : Nat → GrowState → Nat → Nat → Option (GrowState × Bool)
  | fuel, g, new_length, index =>
    if g.old_sectors < 129 + (index + 1) * 128 then
      match fuel with
      | 0 => none
      | fuel + 1 =>
        let index2 := (g.old_sectors - 129) % 128
        let a := free_map_allocate g.free_map (g.indirect_buffer2 index2)
        let g1 : GrowState :=
          { g with free_map := a.2.1,
                   indirect_buffer2 := set_word g.indirect_buffer2 index2 a.2.2,
                   disk := disk_write g.disk a.2.2 zeros,
                   sectors_to_add := g.sectors_to_add - 1, old_sectors := g.old_sectors + 1 }
        if g1.sectors_to_add = 0 then
          let d1 := disk_write g1.disk (g1.indirect_buffer index) (words_block g1.indirect_buffer2)
          let d2 := disk_write d1 g1.ino.doubly_indirect_ptr (words_block g1.indirect_buffer)
          some (grow_finish { g1 with disk := d2 } new_length, true)
        else grow_inner_loop fuel g1 new_length index
    else some (g, false)

/-- The loop `while (1)` of case 3. -/
def grow_outer_loop : Nat → GrowState → Nat → Option GrowState
  | 0, _, _ => none
  | fuel + 1, g, new_length =>
    let index := (g.old_sectors - 129) / 128
    let g1 : GrowState :=
      if g.old_sectors % 128 = 1 then
        let a := free_map_allocate g.free_map (g.indirect_buffer index)
        { g with free_map := a.2.1, indirect_buffer := set_word g.indirect_buffer index a.2.2 }
      else { g with indirect_buffer2 := block_word (g.disk (g.indirect_buffer index)) }
    match grow_inner_loop g1.sectors_to_add g1 new_length index with
    | none => none
    | some (g2, true) => some g2
    | some (g2, false) =>
      grow_outer_loop fuel
        { g2 with disk := disk_write g2.disk (g2.indirect_buffer index)
                            (words_block g2.indirect_buffer2) } new_length

/-- Case 3 of `inode_grow`: the doubly indirect block, entered after
`ASSERT (old_sectors <= 16513)`. -/
def grow_case3 (g : GrowState) (new_length : Nat) : Option GrowState :=
  if g.old_sectors ≤ 16513 then
    let g1 : GrowState :=
      if g.old_sectors = 129 then
        let a := free_map_allocate g.free_map g.ino.doubly_indirect_ptr
        { g with free_map := a.2.1, ino := { g.ino with doubly_indirect_ptr := a.2.2 } }
      else { g with indirect_buffer := block_word (g.disk g.ino.doubly_indirect_ptr) }
    grow_outer_loop g1.sectors_to_add g1 new_length
  else none

/-- Growth of an inode to `new_length` bytes (`inode_grow`).  `stack` is the
indeterminate initial contents of the local arrays `indirect_buffer` and
`indirect_buffer2`.  The result of `free_map_allocate` is never tested. -/
def inode_grow (d : Disk) (fm : FreeMap) (ino : inode) (new_length : Nat)
    (stack : (Nat → Nat) × (Nat → Nat)) : Option (Disk × FreeMap × inode) :=
  let old_sectors := bytes_to_sectors ino.length
  let sectors_to_add := (bytes_to_sectors new_length + 4294967296 - old_sectors) % 4294967296
  if sectors_to_add = 0 then some (d, fm, { ino with length := new_length })
  else
    let r1 := grow_case1 ⟨d, fm, ino, stack.1, stack.2, old_sectors, sectors_to_add⟩ new_length
    if r1.2 then some (r1.1.disk, r1.1.free_map, r1.1.ino)
    else
      match grow_case2 r1.1 new_length with
      | none => none
      | some (g2, true) => some (g2.disk, g2.free_map, g2.ino)
      | some (g2, false) =>
        match grow_case3 g2 new_length with
        | none => none
        | some g3 => some (g3.disk, g3.free_map, g3.ino)

/-- The loop of `inode_read_at`.  Returns the state, the caller's buffer and
`bytes_read`. -/
def read_loop : Nat → Filesys → inode → (Nat → Nat) → Nat → Nat → Nat →
    Option (Filesys × (Nat → Nat) × Nat)
  | fuel, fs, ino, buffer, size, offset, bytes_read =>
    if size > 0 then
      match fuel with
      | 0 => none
      | fuel + 1 =>
        let sector_idx := byte_to_sector fs.disk ino offset ino.read_length
        let sector_ofs := offset % DISK_SECTOR_SIZE
        let inode_left := ino.read_length - offset
        let sector_left := DISK_SECTOR_SIZE - sector_ofs
        let min_left := if inode_left < sector_left then inode_left else sector_left
        let chunk_size := if size < min_left then size else min_left
        if chunk_size ≤ 0 then some (fs, buffer, bytes_read)
        else
          let next_sector_idx := byte_to_sector fs.disk ino (offset + chunk_size) ino.read_length
          let fs1 := if next_sector_idx ≠ 4294967295 then read_ahead_put fs next_sector_idx else fs
          match get_cache_line fs1.cache fs1.disk sector_idx 0 with
          | none => none
          | some (c, d, i) =>
            match c.buffer_cache[i]? with
            | none => none
            | some cl =>
              read_loop fuel { fs1 with cache := c, disk := d } ino
                (memcpy buffer bytes_read cl.block sector_ofs chunk_size)
                (size - chunk_size) (offset + chunk_size) (bytes_read + chunk_size)
    else some (fs, buffer, bytes_read)

/-- Reading `size` bytes at `offset` into `buffer` (`inode_read_at`).  Every
round of the loop copies at least one byte, so `size` rounds are enough. -/
def inode_read_at (fs : Filesys) (ino : inode) (buffer : Nat → Nat) (size offset : Nat) :
    Option (Filesys × (Nat → Nat) × Nat) :=
  if offset ≥ ino.read_length then some (fs, buffer, 0)
  else read_loop size fs ino buffer size offset 0

/-- The loop of `inode_write_at`.  Returns the state and `bytes_written`. -/
def write_loop : Nat → Filesys → inode → (Nat → Nat) → Nat → Nat → Nat → Option (Filesys × Nat)
  | fuel, fs, ino, buffer, size, offset, bytes_written =>
    if size > 0 then
      match fuel with
      | 0 => none
      | fuel + 1 =>
        let sector_idx := byte_to_sector fs.disk ino offset ino.length
        let sector_ofs := offset % DISK_SECTOR_SIZE
        let inode_left := ino.length - offset
        let sector_left := DISK_SECTOR_SIZE - sector_ofs
        let min_left := if inode_left < sector_left then inode_left else sector_left
        let chunk_size := if size < min_left then size else min_left
        if chunk_size ≤ 0 then some (fs, bytes_written)
        else
          match get_cache_line fs.cache fs.disk sector_idx 1 with
          | none => none
          | some (c, d, i) =>
            match c.buffer_cache[i]? with
            | none => none
            | some cl =>
              let cl1 : cache_line :=
                { cl with block := memcpy cl.block sector_ofs buffer bytes_written chunk_size }
              write_loop fuel
                { fs with cache := { c with buffer_cache := c.buffer_cache.set i cl1 }, disk := d }
                ino buffer (size - chunk_size) (offset + chunk_size) (bytes_written + chunk_size)
    else some (fs, bytes_written)

/-- Writing `size` bytes of `buffer` at `offset` (`inode_write_at`), growing
the inode first when the write ends beyond its length.  `stack` is the
indeterminate initial contents of the local arrays of `inode_grow`. -/
def inode_write_at (fs : Filesys) (ino : inode) (buffer : Nat → Nat) (size offset : Nat)
    (stack : (Nat → Nat) × (Nat → Nat)) : Option (Filesys × inode × Nat) :=
  if ino.deny_write_cnt ≠ 0 then some (fs, ino, 0)
  else
    let grown : Option (Filesys × inode) :=
      if offset + size > ino.length then
        match inode_grow fs.disk fs.free_map ino (offset + size) stack with
        | none => none
        | some (d, fm, ino1) => some ({ fs with disk := d, free_map := fm }, ino1)
      else some (fs, ino)
    match grown with
    | none => none
    | some (fs1, ino1) =>
      match write_loop size fs1 ino1 buffer size offset 0 with
      | none => none
      | some (fs2, bytes_written) =>
        some (fs2, { ino1 with read_length := ino1.length }, bytes_written)

/-- Disabling writes (`inode_deny_write`); `none` when the assertion
`deny_write_cnt <= open_cnt` fails. -/
def inode_deny_write (ino : inode) : Option inode :=
  let ino1 := { ino with deny_write_cnt := ino.deny_write_cnt + 1 }
  if ino1.deny_write_cnt ≤ ino1.open_cnt then some ino1 else none

/-- Re-enabling writes (`inode_allow_write`); `none` when one of its two
assertions fails. -/
def inode_allow_write (ino : inode) : Option inode :=
  if ino.deny_write_cnt > 0 then
    if ino.deny_write_cnt ≤ ino.open_cnt then
      some { ino with deny_write_cnt := ino.deny_write_cnt - 1 }
    else none
  else none

/-- The loop `while (index < 0) { free_map_release (indirect_buffer[index], 1);
index--; }` of case 2 of `inode_free`; `index` is a `uint32_t`, so the test is
an unsigned comparison. -/
def free_indirect_loop : Nat → FreeMap → (Nat → Nat) → Nat → FreeMap
  | 0, fm, _, _ => fm
  | fuel + 1, fm, indirect_buffer, index =>
    if index < 0 then
      free_indirect_loop fuel (free_map_release fm (indirect_buffer index)) indirect_buffer
        ((index + 4294967295) % 4294967296)
    else fm

/-- The innermost loop `while (index2 < 0)` of case 3 of `inode_free`, which
releases `indirect_buffer2[index]`; `index2` is a `uint32_t`. -/
def free_inner_loop : Nat → FreeMap → (Nat → Nat) → Nat → Nat → FreeMap
  | 0, fm, _, _, _ => fm
  | fuel + 1, fm, indirect_buffer2, index, index2 =>
    if index2 < 0 then
      free_inner_loop fuel (free_map_release fm (indirect_buffer2 index)) indirect_buffer2 index
        ((index2 + 4294967295) % 4294967296)
    else fm

/-- The loop `while (index < 0)` of case 3 of `inode_free`; `index` is a
`uint32_t`. -/
def free_outer_loop : Nat → FreeMap → Disk → (Nat → Nat) → Nat → Nat → FreeMap
  | 0, fm, _, _, _, _ => fm
  | fuel + 1, fm, d, indirect_buffer, sectors, index =>
    if index < 0 then
      let indirect_buffer2 := block_word (d (indirect_buffer index))
      let fm1 := free_map_release fm (indirect_buffer index)
      let index2 := (((sectors - 129) % 128) + 4294967295) % 4294967296
      let fm2 := free_inner_loop (index2 + 1) fm1 indirect_buffer2 index index2
      free_outer_loop fuel fm2 d indirect_buffer sectors ((index + 4294967295) % 4294967296)
    else fm

/-- Release of the sectors of an inode (`inode_free`). -/
def inode_free (d : Disk) (fm : FreeMap) (ino : inode) : FreeMap :=
  let sectors := bytes_to_sectors ino.length
  let fm1 := if sectors > 0 then free_map_release fm ino.direct_ptr else fm
  let fm2 :=
    if sectors > 1 then
      let indirect_buffer := block_word (d ino.indirect_ptr)
      let fm := free_map_release fm1 ino.indirect_ptr
      let index := sectors - 2
      free_indirect_loop (index + 1) fm indirect_buffer index
    else fm1
  if sectors > 129 then
    let indirect_buffer := block_word (d ino.doubly_indirect_ptr)
    let fm := free_map_release fm2 ino.doubly_indirect_ptr
    let index := (sectors - 129) / 128
    free_outer_loop (index + 1) fm d indirect_buffer sectors index
  else fm2

/-- On-disk inode (`struct inode_disk`); `unused` are its 121 spare words. -/
structure inode_disk where
  is_dir : Nat
  parent : Nat
  direct_ptr : Nat
  indirect_ptr : Nat
  doubly_indirect_ptr : Nat
  length : Nat
  magic : Nat
  unused : Nat → Nat

/-- The sector image of an on-disk inode: 128 little-endian words. -/
def inode_disk_block (di : inode_disk) : Block :=
  words_block (fun i =>
    if i = 0 then di.is_dir else if i = 1 then di.parent else if i = 2 then di.direct_ptr
    else if i = 3 then di.indirect_ptr else if i = 4 then di.doubly_indirect_ptr
    else if i = 5 then di.length else if i = 6 then di.magic else di.unused (i - 7))

/-- An on-disk inode as `disk_read` delivers it from a sector image. -/
def block_inode_disk (b : Block) : inode_disk :=
  { is_dir := block_word b 0, parent := block_word b 1, direct_ptr := block_word b 2,
    indirect_ptr := block_word b 3, doubly_indirect_ptr := block_word b 4,
    length := block_word b 5, magic := block_word b 6,
    unused := fun i => block_word b (i + 7) }

/-- Creation of an inode of `length` bytes at `sector` (`inode_create`).
`calloc_ok` tells whether `calloc` succeeded, `i` is the uninitialised local
`struct inode i`, `root_dir_sector` the constant `ROOT_DIR_SECTOR`, and
`stack` the initial contents of the local arrays of `inode_grow`.
Returns `success` and the new state. -/
def inode_create (fs : Filesys) (sector length : Nat) (is_dir : Nat) (calloc_ok : Bool)
    (i : inode) (root_dir_sector : Nat) (stack : (Nat → Nat) × (Nat → Nat)) :
    Option (Bool × Filesys) :=
  let length := if length > MAX_FILE_SIZE then MAX_FILE_SIZE else length
  if calloc_ok then
    match inode_grow fs.disk fs.free_map { i with length := 0 } length stack with
    | none => none
    | some (d, fm, i1) =>
      let disk_inode : inode_disk :=
        { is_dir := is_dir, parent := root_dir_sector, direct_ptr := i1.direct_ptr,
          indirect_ptr := i1.indirect_ptr, doubly_indirect_ptr := i1.doubly_indirect_ptr,
          length := length, magic := INODE_MAGIC, unused := fun _ => 0 }
      some (true, { fs with disk := disk_write d sector (inode_disk_block disk_inode),
                            free_map := fm })
  else some (false, fs)

/-- The list `open_inodes`: every in-memory inode with its address. -/
abbrev OpenInodes := List (Nat × inode)

/-- State of `inode_init`. -/
def inode_init : OpenInodes := []

/-- The scan of `open_inodes` in `inode_open`: the first inode with the given
sector has its `open_cnt` incremented (`inode_reopen`) and its address is
returned. -/
def open_scan : OpenInodes → Nat → Option (OpenInodes × Nat)
  | [], _ => none
  | (p, ino) :: rest, sector =>
    if ino.sector = sector then
      some ((p, { ino with open_cnt := ino.open_cnt + 1 }) :: rest, p)
    else
      match open_scan rest sector with
      | none => none
      | some (rest1, q) => some ((p, ino) :: rest1, q)

/-- Opening the inode at `sector` (`inode_open`).  `m` is what `malloc`
returns when the inode is not open yet (`none` for `NULL`).  Returns the list
and the address of the inode (`none` for `NULL`). -/
def inode_open (t : OpenInodes) (d : Disk) (sector : Nat) (m : Option Nat) :
    OpenInodes × Option Nat :=
  match open_scan t sector with
  | some (t1, p) => (t1, some p)
  | none =>
    match m with
    | none => (t, none)
    | some p =>
      let data := block_inode_disk (d sector)
      ((p, { sector := sector, open_cnt := 1, deny_write_cnt := 0, removed := false,
             length := data.length, read_length := data.length,
             direct_ptr := data.direct_ptr, indirect_ptr := data.indirect_ptr,
             doubly_indirect_ptr := data.doubly_indirect_ptr, is_dir := data.is_dir,
             parent := data.parent }) :: t, some p)

/-- Reopening (`inode_reopen`) the inode at address `p`; `none` is `NULL`. -/
def inode_reopen (t : OpenInodes) (p : Option Nat) : OpenInodes × Option Nat :=
  match p with
  | none => (t, none)
  | some a =>
    (t.map (fun e => if e.1 = a then (e.1, { e.2 with open_cnt := e.2.open_cnt + 1 }) else e),
     some a)

/-- The inode stored at address `a`, if it is on the open list. -/
def inode_at : OpenInodes → Nat → Option inode
  | [], _ => none
  | (p, ino) :: rest, a => if p = a then some ino else inode_at rest a

/-- Marking for deletion (`inode_remove`). -/
def inode_remove (ino : inode) : inode :=
  { ino with removed := true }

/-- Closing the inode at address `p` (`inode_close`); `p = none` is `NULL`.
`unused` is the indeterminate content of the spare words of the local
`struct inode_disk`.  The result is `none` when `p` is not the address of an
open inode. -/
def inode_close (t : OpenInodes) (fs : Filesys) (p : Option Nat) (unused : Nat → Nat) :
    Option (OpenInodes × Filesys) :=
  match p with
  | none => some (t, fs)
  | some a =>
    match inode_at t a with
    | none => none
    | some ino =>
      let ino1 := { ino with open_cnt := ino.open_cnt - 1 }
      if ino1.open_cnt = 0 then
        let t1 := t.filter (fun e => e.1 ≠ a)
        if ino1.removed then
          let fm := free_map_release fs.free_map ino1.sector
          some (t1, { fs with free_map := inode_free fs.disk fm ino1 })
        else
          let disk_inode : inode_disk :=
            { length := ino1.length, magic := INODE_MAGIC, direct_ptr := ino1.direct_ptr,
              indirect_ptr := ino1.indirect_ptr,
              doubly_indirect_ptr := ino1.doubly_indirect_ptr,
              is_dir := ino1.is_dir, parent := ino1.parent, unused := unused }
          some (t1, { fs with disk := disk_write fs.disk ino1.sector
                                        (inode_disk_block disk_inode) })
      else
        some (t.map (fun e => if e.1 = a then (e.1, ino1) else e), fs)

/-! ## Swap area (`vm/swap.c`) -/

abbrev SECTORS_PER_PAGE : Nat := 8

/-- The swap disk and the bitmap of used slots. -/
structure SwapState where
  swap_disk : Disk
  swap_bitmap : List Bool

/-- Modelled from the spec: `bitmap_scan_and_flip (b, 0, 1, false)` of
`lib/kernel/bitmap.c` (not among the sources), which scans the bitmap for a
zero bit and flips it; `none` stands for `BITMAP_ERROR`. -/
def bitmap_scan_and_flip : List Bool → Option (List Bool × Nat)
  | [] => none
  | b :: rest =>
    if b = false then some (true :: rest, 0)
    else
      match bitmap_scan_and_flip rest with
      | none => none
      | some (rest1, i) => some (b :: rest1, i + 1)

/-- The 512 bytes of memory starting at `ofs`, as a sector image. -/
def mem_sector (mem : Nat → Nat) (ofs : Nat) : Block :=
  fun k => if k < DISK_SECTOR_SIZE then mem (ofs + k) else 0

/-- The loop of `swap_out`, rounds `i .. SECTORS_PER_PAGE - 1`, counted down
by `n = SECTORS_PER_PAGE - i`. -/
def swap_out_loop (frame : Nat → Nat) (free_i : Nat) : Nat → Nat → Disk → Disk
  | 0, _, d => d
  | n + 1, i, d =>
    swap_out_loop frame free_i n (i + 1)
      (disk_write d (free_i * SECTORS_PER_PAGE + i) (mem_sector frame (i * DISK_SECTOR_SIZE)))

/-- Writing a page to a free slot (`swap_out`); `none` is the panic on a full
swap disk.  Returns the slot index. -/
def swap_out (st : SwapState) (frame : Nat → Nat) : Option (SwapState × Nat) :=
  match bitmap_scan_and_flip st.swap_bitmap with
  | none => none
  | some (bm, free_i) =>
    some ({ swap_disk := swap_out_loop frame free_i SECTORS_PER_PAGE 0 st.swap_disk,
            swap_bitmap := bm }, free_i)

/-- The loop of `swap_in`, rounds `i .. SECTORS_PER_PAGE - 1`, counted down by
`n = SECTORS_PER_PAGE - i`. -/
def swap_in_loop (d : Disk) (used_i : Nat) : Nat → Nat → (Nat → Nat) → (Nat → Nat)
  | 0, _, frame => frame
  | n + 1, i, frame =>
    swap_in_loop d used_i n (i + 1)
      (memcpy frame (i * DISK_SECTOR_SIZE) (d (used_i * SECTORS_PER_PAGE + i)) 0 DISK_SECTOR_SIZE)

/-- Reading slot `used_i` back into a frame (`swap_in`).  `none` is the panic
on a free index (or the failed bound assertion of `bitmap_test`).  The bit of
the slot is flipped (`bitmap_flip`). -/
def swap_in (st : SwapState) (frame : Nat → Nat) (used_i : Nat) :
    Option (SwapState × (Nat → Nat)) :=
  match st.swap_bitmap[used_i]? with
  | none => none
  | some b =>
    if b = false then none
    else
      some ({ st with swap_bitmap := st.swap_bitmap.set used_i (!b) },
            swap_in_loop st.swap_disk used_i SECTORS_PER_PAGE 0 frame)

/-! ## Predicates on states -/

/-- A line with its accessed flag cleared. -/
def clear_accessed (cl : cache_line) : cache_line :=
  { cl with accessed := 0 }

/-- The counter `buffer_cache_size` is the length of the list. -/
def cache_wf (c : BufferCache) : Prop :=
  c.buffer_cache_size = c.buffer_cache.length

/-- No two lines of the list hold the same sector. -/
def cache_unique (ls : List cache_line) : Prop :=
  ∀ (i j : Nat) (a b : cache_line),
    ls[i]? = some a → ls[j]? = some b → a.sector_idx = b.sector_idx → i = j

/-- Some line of the list holds sector `s`. -/
def cached (ls : List cache_line) (s : Nat) : Prop :=
  ∃ (j : Nat) (cl : cache_line), ls[j]? = some cl ∧ cl.sector_idx = s

/-- Every clean line agrees with the disk. -/
def coherent (ls : List cache_line) (d : Disk) : Prop :=
  ∀ (j : Nat) (cl : cache_line), ls[j]? = some cl → cl.dirty = 0 → cl.block = d cl.sector_idx

/-- The contents of sector `s` as the file system sees it: the block of the
first line holding `s`, the disk when there is none. -/
def logical : List cache_line → Disk → Nat → Block
  | [], d, s => d s
  | cl :: rest, d, s => if s = cl.sector_idx then cl.block else logical rest d s

/-- The disk after the write-behind of an evicted line. -/
def evict_disk (d : Disk) (clv : cache_line) : Disk :=
  if clv.dirty ≠ 0 then disk_write d clv.sector_idx clv.block else d

/-- Consistency of the buffer cache with the disk: the counter is right, no
sector is held twice, every clean line agrees with the disk. -/
def cache_inv (c : BufferCache) (d : Disk) : Prop :=
  cache_wf c ∧ cache_unique c.buffer_cache ∧ coherent c.buffer_cache d

/-- An operation on the buffer cache: a `get_cache_line` call, one round of
the read-ahead thread for a sector, or a `write_behind_all` call. -/
inductive CacheOp where
  | get (sector_idx dirty : Nat)
  | read_ahead (sector : Nat) (fresh : cache_line)
  | write_behind (done : Bool)

/-- The effect of one cache operation. -/
def cache_step (st : BufferCache × Disk) : CacheOp → Option (BufferCache × Disk)
  | CacheOp.get sector_idx dirty =>
    match get_cache_line st.1 st.2 sector_idx dirty with
    | none => none
    | some (c, d, _) => some (c, d)
  | CacheOp.read_ahead sector fresh => read_ahead_get st.1 st.2 sector fresh
  | CacheOp.write_behind done => some (write_behind_all st.1 st.2 done)

/-- The effect of a sequence of cache operations. -/
def cache_run (st : BufferCache × Disk) : List CacheOp → Option (BufferCache × Disk)
  | [] => some st
  | op :: ops =>
    match cache_step st op with
    | none => none
    | some st1 => cache_run st1 ops

/-- An operation on the list of open inodes.  For `open`, `m` is what
`malloc` returns if it is called. -/
inductive InodeOp where
  | open (sector : Nat) (m : Option Nat)
  | reopen (p : Nat)
  | close (p : Nat) (unused : Nat → Nat)
  | remove (p : Nat)

/-- The effect of one operation on the open inodes.  `malloc` never returns
the address of a live inode, so an `open` whose `m` is one is not a possible
step (`none`), as is a `close` of an address that is not open. -/
def inode_step (st : OpenInodes × Filesys) : InodeOp → Option (OpenInodes × Filesys)
  | InodeOp.open sector m =>
    match m with
    | none => some ((inode_open st.1 st.2.disk sector none).1, st.2)
    | some a =>
      if (inode_at st.1 a).isSome then none
      else some ((inode_open st.1 st.2.disk sector (some a)).1, st.2)
  | InodeOp.reopen p => some ((inode_reopen st.1 (some p)).1, st.2)
  | InodeOp.close p unused => inode_close st.1 st.2 (some p) unused
  | InodeOp.remove p =>
    some (st.1.map (fun e => if e.1 = p then (e.1, inode_remove e.2) else e), st.2)

/-- The effect of a sequence of operations on the open inodes. -/
def inode_run (st : OpenInodes × Filesys) : List InodeOp → Option (OpenInodes × Filesys)
  | [] => some st
  | op :: ops =>
    match inode_step st op with
    | none => none
    | some st1 => inode_run st1 ops

/-- The open list holds no address twice and no sector twice. -/
def open_inv (t : OpenInodes) : Prop :=
  (t.map (fun e => e.1)).Nodup ∧ (t.map (fun e => e.2.sector)).Nodup

/-- Two in-memory inodes agree on every field but the block pointers and the
length. -/
def same_meta (a b : inode) : Prop :=
  a.sector = b.sector ∧ a.open_cnt = b.open_cnt ∧ a.removed = b.removed ∧
    a.deny_write_cnt = b.deny_write_cnt ∧ a.read_length = b.read_length ∧
    a.is_dir = b.is_dir ∧ a.parent = b.parent

/-! ## Concrete states -/

/-- A file system with an all-zero disk, an empty cache and an exhausted free
map. -/
def sample_fs : Filesys :=
  ⟨fun _ => zeros, init_buffer_cache, [], ⟨[]⟩⟩

/-- An empty file at sector 5, opened once. -/
def sample_inode : inode :=
  ⟨5, 1, false, 0, 0, 0, 0, 0, 0, 0, 1⟩

/-- A removed two-sector file at sector 5, opened once: data sectors 10 and
12, indirect block 11. -/
def removed_inode : inode :=
  ⟨5, 1, true, 0, 1024, 1024, 10, 11, 0, 0, 1⟩

/-- A disk on which sector 11 is an indirect block whose entry 0 is 12. -/
def removed_disk : Disk :=
  disk_write (fun _ => zeros) 11 (words_block (fun i => if i = 0 then 12 else 0))

/-- A swap area of two slots, the first in use. -/
def sample_swap : SwapState :=
  ⟨fun _ => zeros, [true, false]⟩

/-- The open list after `inode_open (5)` on the empty list, with the inode
allocated at address 100. -/
def sample_open : OpenInodes :=
  (inode_open inode_init sample_fs.disk 5 (some 100)).1

/-! ## The index structure of an inode -/

/-- The data sector of sector index `k` of the inode, as `byte_to_sector`
finds it on the disk. -/
def data_sector (d : Disk) (ino : inode) (k : Nat) : Nat :=
  if k = 0 then ino.direct_ptr
  else if k < 129 then block_word (d ino.indirect_ptr) (k - 1)
  else block_word (d (block_word (d ino.doubly_indirect_ptr) ((k - 129) / 128))) ((k - 129) % 128)

/-- The places of an inode's index structure that name a sector: the data
sector of index `k`, the indirect block, the doubly indirect block, and the
inner block `j` named by the doubly indirect block. -/
inductive Slot where
  | data (k : Nat)
  | indirect
  | doubly
  | inner (j : Nat)

/-- The slots in use by a file of `n` data sectors. -/
def slot_live (n : Nat) : Slot → Prop
  | Slot.data k => k < n
  | Slot.indirect => 1 < n
  | Slot.doubly => 129 < n
  | Slot.inner j => 129 + 128 * j < n

/-- The sector a slot names. -/
def slot_sector (d : Disk) (ino : inode) : Slot → Nat
  | Slot.data k => data_sector d ino k
  | Slot.indirect => ino.indirect_ptr
  | Slot.doubly => ino.doubly_indirect_ptr
  | Slot.inner j => block_word (d ino.doubly_indirect_ptr) j

/-- The slots that name pointer blocks. -/
def is_pointer : Slot → Prop
  | Slot.data _ => False
  | _ => True

/-- The position of a slot in the order in which `inode_grow` allocates. -/
def slot_rank : Slot → Nat
  | Slot.data k =>
    if k = 0 then 0 else if k < 129 then k + 1
    else 132 + 129 * ((k - 129) / 128) + (k - 129) % 128
  | Slot.indirect => 1
  | Slot.doubly => 130
  | Slot.inner j => 131 + 129 * j

/-- The number of slots in use by a file of `n` data sectors. -/
def slot_count (n : Nat) : Nat :=
  if n = 0 then 0 else if n = 1 then 1 else if n ≤ 129 then n + 1 else n + 3 + (n - 130) / 128

/-- The index structure of a file of `n` data sectors is well formed: no two
slots in use name the same sector. -/
def inode_wf (d : Disk) (ino : inode) (n : Nat) : Prop :=
  ∀ s1 s2 : Slot, slot_live n s1 → slot_live n s2 →
    slot_sector d ino s1 = slot_sector d ino s2 → s1 = s2

/-- The free map hands out fresh sectors: its sectors are pairwise different,
fit a `disk_sector_t`, and none is named by a slot in use. -/
def fresh_free (d : Disk) (ino : inode) (n : Nat) (F : List Nat) : Prop :=
  F.Nodup ∧ (∀ a ∈ F, a < 4294967296) ∧
    ∀ a ∈ F, ∀ s : Slot, slot_live n s → slot_sector d ino s ≠ a

/-- State of a growth from the disk `d0`, inode `ino0`, `c0` slots in use and
free sectors `F0`, when `c` slots have been filled and the pointer blocks held
in local arrays are taken as written: `vd` is that disk. -/
structure GInv (d0 : Disk) (ino0 : inode) (c0 : Nat) (F0 : List Nat)
    (vd : Disk) (ino : inode) (c : Nat) : Prop where
  le : c0 ≤ c
  old : ∀ s : Slot, slot_rank s < c0 → slot_sector vd ino s = slot_sector d0 ino0 s
  new : ∀ s : Slot, c0 ≤ slot_rank s → slot_rank s < c →
    F0[slot_rank s - c0]? = some (slot_sector vd ino s)
  zero : ∀ k : Nat, c0 ≤ slot_rank (Slot.data k) → slot_rank (Slot.data k) < c →
    vd (slot_sector vd ino (Slot.data k)) = zeros
  frame : ∀ t : Nat, (∀ i, i < c - c0 → F0[i]? ≠ some t) →
    (∀ s : Slot, is_pointer s → slot_rank s < c0 → slot_sector d0 ino0 s ≠ t) → vd t = d0 t

/-- What a growth starts from: the slots in use name different sectors and
the free sectors are fresh. -/
structure GCtx (d0 : Disk) (ino0 : inode) (c0 : Nat) (F0 : List Nat) : Prop where
  wf0 : ∀ s1 s2 : Slot, slot_rank s1 < c0 → slot_rank s2 < c0 →
    slot_sector d0 ino0 s1 = slot_sector d0 ino0 s2 → s1 = s2
  nodup : F0.Nodup
  small : ∀ a ∈ F0, a < 4294967296
  fresh : ∀ a ∈ F0, ∀ s : Slot, slot_rank s < c0 → slot_sector d0 ino0 s ≠ a

/-- The contents of sector `t` as the file system sees it. -/
def fs_logical (fs : Filesys) (t : Nat) : Block :=
  logical fs.cache.buffer_cache fs.disk t

/-- Sector `t` is a pointer block of a file of `n` data sectors. -/
def ptr_sector (d : Disk) (ino : inode) (n : Nat) (t : Nat) : Prop :=
  ∃ s : Slot, is_pointer s ∧ slot_live n s ∧ slot_sector d ino s = t

/-- The state in which the loops of `inode_read_at` and `inode_write_at` work
on a file of `n` data sectors whose index structure is that of the disk
`dref`: the cache is consistent with the disk, no line holds a pointer block
of the file, and the pointer blocks on the disk are those of `dref`. -/
def fs_ok (dref : Disk) (ino : inode) (n : Nat) (fs : Filesys) : Prop :=
  cache_inv fs.cache fs.disk ∧
    (∀ t, ptr_sector dref ino n t → ¬ cached fs.cache.buffer_cache t) ∧
    (∀ t, ptr_sector dref ino n t → fs.disk t = dref t)

/-- The state `inode_write_at` may start from: the index structure of the
file is well formed, the free map hands out fresh sectors, the cache is
consistent with the disk, and no line of the cache holds a free sector or a
pointer block of the file. -/
def write_ready (fs : Filesys) (ino : inode) : Prop :=
  inode_wf fs.disk ino (bytes_to_sectors ino.length) ∧
    fresh_free fs.disk ino (bytes_to_sectors ino.length) fs.free_map.free ∧
    cache_inv fs.cache fs.disk ∧
    (∀ a ∈ fs.free_map.free, ¬ cached fs.cache.buffer_cache a) ∧
    (∀ t, ptr_sector fs.disk ino (bytes_to_sectors ino.length) t →
      ¬ cached fs.cache.buffer_cache t)

/-- A file system with an all-zero disk, an empty cache and sector 1 free. -/
def fresh_fs : Filesys :=
  ⟨fun _ => zeros, init_buffer_cache, [], ⟨[1]⟩⟩

/-- The contents of an indirect block whose entry 0 names sector 1. -/
def stale_block : Block :=
  fun i => if i = 0 then 1 else 0

/-- A full cache whose first line is a dirty line of sector 2, left from an
earlier use of that sector as an indirect block; the other lines are clean
lines of the sectors 100 to 162. -/
def stale_cache : BufferCache :=
  ⟨⟨stale_block, 2, 0, 1⟩ :: (List.range 63).map (fun i => ⟨zeros, 100 + i, 0, 0⟩), 64⟩

/-- A file system with an all-zero disk, the cache `stale_cache` and the
sectors 1, 2 and 3 free. -/
def stale_fs : Filesys :=
  ⟨fun _ => zeros, stale_cache, [], ⟨[1, 2, 3]⟩⟩

/-- The bytes written in the round trip on `stale_fs`: 1 in the first sector,
2 after it. -/
def two_part_bytes : Nat → Nat :=
  fun j => if j < 512 then 1 else 2

/-- A one-byte file at sector 5 whose data sector is sector 1. -/
def one_byte_inode : inode :=
  ⟨5, 1, false, 0, 1, 1, 1, 0, 0, 0, 1⟩

/-- A file system whose disk holds the byte 7 everywhere, with an empty cache
and an exhausted free map. -/
def sevens_fs : Filesys :=
  ⟨fun _ => fun _ => 7, init_buffer_cache, [], ⟨[]⟩⟩

/-- A file system with an all-zero disk, sector 2 free, and a cache whose only
line is a dirty line of sector 2 holding the byte 7 everywhere. -/
def stale_data_fs : Filesys :=
  ⟨fun _ => zeros, ⟨[⟨fun _ => 7, 2, 0, 1⟩], 1⟩, [], ⟨[2]⟩⟩

/-! ## Flushing, write denial and the visible length -/

/-- The disk writes of the loop of `write_behind_all`, in order: sector and
block of every dirty line. -/
def write_behind_writes : List cache_line → List (Nat × Block)
  | [] => []
  | cl :: rest =>
    if cl.dirty ≠ 0 then (cl.sector_idx, cl.block) :: write_behind_writes rest
    else write_behind_writes rest

/-- The disk after a sequence of `disk_write` calls. -/
def disk_replay (d : Disk) (ws : List (Nat × Block)) : Disk :=
  ws.foldl (fun d1 w => disk_write d1 w.1 w.2) d

/-- Every in-memory inode has `deny_write_cnt <= open_cnt`. -/
def deny_inv (t : OpenInodes) : Prop :=
  ∀ e ∈ t, e.2.deny_write_cnt ≤ e.2.open_cnt

/-- Every in-memory inode has `read_length <= length`. -/
def length_inv (t : OpenInodes) : Prop :=
  ∀ e ∈ t, e.2.read_length ≤ e.2.length

/-- A cache whose only line is a dirty line of sector 2. -/
def one_dirty_cache : BufferCache :=
  ⟨[⟨fun _ => 7, 2, 0, 1⟩], 1⟩

/-- An open list with one inode, opened twice and write-denied twice. -/
def denied_open : OpenInodes :=
  [(100, ⟨5, 2, false, 2, 0, 0, 0, 0, 0, 0, 1⟩)]

/-- An open list with one inode, opened twice and write-denied once. -/
def once_denied : OpenInodes :=
  [(100, ⟨5, 2, false, 1, 0, 0, 0, 0, 0, 0, 1⟩)]

/-- A write-denied inode of length 10 of which 5 bytes are visible to readers,
as it is while a writer that has grown it is still copying. -/
def lagging_inode : inode :=
  ⟨5, 1, false, 1, 10, 5, 1, 0, 0, 0, 1⟩

/-! ## Virtual memory (`vm/page.c`, `vm/frame.c`)

One user process is modelled, so `thread_current ()` and the `thread` field of
a frame-table entry are that process.  The supplemental page table holds one
entry per page, and a pointer to an entry (`struct spte *`) is the page that
keys it.  Frames are named by their kernel addresses.  `none` is a kernel
panic, a dereference of `NULL` or a loop that does not end. -/

abbrev PGSIZE : Nat := 4096

abbrev PHYS_BASE : Nat := 3221225472

abbrev MAX_STACK_SIZE : Nat := 8388608

/-- Modelled from the spec: `pg_round_down` of `threads/vaddr.h` (not among
the sources), the start of the page of a virtual address. -/
def pg_round_down (va : Nat) : Nat :=
  va - va % PGSIZE

/-- Modelled from the spec: `pg_ofs` of `threads/vaddr.h`, the offset of a
virtual address in its page. -/
def pg_ofs (va : Nat) : Nat :=
  va % PGSIZE

/-- Modelled from the spec: `is_user_vaddr` of `threads/vaddr.h`, the
addresses below the user/kernel boundary `PHYS_BASE`. -/
def is_user_vaddr (va : Nat) : Bool :=
  decide (va < PHYS_BASE)

/-- Entry of the supplemental page table (`struct spte`), without the hash
element; `on_type` is 0 on memory, 1 on file, 2 on swap disk. -/
structure spte where
  page : Nat
  frame : Nat
  on_type : Nat
  file : Nat
  ofs : Nat
  read_bytes : Nat
  zero_bytes : Nat
  writable : Bool
  from_mmap : Bool
  swap_index : Nat
  accessing : Bool

/-- Entry of the frame table (`struct fte`), without the list element and the
thread. -/
structure fte where
  frame : Nat
  spte : Nat

/-- Modelled from the spec: a present entry of the page directory, the MMU
mapping of one user page with its accessed and dirty bits. -/
structure pte where
  frame : Nat
  writable : Bool
  accessed : Bool
  dirty : Bool

/-- Modelled from the spec: a file as the layers above the inode engine see
it, its length and its bytes. -/
structure FileData where
  length : Nat
  bytes : Nat → Nat

/-- Descriptor of an open file of the process (`struct fd_elem`). -/
structure fd_elem where
  fd : Int
  f : Nat

/-- Descriptor of a mapping of the process (`struct md_elem`). -/
structure md_elem where
  mapping : Int
  addr : Nat
  num_of_pages : Nat

/-- The state the virtual-memory code works on: the supplemental page table,
page directory, descriptor lists and counter of the process, the frame table,
the free user frames of the page allocator, the contents of the frames, the
swap area, the files with the record of the `file_write_at` calls (file,
offset, size). -/
structure VM where
  spt : List spte
  pagedir : Nat → Option pte
  frame_list : List fte
  user_pool : List Nat
  mem : Nat → (Nat → Nat)
  swap : SwapState
  files : Nat → FileData
  file_writes : List (Nat × Nat × Nat)
  fd_list : List fd_elem
  md_list : List md_elem
  md_count : Int

/-- Modelled from the spec: `hash_find` of `lib/kernel/hash.c` on the table
keyed by `page`. -/
def hash_find : List spte → Nat → Option spte
  | [], _ => none
  | e :: rest, page => if e.page = page then some e else hash_find rest page

/-- Modelled from the spec: `hash_insert`, which returns the entry already in
the table under the same key (and changes nothing) or inserts and returns
`NULL`. -/
def hash_insert (h : List spte) (e : spte) : List spte × Option spte :=
  match hash_find h e.page with
  | some old => (h, some old)
  | none => (h ++ [e], none)

/-- Modelled from the spec: `hash_delete` of the entry keyed by `page`. -/
def hash_delete (h : List spte) (page : Nat) : List spte :=
  h.filter (fun e => decide (e.page ≠ page))

/-- Assignment to fields of the entry a `struct spte *` points to. -/
def spte_assign (h : List spte) (page : Nat) (f : spte → spte) : List spte :=
  h.map (fun e => if e.page = page then f e else e)

/-- Modelled from the spec: `pagedir_get_page`, the frame a user page is
mapped to, `none` for `NULL`. -/
def pagedir_get_page (pd : Nat → Option pte) (upage : Nat) : Option Nat :=
  (pd upage).map (fun p => p.frame)

/-- Modelled from the spec: `pagedir_is_accessed`, the accessed bit of a
mapped page. -/
def pagedir_is_accessed (pd : Nat → Option pte) (upage : Nat) : Bool :=
  match pd upage with
  | some p => p.accessed
  | none => false

/-- Modelled from the spec: `pagedir_is_dirty`, the dirty bit of a mapped
page. -/
def pagedir_is_dirty (pd : Nat → Option pte) (upage : Nat) : Bool :=
  match pd upage with
  | some p => p.dirty
  | none => false

/-- Modelled from the spec: `pagedir_set_accessed`. -/
def pagedir_set_accessed (pd : Nat → Option pte) (upage : Nat) (b : Bool) : Nat → Option pte :=
  fun u => if u = upage then (pd u).map (fun p => { p with accessed := b }) else pd u

/-- Modelled from the spec: `pagedir_clear_page`, which unmaps the page. -/
def pagedir_clear_page (pd : Nat → Option pte) (upage : Nat) : Nat → Option pte :=
  fun u => if u = upage then none else pd u

/-- Modelled from the spec: `install_page` of `userprog/process.c`, which
maps `upage` to `kpage` unless `upage` is mapped already; `none` is
`false`. -/
def install_page (st : VM) (upage kpage : Nat) (writable : Bool) : Option VM :=
  match st.pagedir upage with
  | some _ => none
  | none =>
    let pd : Nat → Option pte := fun u =>
      if u = upage then some ⟨kpage, writable, false, false⟩ else st.pagedir u
    some { st with pagedir := pd }

/-- Modelled from the spec: `palloc_get_page (PAL_USER | flags)`, which hands
out a free user frame, zeroed with `PAL_ZERO`, or `NULL` (`none`) when there
is none. -/
def palloc_get_page (st : VM) (zero : Bool) : VM × Option Nat :=
  match st.user_pool with
  | [] => (st, none)
  | f :: rest =>
    let mem1 : Nat → (Nat → Nat) :=
      if zero then (fun a => if a = f then (fun _ => 0) else st.mem a) else st.mem
    ({ st with user_pool := rest, mem := mem1 }, some f)

/-- Modelled from the spec: `palloc_free_page`. -/
def palloc_free_page (st : VM) (frame : Nat) : VM :=
  { st with user_pool := frame :: st.user_pool }

/-- Modelled from the spec: `file_length` of `filesys/file.c`.  A
`struct file *` is modelled by the file it is open on. -/
def file_length (st : VM) (f : Nat) : Nat :=
  (st.files f).length

/-- Modelled from the spec: `file_reopen`, a new handle on the same file. -/
def file_reopen (f : Nat) : Nat :=
  f

/-- Modelled from the spec: `file_read_at (f, kpage, size, ofs)`, which copies
the bytes of the file from `ofs` on, as far as the file reaches, into the
frame; returns the number of bytes read. -/
def file_read_at (st : VM) (f kpage size ofs : Nat) : VM × Nat :=
  let n := min size ((st.files f).length - ofs)
  let page := memcpy (st.mem kpage) 0 (st.files f).bytes ofs n
  ({ st with mem := fun a => if a = kpage then page else st.mem a }, n)

/-- Modelled from the spec: `file_write_at (f, src, size, ofs)`, which writes
`size` bytes at `ofs`, extending the file when the write ends beyond its
length; the call is recorded in `file_writes`. -/
def file_write_at (st : VM) (f : Nat) (src : Nat → Nat) (size ofs : Nat) : VM :=
  let fd := st.files f
  let fd1 : FileData := ⟨max fd.length (ofs + size), memcpy fd.bytes ofs src 0 size⟩
  let files1 : Nat → FileData := fun g => if g = f then fd1 else st.files g
  { st with files := files1, file_writes := st.file_writes ++ [(f, ofs, size)] }

/-- The entry for the page of an address (`find_spte`). -/
def find_spte (st : VM) (page : Nat) : Option spte :=
  hash_find st.spt (pg_round_down page)

/-- The list without its first entry for `frame`; `none` when there is
none. -/
def remove_fte : List fte → Nat → Option (List fte)
  | [], _ => none
  | f :: rest, frame =>
    if f.frame = frame then some rest
    else
      match remove_fte rest frame with
      | none => none
      | some rest1 => some (f :: rest1)

/-- Deletion of the frame-table entry of `frame` (`free_frame_table`): the
first entry with that frame is removed and the frame is freed. -/
def free_frame_table (st : VM) (frame : Nat) : VM :=
  match remove_fte st.frame_list frame with
  | none => st
  | some l => palloc_free_page { st with frame_list := l } frame

/-- Adding a frame-table entry (`add_frame_table`). -/
def add_frame_table (st : VM) (frame spte1 : Nat) : VM :=
  { st with frame_list := st.frame_list ++ [⟨frame, spte1⟩] }

/-- The loop `while(1)` of `find_victim_frame` with cursor `e` (a position in
the frame list).  `zero` is the `PAL_ZERO` bit of `flags`. -/
def find_victim_loop : Nat → VM → Nat → Bool → Option (VM × Option Nat)
  | 0, _, _, _ => none
  | fuel + 1, st, e, zero =>
    match st.frame_list[e]? with
    | none => none
    | some fte1 =>
      match hash_find st.spt fte1.spte with
      | none => none
      | some spte1 =>
        if !spte1.accessing then
          let e1 := if e + 1 = st.frame_list.length then 0 else e + 1
          if pagedir_is_accessed st.pagedir spte1.page then
            find_victim_loop fuel
              { st with pagedir := pagedir_set_accessed st.pagedir spte1.page false } e1 zero
          else if spte1.from_mmap then
            let dirty_flag := pagedir_is_dirty st.pagedir spte1.page
            let spt1 := spte_assign st.spt fte1.spte (fun x => { x with on_type := 1 })
            let st1 : VM :=
              { st with pagedir := pagedir_clear_page st.pagedir spte1.page, spt := spt1 }
            let st2 :=
              if dirty_flag then
                file_write_at st1 spte1.file (st1.mem fte1.frame) spte1.read_bytes spte1.ofs
              else st1
            let st3 := palloc_free_page { st2 with frame_list := st2.frame_list.eraseIdx e }
              fte1.frame
            some (palloc_get_page st3 zero)
          else if spte1.writable then
            let spt1 := spte_assign st.spt fte1.spte (fun x => { x with on_type := 2 })
            let st1 : VM :=
              { st with pagedir := pagedir_clear_page st.pagedir spte1.page, spt := spt1 }
            match swap_out st1.swap (st1.mem fte1.frame) with
            | none => none
            | some (sw, free_i) =>
              let spt2 := spte_assign st1.spt fte1.spte (fun x => { x with swap_index := free_i })
              let st2 : VM := { st1 with swap := sw, spt := spt2 }
              let st3 := palloc_free_page { st2 with frame_list := st2.frame_list.eraseIdx e }
                fte1.frame
              some (palloc_get_page st3 zero)
          else find_victim_loop fuel st e1 zero
        else find_victim_loop fuel st e zero

/-- Finding and evicting a victim (`find_victim_frame`); the scan starts at
the head of the frame list.  A scan that has not returned after two passes
over the list never returns. -/
def find_victim_frame (st : VM) (zero : Bool) : Option (VM × Option Nat) :=
  find_victim_loop (2 * st.frame_list.length + 1) st 0 zero

/-- The loop `while(!frame) frame = find_victim_frame (flags)` of
`frame_alloc`. -/
def frame_alloc_loop : Nat → VM → Bool → Option (VM × Nat)
  | 0, _, _ => none
  | fuel + 1, st, zero =>
    match find_victim_frame st zero with
    | none => none
    | some (st1, some frame) => some (st1, frame)
    | some (st1, none) => frame_alloc_loop fuel st1 zero

/-- Getting a frame for the entry `spte1` (`frame_alloc`), by eviction when
the allocator has none.  Every round of the loop removes a frame-table entry,
so one round more than there are entries is enough. -/
def frame_alloc (st : VM) (zero : Bool) (spte1 : Nat) : Option (VM × Nat) :=
  match palloc_get_page st zero with
  | (st1, some frame) => some (add_frame_table st1 frame spte1, frame)
  | (st1, none) =>
    match frame_alloc_loop (st1.frame_list.length + 1) st1 zero with
    | none => none
    | some (st2, frame) => some (add_frame_table st2 frame spte1, frame)

/-- What `hash_destroy` does to one entry (`destroy_hash_action_func`);
`free_frame_table` of the `NULL` that `pagedir_get_page` returns for an
unmapped page finds no entry. -/
def destroy_hash_action_func (st : VM) (spte1 : spte) : VM :=
  if spte1.on_type = 0 then
    let st1 :=
      match pagedir_get_page st.pagedir spte1.page with
      | some frame => free_frame_table st frame
      | none => st
    { st1 with pagedir := pagedir_clear_page st1.pagedir spte1.page }
  else st

/-- Destruction of the supplemental page table (`destroy_spt`). -/
def destroy_spt (st : VM) : VM :=
  { st.spt.foldl destroy_hash_action_func st with spt := [] }

/-- Adding an entry for a page backed by a file (`add_spte`).  `fresh` is the
storage `malloc` returns; `frame` and `swap_index` are not initialised. -/
def add_spte (st : VM) (page file ofs read_bytes zero_bytes : Nat) (writable from_mmap : Bool)
    (fresh : spte) : VM × Bool :=
  let spte1 : spte :=
    { fresh with page := page, file := file, ofs := ofs, read_bytes := read_bytes,
                 zero_bytes := zero_bytes, writable := writable, from_mmap := from_mmap,
                 on_type := 1, accessing := false }
  let r := hash_insert st.spt spte1
  ({ st with spt := r.1 }, r.2.isNone)

/-- Loading a page from its file (`load_from_file`); the entry is given by
its key.  `frame_alloc` returns only with a frame, so the test `kpage == NULL`
has no branch here, in `load_from_swap_disk` and in `stack_grow`. -/
def load_from_file (st : VM) (p : Nat) : Option (VM × Bool) :=
  match frame_alloc st false p with
  | none => none
  | some (st1, kpage) =>
    match hash_find st1.spt p with
    | none => none
    | some spte1 =>
      let r := file_read_at st1 spte1.file kpage spte1.read_bytes spte1.ofs
      if r.2 ≠ spte1.read_bytes then some (free_frame_table r.1 kpage, false)
      else
        let zeroed : Nat → Nat := fun i =>
          if spte1.read_bytes ≤ i ∧ i < spte1.read_bytes + spte1.zero_bytes then 0
          else r.1.mem kpage i
        let st2 : VM := { r.1 with mem := fun a => if a = kpage then zeroed else r.1.mem a }
        match install_page st2 spte1.page kpage spte1.writable with
        | none => some (free_frame_table st2 kpage, false)
        | some st3 =>
          let spt1 := spte_assign st3.spt p (fun x => { x with on_type := 0, frame := kpage })
          some ({ st3 with spt := spt1 }, true)

/-- Loading a page from the swap disk (`load_from_swap_disk`). -/
def load_from_swap_disk (st : VM) (p : Nat) : Option (VM × Bool) :=
  match frame_alloc st false p with
  | none => none
  | some (st1, kpage) =>
    match hash_find st1.spt p with
    | none => none
    | some spte1 =>
      match install_page st1 spte1.page kpage spte1.writable with
      | none => some (free_frame_table st1 kpage, false)
      | some st2 =>
        match swap_in st2.swap (st2.mem kpage) spte1.swap_index with
        | none => none
        | some (sw, content) =>
          let spt1 := spte_assign st2.spt p (fun x => { x with on_type := 0, frame := kpage })
          let mem1 : Nat → (Nat → Nat) := fun a => if a = kpage then content else st2.mem a
          some ({ st2 with swap := sw, mem := mem1, spt := spt1 }, true)

/-- Growing the stack by the page of `page` (`stack_grow`).  `m` is what
`malloc` returns (`none` for `NULL`); the difference `PHYS_BASE - upage` is
taken as a `size_t`. -/
def stack_grow (st : VM) (page : Nat) (m : Option spte) : Option (VM × Bool) :=
  let upage := pg_round_down page
  if (PHYS_BASE + 4294967296 - upage) % 4294967296 > MAX_STACK_SIZE then some (st, false)
  else
    match m with
    | none => some (st, false)
    | some fresh =>
      let spte1 : spte :=
        { fresh with page := upage, on_type := 0, writable := true, from_mmap := false,
                     accessing := false }
      match frame_alloc st true upage with
      | none => none
      | some (st1, kpage) =>
        match install_page st1 upage kpage true with
        | none => some (free_frame_table st1 kpage, false)
        | some st2 =>
          match hash_insert st2.spt { spte1 with frame := kpage } with
          | (_, some _) => none
          | (spt1, none) => some ({ st2 with spt := spt1 }, true)

/-! ## System calls on the virtual memory (`userprog/syscall.c`) -/

/-- How a function that may call `exit` ends: it returns, the process exits
with a status, or neither happens (panic, `NULL` dereference, endless loop). -/
inductive Outcome (α : Type) where
  | ret (a : α)
  | exited (status : Int)
  | stuck

/-- The loop of `check_valid_pointer`, rounds `i .. num_byte - 1`, counted
down by `n = num_byte - i`.  `m i` is what `malloc` returns in `stack_grow`
in round `i`.  Pointer arithmetic is modulo `2^32`. -/
def check_valid_pointer_loop (page : Nat) (m : Nat → Option spte) :
    Nat → Nat → VM → Option (VM × Int)
  | 0, _, st => some (st, 1)
  | n + 1, i, st =>
    let a := (page + i) % 4294967296
    if !is_user_vaddr a || decide (a = 0) || decide (a < 134512640) then some (st, 0)
    else
      match find_spte st a with
      | some spte1 =>
        let r1 := if spte1.on_type = 1 then load_from_file st spte1.page else some (st, true)
        match r1 with
        | none => none
        | some (st1, false) => some (st1, 0)
        | some (st1, true) =>
          match hash_find st1.spt spte1.page with
          | none => none
          | some spte2 =>
            let r2 :=
              if spte2.on_type = 2 then load_from_swap_disk st1 spte1.page else some (st1, true)
            match r2 with
            | none => none
            | some (st2, false) => some (st2, 0)
            | some (st2, true) => check_valid_pointer_loop page m n (i + 1) st2
      | none =>
        if a ≥ (page + 4294967296 - 32) % 4294967296 then
          match stack_grow st a (m i) with
          | none => none
          | some (st1, false) => some (st1, 0)
          | some (st1, true) => check_valid_pointer_loop page m n (i + 1) st1
        else some (st, 0)

/-- Validation of `num_byte` bytes at `page` (`check_valid_pointer`). -/
def check_valid_pointer (st : VM) (page num_byte : Nat) (m : Nat → Option spte) :
    Option (VM × Int) :=
  check_valid_pointer_loop page m num_byte 0 st

/-- Validation of one address of a buffer (`check_valid_buffer_helper`).  `i`
is the value of the uninitialised local `uint8_t i`, `m` what `malloc` returns
in `stack_grow`.  The result is the key of the entry returned (`none` for
`NULL`). -/
def check_valid_buffer_helper (st : VM) (page esp i : Nat) (m : Option spte) :
    Outcome (VM × Option Nat) :=
  if !is_user_vaddr page || decide (page = 0) || decide (page < 134512640) then
    Outcome.exited (-1)
  else
    let a := (page + i) % 4294967296
    match find_spte st a with
    | some spte1 =>
      let r1 := if spte1.on_type = 1 then load_from_file st spte1.page else some (st, true)
      match r1 with
      | none => Outcome.stuck
      | some (_, false) => Outcome.exited (-1)
      | some (st1, true) =>
        match hash_find st1.spt spte1.page with
        | none => Outcome.stuck
        | some spte2 =>
          let r2 :=
            if spte2.on_type = 2 then load_from_swap_disk st1 spte1.page else some (st1, true)
          match r2 with
          | none => Outcome.stuck
          | some (_, false) => Outcome.exited (-1)
          | some (st2, true) => Outcome.ret (st2, some spte1.page)
    | none =>
      if a ≥ (esp + 4294967296 - 32) % 4294967296 then
        match stack_grow st a m with
        | none => Outcome.stuck
        | some (_, false) => Outcome.exited (-1)
        | some (st1, true) => Outcome.ret (st1, (find_spte st1 a).map (fun e => e.page))
      else Outcome.exited (-1)

/-- The descriptor of `fd` in the list (`find_fd`). -/
def find_fd : List fd_elem → Int → Option fd_elem
  | [], _ => none
  | fd1 :: rest, fd => if fd1.fd = fd then some fd1 else find_fd rest fd

/-- The roll-back loop of `mmap`, rounds `i .. num_of_pages - 1`, counted
down by `n = num_of_pages - i`: the entry of page `i` is deleted. -/
def mmap_undo (start_addr : Nat) : Nat → Nat → VM → Option VM
  | 0, _, st => some st
  | n + 1, i, st =>
    match find_spte st ((start_addr + i * PGSIZE) % 4294967296) with
    | none => none
    | some spte1 =>
      mmap_undo start_addr n (i + 1) { st with spt := hash_delete st.spt spte1.page }

/-- The loop `while (read_bytes > 0)` of `mmap`.  The result holds `none`
after a roll-back and the number of pages otherwise.  `fresh i` is the
storage `malloc` returns for page `i`. -/
def mmap_loop (reopened_file start_addr : Nat) (fresh : Nat → spte) :
    Nat → VM → Nat → Nat → Nat → Nat → Option (VM × Option Nat)
  | fuel, st, read_bytes, ofs, addr, num_of_pages =>
    if read_bytes > 0 then
      match fuel with
      | 0 => none
      | fuel + 1 =>
        let page_read_bytes := if read_bytes < PGSIZE then read_bytes else PGSIZE
        let page_zero_bytes := PGSIZE - page_read_bytes
        if !is_user_vaddr addr || (find_spte st addr).isSome then
          match mmap_undo start_addr num_of_pages 0 st with
          | none => none
          | some st1 => some (st1, none)
        else
          let r := add_spte st addr reopened_file ofs page_read_bytes page_zero_bytes true true
            (fresh num_of_pages)
          if !r.2 then none
          else
            mmap_loop reopened_file start_addr fresh fuel r.1 (read_bytes - page_read_bytes)
              (ofs + page_read_bytes) (addr + PGSIZE) (num_of_pages + 1)
    else some (st, some num_of_pages)

/-- Mapping the file open as `fd` at `addr` (`mmap`); returns the mapping id
or -1.  Every round of the loop maps at least one byte, so `read_bytes`
rounds are enough. -/
def mmap (st : VM) (fd : Int) (addr : Nat) (fresh : Nat → spte) : Option (VM × Int) :=
  if addr = 0 ∨ addr < 134512640 then some (st, -1)
  else if pg_ofs addr ≠ 0 then some (st, -1)
  else
    match find_fd st.fd_list fd with
    | none => some (st, -1)
    | some fd1 =>
      let reopened_file := file_reopen fd1.f
      let read_bytes := file_length st reopened_file
      if read_bytes = 0 then some (st, -1)
      else
        match mmap_loop reopened_file addr fresh read_bytes st read_bytes 0 addr 0 with
        | none => none
        | some (st1, none) => some (st1, -1)
        | some (st1, some num_of_pages) =>
          let md1 : md_elem := ⟨st1.md_count, addr, num_of_pages⟩
          some ({ st1 with md_list := st1.md_list ++ [md1], md_count := st1.md_count + 1 },
            md1.mapping)

/-- The first descriptor with the given mapping id (the search loop of
`munmap`). -/
def find_md : List md_elem → Int → Option md_elem
  | [], _ => none
  | md1 :: rest, mapping => if md1.mapping = mapping then some md1 else find_md rest mapping

/-- The list without its first descriptor with the given mapping id
(`list_remove (&md2->e)`). -/
def remove_md : List md_elem → Int → List md_elem
  | [], _ => []
  | md1 :: rest, mapping => if md1.mapping = mapping then rest else md1 :: remove_md rest mapping

/-- The body of the loop of `munmap` for the entry `spte1` of a page: write
back when the dirty bit is set, `free_frame_table (spte1->frame)`, unmap the
page, delete the entry. -/
def munmap_page (st : VM) (spte1 : spte) : VM :=
  let st1 :=
    if pagedir_is_dirty st.pagedir spte1.page then
      file_write_at st spte1.file (st.mem spte1.frame) spte1.read_bytes spte1.ofs
    else st
  let st2 := free_frame_table st1 spte1.frame
  let st3 : VM := { st2 with pagedir := pagedir_clear_page st2.pagedir spte1.page }
  { st3 with spt := hash_delete st3.spt spte1.page }

/-- The loop of `munmap` over the pages of the mapping, rounds
`i .. num_of_pages - 1`, counted down by `n = num_of_pages - i`. -/
def munmap_loop (md2 : md_elem) : Nat → Nat → VM → Option VM
  | 0, _, st => some st
  | n + 1, i, st =>
    match find_spte st ((md2.addr + i * PGSIZE) % 4294967296) with
    | none => none
    | some spte1 => munmap_loop md2 n (i + 1) (munmap_page st spte1)

/-- Unmapping (`munmap`); `none` is the panic on an unknown mapping id or the
dereference of a `NULL` entry. -/
def munmap (st : VM) (mapping : Int) : Option VM :=
  match find_md st.md_list mapping with
  | none => none
  | some md2 =>
    match munmap_loop md2 md2.num_of_pages 0 st with
    | none => none
    | some st1 => some { st1 with md_list := remove_md st1.md_list mapping }

/-! ## Predicates and concrete states of the virtual memory -/

/-- The entry `mmap` installs for page `i` of a mapping of the file `f` of
length `L` at `addr`. -/
def mmap_entry (f addr L : Nat) (fresh : Nat → spte) (i : Nat) : spte :=
  { fresh i with page := addr + PGSIZE * i, file := f, ofs := PGSIZE * i,
                 read_bytes := min (L - PGSIZE * i) PGSIZE,
                 zero_bytes := PGSIZE - min (L - PGSIZE * i) PGSIZE,
                 writable := true, from_mmap := true, on_type := 1, accessing := false }

/-- The number of pages of a file of length `L`. -/
def pages_of (L : Nat) : Nat :=
  (L + PGSIZE - 1) / PGSIZE

/-- The state after a successful `mmap` of the file `f` at `addr`: the
entries of the pages are added to the table and the descriptor to the list. -/
def mapped_vm (st : VM) (f addr : Nat) (fresh : Nat → spte) : VM :=
  let n := pages_of (file_length st f)
  let entries := (List.range n).map (mmap_entry f addr (file_length st f) fresh)
  let md1 : md_elem := ⟨st.md_count, addr, n⟩
  { st with spt := st.spt ++ entries, md_list := st.md_list ++ [md1],
            md_count := st.md_count + 1 }

/-- One of the failure conditions of `mmap` holds. -/
def mmap_fails (st : VM) (fd : Int) (addr : Nat) : Prop :=
  addr = 0 ∨ addr < 134512640 ∨ pg_ofs addr ≠ 0 ∨ find_fd st.fd_list fd = none ∨
    ∃ fd1, find_fd st.fd_list fd = some fd1 ∧
      (file_length st fd1.f = 0 ∨
        ∃ i, i < pages_of (file_length st fd1.f) ∧
          (is_user_vaddr (addr + PGSIZE * i) = false ∨
            (find_spte st (addr + PGSIZE * i)).isSome = true))

/-- Storage as `malloc` returns it, here all zero. -/
def blank_spte : spte :=
  ⟨0, 0, 0, 0, 0, 0, 0, false, false, 0, false⟩

/-- A process without pages: one free user frame (at `0xc0100000`), an empty
swap area of two slots, the file 7 of 100 bytes open as descriptor 2. -/
def boot_vm : VM :=
  { spt := [], pagedir := fun _ => none, frame_list := [], user_pool := [3222274048],
    mem := fun _ => fun _ => 0, swap := ⟨fun _ => zeros, [false, false]⟩,
    files := fun f => if f = 7 then ⟨100, fun _ => 65⟩ else ⟨0, fun _ => 0⟩,
    file_writes := [], fd_list := [⟨2, 7⟩], md_list := [], md_count := 0 }

/-- The state after `mmap (2, 0x20000000)` on `boot_vm`, a load of the mapped
page from the file and a `stack_grow` of the page below `PHYS_BASE`, which
evicts the mapped page to reuse the only frame. -/
def evicted_map_vm : Option VM :=
  (mmap boot_vm 2 536870912 (fun _ => blank_spte)).bind (fun r1 =>
    (load_from_file r1.1 536870912).bind (fun r2 =>
      (stack_grow r2.1 3221221376 (some blank_spte)).map (fun r3 => r3.1)))

/-- The state after two `stack_grow` calls on `boot_vm`, for the two pages
below `PHYS_BASE`; the second evicts the first page to the swap disk. -/
def swapped_stack_vm : Option VM :=
  (stack_grow boot_vm 3221221376 (some blank_spte)).bind (fun r1 =>
    (stack_grow r1.1 3221217280 (some blank_spte)).map (fun r2 => r2.1))

/-- Page, state and frame of every entry of the supplemental page table, and
frame and entry of every entry of the frame table. -/
def residency_view (st : VM) : List (Nat × Nat × Nat) × List (Nat × Nat) :=
  (st.spt.map (fun e => (e.page, e.on_type, e.frame)),
    st.frame_list.map (fun f => (f.frame, f.spte)))

/-- Page, state and swap index of every entry of the supplemental page table,
and the swap bitmap. -/
def swap_view (st : VM) : List (Nat × Nat × Nat) × List Bool :=
  (st.spt.map (fun e => (e.page, e.on_type, e.swap_index)), st.swap.swap_bitmap)

/-- What a call of `check_valid_buffer_helper` ended with: the pages of the
table and the key returned, or the exit status. -/
def helper_view : Outcome (VM × Option Nat) → Option (List Nat × Option Nat) × Option Int
  | Outcome.ret a => (some (a.1.spt.map (fun e => e.page), a.2), none)
  | Outcome.exited status => (none, some status)
  | Outcome.stuck => (none, none)

/-! ## Bounds of the index arrays (`filesys/inode.c`) -/

/-- The function `byte_to_sector` with every access to the 128-entry arrays
`indirect_buffer` and `indirect_buffer2` checked: `none` when an index is not
below 128. -/
def byte_to_sector_checked (d : Disk) (ino : inode) (pos length : Nat) : Option Nat :=
  if pos ≥ length then some 4294967295
  else if pos < DISK_SECTOR_SIZE then some ino.direct_ptr
  else if pos < DISK_SECTOR_SIZE * 129 then
    let indirect_buffer := block_word (d ino.indirect_ptr)
    let pos1 := pos - DISK_SECTOR_SIZE
    let index := (pos1 / DISK_SECTOR_SIZE) % 4294967296
    if index < 128 then some (indirect_buffer index) else none
  else
    let indirect_buffer := block_word (d ino.doubly_indirect_ptr)
    let pos1 := pos - DISK_SECTOR_SIZE * 129
    let index := (pos1 / (DISK_SECTOR_SIZE * 128)) % 4294967296
    if index < 128 then
      let indirect_buffer2 := block_word (d (indirect_buffer index))
      let pos2 := (pos1 + 4294967296 - (index * DISK_SECTOR_SIZE * 128) % 4294967296) % 4294967296
      let index2 := (pos2 / DISK_SECTOR_SIZE) % 4294967296
      if index2 < 128 then some (indirect_buffer2 index2) else none
    else none

/-- The loop `while (old_sectors < 129)` of `inode_grow` with the access
`indirect_buffer[index]` checked; `index = old_sectors - 1` is computed in
unsigned 32-bit arithmetic. -/
def grow_indirect_loop_checked : Nat → GrowState → Nat → Option (GrowState × Bool)
  | fuel, g, new_length =>
    if g.old_sectors < 129 then
      match fuel with
      | 0 => none
      | fuel + 1 =>
        let index := (g.old_sectors + 4294967296 - 1) % 4294967296
        if index < 128 then
          let a := free_map_allocate g.free_map (g.indirect_buffer index)
          let g1 : GrowState :=
            { g with free_map := a.2.1, indirect_buffer := set_word g.indirect_buffer index a.2.2,
                     disk := disk_write g.disk a.2.2 zeros,
                     sectors_to_add := g.sectors_to_add - 1, old_sectors := g.old_sectors + 1 }
          if g1.sectors_to_add = 0 then
            some (grow_finish
              { g1 with disk := disk_write g1.disk g1.ino.indirect_ptr
                                  (words_block g1.indirect_buffer) } new_length, true)
          else grow_indirect_loop_checked fuel g1 new_length
        else none
    else some (g, false)

/-- Case 2 of `inode_grow` with the array accesses checked. -/
def grow_case2_checked (g : GrowState) (new_length : Nat) : Option (GrowState × Bool) :=
  let g1 : GrowState :=
    if g.old_sectors = 1 then
      let a := free_map_allocate g.free_map g.ino.indirect_ptr
      { g with free_map := a.2.1, ino := { g.ino with indirect_ptr := a.2.2 } }
    else { g with indirect_buffer := block_word (g.disk g.ino.indirect_ptr) }
  match grow_indirect_loop_checked g1.sectors_to_add g1 new_length with
  | none => none
  | some (g2, true) => some (g2, true)
  | some (g2, false) =>
    some ({ g2 with disk := disk_write g2.disk g2.ino.indirect_ptr
                              (words_block g2.indirect_buffer) }, false)

/-- The inner loop of case 3 of `inode_grow` with the access
`indirect_buffer2[index2]` checked; `index2 = (old_sectors - 129) % 128` is
computed in unsigned 32-bit arithmetic. -/
def grow_inner_loop_checked : Nat → GrowState → Nat → Nat → Option (GrowState × Bool)
  | fuel, g, new_length, index =>
    if g.old_sectors < 129 + (index + 1) * 128 then
      match fuel with
      | 0 => none
      | fuel + 1 =>
        let index2 := ((g.old_sectors + 4294967296 - 129) % 4294967296) % 128
        if index2 < 128 then
          let a := free_map_allocate g.free_map (g.indirect_buffer2 index2)
          let g1 : GrowState :=
            { g with free_map := a.2.1,
                     indirect_buffer2 := set_word g.indirect_buffer2 index2 a.2.2,
                     disk := disk_write g.disk a.2.2 zeros,
                     sectors_to_add := g.sectors_to_add - 1, old_sectors := g.old_sectors + 1 }
          if g1.sectors_to_add = 0 then
            let d1 := disk_write g1.disk (g1.indirect_buffer index)
              (words_block g1.indirect_buffer2)
            let d2 := disk_write d1 g1.ino.doubly_indirect_ptr (words_block g1.indirect_buffer)
            some (grow_finish { g1 with disk := d2 } new_length, true)
          else grow_inner_loop_checked fuel g1 new_length index
        else none
    else some (g, false)

/-- The loop `while (1)` of case 3 of `inode_grow` with the accesses
`indirect_buffer[index]` checked; `index = (old_sectors - 129) / 128` is
computed in unsigned 32-bit arithmetic. -/
def grow_outer_loop_checked : Nat → GrowState → Nat → Option GrowState
  | 0, _, _ => none
  | fuel + 1, g, new_length =>
    let index := ((g.old_sectors + 4294967296 - 129) % 4294967296) / 128
    if index < 128 then
      let g1 : GrowState :=
        if g.old_sectors % 128 = 1 then
          let a := free_map_allocate g.free_map (g.indirect_buffer index)
          { g with free_map := a.2.1, indirect_buffer := set_word g.indirect_buffer index a.2.2 }
        else { g with indirect_buffer2 := block_word (g.disk (g.indirect_buffer index)) }
      match grow_inner_loop_checked g1.sectors_to_add g1 new_length index with
      | none => none
      | some (g2, true) => some g2
      | some (g2, false) =>
        grow_outer_loop_checked fuel
          { g2 with disk := disk_write g2.disk (g2.indirect_buffer index)
                              (words_block g2.indirect_buffer2) } new_length
    else none

/-- Case 3 of `inode_grow` with the array accesses checked; `none` also when
`ASSERT (old_sectors <= 16513)` fails. -/
def grow_case3_checked (g : GrowState) (new_length : Nat) : Option GrowState :=
  if g.old_sectors ≤ 16513 then
    let g1 : GrowState :=
      if g.old_sectors = 129 then
        let a := free_map_allocate g.free_map g.ino.doubly_indirect_ptr
        { g with free_map := a.2.1, ino := { g.ino with doubly_indirect_ptr := a.2.2 } }
      else { g with indirect_buffer := block_word (g.disk g.ino.doubly_indirect_ptr) }
    grow_outer_loop_checked g1.sectors_to_add g1 new_length
  else none

/-- The function `inode_grow` with every access to the arrays
`indirect_buffer` and `indirect_buffer2` checked: `none` when an index is not
below 128 or the assertion fails. -/
def inode_grow_checked (d : Disk) (fm : FreeMap) (ino : inode) (new_length : Nat)
    (stack : (Nat → Nat) × (Nat → Nat)) : Option (Disk × FreeMap × inode) :=
  let old_sectors := bytes_to_sectors ino.length
  let sectors_to_add := (bytes_to_sectors new_length + 4294967296 - old_sectors) % 4294967296
  if sectors_to_add = 0 then some (d, fm, { ino with length := new_length })
  else
    let r1 := grow_case1 ⟨d, fm, ino, stack.1, stack.2, old_sectors, sectors_to_add⟩ new_length
    if r1.2 then some (r1.1.disk, r1.1.free_map, r1.1.ino)
    else
      match grow_case2_checked r1.1 new_length with
      | none => none
      | some (g2, true) => some (g2.disk, g2.free_map, g2.ino)
      | some (g2, false) =>
        match grow_case3_checked g2 new_length with
        | none => none
        | some g3 => some (g3.disk, g3.free_map, g3.ino)

/-- A list of two lines: the first accessed and clean, the second not
accessed and dirty. -/
def second_chance_lines : List cache_line :=
  [⟨zeros, 5, 1, 0⟩, ⟨zeros, 6, 0, 1⟩]

/-! ## Path resolution (`filesys/filesys.c`) -/

/-- Modelled from the spec: the directory layer (`filesys/directory.c` is not
among the sources) as path resolution uses it.  A directory is named by the
sector of its inode, and so are a `struct dir *` and a `struct inode *`; open
counts and failing allocations are not modelled.  `entries s` are the names in
the directory at sector `s` with the inode sectors they name, `is_dir s` tells
whether the inode at `s` is a directory, `parent s` is the inode that
`dir_get_parent` opens (`none` for `NULL`). -/
structure DirTree where
  entries : Nat → List (List Char × Nat)
  is_dir : Nat → Bool
  parent : Nat → Option Nat

/-- Modelled from the spec: the sector of the root directory. -/
abbrev ROOT_DIR_SECTOR : Nat := 1

/-- Modelled from the spec: `dir_lookup (dir, name, &inode)`, the inode of
the entry `name` of the directory; `none` is `false`. -/
def dir_lookup (t : DirTree) (dir : Nat) (name : List Char) : Option Nat :=
  ((t.entries dir).find? (fun e => decide (e.1 = name))).map (fun e => e.2)

/-- Modelled from the spec: `dir_get_parent`, the inode of the parent
directory, `none` for `NULL`. -/
def dir_get_parent (t : DirTree) (dir : Nat) : Option Nat :=
  t.parent dir

/-- The field `is_dir` of the inode (`inode_is_dir`). -/
def inode_is_dir (t : DirTree) (inode : Nat) : Bool :=
  t.is_dir inode

/-- Modelled from the spec: the tokens that successive calls of
`strtok_r (s, "/", &save_ptr)` return (`lib/string.c` is not among the
sources): the maximal runs of characters other than `/`, in order.  `cur` is
the run being read. -/
def strtok_r : List Char → List Char → List (List Char)
  | [], cur => if cur = [] then [] else [cur]
  | c :: rest, cur =>
    if c = '/' then (if cur = [] then strtok_r rest [] else cur :: strtok_r rest [])
    else strtok_r rest (cur ++ [c])

/-- The last component of a path, the empty string when there is none
(`get_filename`). -/
def get_filename (name : List Char) : List Char :=
  (strtok_r name []).foldl (fun _ token => token) []

/-- The loop of `get_dir`: `dir` is the directory reached so far,
`prev_token` the component under work, the list holds the tokens `strtok_r`
has yet to return.  After a component `.` the `continue` goes on to the next
token without the assignment `prev_token = token`. -/
def get_dir_loop (t : DirTree) : Nat → List Char → List (List Char) → Option Nat
  | dir, _, [] => some dir
  | dir, prev_token, token :: rest =>
    if prev_token = ['.'] then get_dir_loop t dir prev_token rest
    else
      let r :=
        if prev_token = ['.', '.'] then dir_get_parent t dir else dir_lookup t dir prev_token
      match r with
      | none => none
      | some inode =>
        if inode_is_dir t inode then get_dir_loop t inode token rest
        else get_dir_loop t dir token rest

/-- The directory that holds the last component of a path, `none` for `NULL`
(`get_dir`).  `cwd` is `thread_current ()->dir`. -/
def get_dir (t : DirTree) (cwd : Option Nat) (name : List Char) : Option Nat :=
  let dir :=
    match cwd with
    | none => ROOT_DIR_SECTOR
    | some c => if name.head? = some '/' then ROOT_DIR_SECTOR else c
  match strtok_r name [] with
  | [] => some dir
  | prev_token :: rest => get_dir_loop t dir prev_token rest

/-- A tree: the root holds the regular files `f` (sector 3) and `x`
(sector 5) and the directory `a` (sector 2), which holds the regular file `b`
(sector 4). -/
def sample_tree : DirTree :=
  { entries := fun s =>
      if s = 1 then [(['f'], 3), (['x'], 5), (['a'], 2)]
      else if s = 2 then [(['b'], 4)] else [],
    is_dir := fun s => decide (s = 1 ∨ s = 2),
    parent := fun s => if s = 2 then some 1 else none }

/-! ## Validation of a buffer (`userprog/syscall.c`) -/

/-- The loop of `check_valid_buffer`, rounds `i .. size/2 - 1`, counted down
by `n = size/2 - i`.  `garbage k` is the value of the uninitialised local of
the helper in its call number `k`, `m k` what `malloc` returns there.  The
result is the state after the loop. -/
def check_valid_buffer_loop (esp : Nat) (to_write : Bool) (garbage : Nat → Nat)
    (m : Nat → Option spte) : Nat → Nat → Nat → VM → Outcome VM
  | 0, _, _, st => Outcome.ret st
  | n + 1, i, local_buffer, st =>
    match check_valid_buffer_helper st local_buffer esp (garbage i) (m i) with
    | Outcome.stuck => Outcome.stuck
    | Outcome.exited status => Outcome.exited status
    | Outcome.ret (_, none) => Outcome.exited (-1)
    | Outcome.ret (st1, some p) =>
      match hash_find st1.spt p with
      | none => Outcome.stuck
      | some spte1 =>
        if to_write && !spte1.writable then Outcome.exited (-1)
        else
          check_valid_buffer_loop esp to_write garbage m n (i + 1)
            ((local_buffer + 2) % 4294967296) st1

/-- Validation of the buffer of `size` bytes at `buffer`
(`check_valid_buffer`); `size` is the value of `*size`.  The addresses
`buffer`, `buffer + 2`, ... and `buffer + size - 1` are handed to the
helper. -/
def check_valid_buffer (st : VM) (buffer size esp : Nat) (to_write : Bool)
    (garbage : Nat → Nat) (m : Nat → Option spte) : Outcome VM :=
  let local_buffer_last := (buffer + size + 4294967296 - 1) % 4294967296
  match check_valid_buffer_loop esp to_write garbage m (size / 2) 0 buffer st with
  | Outcome.stuck => Outcome.stuck
  | Outcome.exited status => Outcome.exited status
  | Outcome.ret st1 =>
    match check_valid_buffer_helper st1 local_buffer_last esp (garbage (size / 2))
        (m (size / 2)) with
    | Outcome.stuck => Outcome.stuck
    | Outcome.exited status => Outcome.exited status
    | Outcome.ret (_, none) => Outcome.exited (-1)
    | Outcome.ret (st2, some p) =>
      match hash_find st2.spt p with
      | none => Outcome.stuck
      | some spte2 =>
        if to_write && !spte2.writable then Outcome.exited (-1) else Outcome.ret st2

/-- What a call of `check_valid_buffer` ended with: page, state and
`writable` of every entry of the table, or the exit status. -/
def buffer_view : Outcome VM → Option (List (Nat × Nat × Bool)) × Option Int
  | Outcome.ret st => (some (st.spt.map (fun e => (e.page, e.on_type, e.writable))), none)
  | Outcome.exited status => (none, some status)
  | Outcome.stuck => (none, none)

/-! ## States of the frame table -/

/-- A state with two resident stack pages, `0xbffff000` in the frame
`0xc0100000` and `0xbfffe000` in the frame `0xc0101000`, and no free frame;
the entry of the first page has `accessing` set. -/
def pinned_vm : VM :=
  { boot_vm with spt := [⟨3221221376, 3222274048, 0, 0, 0, 0, 0, true, false, 0, true⟩,
                         ⟨3221217280, 3222278144, 0, 0, 0, 0, 0, true, false, 0, false⟩],
                 pagedir := fun u =>
                   if u = 3221221376 then some ⟨3222274048, true, false, false⟩
                   else if u = 3221217280 then some ⟨3222278144, true, false, false⟩
                   else none,
                 frame_list := [⟨3222274048, 3221221376⟩, ⟨3222278144, 3221217280⟩],
                 user_pool := [] }

/-- A process with two free user frames and one page of file 7 at
`0x08048000` that is neither writable nor from `mmap`. -/
def code_vm : VM :=
  (add_spte { boot_vm with user_pool := [3222274048, 3222278144] } 134512640 7 0 100 3996
    false false blank_spte).1

/-- The state after the load of the read-only page of `code_vm` and a
`stack_grow` of the page below `PHYS_BASE`: both frames are in use, the first
by the read-only page. -/
def read_only_vm : Option VM :=
  (load_from_file code_vm 134512640).bind (fun r1 =>
    (stack_grow r1.1 3221221376 (some blank_spte)).map (fun r2 => r2.1))

/-- The state after the load of the read-only page of `code_vm` when that
page got the only frame. -/
def only_read_only_vm : Option VM :=
  (load_from_file { code_vm with user_pool := [3222274048] } 134512640).map (fun r => r.1)

/-- The entry of the frame table is one that `find_victim_frame` passes
over without a change of state: its page is known, not pinned, not accessed,
not from `mmap` and not writable. -/
def clean_read_only (st : VM) (f : fte) : Bool :=
  match hash_find st.spt f.spte with
  | none => false
  | some s =>
    !s.accessing && !pagedir_is_accessed st.pagedir s.page && !s.from_mmap && !s.writable

/-- The mappings of the process, the frame table, the free frames and the
frame a page is mapped to. -/
def frame_view (st : VM) (page : Nat) :
    List (Int × Nat × Nat) × List (Nat × Nat) × List Nat × Option Nat :=
  (st.md_list.map (fun md => (md.mapping, md.addr, md.num_of_pages)),
    st.frame_list.map (fun f => (f.frame, f.spte)), st.user_pool,
    pagedir_get_page st.pagedir page)

/-! ## Properties -/

theorem block_word_words_block (w : Nat → Nat) (i : Nat) :
    block_word (words_block w) i = w i % 4294967296 := by
  unfold block_word words_block
  have h0 : (4 * i) / 4 = i := by omega
  have h1 : (4 * i + 1) / 4 = i := by omega
  have h2 : (4 * i + 2) / 4 = i := by omega
  have h3 : (4 * i + 3) / 4 = i := by omega
  have m0 : (4 * i) % 4 = 0 := by omega
  have m1 : (4 * i + 1) % 4 = 1 := by omega
  have m2 : (4 * i + 2) % 4 = 2 := by omega
  have m3 : (4 * i + 3) % 4 = 3 := by omega
  simp only [h0, h1, h2, h3, m0, m1, m2, m3]
  norm_num
  omega

/-- C3: byte-to-sector mapping. -/
theorem byte_to_sector_mapping (d : Disk) (ino : inode) (pos length : Nat)
    (hpos : pos < 2147483648) :
    (pos ≥ length → byte_to_sector d ino pos length = 4294967295) ∧
    (pos < length → pos < 512 → byte_to_sector d ino pos length = ino.direct_ptr) ∧
    (pos < length → 512 ≤ pos → pos < 512 * 129 →
      byte_to_sector d ino pos length = block_word (d ino.indirect_ptr) ((pos - 512) / 512)) ∧
    (pos < length → 512 * 129 ≤ pos →
      byte_to_sector d ino pos length =
        block_word (d (block_word (d ino.doubly_indirect_ptr) ((pos - 512 * 129) / (512 * 128))))
          (((pos - 512 * 129) % (512 * 128)) / 512)) := by
  refine ⟨?_, ?_, ?_, ?_⟩
  · intro h
    simp [byte_to_sector, h]
  · intro h1 h2
    have : ¬ pos ≥ length := by omega
    simp [byte_to_sector, this, h2]
  · intro h1 h2 h3
    have e1 : ¬ pos ≥ length := by omega
    have e2 : ¬ pos < 512 := by omega
    have e3 : ((pos - 512) / 512) % 4294967296 = (pos - 512) / 512 := by omega
    simp only [byte_to_sector, DISK_SECTOR_SIZE, e1, e2, h3, if_true, if_false, e3]
  · intro h1 h2
    have e1 : ¬ pos ≥ length := by omega
    have e2 : ¬ pos < 512 := by omega
    have e3 : ¬ pos < 512 * 129 := by omega
    have e4 : ((pos - 512 * 129) / (512 * 128)) % 4294967296 = (pos - 512 * 129) / (512 * 128) := by
      omega
    have e5 : ((pos - 512 * 129 + 4294967296
        - ((pos - 512 * 129) / (512 * 128) * 512 * 128) % 4294967296) % 4294967296 / 512)
          % 4294967296 = ((pos - 512 * 129) % (512 * 128)) / 512 := by
      omega
    simp only [byte_to_sector, DISK_SECTOR_SIZE, e1, e2, e3, if_false, e4, e5]

/-! ### Buffer cache -/

theorem find_cache_line_some {ls : List cache_line} {s i : Nat}
    (h : find_cache_line ls s = some i) :
    ∃ cl, ls[i]? = some cl ∧ cl.sector_idx = s := by
  induction ls generalizing i with
  | nil => simp [find_cache_line] at h
  | cons a rest ih =>
    unfold find_cache_line at h
    by_cases hs : s = a.sector_idx
    · simp only [hs, if_true, Option.some.injEq] at h
      subst h
      exact ⟨a, by simp, hs.symm⟩
    · simp only [hs, if_false, Option.map_eq_some'] at h
      obtain ⟨k, hk, rfl⟩ := h
      obtain ⟨cl, h1, h2⟩ := ih hk
      exact ⟨cl, by simpa using h1, h2⟩

theorem find_cache_line_none {ls : List cache_line} {s : Nat}
    (h : find_cache_line ls s = none) : ¬ cached ls s := by
  induction ls with
  | nil => rintro ⟨j, cl, h1, _⟩; simp at h1
  | cons a rest ih =>
    unfold find_cache_line at h
    by_cases hs : s = a.sector_idx
    · simp [hs] at h
    · simp only [hs, if_false, Option.map_eq_none'] at h
      rintro ⟨j, cl, h1, h2⟩
      cases j with
      | zero =>
        simp at h1
        subst h1
        exact hs h2.symm
      | succ j =>
        simp at h1
        exact ih h ⟨j, cl, h1, h2⟩

theorem logical_hit {ls : List cache_line} (d : Disk) {i : Nat} {cl : cache_line}
    (hu : cache_unique ls) (h : ls[i]? = some cl) :
    logical ls d cl.sector_idx = cl.block := by
  induction ls generalizing i with
  | nil => simp at h
  | cons a rest ih =>
    unfold logical
    by_cases hs : cl.sector_idx = a.sector_idx
    · have : i = 0 := hu i 0 cl a h (by simp) hs
      subst this
      simp at h
      subst h
      simp
    · simp only [hs, if_false]
      cases i with
      | zero =>
        simp at h
        subst h
        exact absurd rfl hs
      | succ i =>
        simp at h
        apply ih _ h
        intro i j x y hx hy hxy
        have := hu (i + 1) (j + 1) x y (by simpa using hx) (by simpa using hy) hxy
        omega

theorem logical_miss {ls : List cache_line} (d : Disk) {s : Nat} (h : ¬ cached ls s) :
    logical ls d s = d s := by
  induction ls with
  | nil => rfl
  | cons a rest ih =>
    unfold logical
    by_cases hs : s = a.sector_idx
    · exact absurd ⟨0, a, by simp, hs.symm⟩ h
    · simp only [hs, if_false]
      apply ih
      rintro ⟨j, cl, h1, h2⟩
      exact h ⟨j + 1, cl, by simpa using h1, h2⟩

theorem evict_loop_spec (fuel : Nat) (ls : List cache_line) (d : Disk) (e : Nat)
    (he : e < ls.length) (hf : ls.length - e + 1 ≤ fuel)
    (hc : ∀ j cl, j < e → ls[j]? = some cl → cl.accessed = 0) :
    ∃ ls1 v clv, evict_loop fuel ls d e
        = some (ls1, (if clv.dirty ≠ 0 then disk_write d clv.sector_idx clv.block else d), v)
      ∧ ls1[v]? = some clv ∧ clv.accessed = 0
      ∧ ls1.map clear_accessed = ls.map clear_accessed := by
  induction fuel generalizing ls e with
  | zero => omega
  | succ fuel ih =>
    obtain ⟨cl, hcl⟩ : ∃ cl, ls[e]? = some cl := ⟨ls[e], List.getElem?_eq_getElem he⟩
    unfold evict_loop
    simp only [hcl]
    by_cases ha : cl.accessed = 0
    · refine ⟨ls, e, cl, ?_, hcl, ha, rfl⟩
      simp [ha]
    · simp only [ne_eq, ha, not_false_eq_true, if_true]
      have hmap : (ls.set e { cl with accessed := 0 }).map clear_accessed
          = ls.map clear_accessed := by
        apply List.ext_getElem?
        intro n
        simp only [List.getElem?_map, List.getElem?_set]
        by_cases hn : e = n
        · subst hn
          simp [he, hcl, clear_accessed]
        · simp [hn]
      by_cases hw : e + 1 = ls.length
      · -- wrap around: the head has been cleared
        simp only [hw, if_true]
        have h0 : ∃ c0, (ls.set e { cl with accessed := 0 })[0]? = some c0 ∧ c0.accessed = 0 := by
          by_cases he0 : e = 0
          · subst he0
            exact ⟨{ cl with accessed := 0 }, by simp [List.getElem?_set, he], rfl⟩
          · have h0l : 0 < ls.length := by omega
            refine ⟨ls[0], ?_, ?_⟩
            · rw [List.getElem?_set_ne he0]
              exact List.getElem?_eq_getElem h0l
            · exact hc 0 ls[0] (by omega) (List.getElem?_eq_getElem h0l)
        obtain ⟨c0, hc0, hc0a⟩ := h0
        cases fuel with
        | zero => omega
        | succ fuel =>
          refine ⟨_, 0, c0, ?_, hc0, hc0a, hmap⟩
          unfold evict_loop
          simp [hc0, hc0a]
      · simp only [hw, if_false]
        obtain ⟨ls1, v, clv, h1, h2, h3, h4⟩ :=
          ih (ls.set e { cl with accessed := 0 }) (e + 1)
            (by simp; omega) (by simp; omega)
            (by
              intro j c hj hjc
              by_cases hje : e = j
              · subst hje
                simp [List.getElem?_set, he] at hjc
                subst hjc
                rfl
              · rw [List.getElem?_set_ne hje] at hjc
                exact hc j c (by omega) hjc)
        exact ⟨ls1, v, clv, h1, h2, h3, h4.trans hmap⟩

theorem evict_cache_line_spec (ls : List cache_line) (d : Disk) (hne : 0 < ls.length) :
    ∃ ls1 v clv, evict_cache_line ls d
        = some (ls1, (if clv.dirty ≠ 0 then disk_write d clv.sector_idx clv.block else d), v)
      ∧ ls1[v]? = some clv ∧ clv.accessed = 0
      ∧ ls1.map clear_accessed = ls.map clear_accessed :=
  evict_loop_spec _ ls d 0 hne (by omega) (by intro j cl hj; omega)

theorem logical_cached_disk {ls : List cache_line} (d d1 : Disk) {t : Nat} (h : cached ls t) :
    logical ls d1 t = logical ls d t := by
  induction ls with
  | nil => obtain ⟨j, cl, h1, _⟩ := h; simp at h1
  | cons a rest ih =>
    unfold logical
    by_cases hs : t = a.sector_idx
    · simp [hs]
    · simp only [hs, if_false]
      apply ih
      obtain ⟨j, cl, h1, h2⟩ := h
      cases j with
      | zero =>
        simp at h1
        subst h1
        exact absurd h2.symm hs
      | succ j => exact ⟨j, cl, by simpa using h1, h2⟩

theorem same_lines_get {ls1 ls : List cache_line}
    (h : ls1.map clear_accessed = ls.map clear_accessed) {j : Nat} {a : cache_line}
    (ha : ls1[j]? = some a) :
    ∃ b, ls[j]? = some b ∧ b.block = a.block ∧ b.sector_idx = a.sector_idx ∧ b.dirty = a.dirty := by
  have h1 : (ls1.map clear_accessed)[j]? = (ls.map clear_accessed)[j]? := by rw [h]
  simp only [List.getElem?_map, ha, Option.map_some'] at h1
  cases hb : ls[j]? with
  | none => simp [hb] at h1
  | some b =>
    simp only [hb, Option.map_some', Option.some.injEq, clear_accessed] at h1
    refine ⟨b, rfl, ?_, ?_, ?_⟩
    · exact (congrArg cache_line.block h1).symm
    · exact (congrArg cache_line.sector_idx h1).symm
    · exact (congrArg cache_line.dirty h1).symm

theorem same_lines_length {ls1 ls : List cache_line}
    (h : ls1.map clear_accessed = ls.map clear_accessed) : ls1.length = ls.length := by
  simpa using congrArg List.length h

theorem same_lines_unique {ls1 ls : List cache_line}
    (h : ls1.map clear_accessed = ls.map clear_accessed) (hu : cache_unique ls) :
    cache_unique ls1 := by
  intro i j a b ha hb hab
  obtain ⟨a1, h1, _, h2, _⟩ := same_lines_get h ha
  obtain ⟨b1, h3, _, h4, _⟩ := same_lines_get h hb
  exact hu i j a1 b1 h1 h3 (by rw [h2, h4, hab])

theorem same_lines_cached {ls1 ls : List cache_line}
    (h : ls1.map clear_accessed = ls.map clear_accessed) {t : Nat} (hc : cached ls1 t) :
    cached ls t := by
  obtain ⟨j, cl, h1, h2⟩ := hc
  obtain ⟨b, h3, _, h4, _⟩ := same_lines_get h h1
  exact ⟨j, b, h3, by rw [h4, h2]⟩

theorem same_lines_coherent {ls1 ls : List cache_line}
    (h : ls1.map clear_accessed = ls.map clear_accessed) {d : Disk} (hc : coherent ls d) :
    coherent ls1 d := by
  intro j cl h1 h2
  obtain ⟨b, h3, h4, h5, h6⟩ := same_lines_get h h1
  have := hc j b h3 (by rw [h6, h2])
  rw [← h4, ← h5, this]

theorem same_lines_logical {ls1 ls : List cache_line}
    (h : ls1.map clear_accessed = ls.map clear_accessed) (d : Disk) (t : Nat) :
    logical ls1 d t = logical ls d t := by
  induction ls1 generalizing ls with
  | nil =>
    cases ls with
    | nil => rfl
    | cons b r => simp at h
  | cons a rest ih =>
    cases ls with
    | nil => simp at h
    | cons b r =>
      simp only [List.map_cons, List.cons.injEq] at h
      unfold logical
      have hs : a.sector_idx = b.sector_idx := by
        have := congrArg cache_line.sector_idx h.1
        exact this
      have hb : a.block = b.block := by
        have := congrArg cache_line.block h.1
        exact this
      rw [hs, hb, ih h.2]

theorem get_set_cases {ls : List cache_line} {i j : Nat} {nl a : cache_line}
    (h : (ls.set i nl)[j]? = some a) : (i = j ∧ a = nl) ∨ (i ≠ j ∧ ls[j]? = some a) := by
  rw [List.getElem?_set] at h
  by_cases hj : i = j
  · left
    rw [if_pos hj] at h
    by_cases hi : i < ls.length
    · rw [if_pos hi] at h
      exact ⟨hj, (Option.some.inj h).symm⟩
    · rw [if_neg hi] at h
      exact absurd h (by simp)
  · right
    rw [if_neg hj] at h
    exact ⟨hj, h⟩

theorem unique_set_same {ls : List cache_line} {i : Nat} {cl nl : cache_line}
    (hu : cache_unique ls) (h : ls[i]? = some cl) (hs : nl.sector_idx = cl.sector_idx) :
    cache_unique (ls.set i nl) := by
  intro j k a b ha hb hab
  rcases get_set_cases ha with ⟨hj, ea⟩ | ⟨hj, ha1⟩ <;>
    rcases get_set_cases hb with ⟨hk, eb⟩ | ⟨hk, hb1⟩
  · omega
  · subst hj ea
    exact hu i k cl b h hb1 (by rw [← hs, hab])
  · subst hk eb
    exact hu j i a cl ha1 h (by rw [hab, hs])
  · exact hu j k a b ha1 hb1 hab

theorem cached_set_same {ls : List cache_line} {i : Nat} {cl nl : cache_line}
    (h : ls[i]? = some cl) (hs : nl.sector_idx = cl.sector_idx) (t : Nat) :
    cached (ls.set i nl) t ↔ cached ls t := by
  have hi : i < ls.length := (List.getElem?_eq_some.mp h).1
  constructor
  · rintro ⟨j, a, ha, hat⟩
    rcases get_set_cases ha with ⟨_, rfl⟩ | ⟨_, ha⟩
    · exact ⟨i, cl, h, by rw [← hs, hat]⟩
    · exact ⟨j, a, ha, hat⟩
  · rintro ⟨j, a, ha, hat⟩
    by_cases hj : i = j
    · subst hj
      rw [h] at ha
      simp only [Option.some.injEq] at ha
      subst ha
      exact ⟨i, nl, by simp [List.getElem?_set, hi], by rw [hs, hat]⟩
    · exact ⟨j, a, by rw [List.getElem?_set_ne hj]; exact ha, hat⟩

theorem logical_set_same {ls : List cache_line} (d : Disk) {i : Nat} {cl nl : cache_line}
    (hu : cache_unique ls) (h : ls[i]? = some cl) (hs : nl.sector_idx = cl.sector_idx)
    (t : Nat) :
    logical (ls.set i nl) d t = if t = cl.sector_idx then nl.block else logical ls d t := by
  have hi : i < ls.length := (List.getElem?_eq_some.mp h).1
  have hu1 := unique_set_same hu h hs
  have hnl : (ls.set i nl)[i]? = some nl := by simp [List.getElem?_set, hi]
  by_cases ht : t = cl.sector_idx
  · simp only [ht, if_true]
    rw [← hs]
    exact logical_hit d hu1 hnl
  · simp only [ht, if_false]
    by_cases hc : cached ls t
    · obtain ⟨j, a, ha, hat⟩ := hc
      have hj : i ≠ j := by
        rintro rfl
        rw [h] at ha
        simp only [Option.some.injEq] at ha
        subst ha
        exact ht hat.symm
      have h1 : (ls.set i nl)[j]? = some a := by rw [List.getElem?_set_ne hj]; exact ha
      rw [← hat, logical_hit d hu1 h1, logical_hit d hu ha]
    · rw [logical_miss d hc, logical_miss d (by rw [cached_set_same h hs]; exact hc)]

theorem unique_set_new {ls : List cache_line} {v s : Nat} {nl : cache_line}
    (hu : cache_unique ls) (hn : ¬ cached ls s) (hs : nl.sector_idx = s) :
    cache_unique (ls.set v nl) := by
  intro j k a b ha hb hab
  rcases get_set_cases ha with ⟨hj, ea⟩ | ⟨hj, ha1⟩ <;>
    rcases get_set_cases hb with ⟨hk, eb⟩ | ⟨hk, hb1⟩
  · omega
  · subst ea
    exact absurd ⟨k, b, hb1, by rw [← hab, hs]⟩ hn
  · subst eb
    exact absurd ⟨j, a, ha1, by rw [hab, hs]⟩ hn
  · exact hu j k a b ha1 hb1 hab

theorem cached_set_new {ls : List cache_line} {v s : Nat} {clv nl : cache_line}
    (hu : cache_unique ls) (h : ls[v]? = some clv) (hs : nl.sector_idx = s) (t : Nat) :
    cached (ls.set v nl) t ↔ t = s ∨ (cached ls t ∧ t ≠ clv.sector_idx) := by
  have hv : v < ls.length := (List.getElem?_eq_some.mp h).1
  constructor
  · rintro ⟨j, a, ha, hat⟩
    rcases get_set_cases ha with ⟨_, ea⟩ | ⟨hj, ha1⟩
    · subst ea
      left
      rw [← hat, hs]
    · right
      refine ⟨⟨j, a, ha1, hat⟩, ?_⟩
      intro e
      exact hj (hu v j clv a h ha1 (by rw [hat, e]))
  · rintro (e | ⟨⟨j, a, ha, hat⟩, hne⟩)
    · exact ⟨v, nl, by simp [List.getElem?_set, hv], by rw [hs, e]⟩
    · have hj : v ≠ j := by
        rintro rfl
        rw [h] at ha
        exact hne (by rw [← hat, (Option.some.inj ha)])
      exact ⟨j, a, by rw [List.getElem?_set_ne hj]; exact ha, hat⟩

theorem logical_set_new {ls : List cache_line} (d : Disk) {v s : Nat} {clv nl : cache_line}
    (hu : cache_unique ls) (h : ls[v]? = some clv) (hn : ¬ cached ls s)
    (hs : nl.sector_idx = s) (t : Nat) :
    logical (ls.set v nl) d t =
      if t = s then nl.block else if t = clv.sector_idx then d t else logical ls d t := by
  have hv : v < ls.length := (List.getElem?_eq_some.mp h).1
  have hu1 : cache_unique (ls.set v nl) := unique_set_new hu hn hs
  have hnl : (ls.set v nl)[v]? = some nl := by simp [List.getElem?_set, hv]
  by_cases ht : t = s
  · simp only [ht, if_true]
    rw [← hs]
    exact logical_hit d hu1 hnl
  · simp only [ht, if_false]
    by_cases ht2 : t = clv.sector_idx
    · simp only [ht2, if_true]
      apply logical_miss
      rw [cached_set_new hu h hs]
      rintro (e | ⟨_, e⟩)
      · exact ht (ht2.trans e)
      · exact e rfl
    · simp only [ht2, if_false]
      by_cases hc : cached ls t
      · have hc1 : cached (ls.set v nl) t := (cached_set_new hu h hs t).mpr (Or.inr ⟨hc, ht2⟩)
        obtain ⟨j, a, ha, hat⟩ := hc
        obtain ⟨k, b, hb, hbt⟩ := hc1
        rcases get_set_cases hb with ⟨_, eb⟩ | ⟨hk, hb1⟩
        · subst eb
          exact absurd (hbt.symm.trans hs) ht
        · rw [← hbt, logical_hit d hu1 hb, hbt, ← hbt, logical_hit d hu hb1]
      · rw [logical_miss d hc]
        apply logical_miss
        rw [cached_set_new hu h hs]
        rintro (e | ⟨e, _⟩)
        · exact ht e
        · exact hc e

theorem get_append_cases {ls : List cache_line} {j : Nat} {nl a : cache_line}
    (h : (ls ++ [nl])[j]? = some a) :
    (j < ls.length ∧ ls[j]? = some a) ∨ (j = ls.length ∧ a = nl) := by
  by_cases hj : j < ls.length
  · left
    rw [List.getElem?_append_left hj] at h
    exact ⟨hj, h⟩
  · right
    rw [List.getElem?_append_right (by omega)] at h
    by_cases hj2 : j - ls.length = 0
    · rw [hj2] at h
      simp at h
      exact ⟨by omega, h.symm⟩
    · obtain ⟨k, hk⟩ : ∃ k, j - ls.length = k + 1 := ⟨j - ls.length - 1, by omega⟩
      rw [hk] at h
      simp at h

theorem get_append_last (ls : List cache_line) (nl : cache_line) :
    (ls ++ [nl])[ls.length]? = some nl := by
  rw [List.getElem?_append_right (le_refl _)]
  simp

theorem unique_append {ls : List cache_line} {s : Nat} {nl : cache_line}
    (hu : cache_unique ls) (hn : ¬ cached ls s) (hs : nl.sector_idx = s) :
    cache_unique (ls ++ [nl]) := by
  intro j k a b ha hb hab
  rcases get_append_cases ha with ⟨hj, ha1⟩ | ⟨hj, ea⟩ <;>
    rcases get_append_cases hb with ⟨hk, hb1⟩ | ⟨hk, eb⟩
  · exact hu j k a b ha1 hb1 hab
  · subst eb
    exact absurd ⟨j, a, ha1, by rw [hab, hs]⟩ hn
  · subst ea
    exact absurd ⟨k, b, hb1, by rw [← hab, hs]⟩ hn
  · omega

theorem cached_append {ls : List cache_line} {s : Nat} {nl : cache_line}
    (hs : nl.sector_idx = s) (t : Nat) :
    cached (ls ++ [nl]) t ↔ t = s ∨ cached ls t := by
  constructor
  · rintro ⟨j, a, ha, hat⟩
    rcases get_append_cases ha with ⟨hj, ha1⟩ | ⟨hj, ea⟩
    · exact Or.inr ⟨j, a, ha1, hat⟩
    · subst ea
      exact Or.inl (by rw [← hat, hs])
  · rintro (e | ⟨j, a, ha, hat⟩)
    · exact ⟨ls.length, nl, get_append_last ls nl, by rw [hs, e]⟩
    · have hj : j < ls.length := (List.getElem?_eq_some.mp ha).1
      exact ⟨j, a, by rw [List.getElem?_append_left hj]; exact ha, hat⟩

theorem logical_append {ls : List cache_line} (d : Disk) {s : Nat} {nl : cache_line}
    (hu : cache_unique ls) (hn : ¬ cached ls s) (hs : nl.sector_idx = s) (t : Nat) :
    logical (ls ++ [nl]) d t = if t = s then nl.block else logical ls d t := by
  have hu1 : cache_unique (ls ++ [nl]) := unique_append hu hn hs
  by_cases ht : t = s
  · simp only [ht, if_true]
    rw [← hs]
    exact logical_hit d hu1 (get_append_last ls nl)
  · simp only [ht, if_false]
    by_cases hc : cached ls t
    · obtain ⟨j, a, ha, hat⟩ := hc
      have hj : j < ls.length := (List.getElem?_eq_some.mp ha).1
      have h1 : (ls ++ [nl])[j]? = some a := by rw [List.getElem?_append_left hj]; exact ha
      rw [← hat, logical_hit d hu1 h1, logical_hit d hu ha]
    · rw [logical_miss d hc]
      apply logical_miss
      rw [cached_append hs]
      rintro (e | e)
      · exact ht e
      · exact hc e

theorem set_append_last (ls : List cache_line) (x y : cache_line) :
    (ls ++ [x]).set ls.length y = ls ++ [y] := by
  induction ls with
  | nil => rfl
  | cons a rest ih => simp [List.set, ih]

theorem add_cache_line_shape (c : BufferCache) (d : Disk) (s : Nat) (fresh : cache_line)
    (hwf : cache_wf c) :
    (c.buffer_cache_size ≤ 63 ∧
      add_cache_line c d s fresh =
        some (⟨c.buffer_cache ++ [{ fresh with sector_idx := s, block := d s }],
               c.buffer_cache_size + 1⟩, d, c.buffer_cache.length)) ∨
    (63 < c.buffer_cache_size ∧ ∃ (ls1 : List cache_line) (v : Nat) (clv : cache_line), ls1[v]? = some clv ∧ clv.accessed = 0 ∧
      ls1.map clear_accessed = c.buffer_cache.map clear_accessed ∧
      add_cache_line c d s fresh =
        some (⟨ls1.set v { clv with sector_idx := s, block := evict_disk d clv s },
               c.buffer_cache_size⟩, evict_disk d clv, v)) := by
  unfold add_cache_line
  by_cases hfull : c.buffer_cache_size > 63
  · right
    refine ⟨hfull, ?_⟩
    have hne : 0 < c.buffer_cache.length := by
      unfold cache_wf at hwf
      omega
    obtain ⟨ls1, v, clv, h1, h2, h3, h4⟩ := evict_cache_line_spec c.buffer_cache d hne
    refine ⟨ls1, v, clv, h2, h3, h4, ?_⟩
    simp only [hfull, if_true, h1, h2]
    rfl
  · left
    refine ⟨by omega, ?_⟩
    simp only [hfull, if_false]

theorem get_cache_line_shape (c : BufferCache) (d : Disk) (s dirty : Nat) (hwf : cache_wf c) :
    (∃ i cl, c.buffer_cache[i]? = some cl ∧ cl.sector_idx = s ∧
      get_cache_line c d s dirty =
        some (⟨c.buffer_cache.set i ⟨cl.block, cl.sector_idx, 1, if dirty ≠ 0 then 1 else cl.dirty⟩,
               c.buffer_cache_size⟩, d, i)) ∨
    (¬ cached c.buffer_cache s ∧ c.buffer_cache_size ≤ 63 ∧
      get_cache_line c d s dirty =
        some (⟨c.buffer_cache ++ [⟨d s, s, 1, dirty⟩], c.buffer_cache_size + 1⟩, d,
              c.buffer_cache.length)) ∨
    (¬ cached c.buffer_cache s ∧ 63 < c.buffer_cache_size ∧
      ∃ (ls1 : List cache_line) (v : Nat) (clv : cache_line), ls1[v]? = some clv ∧ clv.accessed = 0 ∧
        ls1.map clear_accessed = c.buffer_cache.map clear_accessed ∧
        get_cache_line c d s dirty =
          some (⟨ls1.set v ⟨evict_disk d clv s, s, 1, dirty⟩, c.buffer_cache_size⟩,
                evict_disk d clv, v)) := by
  unfold get_cache_line
  cases hf : find_cache_line c.buffer_cache s with
  | some i =>
    left
    obtain ⟨cl, h1, h2⟩ := find_cache_line_some hf
    refine ⟨i, cl, h1, h2, ?_⟩
    simp only [h1]
    by_cases hd : dirty = 0
    · simp [hd]
    · simp [hd]
  | none =>
    right
    have hn := find_cache_line_none hf
    rcases add_cache_line_shape c d s blank_line hwf with ⟨h1, h2⟩ | ⟨h1, ls1, v, clv, h2, h3, h4, h5⟩
    · left
      refine ⟨hn, h1, ?_⟩
      simp only [h2, get_append_last, set_append_last]
    · right
      refine ⟨hn, h1, ls1, v, clv, h2, h3, h4, ?_⟩
      have hv : v < ls1.length := (List.getElem?_eq_some.mp h2).1
      simp only [h5, List.getElem?_set, hv, if_true, List.set_set]

theorem read_ahead_get_shape (c : BufferCache) (d : Disk) (s : Nat) (fresh : cache_line)
    (hwf : cache_wf c) :
    (cached c.buffer_cache s ∧ read_ahead_get c d s fresh = some (c, d)) ∨
    (¬ cached c.buffer_cache s ∧ c.buffer_cache_size ≤ 63 ∧
      read_ahead_get c d s fresh =
        some (⟨c.buffer_cache ++ [{ fresh with sector_idx := s, block := d s }],
               c.buffer_cache_size + 1⟩, d)) ∨
    (¬ cached c.buffer_cache s ∧ 63 < c.buffer_cache_size ∧
      ∃ (ls1 : List cache_line) (v : Nat) (clv : cache_line), ls1[v]? = some clv ∧ clv.accessed = 0 ∧
        ls1.map clear_accessed = c.buffer_cache.map clear_accessed ∧
        read_ahead_get c d s fresh =
          some (⟨ls1.set v { clv with sector_idx := s, block := evict_disk d clv s },
                 c.buffer_cache_size⟩, evict_disk d clv)) := by
  unfold read_ahead_get
  cases hf : find_cache_line c.buffer_cache s with
  | some i =>
    left
    obtain ⟨cl, h1, h2⟩ := find_cache_line_some hf
    exact ⟨⟨i, cl, h1, h2⟩, rfl⟩
  | none =>
    right
    have hn := find_cache_line_none hf
    rcases add_cache_line_shape c d s fresh hwf with ⟨h1, h2⟩ | ⟨h1, ls1, v, clv, h2, h3, h4, h5⟩
    · left
      exact ⟨hn, h1, by simp only [h2]⟩
    · right
      exact ⟨hn, h1, ls1, v, clv, h2, h3, h4, by simp only [h5]⟩

theorem evict_disk_ne (d : Disk) (clv : cache_line) {t : Nat} (h : t ≠ clv.sector_idx) :
    evict_disk d clv t = d t := by
  unfold evict_disk disk_write
  by_cases hd : clv.dirty = 0
  · simp [hd]
  · simp [hd, h]

theorem evict_disk_self (d : Disk) (clv : cache_line)
    (h : clv.dirty = 0 → clv.block = d clv.sector_idx) :
    evict_disk d clv clv.sector_idx = clv.block := by
  unfold evict_disk disk_write
  by_cases hd : clv.dirty = 0
  · simp [hd, h hd]
  · simp [hd]

theorem get_cache_line_spec (c : BufferCache) (d : Disk) (s dirty : Nat)
    (hinv : cache_inv c d) :
    ∃ c1 d1 i cl, get_cache_line c d s dirty = some (c1, d1, i) ∧
      c1.buffer_cache[i]? = some cl ∧ cl.sector_idx = s ∧
      cl.block = logical c.buffer_cache d s ∧ (dirty ≠ 0 → cl.dirty ≠ 0) ∧
      cache_inv c1 d1 ∧
      (∀ t, logical c1.buffer_cache d1 t = logical c.buffer_cache d t) ∧
      (∀ t, ¬ cached c.buffer_cache t → d1 t = d t) ∧
      (∀ t, cached c1.buffer_cache t → t = s ∨ cached c.buffer_cache t) := by
  obtain ⟨hwf, hu, hco⟩ := hinv
  rcases get_cache_line_shape c d s dirty hwf with
    ⟨i, cl, h1, h2, h3⟩ | ⟨hn, hsz, h3⟩ | ⟨hn, hsz, ls1, v, clv, h1, h2, hsame, h3⟩
  · -- hit
    have hi : i < c.buffer_cache.length := (List.getElem?_eq_some.mp h1).1
    have hblk : cl.block = logical c.buffer_cache d s := by
      rw [← h2]; exact (logical_hit d hu h1).symm
    have hnl : (⟨cl.block, cl.sector_idx, 1, if dirty ≠ 0 then 1 else cl.dirty⟩ :
        cache_line).sector_idx = cl.sector_idx := rfl
    refine ⟨_, _, _, ⟨cl.block, cl.sector_idx, 1, if dirty ≠ 0 then 1 else cl.dirty⟩, h3,
      by simp [List.getElem?_set, hi], h2, hblk, ?_, ⟨?_, ?_, ?_⟩, ?_, ?_, ?_⟩
    · intro hd; simp [hd]
    · unfold cache_wf at *; simp [hwf]
    · exact unique_set_same hu h1 hnl
    · intro j a ha hda
      rcases get_set_cases ha with ⟨_, ea⟩ | ⟨_, ha1⟩
      · subst ea
        simp only at hda ⊢
        by_cases hd : dirty = 0
        · simp only [hd, ne_eq, not_true_eq_false, if_false] at hda
          exact hco i cl h1 hda
        · simp [hd] at hda
      · exact hco j a ha1 hda
    · intro t
      simp only
      rw [logical_set_same d hu h1 hnl t]
      by_cases ht : t = cl.sector_idx
      · simp only [ht, if_true]
        exact (logical_hit d hu h1).symm
      · simp only [ht, if_false]
    · intro t _; rfl
    · intro t ht
      right
      exact (cached_set_same h1 hnl t).mp ht
  · -- miss, the cache is not full
    have hnl : (⟨d s, s, 1, dirty⟩ : cache_line).sector_idx = s := rfl
    refine ⟨_, _, _, ⟨d s, s, 1, dirty⟩, h3, get_append_last _ _, rfl,
      (logical_miss d hn).symm, ?_, ⟨?_, ?_, ?_⟩, ?_, ?_, ?_⟩
    · intro hd; exact hd
    · unfold cache_wf at *; simp [hwf]
    · exact unique_append hu hn hnl
    · intro j a ha hda
      rcases get_append_cases ha with ⟨_, ha1⟩ | ⟨_, ea⟩
      · exact hco j a ha1 hda
      · subst ea; rfl
    · intro t
      simp only
      rw [logical_append d hu hn hnl t]
      by_cases ht : t = s
      · simp only [ht, if_true]
        exact (logical_miss d hn).symm
      · simp only [ht, if_false]
    · intro t _; rfl
    · intro t ht
      exact (cached_append hnl t).mp ht
  · -- miss, a line is evicted
    have hv : v < ls1.length := (List.getElem?_eq_some.mp h1).1
    have hu1 : cache_unique ls1 := same_lines_unique hsame hu
    have hco1 : coherent ls1 d := same_lines_coherent hsame hco
    have hn1 : ¬ cached ls1 s := fun h => hn (same_lines_cached hsame h)
    have hsv : s ≠ clv.sector_idx := by
      intro e
      exact hn1 ⟨v, clv, h1, e.symm⟩
    have hds : evict_disk d clv s = d s := evict_disk_ne d clv hsv
    have hnl : (⟨evict_disk d clv s, s, 1, dirty⟩ : cache_line).sector_idx = s := rfl
    refine ⟨_, _, _, ⟨evict_disk d clv s, s, 1, dirty⟩, h3, by simp [List.getElem?_set, hv],
      rfl, ?_, ?_, ⟨?_, ?_, ?_⟩, ?_, ?_, ?_⟩
    · simp only; rw [hds]; exact (logical_miss d hn).symm
    · intro hd; exact hd
    · unfold cache_wf at *
      simp only [List.length_set]
      rw [same_lines_length hsame]; exact hwf
    · exact unique_set_new hu1 hn1 hnl
    · intro j a ha hda
      rcases get_set_cases ha with ⟨_, ea⟩ | ⟨hj, ha1⟩
      · subst ea; rfl
      · have hne : a.sector_idx ≠ clv.sector_idx := by
          intro e
          exact hj (hu1 v j clv a h1 ha1 e.symm)
        rw [evict_disk_ne d clv hne]
        exact hco1 j a ha1 hda
    · intro t
      simp only
      rw [logical_set_new _ hu1 h1 hn1 hnl t]
      by_cases ht : t = s
      · simp only [ht, if_true]
        rw [hds]; exact (logical_miss d hn).symm
      · simp only [ht, if_false]
        by_cases ht2 : t = clv.sector_idx
        · simp only [ht2, if_true]
          rw [evict_disk_self d clv (hco1 v clv h1), ← same_lines_logical hsame]
          exact (logical_hit d hu1 h1).symm
        · simp only [ht2, if_false]
          rw [← same_lines_logical hsame d t]
          by_cases hc : cached ls1 t
          · exact logical_cached_disk d _ hc
          · rw [logical_miss _ hc, logical_miss _ hc, evict_disk_ne d clv ht2]
    · intro t ht
      apply evict_disk_ne
      intro e
      exact ht (same_lines_cached hsame ⟨v, clv, h1, e.symm⟩)
    · intro t ht
      rcases (cached_set_new hu1 h1 hnl t).mp ht with e | ⟨e, _⟩
      · exact Or.inl e
      · exact Or.inr (same_lines_cached hsame e)

theorem get_cache_line_unique (c : BufferCache) (d : Disk) (s dirty : Nat)
    (hwf : cache_wf c) (hu : cache_unique c.buffer_cache) :
    ∃ c1 d1 i cl, get_cache_line c d s dirty = some (c1, d1, i) ∧
      c1.buffer_cache[i]? = some cl ∧ cache_wf c1 ∧ cache_unique c1.buffer_cache := by
  rcases get_cache_line_shape c d s dirty hwf with
    ⟨i, cl, h1, h2, h3⟩ | ⟨hn, hsz, h3⟩ | ⟨hn, hsz, ls1, v, clv, h1, h2, hsame, h3⟩
  · have hi : i < c.buffer_cache.length := (List.getElem?_eq_some.mp h1).1
    have hnl : (⟨cl.block, cl.sector_idx, 1, if dirty ≠ 0 then 1 else cl.dirty⟩ :
        cache_line).sector_idx = cl.sector_idx := rfl
    refine ⟨_, _, _, ⟨cl.block, cl.sector_idx, 1, if dirty ≠ 0 then 1 else cl.dirty⟩, h3,
      by simp [List.getElem?_set, hi], ?_, unique_set_same hu h1 hnl⟩
    unfold cache_wf at *; simp [hwf]
  · have hnl : (⟨d s, s, 1, dirty⟩ : cache_line).sector_idx = s := rfl
    refine ⟨_, _, _, ⟨d s, s, 1, dirty⟩, h3, get_append_last _ _, ?_, unique_append hu hn hnl⟩
    unfold cache_wf at *; simp [hwf]
  · have hv : v < ls1.length := (List.getElem?_eq_some.mp h1).1
    have hnl : (⟨evict_disk d clv s, s, 1, dirty⟩ : cache_line).sector_idx = s := rfl
    refine ⟨_, _, _, ⟨evict_disk d clv s, s, 1, dirty⟩, h3, by simp [List.getElem?_set, hv], ?_,
      unique_set_new (same_lines_unique hsame hu) (fun h => hn (same_lines_cached hsame h)) hnl⟩
    unfold cache_wf at *
    simp only [List.length_set]
    rw [same_lines_length hsame]; exact hwf

theorem read_ahead_get_unique (c : BufferCache) (d : Disk) (s : Nat) (fresh : cache_line)
    (hwf : cache_wf c) (hu : cache_unique c.buffer_cache) :
    ∃ c1 d1, read_ahead_get c d s fresh = some (c1, d1) ∧
      cache_wf c1 ∧ cache_unique c1.buffer_cache := by
  rcases read_ahead_get_shape c d s fresh hwf with
    ⟨_, h3⟩ | ⟨hn, hsz, h3⟩ | ⟨hn, hsz, ls1, v, clv, h1, h2, hsame, h3⟩
  · exact ⟨c, d, h3, hwf, hu⟩
  · have hnl : ({ fresh with sector_idx := s, block := d s } : cache_line).sector_idx = s := rfl
    refine ⟨_, _, h3, ?_, unique_append hu hn hnl⟩
    unfold cache_wf at *; simp [hwf]
  · have hnl : ({ clv with sector_idx := s, block := evict_disk d clv s } :
        cache_line).sector_idx = s := rfl
    refine ⟨_, _, h3, ?_,
      unique_set_new (same_lines_unique hsame hu) (fun h => hn (same_lines_cached hsame h)) hnl⟩
    unfold cache_wf at *
    simp only [List.length_set]
    rw [same_lines_length hsame]; exact hwf

theorem write_behind_loop_done (ls : List cache_line) (d : Disk) (n : Nat) :
    (write_behind_loop true ls d n).1 = [] ∧
      (write_behind_loop true ls d n).2.2 = n - ls.length := by
  induction ls generalizing d n with
  | nil => simp [write_behind_loop]
  | cons a rest ih =>
    unfold write_behind_loop
    simp only [if_true]
    obtain ⟨h1, h2⟩ := ih (if a.dirty ≠ 0 then disk_write d a.sector_idx a.block else d) (n - 1)
    refine ⟨h1, ?_⟩
    rw [h2]
    simp only [List.length_cons]
    omega

theorem write_behind_loop_keep (ls : List cache_line) (d : Disk) (n : Nat) :
    (write_behind_loop false ls d n).1
        = ls.map (fun cl => if cl.dirty ≠ 0 then { cl with dirty := 0 } else cl) ∧
      (write_behind_loop false ls d n).2.2 = n := by
  induction ls generalizing d n with
  | nil => simp [write_behind_loop]
  | cons a rest ih =>
    unfold write_behind_loop
    obtain ⟨h1, h2⟩ := ih (if a.dirty ≠ 0 then disk_write d a.sector_idx a.block else d) n
    simp only [Bool.false_eq_true, if_false, List.map_cons, h1, h2, and_self]

theorem write_behind_all_unique (c : BufferCache) (d : Disk) (done : Bool)
    (hwf : cache_wf c) (hu : cache_unique c.buffer_cache) :
    cache_wf (write_behind_all c d done).1 ∧
      cache_unique (write_behind_all c d done).1.buffer_cache := by
  unfold write_behind_all cache_wf
  cases done with
  | true =>
    obtain ⟨h1, h2⟩ := write_behind_loop_done c.buffer_cache d c.buffer_cache_size
    simp only [h1, h2]
    unfold cache_wf at hwf
    refine ⟨by simp [hwf], ?_⟩
    intro i j a b ha
    simp at ha
  | false =>
    obtain ⟨h1, h2⟩ := write_behind_loop_keep c.buffer_cache d c.buffer_cache_size
    simp only [h1, h2]
    unfold cache_wf at hwf
    refine ⟨by simp [hwf], ?_⟩
    intro i j a b ha hb hab
    simp only [List.getElem?_map, Option.map_eq_some'] at ha hb
    obtain ⟨a1, ha1, rfl⟩ := ha
    obtain ⟨b1, hb1, rfl⟩ := hb
    apply hu i j a1 b1 ha1 hb1
    by_cases hda : a1.dirty = 0 <;> by_cases hdb : b1.dirty = 0 <;>
      simpa [hda, hdb] using hab

theorem cache_run_unique (ops : List CacheOp) (c : BufferCache) (d : Disk)
    (hwf : cache_wf c) (hu : cache_unique c.buffer_cache) :
    ∃ c1 d1, cache_run (c, d) ops = some (c1, d1) ∧ cache_wf c1 ∧
      cache_unique c1.buffer_cache := by
  induction ops generalizing c d with
  | nil => exact ⟨c, d, rfl, hwf, hu⟩
  | cons op ops ih =>
    unfold cache_run
    cases op with
    | get s dirty =>
      obtain ⟨c1, d1, i, cl, h1, _, h2, h3⟩ := get_cache_line_unique c d s dirty hwf hu
      simp only [cache_step, h1]
      exact ih c1 d1 h2 h3
    | read_ahead s fresh =>
      obtain ⟨c1, d1, h1, h2, h3⟩ := read_ahead_get_unique c d s fresh hwf hu
      simp only [cache_step, h1]
      exact ih c1 d1 h2 h3
    | write_behind done =>
      obtain ⟨h2, h3⟩ := write_behind_all_unique c d done hwf hu
      simp only [cache_step]
      exact ih _ _ h2 h3

/-- C10: starting from the empty cache, every sequence of `get_cache_line`
calls, read-ahead rounds and `write_behind_all` calls runs to completion and
leaves a cache in which no two lines hold the same sector. -/
theorem cache_uniqueness_invariant (d : Disk) (ops : List CacheOp) :
    ∃ c1 d1, cache_run (init_buffer_cache, d) ops = some (c1, d1) ∧
      ∀ (i j : Nat) (a b : cache_line), c1.buffer_cache[i]? = some a →
        c1.buffer_cache[j]? = some b → i ≠ j → a.sector_idx ≠ b.sector_idx := by
  obtain ⟨c1, d1, h1, _, h3⟩ := cache_run_unique ops init_buffer_cache d rfl
    (by intro i j a b ha; simp [init_buffer_cache] at ha)
  exact ⟨c1, d1, h1, fun i j a b ha hb hij hab => hij (h3 i j a b ha hb hab)⟩

theorem get_cache_line_total (c : BufferCache) (d : Disk) (s dirty : Nat) (hwf : cache_wf c) :
    ∃ c1 d1 i cl, get_cache_line c d s dirty = some (c1, d1, i) ∧
      c1.buffer_cache[i]? = some cl ∧ cache_wf c1 := by
  rcases get_cache_line_shape c d s dirty hwf with
    ⟨i, cl, h1, h2, h3⟩ | ⟨hn, hsz, h3⟩ | ⟨hn, hsz, ls1, v, clv, h1, h2, hsame, h3⟩
  · have hi : i < c.buffer_cache.length := (List.getElem?_eq_some.mp h1).1
    refine ⟨_, _, _, ⟨cl.block, cl.sector_idx, 1, if dirty ≠ 0 then 1 else cl.dirty⟩, h3,
      by simp [List.getElem?_set, hi], ?_⟩
    unfold cache_wf at *; simp [hwf]
  · refine ⟨_, _, _, ⟨d s, s, 1, dirty⟩, h3, get_append_last _ _, ?_⟩
    unfold cache_wf at *; simp [hwf]
  · have hv : v < ls1.length := (List.getElem?_eq_some.mp h1).1
    refine ⟨_, _, _, ⟨evict_disk d clv s, s, 1, dirty⟩, h3, by simp [List.getElem?_set, hv], ?_⟩
    unfold cache_wf at *
    simp only [List.length_set]
    rw [same_lines_length hsame]; exact hwf

theorem read_loop_length (fuel : Nat) (fs : Filesys) (ino : inode) (buffer : Nat → Nat)
    (size offset bytes_read : Nat) (hwf : cache_wf fs.cache) (hf : size ≤ fuel) :
    ∃ fs1 buf1, read_loop fuel fs ino buffer size offset bytes_read
        = some (fs1, buf1, bytes_read + min size (ino.read_length - offset)) ∧
      cache_wf fs1.cache ∧
      (∀ j, j < bytes_read ∨ bytes_read + min size (ino.read_length - offset) ≤ j →
        buf1 j = buffer j) := by
  induction fuel generalizing fs buffer size offset bytes_read with
  | zero =>
    have : size = 0 := by omega
    subst this
    exact ⟨fs, buffer, by simp [read_loop], hwf, fun _ _ => rfl⟩
  | succ fuel ih =>
    unfold read_loop
    by_cases hs : size > 0
    · simp only [hs, if_true]
      have hmod : offset % 512 < 512 := Nat.mod_lt _ (by norm_num)
      generalize hch : (if size < (if ino.read_length - offset < DISK_SECTOR_SIZE - offset % DISK_SECTOR_SIZE
          then ino.read_length - offset else DISK_SECTOR_SIZE - offset % DISK_SECTOR_SIZE) then size
          else (if ino.read_length - offset < DISK_SECTOR_SIZE - offset % DISK_SECTOR_SIZE
            then ino.read_length - offset else DISK_SECTOR_SIZE - offset % DISK_SECTOR_SIZE)) = chunk
      have hc2 : chunk ≤ size := by
        rw [← hch]; simp only [DISK_SECTOR_SIZE]; split_ifs <;> omega
      have hc3 : chunk ≤ ino.read_length - offset := by
        rw [← hch]; simp only [DISK_SECTOR_SIZE]; split_ifs <;> omega
      have hc4 : chunk = 0 → ino.read_length - offset = 0 := by
        rw [← hch]; simp only [DISK_SECTOR_SIZE]; split_ifs <;> omega
      by_cases hl : chunk ≤ 0
      · refine ⟨fs, buffer, ?_, hwf, fun _ _ => rfl⟩
        simp only [hl, if_true]
        have := hc4 (by omega)
        rw [this]
        simp
      · have hc1 : 0 < chunk := by omega
        have hc0 : ¬ chunk ≤ 0 := by omega
        simp only [hc0, if_false]
        generalize hfs1 : (if byte_to_sector fs.disk ino (offset + chunk) ino.read_length ≠ 4294967295
          then read_ahead_put fs (byte_to_sector fs.disk ino (offset + chunk) ino.read_length)
          else fs) = fs1
        have hfc : fs1.cache = fs.cache := by
          rw [← hfs1]; unfold read_ahead_put; split_ifs <;> rfl
        have hfd : fs1.disk = fs.disk := by
          rw [← hfs1]; unfold read_ahead_put; split_ifs <;> rfl
        obtain ⟨c1, d1, i, cl, h1, h2, h3⟩ := get_cache_line_total fs1.cache fs1.disk
          (byte_to_sector fs.disk ino offset ino.read_length) 0 (by rw [hfc]; exact hwf)
        simp only [h1, h2]
        obtain ⟨fs2, buf2, h4, h5, h6⟩ := ih { fs1 with cache := c1, disk := d1 }
          (memcpy buffer bytes_read cl.block (offset % DISK_SECTOR_SIZE) chunk)
          (size - chunk) (offset + chunk) (bytes_read + chunk) h3 (by omega)
        refine ⟨fs2, buf2, ?_, h5, ?_⟩
        · rw [h4]
          congr 3
          omega
        · intro j hj
          rw [h6 j (by omega)]
          unfold memcpy
          have : ¬ (bytes_read ≤ j ∧ j < bytes_read + chunk) := by omega
          simp only [this, if_false]
    · have : size = 0 := by omega
      subst this
      exact ⟨fs, buffer, by simp, hwf, fun _ _ => rfl⟩

theorem bitmap_scan_and_flip_spec (bm : List Bool) (h : false ∈ bm) :
    ∃ i, bitmap_scan_and_flip bm = some (bm.set i true, i) ∧ bm[i]? = some false := by
  induction bm with
  | nil => simp at h
  | cons b rest ih =>
    unfold bitmap_scan_and_flip
    cases b with
    | false => exact ⟨0, by simp, by simp⟩
    | true =>
      have h1 : false ∈ rest := by simpa using h
      obtain ⟨i, h2, h3⟩ := ih h1
      exact ⟨i + 1, by simp [h2], by simpa using h3⟩

theorem swap_out_loop_spec (frame : Nat → Nat) (free_i : Nat) (n i : Nat) (d : Disk) (t : Nat) :
    swap_out_loop frame free_i n i d t =
      if free_i * SECTORS_PER_PAGE + i ≤ t ∧ t < free_i * SECTORS_PER_PAGE + i + n then
        mem_sector frame ((t - free_i * SECTORS_PER_PAGE) * DISK_SECTOR_SIZE)
      else d t := by
  induction n generalizing i d with
  | zero =>
    have : ¬ (free_i * SECTORS_PER_PAGE + i ≤ t ∧ t < free_i * SECTORS_PER_PAGE + i + 0) := by omega
    simp only [swap_out_loop, this, if_false]
  | succ n ih =>
    unfold swap_out_loop
    rw [ih]
    by_cases h1 : free_i * SECTORS_PER_PAGE + (i + 1) ≤ t ∧
        t < free_i * SECTORS_PER_PAGE + (i + 1) + n
    · have h2 : free_i * SECTORS_PER_PAGE + i ≤ t ∧ t < free_i * SECTORS_PER_PAGE + i + (n + 1) := by
        omega
      simp only [h1, h2, and_self, if_true]
    · simp only [h1, if_false]
      unfold disk_write
      by_cases h3 : t = free_i * SECTORS_PER_PAGE + i
      · have h2 : free_i * SECTORS_PER_PAGE + i ≤ t ∧
            t < free_i * SECTORS_PER_PAGE + i + (n + 1) := by omega
        simp only [h3, if_true, h2]
        have : free_i * SECTORS_PER_PAGE + i - free_i * SECTORS_PER_PAGE = i := by omega
        rw [if_pos (by omega), this]
      · have h2 : ¬ (free_i * SECTORS_PER_PAGE + i ≤ t ∧
            t < free_i * SECTORS_PER_PAGE + i + (n + 1)) := by omega
        simp only [h3, if_false, h2]

theorem swap_in_loop_spec (d : Disk) (used_i : Nat) (n i : Nat) (frame : Nat → Nat) (j : Nat) :
    swap_in_loop d used_i n i frame j =
      if i * DISK_SECTOR_SIZE ≤ j ∧ j < (i + n) * DISK_SECTOR_SIZE then
        d (used_i * SECTORS_PER_PAGE + j / DISK_SECTOR_SIZE) (j % DISK_SECTOR_SIZE)
      else frame j := by
  induction n generalizing i frame with
  | zero =>
    have : ¬ (i * DISK_SECTOR_SIZE ≤ j ∧ j < (i + 0) * DISK_SECTOR_SIZE) := by
      simp only [DISK_SECTOR_SIZE]; omega
    simp only [swap_in_loop, this, if_false]
  | succ n ih =>
    unfold swap_in_loop
    rw [ih]
    simp only [DISK_SECTOR_SIZE] at *
    by_cases h1 : (i + 1) * 512 ≤ j ∧ j < (i + 1 + n) * 512
    · have h2 : i * 512 ≤ j ∧ j < (i + (n + 1)) * 512 := by omega
      simp only [h1, h2, and_self, if_true]
    · simp only [h1, if_false]
      unfold memcpy
      by_cases h3 : i * 512 ≤ j ∧ j < i * 512 + 512
      · have h2 : i * 512 ≤ j ∧ j < (i + (n + 1)) * 512 := by omega
        simp only [h3, and_self, if_true, h2]
        have e1 : j / 512 = i := by omega
        have e2 : 0 + (j - i * 512) = j % 512 := by omega
        rw [e1, e2]
      · have h2 : ¬ (i * 512 ≤ j ∧ j < (i + (n + 1)) * 512) := by omega
        simp only [h3, if_false, h2]

/-- C8: swap round trip.  With a free slot in the bitmap, `swap_out` of a
page followed by `swap_in` of the returned slot into any frame gives back the
page byte for byte (and touches nothing beyond the 4096 bytes of the frame),
leaves the bit of the slot clear and every other bit as it was before
`swap_out`, and leaves every sector outside the slot unchanged. -/
theorem swap_round_trip (st : SwapState) (P P0 : Nat → Nat) (hfree : false ∈ st.swap_bitmap) :
    ∃ st1 i st2 P1, swap_out st P = some (st1, i) ∧ swap_in st1 P0 i = some (st2, P1) ∧
      (∀ j, j < 4096 → P1 j = P j) ∧ (∀ j, 4096 ≤ j → P1 j = P0 j) ∧
      st2.swap_bitmap[i]? = some false ∧
      (∀ k, k ≠ i → st2.swap_bitmap[k]? = st.swap_bitmap[k]?) ∧
      (∀ t, ¬ (i * SECTORS_PER_PAGE ≤ t ∧ t < i * SECTORS_PER_PAGE + SECTORS_PER_PAGE) →
        st2.swap_disk t = st.swap_disk t) := by
  obtain ⟨i, h1, h2⟩ := bitmap_scan_and_flip_spec st.swap_bitmap hfree
  have hi : i < st.swap_bitmap.length := (List.getElem?_eq_some.mp h2).1
  refine ⟨⟨swap_out_loop P i SECTORS_PER_PAGE 0 st.swap_disk, st.swap_bitmap.set i true⟩, i,
    ⟨swap_out_loop P i SECTORS_PER_PAGE 0 st.swap_disk, (st.swap_bitmap.set i true).set i false⟩,
    swap_in_loop (swap_out_loop P i SECTORS_PER_PAGE 0 st.swap_disk) i SECTORS_PER_PAGE 0 P0,
    by simp only [swap_out, h1], ?_, ?_, ?_, ?_, ?_, ?_⟩
  · simp [swap_in, List.getElem?_set, hi]
  · intro j hj
    simp only [swap_in_loop_spec, swap_out_loop_spec, DISK_SECTOR_SIZE, SECTORS_PER_PAGE]
    have e1 : 0 * 512 ≤ j ∧ j < (0 + 8) * 512 := by omega
    have e2 : i * 8 + 0 ≤ i * 8 + j / 512 ∧ i * 8 + j / 512 < i * 8 + 0 + 8 := by omega
    simp only [e1, e2, and_self, if_true, mem_sector, DISK_SECTOR_SIZE]
    have e3 : j % 512 < 512 := Nat.mod_lt _ (by norm_num)
    have e4 : (i * 8 + j / 512 - i * 8) * 512 + j % 512 = j := by omega
    simp only [e3, if_true, e4]
  · intro j hj
    simp only [swap_in_loop_spec, DISK_SECTOR_SIZE, SECTORS_PER_PAGE]
    have e1 : ¬ (0 * 512 ≤ j ∧ j < (0 + 8) * 512) := by omega
    simp only [e1, if_false]
  · simp [List.getElem?_set, hi]
  · intro k hk
    simp only [Bool.not_true, List.set_set]
    rw [List.getElem?_set_ne (Ne.symm hk)]
  · intro t ht
    simp only [swap_out_loop_spec]
    have : ¬ (i * SECTORS_PER_PAGE + 0 ≤ t ∧ t < i * SECTORS_PER_PAGE + 0 + SECTORS_PER_PAGE) := by
      simpa using ht
    simp only [this, if_false]

/-! ### Open inodes -/

theorem open_scan_maps {t t1 : OpenInodes} {S p : Nat} (h : open_scan t S = some (t1, p)) :
    t1.map (fun e => e.1) = t.map (fun e => e.1) ∧
      t1.map (fun e => e.2.sector) = t.map (fun e => e.2.sector) ∧
      ∃ ino, (p, ino) ∈ t1 ∧ ino.sector = S := by
  induction t generalizing t1 p with
  | nil => simp [open_scan] at h
  | cons a rest ih =>
    obtain ⟨q, x⟩ := a
    unfold open_scan at h
    by_cases hs : x.sector = S
    · rw [if_pos hs] at h
      simp only [Option.some.injEq, Prod.mk.injEq] at h
      obtain ⟨rfl, rfl⟩ := h
      exact ⟨by simp, by simp, { x with open_cnt := x.open_cnt + 1 }, List.mem_cons_self _ _, hs⟩
    · simp only [hs, if_false] at h
      cases hr : open_scan rest S with
      | none => simp [hr] at h
      | some r =>
        obtain ⟨rest1, q1⟩ := r
        simp only [hr, Option.some.injEq, Prod.mk.injEq] at h
        obtain ⟨rfl, rfl⟩ := h
        obtain ⟨h1, h2, ino, h3, h4⟩ := ih hr
        exact ⟨by simp [h1], by simp [h2], ino, List.mem_cons_of_mem _ h3, h4⟩

theorem open_scan_none {t : OpenInodes} {S : Nat} (h : open_scan t S = none) :
    S ∉ t.map (fun e => e.2.sector) := by
  induction t with
  | nil => simp
  | cons a rest ih =>
    obtain ⟨q, x⟩ := a
    unfold open_scan at h
    by_cases hs : x.sector = S
    · simp [hs] at h
    · simp only [hs, if_false] at h
      cases hr : open_scan rest S with
      | none =>
        have := ih hr
        simp only [List.map_cons, List.mem_cons, not_or]
        exact ⟨fun e => hs e.symm, this⟩
      | some r => simp [hr] at h

theorem inode_at_mem {t : OpenInodes} {p : Nat} {ino : inode} (h : inode_at t p = some ino) :
    (p, ino) ∈ t := by
  induction t with
  | nil => simp [inode_at] at h
  | cons a rest ih =>
    obtain ⟨q, x⟩ := a
    unfold inode_at at h
    by_cases hq : q = p
    · simp only [hq, if_true, Option.some.injEq] at h
      subst h hq
      simp
    · simp only [hq, if_false] at h
      exact List.mem_cons_of_mem _ (ih h)

theorem inode_at_none {t : OpenInodes} {p : Nat} (h : inode_at t p = none) :
    p ∉ t.map (fun e => e.1) := by
  induction t with
  | nil => simp
  | cons a rest ih =>
    obtain ⟨q, x⟩ := a
    unfold inode_at at h
    by_cases hq : q = p
    · simp [hq] at h
    · simp only [hq, if_false] at h
      simp only [List.map_cons, List.mem_cons, not_or]
      exact ⟨fun e => hq e.symm, ih h⟩

theorem open_scan_hit {t : OpenInodes} {p : Nat} {ino : inode}
    (hs : (t.map (fun e => e.2.sector)).Nodup) (h : inode_at t p = some ino) :
    ∃ t1, open_scan t ino.sector = some (t1, p) ∧
      inode_at t1 p = some { ino with open_cnt := ino.open_cnt + 1 } ∧
      t1.length = t.length := by
  induction t with
  | nil => simp [inode_at] at h
  | cons a rest ih =>
    obtain ⟨q, x⟩ := a
    unfold inode_at at h
    simp only [List.map_cons, List.nodup_cons] at hs
    by_cases hq : q = p
    · simp only [hq, if_true, Option.some.injEq] at h
      subst h hq
      exact ⟨(q, { x with open_cnt := x.open_cnt + 1 }) :: rest, by simp [open_scan],
        by simp [inode_at], rfl⟩
    · simp only [hq, if_false] at h
      have hne : x.sector ≠ ino.sector := by
        intro e
        apply hs.1
        rw [e]
        exact List.mem_map.mpr ⟨(p, ino), inode_at_mem h, rfl⟩
      obtain ⟨t1, h1, h2, h3⟩ := ih hs.2 h
      refine ⟨(q, x) :: t1, ?_, ?_, by simp [h3]⟩
      · unfold open_scan
        simp only [hne, if_false, h1]
      · unfold inode_at
        simp only [hq, if_false]
        exact h2

theorem inode_at_cons_self (a : Nat) (x : inode) (t : OpenInodes) :
    inode_at ((a, x) :: t) a = some x := by
  simp [inode_at]

theorem inode_at_of_mem {t : OpenInodes} {p : Nat} {ino : inode}
    (ha : (t.map (fun e => e.1)).Nodup) (h : (p, ino) ∈ t) : inode_at t p = some ino := by
  induction t with
  | nil => simp at h
  | cons a rest ih =>
    obtain ⟨q, x⟩ := a
    simp only [List.map_cons, List.nodup_cons] at ha
    unfold inode_at
    rcases List.mem_cons.mp h with e | e
    · simp only [Prod.mk.injEq] at e
      obtain ⟨rfl, rfl⟩ := e
      simp
    · have hq : q ≠ p := by
        intro e1
        apply ha.1
        rw [e1]
        exact List.mem_map.mpr ⟨(p, ino), e, rfl⟩
      simp only [hq, if_false]
      exact ih ha.2 e

theorem inode_open_fresh {t : OpenInodes} (d : Disk) {S : Nat} (m : Option Nat) {p : Nat}
    (ha : (t.map (fun e => e.1)).Nodup)
    (h : (inode_open t d S m).2 = some p) :
    ∃ ino, inode_at (inode_open t d S m).1 p = some ino ∧ ino.sector = S := by
  unfold inode_open at h ⊢
  cases hsc : open_scan t S with
  | some r =>
    obtain ⟨t1, q⟩ := r
    simp only [hsc, Option.some.injEq] at h ⊢
    subst h
    obtain ⟨h1, _, ino, h3, h4⟩ := open_scan_maps hsc
    exact ⟨ino, inode_at_of_mem (by rw [h1]; exact ha) h3, h4⟩
  | none =>
    cases m with
    | none => simp [hsc] at h
    | some a =>
      simp only [hsc, Option.some.injEq] at h ⊢
      subst h
      exact ⟨_, inode_at_cons_self _ _ _, rfl⟩

theorem inode_at_map (t : OpenInodes) (q p : Nat) (g : inode → inode) :
    inode_at (t.map (fun e => if e.1 = q then (e.1, g e.2) else e)) p
      = (inode_at t p).map (fun x => if p = q then g x else x) := by
  induction t with
  | nil => simp [inode_at]
  | cons a rest ih =>
    obtain ⟨r, x⟩ := a
    simp only [List.map_cons]
    by_cases hr : r = q
    · simp only [hr, if_true]
      unfold inode_at
      by_cases hq : q = p
      · simp [hq]
      · simp only [hq, if_false]
        exact ih
    · simp only [hr, if_false]
      unfold inode_at
      by_cases hp : r = p
      · subst hp
        simp [hr]
      · simp only [hp, if_false]
        exact ih

theorem inode_at_filter (t : OpenInodes) {q p : Nat} (h : q ≠ p) :
    inode_at (t.filter (fun e => e.1 ≠ q)) p = inode_at t p := by
  induction t with
  | nil => simp [inode_at]
  | cons a rest ih =>
    obtain ⟨r, x⟩ := a
    by_cases hr : r = q
    · subst hr
      simp only [ne_eq, not_true_eq_false, decide_False, Bool.false_eq_true, not_false_eq_true,
        List.filter_cons_of_neg]
      rw [ih]
      simp [inode_at, h]
    · simp only [ne_eq, hr, not_false_eq_true, decide_True, List.filter_cons_of_pos]
      unfold inode_at
      by_cases hp : r = p
      · simp [hp]
      · simp only [hp, if_false]
        exact ih

theorem map_keeps_inv (t : OpenInodes) (q : Nat) (g : inode → inode)
    (hg : ∀ e ∈ t, e.1 = q → (g e.2).sector = e.2.sector) (h : open_inv t) :
    open_inv (t.map (fun e => if e.1 = q then (e.1, g e.2) else e)) := by
  unfold open_inv at *
  have h1 : (t.map (fun e => if e.1 = q then (e.1, g e.2) else e)).map (fun e => e.1)
      = t.map (fun e => e.1) := by
    rw [List.map_map]
    apply List.map_congr_left
    intro e _
    simp only [Function.comp]
    split_ifs <;> rfl
  have h2 : (t.map (fun e => if e.1 = q then (e.1, g e.2) else e)).map (fun e => e.2.sector)
      = t.map (fun e => e.2.sector) := by
    rw [List.map_map]
    apply List.map_congr_left
    intro e he
    simp only [Function.comp]
    split_ifs with hq
    · exact hg e he hq
    · rfl
  rw [h1, h2]
  exact h

theorem inode_open_keeps_inv (t : OpenInodes) (d : Disk) (S : Nat) (m : Option Nat)
    (hm : ∀ a, m = some a → inode_at t a = none) (h : open_inv t) :
    open_inv (inode_open t d S m).1 := by
  unfold inode_open
  cases hsc : open_scan t S with
  | some r =>
    obtain ⟨t1, q⟩ := r
    obtain ⟨h1, h2, _⟩ := open_scan_maps hsc
    simp only
    unfold open_inv at *
    rw [h1, h2]
    exact h
  | none =>
    cases m with
    | none => exact h
    | some a =>
      simp only
      unfold open_inv at *
      simp only [List.map_cons, List.nodup_cons]
      exact ⟨⟨inode_at_none (hm a rfl), h.1⟩, ⟨open_scan_none hsc, h.2⟩⟩

theorem inode_step_keeps_inv (t : OpenInodes) (fs : Filesys) (op : InodeOp)
    (st1 : OpenInodes × Filesys) (hst : inode_step (t, fs) op = some st1) (h : open_inv t) :
    open_inv st1.1 := by
  cases op with
  | «open» S m =>
    cases m with
    | none =>
      simp only [inode_step, Option.some.injEq] at hst
      subst hst
      exact inode_open_keeps_inv t fs.disk S none (by intro a ha; cases ha) h
    | some a =>
      simp only [inode_step] at hst
      cases hat : inode_at t a with
      | some x => simp [hat] at hst
      | none =>
        simp only [hat, Option.isSome_none, Bool.false_eq_true, if_false,
          Option.some.injEq] at hst
        subst hst
        apply inode_open_keeps_inv t fs.disk S (some a) _ h
        intro b hb
        cases hb
        exact hat
  | reopen p =>
    simp only [inode_step, inode_reopen, Option.some.injEq] at hst
    subst hst
    exact map_keeps_inv t p (fun x => { x with open_cnt := x.open_cnt + 1 })
      (fun _ _ _ => rfl) h
  | remove p =>
    simp only [inode_step, Option.some.injEq] at hst
    subst hst
    exact map_keeps_inv t p inode_remove (fun _ _ _ => rfl) h
  | close p u =>
    simp only [inode_step, inode_close] at hst
    cases hat : inode_at t p with
    | none => simp [hat] at hst
    | some x =>
      simp only [hat] at hst
      have hfilter : open_inv (t.filter (fun e => e.1 ≠ p)) := by
        unfold open_inv at *
        exact ⟨h.1.sublist ((List.filter_sublist t).map _),
          h.2.sublist ((List.filter_sublist t).map _)⟩
      split_ifs at hst <;> simp only [Option.some.injEq] at hst <;> subst hst
      · exact hfilter
      · exact hfilter
      · apply map_keeps_inv t p (fun _ => { x with open_cnt := x.open_cnt - 1 }) _ h
        intro e he hq
        have : inode_at t p = some e.2 := inode_at_of_mem h.1 (by rw [← hq]; exact he)
        rw [hat] at this
        simp only [Option.some.injEq] at this
        rw [← this]

theorem inode_run_keeps_inv (ops : List InodeOp) (t : OpenInodes) (fs : Filesys)
    (st1 : OpenInodes × Filesys) (hrun : inode_run (t, fs) ops = some st1) (h : open_inv t) :
    open_inv st1.1 := by
  induction ops generalizing t fs with
  | nil =>
    simp only [inode_run, Option.some.injEq] at hrun
    subst hrun
    exact h
  | cons op ops ih =>
    unfold inode_run at hrun
    cases hs : inode_step (t, fs) op with
    | none => simp [hs] at hrun
    | some st2 =>
      simp only [hs] at hrun
      exact ih st2.1 st2.2 hrun (inode_step_keeps_inv t fs op st2 hs h)

theorem open_scan_other {t t1 : OpenInodes} {S q p : Nat} {ino : inode}
    (h : open_scan t S = some (t1, q)) (hat : inode_at t p = some ino) (hne : ino.sector ≠ S) :
    inode_at t1 p = some ino := by
  induction t generalizing t1 q with
  | nil => simp [open_scan] at h
  | cons a rest ih =>
    obtain ⟨r, x⟩ := a
    unfold open_scan at h
    unfold inode_at at hat
    by_cases hs : x.sector = S
    · rw [if_pos hs] at h
      simp only [Option.some.injEq, Prod.mk.injEq] at h
      obtain ⟨rfl, rfl⟩ := h
      by_cases hr : r = p
      · simp only [hr, if_true, Option.some.injEq] at hat
        subst hat
        exact absurd hs hne
      · simp only [hr, if_false] at hat
        unfold inode_at
        simp only [hr, if_false]
        exact hat
    · rw [if_neg hs] at h
      cases hr : open_scan rest S with
      | none => simp [hr] at h
      | some r1 =>
        obtain ⟨rest1, q1⟩ := r1
        simp only [hr, Option.some.injEq, Prod.mk.injEq] at h
        obtain ⟨rfl, rfl⟩ := h
        unfold inode_at
        by_cases hrp : r = p
        · simp only [hrp, if_true] at hat ⊢
          exact hat
        · simp only [hrp, if_false] at hat ⊢
          exact ih hr hat

theorem inode_step_stays (t : OpenInodes) (fs : Filesys) (op : InodeOp)
    (st1 : OpenInodes × Filesys) (p : Nat) (ino : inode) (h : open_inv t)
    (hat : inode_at t p = some ino) (hst : inode_step (t, fs) op = some st1)
    (hop : ∀ u, op = InodeOp.close p u → ino.open_cnt ≠ 1) :
    ∃ ino1, inode_at st1.1 p = some ino1 ∧ ino1.sector = ino.sector := by
  cases op with
  | «open» S m =>
    have key : ∀ m1 : Option Nat, (∀ a, m1 = some a → inode_at t a = none) →
        ∃ ino1, inode_at (inode_open t fs.disk S m1).1 p = some ino1 ∧
          ino1.sector = ino.sector := by
      intro m1 hm1
      unfold inode_open
      cases hsc : open_scan t S with
      | some r =>
        obtain ⟨t1, q⟩ := r
        simp only
        by_cases hS : S = ino.sector
        · subst hS
          obtain ⟨t2, h1, h2, _⟩ := open_scan_hit h.2 hat
          rw [hsc] at h1
          simp only [Option.some.injEq, Prod.mk.injEq] at h1
          obtain ⟨rfl, rfl⟩ := h1
          exact ⟨_, h2, rfl⟩
        · -- another inode is reopened
          exact ⟨ino, open_scan_other hsc hat (fun e => hS e.symm), rfl⟩
      | none =>
        cases m1 with
        | none => exact ⟨ino, hat, rfl⟩
        | some a =>
          simp only
          have hne : a ≠ p := by
            intro e
            have := hm1 a rfl
            rw [e, hat] at this
            cases this
          unfold inode_at
          simp only [hne, if_false]
          exact ⟨ino, hat, rfl⟩
    cases m with
    | none =>
      simp only [inode_step, Option.some.injEq] at hst
      subst hst
      exact key none (by intro a ha; cases ha)
    | some a =>
      simp only [inode_step] at hst
      cases hata : inode_at t a with
      | some x => simp [hata] at hst
      | none =>
        simp only [hata, Option.isSome_none, Bool.false_eq_true, if_false,
          Option.some.injEq] at hst
        subst hst
        apply key (some a)
        intro b hb
        cases hb
        exact hata
  | reopen q =>
    simp only [inode_step, inode_reopen, Option.some.injEq] at hst
    subst hst
    simp only
    rw [inode_at_map t q p (fun x => { x with open_cnt := x.open_cnt + 1 }), hat]
    simp only [Option.map_some']
    split_ifs <;> exact ⟨_, rfl, rfl⟩
  | remove q =>
    simp only [inode_step, Option.some.injEq] at hst
    subst hst
    simp only
    rw [inode_at_map t q p inode_remove, hat]
    simp only [Option.map_some']
    split_ifs <;> exact ⟨_, rfl, rfl⟩
  | close q u =>
    simp only [inode_step, inode_close] at hst
    cases hatq : inode_at t q with
    | none => simp [hatq] at hst
    | some x =>
      simp only [hatq] at hst
      by_cases hqp : q = p
      · subst hqp
        rw [hat] at hatq
        simp only [Option.some.injEq] at hatq
        subst hatq
        have h1 : ¬ ino.open_cnt - 1 = 0 := by
          have := hop u rfl
          omega
        simp only [h1, if_false, Option.some.injEq] at hst
        subst hst
        simp only
        rw [inode_at_map t q q (fun _ => { ino with open_cnt := ino.open_cnt - 1 }), hat]
        simp only [Option.map_some', if_true]
        exact ⟨_, rfl, rfl⟩
      · split_ifs at hst <;> simp only [Option.some.injEq] at hst <;> subst hst <;> simp only
        · rw [inode_at_filter t hqp]; exact ⟨ino, hat, rfl⟩
        · rw [inode_at_filter t hqp]; exact ⟨ino, hat, rfl⟩
        · rw [inode_at_map t q p (fun _ => { x with open_cnt := x.open_cnt - 1 }), hat]
          simp only [Option.map_some']
          have : ¬ p = q := fun e => hqp e.symm
          simp only [this, if_false]
          exact ⟨ino, rfl, rfl⟩

/-- C9: open-inode identity.  In every state reached from `inode_init` by
opening, reopening, removing and closing inodes: (1) no two inodes on the open
list have the same sector; (2) a successful `inode_open (S)` returns an inode
that is on the list and has sector `S`; (3) an inode that is on the list stays
there, with its sector, through every operation except a close that brings its
`open_cnt` to zero; (4) for an inode on the list, `inode_open` of its sector
returns that very inode, with `open_cnt` increased by exactly 1 and the list
not grown. -/
theorem open_inode_identity (fs0 : Filesys) (ops : List InodeOp) (t : OpenInodes) (fs : Filesys)
    (hrun : inode_run (inode_init, fs0) ops = some (t, fs)) :
    (t.map (fun e => e.2.sector)).Nodup ∧
    (∀ (d : Disk) (S : Nat) (m : Option Nat) (p : Nat),
      (inode_open t d S m).2 = some p →
        ∃ ino, inode_at (inode_open t d S m).1 p = some ino ∧ ino.sector = S) ∧
    (∀ (p : Nat) (ino : inode) (op : InodeOp) (st1 : OpenInodes × Filesys),
      inode_at t p = some ino → inode_step (t, fs) op = some st1 →
      (∀ u, op = InodeOp.close p u → ino.open_cnt ≠ 1) →
        ∃ ino1, inode_at st1.1 p = some ino1 ∧ ino1.sector = ino.sector) ∧
    (∀ (p : Nat) (ino : inode) (d : Disk) (m : Option Nat), inode_at t p = some ino →
      (inode_open t d ino.sector m).2 = some p ∧
      inode_at (inode_open t d ino.sector m).1 p
        = some { ino with open_cnt := ino.open_cnt + 1 } ∧
      (inode_open t d ino.sector m).1.length = t.length) := by
  have hinv : open_inv t :=
    inode_run_keeps_inv ops inode_init fs0 (t, fs) hrun
      ⟨by simp [inode_init], by simp [inode_init]⟩
  refine ⟨hinv.2, ?_, ?_, ?_⟩
  · intro d S m p h
    exact inode_open_fresh d m hinv.1 h
  · intro p ino op st1 hat hst hop
    exact inode_step_stays t fs op st1 p ino hinv hat hst hop
  · intro p ino d m hat
    obtain ⟨t1, h1, h2, h3⟩ := open_scan_hit hinv.2 hat
    simp only [inode_open, h1]
    exact ⟨trivial, h2, h3⟩

/-! ### Growth: termination and the new length -/

theorem same_meta_refl (a : inode) : same_meta a a :=
  ⟨rfl, rfl, rfl, rfl, rfl, rfl, rfl⟩

theorem same_meta_trans {a b c : inode} (h1 : same_meta a b) (h2 : same_meta b c) :
    same_meta a c := by
  obtain ⟨a1, a2, a3, a4, a5, a6, a7⟩ := h1
  obtain ⟨b1, b2, b3, b4, b5, b6, b7⟩ := h2
  exact ⟨a1.trans b1, a2.trans b2, a3.trans b3, a4.trans b4, a5.trans b5, a6.trans b6,
    a7.trans b7⟩

theorem grow_indirect_loop_total (fuel : Nat) (g : GrowState) (L : Nat)
    (h1 : 1 ≤ g.sectors_to_add) (hf : g.sectors_to_add ≤ fuel) :
    ∃ g1 flag, grow_indirect_loop fuel g L = some (g1, flag) ∧ same_meta g1.ino g.ino ∧
      (flag = true → g1.ino.length = L) ∧
      (flag = false → 1 ≤ g1.sectors_to_add ∧ g1.old_sectors = max g.old_sectors 129 ∧
        g1.ino.length = g.ino.length) := by
  induction fuel generalizing g with
  | zero => omega
  | succ fuel ih =>
    unfold grow_indirect_loop
    by_cases hlt : g.old_sectors < 129
    · simp only [hlt, if_true]
      by_cases hz : g.sectors_to_add - 1 = 0
      · simp only [hz, if_true]
        exact ⟨_, true, rfl, same_meta_refl _, fun _ => rfl, (fun h => by cases h)⟩
      · simp only [hz, if_false]
        obtain ⟨g1, flag, e1, e2, e3, e4⟩ := ih
          { g with free_map := (free_map_allocate g.free_map (g.indirect_buffer (g.old_sectors - 1))).2.1,
                   indirect_buffer := set_word g.indirect_buffer (g.old_sectors - 1)
                     (free_map_allocate g.free_map (g.indirect_buffer (g.old_sectors - 1))).2.2,
                   disk := disk_write g.disk
                     (free_map_allocate g.free_map (g.indirect_buffer (g.old_sectors - 1))).2.2 zeros,
                   sectors_to_add := g.sectors_to_add - 1, old_sectors := g.old_sectors + 1 }
          (by simp only; omega) (by simp only; omega)
        refine ⟨g1, flag, e1, e2, e3, ?_⟩
        intro hfl
        obtain ⟨a1, a2, a3⟩ := e4 hfl
        refine ⟨a1, ?_, a3⟩
        rw [a2]
        simp only
        omega
    · simp only [hlt, if_false]
      exact ⟨g, false, rfl, same_meta_refl _, (fun h => by cases h),
        fun _ => ⟨h1, by omega, rfl⟩⟩

theorem grow_inner_loop_total (fuel : Nat) (g : GrowState) (L index : Nat)
    (h1 : 1 ≤ g.sectors_to_add) (hf : g.sectors_to_add ≤ fuel) :
    ∃ g1 flag, grow_inner_loop fuel g L index = some (g1, flag) ∧ same_meta g1.ino g.ino ∧
      (flag = true → g1.ino.length = L) ∧
      (flag = false → 1 ≤ g1.sectors_to_add ∧ g1.sectors_to_add ≤ g.sectors_to_add ∧
        g.old_sectors ≤ g1.old_sectors ∧ 129 + (index + 1) * 128 ≤ g1.old_sectors ∧
        (g.old_sectors < 129 + (index + 1) * 128 → g1.sectors_to_add < g.sectors_to_add)) := by
  induction fuel generalizing g with
  | zero => omega
  | succ fuel ih =>
    unfold grow_inner_loop
    by_cases hlt : g.old_sectors < 129 + (index + 1) * 128
    · simp only [hlt, if_true]
      by_cases hz : g.sectors_to_add - 1 = 0
      · simp only [hz, if_true]
        exact ⟨_, true, rfl, same_meta_refl _, fun _ => rfl, (fun h => by cases h)⟩
      · simp only [hz, if_false]
        obtain ⟨g1, flag, e1, e2, e3, e4⟩ := ih
          { g with free_map :=
                     (free_map_allocate g.free_map
                       (g.indirect_buffer2 ((g.old_sectors - 129) % 128))).2.1,
                   indirect_buffer2 := set_word g.indirect_buffer2 ((g.old_sectors - 129) % 128)
                     (free_map_allocate g.free_map
                       (g.indirect_buffer2 ((g.old_sectors - 129) % 128))).2.2,
                   disk := disk_write g.disk
                     (free_map_allocate g.free_map
                       (g.indirect_buffer2 ((g.old_sectors - 129) % 128))).2.2 zeros,
                   sectors_to_add := g.sectors_to_add - 1, old_sectors := g.old_sectors + 1 }
          (by simp only; omega) (by simp only; omega)
        refine ⟨g1, flag, e1, e2, e3, ?_⟩
        intro hfl
        obtain ⟨a1, a2, a3, a4, _⟩ := e4 hfl
        simp only at a2 a3
        exact ⟨a1, by omega, by omega, a4, fun _ => by omega⟩
    · simp only [hlt, if_false]
      exact ⟨g, false, rfl, same_meta_refl _, (fun h => by cases h),
        fun _ => ⟨h1, le_refl _, le_refl _, by omega, fun h => by simp at h⟩⟩

theorem grow_outer_loop_total (fuel : Nat) (g : GrowState) (L : Nat)
    (h1 : 1 ≤ g.sectors_to_add) (hf : g.sectors_to_add ≤ fuel) (h129 : 129 ≤ g.old_sectors) :
    ∃ g1, grow_outer_loop fuel g L = some g1 ∧ same_meta g1.ino g.ino ∧ g1.ino.length = L := by
  induction fuel generalizing g with
  | zero => omega
  | succ fuel ih =>
    unfold grow_outer_loop
    simp only
    generalize hg1 : (if g.old_sectors % 128 = 1 then
        ({ g with free_map := (free_map_allocate g.free_map
                     (g.indirect_buffer ((g.old_sectors - 129) / 128))).2.1,
                  indirect_buffer := set_word g.indirect_buffer ((g.old_sectors - 129) / 128)
                    (free_map_allocate g.free_map
                      (g.indirect_buffer ((g.old_sectors - 129) / 128))).2.2 } : GrowState)
      else { g with indirect_buffer2 :=
                block_word (g.disk (g.indirect_buffer ((g.old_sectors - 129) / 128))) }) = g1
    have hs : g1.sectors_to_add = g.sectors_to_add := by rw [← hg1]; split_ifs <;> rfl
    have ho : g1.old_sectors = g.old_sectors := by rw [← hg1]; split_ifs <;> rfl
    have hi : g1.ino = g.ino := by rw [← hg1]; split_ifs <;> rfl
    obtain ⟨g2, flag, e1, e2, e3, e4⟩ := grow_inner_loop_total g1.sectors_to_add g1 L
      ((g.old_sectors - 129) / 128) (by omega) (le_refl _)
    rw [e1]
    cases flag with
    | true =>
      simp only
      exact ⟨g2, rfl, by rw [← hi]; exact e2, e3 rfl⟩
    | false =>
      simp only
      obtain ⟨a1, a2, a3, a4, a5⟩ := e4 rfl
      have hlt : g1.old_sectors < 129 + ((g.old_sectors - 129) / 128 + 1) * 128 := by
        rw [ho]; omega
      have a6 := a5 hlt
      obtain ⟨g3, b1, b2, b3⟩ := ih
        { g2 with disk := disk_write g2.disk (g2.indirect_buffer ((g.old_sectors - 129) / 128))
                    (words_block g2.indirect_buffer2) }
        (by simp only; omega) (by simp only; omega) (by simp only; omega)
      exact ⟨g3, b1, same_meta_trans b2 (by rw [← hi]; exact e2), b3⟩

theorem inode_grow_total (d : Disk) (fm : FreeMap) (ino : inode) (L : Nat)
    (stack : (Nat → Nat) × (Nat → Nat)) (hold : bytes_to_sectors ino.length ≤ 16513) :
    ∃ d1 fm1 ino1, inode_grow d fm ino L stack = some (d1, fm1, ino1) ∧
      same_meta ino1 ino ∧ ino1.length = L := by
  unfold inode_grow
  simp only
  by_cases hz : (bytes_to_sectors L + 4294967296 - bytes_to_sectors ino.length) % 4294967296 = 0
  · simp only [hz, if_true]
    exact ⟨_, _, _, rfl, same_meta_refl _, rfl⟩
  · simp only [hz, if_false]
    generalize hadd :
      (bytes_to_sectors L + 4294967296 - bytes_to_sectors ino.length) % 4294967296 = add at hz
    generalize hr1 : grow_case1 ⟨d, fm, ino, stack.1, stack.2, bytes_to_sectors ino.length, add⟩ L
      = r1
    have hc1 : same_meta r1.1.ino ino ∧ (r1.2 = true → r1.1.ino.length = L) ∧
        (r1.2 = false → 1 ≤ r1.1.sectors_to_add ∧ 1 ≤ r1.1.old_sectors ∧
          r1.1.old_sectors ≤ 16513) := by
      rw [← hr1]
      unfold grow_case1
      simp only
      by_cases h0 : bytes_to_sectors ino.length = 0
      · simp only [h0, if_true]
        by_cases h1 : add - 1 = 0
        · simp only [h1, if_true]
          exact ⟨same_meta_refl _, fun _ => rfl, (fun h => by cases h)⟩
        · simp only [h1, if_false]
          exact ⟨same_meta_refl _, (fun h => by cases h), fun _ => ⟨by omega, by omega, by omega⟩⟩
      · simp only [h0, if_false]
        exact ⟨same_meta_refl _, (fun h => by cases h), fun _ => ⟨by omega, by omega, hold⟩⟩
    obtain ⟨m1, l1, k1⟩ := hc1
    cases hflag : r1.2 with
    | true =>
      simp only [if_true]
      exact ⟨_, _, _, rfl, m1, l1 hflag⟩
    | false =>
      simp only [Bool.false_eq_true, if_false]
      obtain ⟨k2, k3, k4⟩ := k1 hflag
      -- case 2
      unfold grow_case2
      simp only
      generalize hg1 : (if r1.1.old_sectors = 1 then
          ({ r1.1 with free_map := (free_map_allocate r1.1.free_map r1.1.ino.indirect_ptr).2.1,
                       ino := { r1.1.ino with indirect_ptr :=
                         (free_map_allocate r1.1.free_map r1.1.ino.indirect_ptr).2.2 } } : GrowState)
        else { r1.1 with indirect_buffer := block_word (r1.1.disk r1.1.ino.indirect_ptr) }) = g1
      have hs : g1.sectors_to_add = r1.1.sectors_to_add := by rw [← hg1]; split_ifs <;> rfl
      have ho : g1.old_sectors = r1.1.old_sectors := by rw [← hg1]; split_ifs <;> rfl
      have hi : same_meta g1.ino r1.1.ino := by
        rw [← hg1]; split_ifs <;> exact same_meta_refl _
      obtain ⟨g2, flag, e1, e2, e3, e4⟩ := grow_indirect_loop_total g1.sectors_to_add g1 L
        (by omega) (le_refl _)
      rw [e1]
      cases flag with
      | true =>
        simp only
        exact ⟨_, _, _, rfl, same_meta_trans e2 (same_meta_trans hi m1), e3 rfl⟩
      | false =>
        simp only
        obtain ⟨a1, a2, a3⟩ := e4 rfl
        unfold grow_case3
        simp only
        have hle : g2.old_sectors ≤ 16513 := by rw [a2, ho]; omega
        simp only [hle, if_true]
        generalize hg3 : (if g2.old_sectors = 129 then
            ({ g2 with disk := disk_write g2.disk g2.ino.indirect_ptr (words_block g2.indirect_buffer),
                       free_map := (free_map_allocate g2.free_map g2.ino.doubly_indirect_ptr).2.1,
                       ino := { g2.ino with doubly_indirect_ptr :=
                         (free_map_allocate g2.free_map g2.ino.doubly_indirect_ptr).2.2 } }
              : GrowState)
          else { g2 with disk := disk_write g2.disk g2.ino.indirect_ptr (words_block g2.indirect_buffer),
                         indirect_buffer := block_word
                           (disk_write g2.disk g2.ino.indirect_ptr (words_block g2.indirect_buffer)
                             g2.ino.doubly_indirect_ptr) }) = g3
        have hs3 : g3.sectors_to_add = g2.sectors_to_add := by rw [← hg3]; split_ifs <;> rfl
        have ho3 : g3.old_sectors = g2.old_sectors := by rw [← hg3]; split_ifs <;> rfl
        have hi3 : same_meta g3.ino g2.ino := by
          rw [← hg3]; split_ifs <;> exact same_meta_refl _
        obtain ⟨g4, b1, b2, b3⟩ := grow_outer_loop_total g3.sectors_to_add g3 L (by omega)
          (le_refl _) (by rw [ho3, a2]; omega)
        rw [b1]
        exact ⟨_, _, _, rfl,
          same_meta_trans b2 (same_meta_trans hi3 (same_meta_trans e2 (same_meta_trans hi m1))),
          b3⟩

/-! ### Writing -/

theorem write_loop_length (fuel : Nat) (fs : Filesys) (ino : inode) (buffer : Nat → Nat)
    (size offset bytes_written : Nat) (hwf : cache_wf fs.cache) (hf : size ≤ fuel) :
    ∃ fs1, write_loop fuel fs ino buffer size offset bytes_written
        = some (fs1, bytes_written + min size (ino.length - offset)) ∧
      cache_wf fs1.cache := by
  induction fuel generalizing fs size offset bytes_written with
  | zero =>
    have : size = 0 := by omega
    subst this
    exact ⟨fs, by simp [write_loop], hwf⟩
  | succ fuel ih =>
    unfold write_loop
    by_cases hs : size > 0
    · simp only [hs, if_true]
      have hmod : offset % 512 < 512 := Nat.mod_lt _ (by norm_num)
      generalize hch : (if size < (if ino.length - offset < DISK_SECTOR_SIZE - offset % DISK_SECTOR_SIZE
          then ino.length - offset else DISK_SECTOR_SIZE - offset % DISK_SECTOR_SIZE) then size
          else (if ino.length - offset < DISK_SECTOR_SIZE - offset % DISK_SECTOR_SIZE
            then ino.length - offset else DISK_SECTOR_SIZE - offset % DISK_SECTOR_SIZE)) = chunk
      have hc2 : chunk ≤ size := by
        rw [← hch]; simp only [DISK_SECTOR_SIZE]; split_ifs <;> omega
      have hc3 : chunk ≤ ino.length - offset := by
        rw [← hch]; simp only [DISK_SECTOR_SIZE]; split_ifs <;> omega
      have hc4 : chunk = 0 → ino.length - offset = 0 := by
        rw [← hch]; simp only [DISK_SECTOR_SIZE]; split_ifs <;> omega
      by_cases hl : chunk ≤ 0
      · refine ⟨fs, ?_, hwf⟩
        simp only [hl, if_true]
        have := hc4 (by omega)
        rw [this]
        simp
      · simp only [hl, if_false]
        obtain ⟨c1, d1, i, cl, h1, h2, h3⟩ := get_cache_line_total fs.cache fs.disk
          (byte_to_sector fs.disk ino offset ino.length) 1 hwf
        simp only [h1, h2]
        obtain ⟨fs2, h4, h5⟩ := ih
          ⟨d1, ⟨c1.buffer_cache.set i ⟨memcpy cl.block (offset % DISK_SECTOR_SIZE) buffer
            bytes_written chunk, cl.sector_idx, cl.accessed, cl.dirty⟩, c1.buffer_cache_size⟩,
            fs.read_ahead_queue, fs.free_map⟩
          (size - chunk) (offset + chunk) (bytes_written + chunk)
          (by unfold cache_wf at *; simp [h3]) (by omega)
        refine ⟨fs2, ?_, h5⟩
        rw [h4]
        congr 2
        omega
    · have : size = 0 := by omega
      subst this
      exact ⟨fs, by simp, hwf⟩

theorem inode_write_at_accepts (fs : Filesys) (ino : inode) (buffer : Nat → Nat)
    (size offset : Nat) (stack : (Nat → Nat) × (Nat → Nat))
    (hd : ino.deny_write_cnt = 0) (hwf : cache_wf fs.cache)
    (hold : bytes_to_sectors ino.length ≤ 16513) :
    ∃ fs2 ino2, inode_write_at fs ino buffer size offset stack = some (fs2, ino2, size) := by
  unfold inode_write_at
  simp only [hd, ne_eq, not_true_eq_false, if_false]
  by_cases hg : offset + size > ino.length
  · simp only [hg, if_true]
    obtain ⟨d1, fm1, ino1, e1, _, e3⟩ := inode_grow_total fs.disk fs.free_map ino (offset + size)
      stack hold
    simp only [e1]
    obtain ⟨fs2, h4, _⟩ := write_loop_length size { fs with disk := d1, free_map := fm1 } ino1
      buffer size offset 0 hwf (le_refl _)
    simp only [h4]
    have : min size (ino1.length - offset) = size := by rw [e3]; omega
    simp only [Nat.zero_add, this]
    exact ⟨_, _, rfl⟩
  · simp only [hg, if_false]
    obtain ⟨fs2, h4, _⟩ := write_loop_length size fs ino buffer size offset 0 hwf (le_refl _)
    simp only [h4]
    have : min size (ino.length - offset) = size := by omega
    simp only [Nat.zero_add, this]
    exact ⟨_, _, rfl⟩

/-- C7: write denial.  With `deny_write_cnt > 0`, `inode_write_at` returns 0
and changes neither the inode nor the disk, the cache, the read-ahead queue or
the free map.  `inode_deny_write` succeeds exactly when its assertion
`deny_write_cnt + 1 <= open_cnt` holds, and `inode_allow_write` after it gives
back the inode as it was; from `deny_write_cnt = 0` a write after the
deny/allow pair is accepted and writes all `size` bytes. -/
theorem write_denial (fs : Filesys) (ino : inode) (buffer : Nat → Nat) (size offset : Nat)
    (stack : (Nat → Nat) × (Nat → Nat)) :
    (0 < ino.deny_write_cnt →
      inode_write_at fs ino buffer size offset stack = some (fs, ino, 0)) ∧
    (ino.deny_write_cnt + 1 ≤ ino.open_cnt → 0 ≤ ino.deny_write_cnt →
      ∃ ino1, inode_deny_write ino = some ino1 ∧
        ino1.deny_write_cnt = ino.deny_write_cnt + 1 ∧ inode_allow_write ino1 = some ino) ∧
    (∀ ino1, inode_deny_write ino = some ino1 → 0 ≤ ino.deny_write_cnt →
      inode_allow_write ino1 = some ino) ∧
    (ino.deny_write_cnt = 0 → cache_wf fs.cache → bytes_to_sectors ino.length ≤ 16513 →
      ∀ ino1 ino2, inode_deny_write ino = some ino1 → inode_allow_write ino1 = some ino2 →
        inode_write_at fs ino1 buffer size offset stack = some (fs, ino1, 0) ∧
        ∃ fs3 ino3, inode_write_at fs ino2 buffer size offset stack = some (fs3, ino3, size)) := by
  have hallow : ∀ ino1, inode_deny_write ino = some ino1 → 0 ≤ ino.deny_write_cnt →
      inode_allow_write ino1 = some ino := by
    intro ino1 h1 h0
    unfold inode_deny_write at h1
    simp only at h1
    split_ifs at h1 with hle
    simp only [Option.some.injEq] at h1
    subst h1
    unfold inode_allow_write
    have e1 : ino.deny_write_cnt + 1 > 0 := by omega
    simp only [e1, hle, if_true]
    simp
  refine ⟨?_, ?_, hallow, ?_⟩
  · intro h
    have : ino.deny_write_cnt ≠ 0 := by omega
    simp [inode_write_at, this]
  · intro h h0
    have hd : inode_deny_write ino = some { ino with deny_write_cnt := ino.deny_write_cnt + 1 } := by
      simp [inode_deny_write, h]
    exact ⟨_, hd, rfl, hallow _ hd h0⟩
  · intro h0 hwf hold ino1 ino2 h1 h2
    have h3 := hallow ino1 h1 (by omega)
    rw [h3] at h2
    simp only [Option.some.injEq] at h2
    subst h2
    constructor
    · unfold inode_deny_write at h1
      simp only at h1
      split_ifs at h1
      simp only [Option.some.injEq] at h1
      subst h1
      simp [inode_write_at, h0]
    · exact inode_write_at_accepts fs ino buffer size offset stack h0 hwf hold

/-! ### Release of sectors and disk-full -/

/-- C5 (the code at the failing input): closing the last reference of the
removed two-sector file `removed_inode` releases its header sector 5, its
direct sector 10 and its indirect block 11, but not sector 12, the data sector
that entry 0 of the indirect block names and `byte_to_sector` returns for byte
512. -/
theorem inode_close_leaks_indirect_leaf :
    byte_to_sector removed_disk removed_inode 512 1024 = 12 ∧
    (inode_close [(100, removed_inode)] { sample_fs with disk := removed_disk } (some 100)
        (fun _ => 0)).map (fun r => (r.1.length, r.2.free_map.free))
      = some (0, [5, 10, 11]) := by
  constructor
  · decide
  · decide

/-- C6 (the code at the failing input): on the exhausted free map of
`sample_fs`, `inode_create` for a 512-byte file returns `true`, and
`inode_write_at` of one byte at offset 0 of the empty file `sample_inode`
reports 1 byte written and a length of 1. -/
theorem inode_create_ignores_disk_full :
    sample_fs.free_map.free = [] ∧
    (inode_create sample_fs 7 512 0 true sample_inode 1 (zeros, zeros)).map (fun r => r.1)
      = some true ∧
    (inode_write_at sample_fs sample_inode (fun _ => 65) 1 0 (zeros, zeros)).map
        (fun r => (r.2.1.length, r.2.2))
      = some (1, 1) := by
  refine ⟨rfl, ?_, ?_⟩
  · decide
  · decide

/-! ### Instances at concrete inputs -/

theorem byte_to_sector_mapping_witness :
    (70000 : Nat) < 2147483648 ∧
    byte_to_sector removed_disk removed_inode 70000 100000 =
      block_word (removed_disk (block_word (removed_disk removed_inode.doubly_indirect_ptr)
        ((70000 - 512 * 129) / (512 * 128)))) (((70000 - 512 * 129) % (512 * 128)) / 512) :=
  ⟨by decide,
   (byte_to_sector_mapping removed_disk removed_inode 70000 100000 (by decide)).2.2.2
     (by decide) (by decide)⟩

theorem write_denial_witness :
    ∃ ino1, inode_deny_write sample_inode = some ino1 ∧
      ino1.deny_write_cnt = sample_inode.deny_write_cnt + 1 ∧
      inode_allow_write ino1 = some sample_inode :=
  (write_denial sample_fs sample_inode (fun _ => 65) 1 0 (zeros, zeros)).2.1
    (by decide) (by decide)

theorem swap_round_trip_witness :
    false ∈ sample_swap.swap_bitmap ∧
    ∃ st1 i st2 P1, swap_out sample_swap (fun j => j % 256) = some (st1, i) ∧
      swap_in st1 zeros i = some (st2, P1) ∧
      (∀ j, j < 4096 → P1 j = (fun j => j % 256) j) ∧ (∀ j, 4096 ≤ j → P1 j = zeros j) ∧
      st2.swap_bitmap[i]? = some false ∧
      (∀ k, k ≠ i → st2.swap_bitmap[k]? = sample_swap.swap_bitmap[k]?) ∧
      (∀ t, ¬ (i * SECTORS_PER_PAGE ≤ t ∧ t < i * SECTORS_PER_PAGE + SECTORS_PER_PAGE) →
        st2.swap_disk t = sample_swap.swap_disk t) :=
  ⟨by decide, swap_round_trip sample_swap (fun j => j % 256) zeros (by decide)⟩

theorem open_inode_identity_witness :
    inode_run (inode_init, sample_fs) [InodeOp.open 5 (some 100)] = some (sample_open, sample_fs) ∧
    (inode_open sample_open sample_fs.disk 5 none).2 = some 100 ∧
    inode_at (inode_open sample_open sample_fs.disk 5 none).1 100
      = some ⟨5, 2, false, 0, 0, 0, 0, 0, 0, 0, 0⟩ :=
  ⟨rfl,
   ((open_inode_identity sample_fs [InodeOp.open 5 (some 100)] sample_open sample_fs rfl).2.2.2
      100 ⟨5, 1, false, 0, 0, 0, 0, 0, 0, 0, 0⟩ sample_fs.disk none rfl).1,
   ((open_inode_identity sample_fs [InodeOp.open 5 (some 100)] sample_open sample_fs rfl).2.2.2
      100 ⟨5, 1, false, 0, 0, 0, 0, 0, 0, 0, 0⟩ sample_fs.disk none rfl).2.1⟩

/-! ### Growth: the index structure -/

theorem slot_live_iff_rank (n : Nat) (s : Slot) : slot_live n s ↔ slot_rank s < slot_count n := by
  cases s with
  | data k =>
    simp only [slot_live, slot_rank, slot_count]
    split_ifs <;> omega
  | indirect =>
    simp only [slot_live, slot_rank, slot_count]
    split_ifs <;> omega
  | doubly =>
    simp only [slot_live, slot_rank, slot_count]
    split_ifs <;> omega
  | inner j =>
    simp only [slot_live, slot_rank, slot_count]
    split_ifs <;> omega

theorem slot_rank_inj {s1 s2 : Slot} (h : slot_rank s1 = slot_rank s2) : s1 = s2 := by
  cases s1 with
  | data k1 =>
    cases s2 with
    | data k2 =>
      have : k1 = k2 := by
        simp only [slot_rank] at h
        split_ifs at h <;> omega
      rw [this]
    | indirect =>
      simp only [slot_rank] at h
      split_ifs at h <;> omega
    | doubly =>
      simp only [slot_rank] at h
      split_ifs at h <;> omega
    | inner j2 =>
      simp only [slot_rank] at h
      split_ifs at h <;> omega
  | indirect =>
    cases s2 with
    | data k2 =>
      simp only [slot_rank] at h
      split_ifs at h <;> omega
    | indirect => rfl
    | doubly => simp [slot_rank] at h
    | inner j2 =>
      simp only [slot_rank] at h
      omega
  | doubly =>
    cases s2 with
    | data k2 =>
      simp only [slot_rank] at h
      split_ifs at h <;> omega
    | indirect => simp [slot_rank] at h
    | doubly => rfl
    | inner j2 =>
      simp only [slot_rank] at h
      omega
  | inner j1 =>
    cases s2 with
    | data k2 =>
      simp only [slot_rank] at h
      split_ifs at h <;> omega
    | indirect =>
      simp only [slot_rank] at h
      omega
    | doubly =>
      simp only [slot_rank] at h
      omega
    | inner j2 =>
      have : j1 = j2 := by
        simp only [slot_rank] at h
        omega
      rw [this]

theorem ginv_inj {d0 : Disk} {ino0 : inode} {c0 : Nat} {F0 : List Nat} {vd : Disk} {ino : inode}
    {c : Nat} (hc : GCtx d0 ino0 c0 F0) (hg : GInv d0 ino0 c0 F0 vd ino c) {s1 s2 : Slot}
    (h1 : slot_rank s1 < c) (h2 : slot_rank s2 < c)
    (h : slot_sector vd ino s1 = slot_sector vd ino s2) : s1 = s2 := by
  by_cases o1 : slot_rank s1 < c0 <;> by_cases o2 : slot_rank s2 < c0
  · exact hc.wf0 s1 s2 o1 o2 (by rw [← hg.old s1 o1, ← hg.old s2 o2, h])
  · have n2 := hg.new s2 (by omega) h2
    have m2 : slot_sector vd ino s2 ∈ F0 := List.mem_iff_getElem?.mpr ⟨_, n2⟩
    exact absurd (by rw [← hg.old s1 o1, h]) (hc.fresh _ m2 s1 o1)
  · have n1 := hg.new s1 (by omega) h1
    have m1 : slot_sector vd ino s1 ∈ F0 := List.mem_iff_getElem?.mpr ⟨_, n1⟩
    exact absurd (by rw [← hg.old s2 o2, h]) (hc.fresh _ m1 s2 o2)
  · have n1 := hg.new s1 (by omega) h1
    have n2 := hg.new s2 (by omega) h2
    rw [h] at n1
    have e := (List.getElem?_inj (List.getElem?_eq_some.mp n1).1 hc.nodup (n1.trans n2.symm))
    exact slot_rank_inj (by omega)

theorem ginv_next_fresh {d0 : Disk} {ino0 : inode} {c0 : Nat} {F0 : List Nat} {vd : Disk}
    {ino : inode} {c : Nat} (hc : GCtx d0 ino0 c0 F0) (hg : GInv d0 ino0 c0 F0 vd ino c)
    {a : Nat} (ha : F0[c - c0]? = some a) {s : Slot} (hs : slot_rank s < c) :
    slot_sector vd ino s ≠ a := by
  have ma : a ∈ F0 := List.mem_iff_getElem?.mpr ⟨_, ha⟩
  by_cases o : slot_rank s < c0
  · rw [hg.old s o]
    exact hc.fresh a ma s o
  · have n1 := hg.new s (by omega) hs
    intro e
    rw [e] at n1
    have := (List.getElem?_inj (List.getElem?_eq_some.mp n1).1 hc.nodup (n1.trans ha.symm))
    have := hg.le
    omega

theorem ginv_transfer {d0 : Disk} {ino0 : inode} {c0 : Nat} {F0 : List Nat} {vd vd1 : Disk}
    {ino ino1 : inode} {c : Nat} (hc : GCtx d0 ino0 c0 F0) (hg : GInv d0 ino0 c0 F0 vd ino c)
    (hs : ∀ s : Slot, slot_rank s < c → slot_sector vd1 ino1 s = slot_sector vd ino s)
    (hd : ∀ t : Nat, (∀ s : Slot, is_pointer s → slot_rank s < c → slot_sector vd ino s ≠ t) →
      vd1 t = vd t) :
    GInv d0 ino0 c0 F0 vd1 ino1 c := by
  have hle := hg.le
  refine ⟨hle, ?_, ?_, ?_, ?_⟩
  · intro s h
    rw [hs s (by omega), hg.old s h]
  · intro s h1 h2
    rw [hs s h2]
    exact hg.new s h1 h2
  · intro k h1 h2
    rw [hs _ h2, hd, hg.zero k h1 h2]
    intro s hp hr e
    have := ginv_inj hc hg hr h2 e
    subst this
    exact hp
  · intro t h1 h2
    rw [hd, hg.frame t h1 h2]
    intro s hp hr e
    by_cases o : slot_rank s < c0
    · exact h2 s hp o (by rw [← hg.old s o, e])
    · have n1 := hg.new s (by omega) hr
      rw [e] at n1
      exact h1 _ (by omega) n1

theorem ginv_alloc {d0 : Disk} {ino0 : inode} {c0 : Nat} {F0 : List Nat} {vd vd1 : Disk}
    {ino ino1 : inode} {c : Nat} (hc : GCtx d0 ino0 c0 F0) (hg : GInv d0 ino0 c0 F0 vd ino c)
    {a : Nat} (ha : F0[c - c0]? = some a) (snew : Slot) (hrank : slot_rank snew = c)
    (h1 : ∀ s : Slot, slot_rank s < c → slot_sector vd1 ino1 s = slot_sector vd ino s)
    (h2 : slot_sector vd1 ino1 snew = a)
    (h3 : ∀ t : Nat, t ≠ a →
      (∀ s : Slot, is_pointer s → slot_rank s < c → slot_sector vd ino s ≠ t) → vd1 t = vd t)
    (h4 : ¬ is_pointer snew → vd1 a = zeros) :
    GInv d0 ino0 c0 F0 vd1 ino1 (c + 1) := by
  have hle := hg.le
  refine ⟨by omega, ?_, ?_, ?_, ?_⟩
  · intro s h
    rw [h1 s (by omega), hg.old s h]
  · intro s hs1 hs2
    by_cases e : slot_rank s = c
    · have : s = snew := slot_rank_inj (e.trans hrank.symm)
      subst this
      rw [h2, e]
      exact ha
    · rw [h1 s (by omega)]
      exact hg.new s hs1 (by omega)
  · intro k hs1 hs2
    by_cases e : slot_rank (Slot.data k) = c
    · have : Slot.data k = snew := slot_rank_inj (e.trans hrank.symm)
      subst this
      rw [h2]
      exact h4 (by simp [is_pointer])
    · have hlt : slot_rank (Slot.data k) < c := by omega
      rw [h1 _ hlt, h3, hg.zero k hs1 hlt]
      · exact ginv_next_fresh hc hg ha hlt
      · intro s hp hr e1
        have := ginv_inj hc hg hr hlt e1
        subst this
        exact hp
  · intro t ht1 ht2
    have hta : t ≠ a := by
      intro e
      exact ht1 (c - c0) (by omega) (by rw [e]; exact ha)
    rw [h3 t hta, hg.frame t (fun i hi => ht1 i (by omega)) ht2]
    intro s hp hr e
    by_cases o : slot_rank s < c0
    · exact ht2 s hp o (by rw [← hg.old s o, e])
    · have n1 := hg.new s (by omega) hr
      rw [e] at n1
      exact ht1 _ (by omega) n1

theorem block_word_lt (b : Block) (i : Nat) : block_word b i < 4294967296 := by
  unfold block_word
  omega

theorem block_word_words_block_lt (w : Nat → Nat) (i : Nat) (h : w i < 4294967296) :
    block_word (words_block w) i = w i := by
  rw [block_word_words_block, Nat.mod_eq_of_lt h]

theorem disk_write_same (d : Disk) (s : Nat) (b : Block) : disk_write d s b s = b := by
  simp [disk_write]

theorem disk_write_ne (d : Disk) (s : Nat) (b : Block) {t : Nat} (h : t ≠ s) :
    disk_write d s b t = d t := by
  simp [disk_write, h]

theorem slot_sector_congr (d : Disk) {i1 i2 : inode} (h1 : i1.direct_ptr = i2.direct_ptr)
    (h2 : i1.indirect_ptr = i2.indirect_ptr)
    (h3 : i1.doubly_indirect_ptr = i2.doubly_indirect_ptr) (s : Slot) :
    slot_sector d i1 s = slot_sector d i2 s := by
  cases s <;> simp only [slot_sector, data_sector, h1, h2, h3]

theorem ginv_congr_ino {d0 : Disk} {ino0 : inode} {c0 : Nat} {F0 : List Nat} {vd : Disk}
    {i1 i2 : inode} {c : Nat} (hg : GInv d0 ino0 c0 F0 vd i1 c)
    (h1 : i2.direct_ptr = i1.direct_ptr) (h2 : i2.indirect_ptr = i1.indirect_ptr)
    (h3 : i2.doubly_indirect_ptr = i1.doubly_indirect_ptr) :
    GInv d0 ino0 c0 F0 vd i2 c := by
  have e : ∀ s, slot_sector vd i2 s = slot_sector vd i1 s := slot_sector_congr vd h1 h2 h3
  refine ⟨hg.le, ?_, ?_, ?_, hg.frame⟩
  · intro s h; rw [e]; exact hg.old s h
  · intro s ha hb; rw [e]; exact hg.new s ha hb
  · intro k ha hb; rw [e]; exact hg.zero k ha hb

theorem drop_eq_cons {F : List Nat} {i a : Nat} (h : F[i]? = some a) :
    F.drop i = a :: F.drop (i + 1) := by
  obtain ⟨hi, rfl⟩ := List.getElem?_eq_some.mp h
  exact List.drop_eq_getElem_cons hi

theorem free_map_allocate_some {fm : FreeMap} {F : List Nat} {i a : Nat} (x : Nat)
    (hf : fm.free = F.drop i) (h : F[i]? = some a) :
    free_map_allocate fm x = (true, ⟨F.drop (i + 1)⟩, a) := by
  unfold free_map_allocate
  rw [hf, drop_eq_cons h]

/-- One round of the loop of case 2: the data sector of index `m`. -/
theorem ginv_step_indirect {d0 : Disk} {ino0 : inode} {c0 : Nat} {F0 : List Nat}
    (hc : GCtx d0 ino0 c0 F0) (disk : Disk) (ino : inode) (buf : Nat → Nat) (m a : Nat)
    (hg : GInv d0 ino0 c0 F0 (disk_write disk ino.indirect_ptr (words_block buf)) ino (m + 1))
    (hm1 : 1 ≤ m) (hm2 : m < 129) (ha : F0[m + 1 - c0]? = some a) :
    GInv d0 ino0 c0 F0
      (disk_write (disk_write disk a zeros) ino.indirect_ptr
        (words_block (set_word buf (m - 1) a))) ino (m + 1 + 1) := by
  have hia : ino.indirect_ptr ≠ a :=
    ginv_next_fresh hc hg ha (s := Slot.indirect) (by simp [slot_rank]; omega)
  have hal : a < 4294967296 := hc.small a (List.mem_iff_getElem?.mpr ⟨_, ha⟩)
  apply ginv_alloc hc hg ha (Slot.data m)
  · simp only [slot_rank]; split_ifs <;> omega
  · intro s hs
    cases s with
    | data k =>
      have hk : k < m := by
        simp only [slot_rank] at hs
        split_ifs at hs <;> omega
      simp only [slot_sector, data_sector]
      by_cases k0 : k = 0
      · simp [k0]
      · have k1 : k < 129 := by omega
        simp only [k0, k1, if_false, if_true, disk_write_same]
        rw [block_word_words_block, block_word_words_block]
        have : k - 1 ≠ m - 1 := by omega
        simp [set_word, this]
    | indirect => rfl
    | doubly => simp [slot_rank] at hs; omega
    | inner j => simp [slot_rank] at hs; omega
  · have m0 : m ≠ 0 := by omega
    simp only [slot_sector, data_sector, m0, hm2, if_false, if_true, disk_write_same]
    rw [block_word_words_block_lt]
    · simp [set_word]
    · simp [set_word, hal]
  · intro t hta hp
    have hti : t ≠ ino.indirect_ptr := by
      intro e
      exact hp Slot.indirect (by simp [is_pointer]) (by simp [slot_rank]; omega)
        (by simp [slot_sector, e])
    rw [disk_write_ne _ _ _ hti, disk_write_ne _ _ _ hta, disk_write_ne _ _ _ hti]
  · intro _
    rw [disk_write_ne _ _ _ (Ne.symm hia), disk_write_same]

theorem loop_indirect_spec {d0 : Disk} {ino0 : inode} {c0 : Nat} {F0 : List Nat}
    (hc : GCtx d0 ino0 c0 F0) (L n : Nat) (hlen : slot_count n ≤ c0 + F0.length)
    (fuel : Nat) (g : GrowState)
    (hg : GInv d0 ino0 c0 F0
      (disk_write g.disk g.ino.indirect_ptr (words_block g.indirect_buffer)) g.ino
      (g.old_sectors + 1))
    (hm1 : 1 ≤ g.old_sectors) (hm : g.old_sectors ≤ 129) (hadd : 1 ≤ g.sectors_to_add)
    (hn : g.old_sectors + g.sectors_to_add = n) (hf : g.sectors_to_add ≤ fuel)
    (hfree : g.free_map.free = F0.drop (g.old_sectors + 1 - c0)) :
    ∃ g1 flag, grow_indirect_loop fuel g L = some (g1, flag) ∧ same_meta g1.ino g.ino ∧
      (flag = true → GInv d0 ino0 c0 F0 g1.disk g1.ino (slot_count n) ∧ g1.ino.length = L ∧
        g1.free_map.free = F0.drop (slot_count n - c0)) ∧
      (flag = false → 129 < n ∧ g1.old_sectors = 129 ∧ g1.old_sectors + g1.sectors_to_add = n ∧
        1 ≤ g1.sectors_to_add ∧ g1.ino.length = g.ino.length ∧
        GInv d0 ino0 c0 F0
          (disk_write g1.disk g1.ino.indirect_ptr (words_block g1.indirect_buffer)) g1.ino 130 ∧
        g1.free_map.free = F0.drop (130 - c0)) := by
  induction fuel generalizing g with
  | zero => omega
  | succ fuel ih =>
    unfold grow_indirect_loop
    by_cases hlt : g.old_sectors < 129
    · simp only [hlt, if_true]
      -- the next free sector
      have hle := hg.le
      have hlive : slot_rank (Slot.data g.old_sectors) < slot_count n :=
        (slot_live_iff_rank n _).mp (by simp only [slot_live]; omega)
      have hrk : slot_rank (Slot.data g.old_sectors) = g.old_sectors + 1 := by
        simp only [slot_rank]; split_ifs <;> omega
      have hidx : g.old_sectors + 1 - c0 < F0.length := by omega
      obtain ⟨a, ha⟩ : ∃ a, F0[g.old_sectors + 1 - c0]? = some a :=
        ⟨_, List.getElem?_eq_getElem hidx⟩
      have hal := free_map_allocate_some (g.indirect_buffer (g.old_sectors - 1)) hfree ha
      have hstep := ginv_step_indirect hc g.disk g.ino g.indirect_buffer g.old_sectors a hg
        hm1 hlt ha
      simp only [hal]
      by_cases hz : g.sectors_to_add - 1 = 0
      · simp only [hz, if_true]
        have hn1 : n = g.old_sectors + 1 := by omega
        have hcnt : slot_count n = g.old_sectors + 1 + 1 := by
          simp only [slot_count]; split_ifs <;> omega
        refine ⟨_, true, rfl, same_meta_refl _, fun _ => ⟨?_, rfl, ?_⟩, fun h => by cases h⟩
        · rw [hcnt]
          exact ginv_congr_ino hstep rfl rfl rfl
        · simp only [grow_finish, hcnt]
          congr 1
          omega
      · simp only [hz, if_false]
        obtain ⟨g1, flag, e1, e2, e3, e4⟩ := ih
          ⟨disk_write g.disk a zeros, ⟨F0.drop (g.old_sectors + 1 - c0 + 1)⟩, g.ino,
            set_word g.indirect_buffer (g.old_sectors - 1) a, g.indirect_buffer2,
            g.old_sectors + 1, g.sectors_to_add - 1⟩
          hstep (by simp only; omega) (by simp only; omega) (by simp only; omega)
          (by simp only; omega) (by simp only; omega)
          (by simp only; congr 1; omega)
        exact ⟨g1, flag, e1, e2, e3, e4⟩
    · simp only [hlt, if_false]
      have h129 : g.old_sectors = 129 := by omega
      refine ⟨g, false, rfl, same_meta_refl _, (fun h => by cases h), fun _ => ?_⟩
      refine ⟨by omega, h129, hn, hadd, rfl, ?_, ?_⟩
      · rw [h129] at hg; exact hg
      · rw [hfree, h129]

/-- One round of the inner loop of case 3: the data sector of index `m` in
the inner block `idx`. -/
theorem ginv_step_inner {d0 : Disk} {ino0 : inode} {c0 : Nat} {F0 : List Nat}
    (hc : GCtx d0 ino0 c0 F0) (disk : Disk) (ino : inode) (buf buf2 : Nat → Nat)
    (idx m a : Nat) (hb : buf idx < 4294967296)
    (hm1 : 129 + 128 * idx ≤ m) (hm2 : m < 129 + 128 * idx + 128)
    (hg : GInv d0 ino0 c0 F0
      (disk_write (disk_write disk (buf idx) (words_block buf2)) ino.doubly_indirect_ptr
        (words_block buf)) ino (132 + 129 * idx + (m - (129 + 128 * idx))))
    (ha : F0[132 + 129 * idx + (m - (129 + 128 * idx)) - c0]? = some a) :
    GInv d0 ino0 c0 F0
      (disk_write (disk_write (disk_write disk a zeros) (buf idx)
        (words_block (set_word buf2 ((m - 129) % 128) a))) ino.doubly_indirect_ptr
        (words_block buf)) ino (132 + 129 * idx + (m - (129 + 128 * idx)) + 1) := by
  have hal : a < 4294967296 := hc.small a (List.mem_iff_getElem?.mpr ⟨_, ha⟩)
  -- the sectors of the pointer slots
  have sdbl : slot_sector (disk_write (disk_write disk (buf idx) (words_block buf2))
      ino.doubly_indirect_ptr (words_block buf)) ino Slot.doubly = ino.doubly_indirect_ptr := rfl
  have sind : slot_sector (disk_write (disk_write disk (buf idx) (words_block buf2))
      ino.doubly_indirect_ptr (words_block buf)) ino Slot.indirect = ino.indirect_ptr := rfl
  have sinner : ∀ j, slot_sector (disk_write (disk_write disk (buf idx) (words_block buf2))
      ino.doubly_indirect_ptr (words_block buf)) ino (Slot.inner j)
        = block_word (words_block buf) j := by
    intro j
    simp only [slot_sector, disk_write_same]
  have sidx : block_word (words_block buf) idx = buf idx := block_word_words_block_lt buf idx hb
  have rdbl : slot_rank Slot.doubly < 132 + 129 * idx + (m - (129 + 128 * idx)) := by
    simp only [slot_rank]; omega
  have rind : slot_rank Slot.indirect < 132 + 129 * idx + (m - (129 + 128 * idx)) := by
    simp only [slot_rank]; omega
  have rinner : ∀ j, j ≤ idx →
      slot_rank (Slot.inner j) < 132 + 129 * idx + (m - (129 + 128 * idx)) := by
    intro j hj
    simp only [slot_rank]; omega
  have hpd : buf idx ≠ ino.doubly_indirect_ptr := by
    intro e
    have := ginv_inj hc hg (rinner idx (le_refl _)) rdbl (by rw [sinner, sidx, sdbl, e])
    cases this
  have hid : ino.indirect_ptr ≠ ino.doubly_indirect_ptr := by
    intro e
    have := ginv_inj hc hg rind rdbl (by rw [sind, sdbl, e])
    cases this
  have hip : ino.indirect_ptr ≠ buf idx := by
    intro e
    have := ginv_inj hc hg rind (rinner idx (le_refl _)) (by rw [sind, sinner, sidx, e])
    cases this
  have had : ino.doubly_indirect_ptr ≠ a := by
    have := ginv_next_fresh hc hg ha rdbl
    rwa [sdbl] at this
  have hai : ino.indirect_ptr ≠ a := by
    have := ginv_next_fresh hc hg ha rind
    rwa [sind] at this
  have hap : buf idx ≠ a := by
    have := ginv_next_fresh hc hg ha (rinner idx (le_refl _))
    rwa [sinner, sidx] at this
  apply ginv_alloc hc hg ha (Slot.data m)
  · simp only [slot_rank]; split_ifs <;> omega
  · intro s hs
    cases s with
    | data k =>
      simp only [slot_sector, data_sector]
      by_cases k0 : k = 0
      · simp [k0]
      · by_cases k1 : k < 129
        · simp only [k0, k1, if_false, if_true]
          rw [disk_write_ne _ _ _ hid, disk_write_ne _ _ _ hip, disk_write_ne _ _ _ hai,
            disk_write_ne _ _ _ hid, disk_write_ne _ _ _ hip]
        · simp only [k0, k1, if_false, disk_write_same]
          have hr : 132 + 129 * ((k - 129) / 128) + (k - 129) % 128
              < 132 + 129 * idx + (m - (129 + 128 * idx)) := by
            simp only [slot_rank, k0, k1, if_false] at hs
            exact hs
          by_cases hj : (k - 129) / 128 = idx
          · rw [hj, sidx, disk_write_ne _ _ _ hpd, disk_write_same, disk_write_ne _ _ _ hpd,
              disk_write_same, block_word_words_block, block_word_words_block]
            have : (k - 129) % 128 ≠ (m - 129) % 128 := by omega
            simp [set_word, this]
          · have hjl : (k - 129) / 128 < idx := by omega
            have rj := rinner ((k - 129) / 128) (by omega)
            have q1 : block_word (words_block buf) ((k - 129) / 128) ≠ ino.doubly_indirect_ptr := by
              intro e
              have := ginv_inj hc hg rj rdbl (by rw [sinner, sdbl, e])
              cases this
            have q2 : block_word (words_block buf) ((k - 129) / 128) ≠ buf idx := by
              intro e
              have := ginv_inj hc hg rj (rinner idx (le_refl _)) (by rw [sinner, sinner, sidx, e])
              simp only [Slot.inner.injEq] at this
              exact hj this
            have q3 : block_word (words_block buf) ((k - 129) / 128) ≠ a := by
              have := ginv_next_fresh hc hg ha rj
              rwa [sinner] at this
            rw [disk_write_ne _ _ _ q1, disk_write_ne _ _ _ q2, disk_write_ne _ _ _ q3,
              disk_write_ne _ _ _ q1, disk_write_ne _ _ _ q2]
    | indirect => rfl
    | doubly => rfl
    | inner j => simp only [slot_sector, disk_write_same]
  · have k0 : m ≠ 0 := by omega
    have k1 : ¬ m < 129 := by omega
    have hj : (m - 129) / 128 = idx := by omega
    simp only [slot_sector, data_sector, k0, k1, if_false, disk_write_same]
    rw [hj, sidx, disk_write_ne _ _ _ hpd, disk_write_same, block_word_words_block_lt]
    · simp [set_word]
    · simp [set_word, hal]
  · intro t hta hp
    have htd : t ≠ ino.doubly_indirect_ptr := by
      intro e
      exact hp Slot.doubly (by simp [is_pointer]) rdbl (by rw [sdbl, e])
    have htp : t ≠ buf idx := by
      intro e
      exact hp (Slot.inner idx) (by simp [is_pointer]) (rinner idx (le_refl _))
        (by rw [sinner, sidx, e])
    rw [disk_write_ne _ _ _ htd, disk_write_ne _ _ _ htp, disk_write_ne _ _ _ hta,
      disk_write_ne _ _ _ htd, disk_write_ne _ _ _ htp]
  · intro _
    rw [disk_write_ne _ _ _ (Ne.symm had), disk_write_ne _ _ _ (Ne.symm hap), disk_write_same]

theorem loop_inner_spec {d0 : Disk} {ino0 : inode} {c0 : Nat} {F0 : List Nat}
    (hc : GCtx d0 ino0 c0 F0) (L n : Nat) (hlen : slot_count n ≤ c0 + F0.length)
    (idx : Nat) (fuel : Nat) (g : GrowState) (hb : g.indirect_buffer idx < 4294967296)
    (hm1 : 129 + 128 * idx ≤ g.old_sectors) (hm2 : g.old_sectors ≤ 129 + 128 * idx + 128)
    (hg : GInv d0 ino0 c0 F0
      (disk_write (disk_write g.disk (g.indirect_buffer idx) (words_block g.indirect_buffer2))
        g.ino.doubly_indirect_ptr (words_block g.indirect_buffer)) g.ino
      (132 + 129 * idx + (g.old_sectors - (129 + 128 * idx))))
    (hadd : 1 ≤ g.sectors_to_add) (hn : g.old_sectors + g.sectors_to_add = n)
    (hf : g.sectors_to_add ≤ fuel)
    (hfree : g.free_map.free
      = F0.drop (132 + 129 * idx + (g.old_sectors - (129 + 128 * idx)) - c0)) :
    ∃ g1 flag, grow_inner_loop fuel g L idx = some (g1, flag) ∧ same_meta g1.ino g.ino ∧
      (flag = true → GInv d0 ino0 c0 F0 g1.disk g1.ino (slot_count n) ∧ g1.ino.length = L ∧
        g1.free_map.free = F0.drop (slot_count n - c0)) ∧
      (flag = false → g1.old_sectors = 129 + 128 * idx + 128 ∧
        g1.old_sectors + g1.sectors_to_add = n ∧ 1 ≤ g1.sectors_to_add ∧
        g1.indirect_buffer = g.indirect_buffer ∧ g1.ino = g.ino ∧
        GInv d0 ino0 c0 F0
          (disk_write (disk_write g1.disk (g1.indirect_buffer idx)
            (words_block g1.indirect_buffer2)) g1.ino.doubly_indirect_ptr
            (words_block g1.indirect_buffer)) g1.ino (131 + 129 * (idx + 1)) ∧
        g1.free_map.free = F0.drop (131 + 129 * (idx + 1) - c0)) := by
  induction fuel generalizing g with
  | zero => omega
  | succ fuel ih =>
    unfold grow_inner_loop
    by_cases hlt : g.old_sectors < 129 + (idx + 1) * 128
    · simp only [hlt, if_true]
      have hle := hg.le
      have hlive : slot_rank (Slot.data g.old_sectors) < slot_count n :=
        (slot_live_iff_rank n _).mp (by simp only [slot_live]; omega)
      have hrk : slot_rank (Slot.data g.old_sectors)
          = 132 + 129 * idx + (g.old_sectors - (129 + 128 * idx)) := by
        simp only [slot_rank]; split_ifs <;> omega
      have hidx : 132 + 129 * idx + (g.old_sectors - (129 + 128 * idx)) - c0 < F0.length := by
        omega
      obtain ⟨a, ha⟩ :
          ∃ a, F0[132 + 129 * idx + (g.old_sectors - (129 + 128 * idx)) - c0]? = some a :=
        ⟨_, List.getElem?_eq_getElem hidx⟩
      have hal := free_map_allocate_some (g.indirect_buffer2 ((g.old_sectors - 129) % 128))
        hfree ha
      have hstep := ginv_step_inner hc g.disk g.ino g.indirect_buffer g.indirect_buffer2 idx
        g.old_sectors a hb hm1 (by omega) hg ha
      simp only [hal]
      by_cases hz : g.sectors_to_add - 1 = 0
      · simp only [hz, if_true]
        have hn1 : n = g.old_sectors + 1 := by omega
        have hcnt : slot_count n
            = 132 + 129 * idx + (g.old_sectors - (129 + 128 * idx)) + 1 := by
          simp only [slot_count]; split_ifs <;> omega
        refine ⟨_, true, rfl, same_meta_refl _, fun _ => ⟨?_, rfl, ?_⟩, (fun h => by cases h)⟩
        · rw [hcnt]
          exact ginv_congr_ino hstep rfl rfl rfl
        · simp only [grow_finish, hcnt]
          congr 1
          omega
      · simp only [hz, if_false]
        have e1 : 132 + 129 * idx + (g.old_sectors + 1 - (129 + 128 * idx))
            = 132 + 129 * idx + (g.old_sectors - (129 + 128 * idx)) + 1 := by omega
        obtain ⟨g1, flag, r1, r2, r3, r4⟩ := ih
          ⟨disk_write g.disk a zeros,
            ⟨F0.drop (132 + 129 * idx + (g.old_sectors - (129 + 128 * idx)) - c0 + 1)⟩, g.ino,
            g.indirect_buffer, set_word g.indirect_buffer2 ((g.old_sectors - 129) % 128) a,
            g.old_sectors + 1, g.sectors_to_add - 1⟩
          hb (by simp only; omega) (by simp only; omega)
          (by simp only; rw [e1]; exact hstep)
          (by simp only; omega) (by simp only; omega) (by simp only; omega)
          (by simp only; congr 1; omega)
        exact ⟨g1, flag, r1, r2, r3, r4⟩
    · simp only [hlt, if_false]
      have hend : g.old_sectors = 129 + 128 * idx + 128 := by omega
      refine ⟨g, false, rfl, same_meta_refl _, (fun h => by cases h), fun _ => ?_⟩
      have e1 : 132 + 129 * idx + (g.old_sectors - (129 + 128 * idx)) = 131 + 129 * (idx + 1) := by
        omega
      refine ⟨hend, hn, hadd, rfl, rfl, ?_, ?_⟩
      · rw [e1] at hg; exact hg
      · rw [hfree, e1]

/-- Case 3, a new inner block: `free_map_allocate (1, &indirect_buffer[index])`. -/
theorem ginv_step_inner_ptr {d0 : Disk} {ino0 : inode} {c0 : Nat} {F0 : List Nat}
    (hc : GCtx d0 ino0 c0 F0) (disk : Disk) (ino : inode) (buf buf2 : Nat → Nat) (idx a : Nat)
    (hg : GInv d0 ino0 c0 F0 (disk_write disk ino.doubly_indirect_ptr (words_block buf)) ino
      (131 + 129 * idx))
    (ha : F0[131 + 129 * idx - c0]? = some a) :
    GInv d0 ino0 c0 F0
      (disk_write (disk_write disk a (words_block buf2)) ino.doubly_indirect_ptr
        (words_block (set_word buf idx a))) ino (131 + 129 * idx + 1) := by
  have hal : a < 4294967296 := hc.small a (List.mem_iff_getElem?.mpr ⟨_, ha⟩)
  have sdbl : slot_sector (disk_write disk ino.doubly_indirect_ptr (words_block buf)) ino
      Slot.doubly = ino.doubly_indirect_ptr := rfl
  have sind : slot_sector (disk_write disk ino.doubly_indirect_ptr (words_block buf)) ino
      Slot.indirect = ino.indirect_ptr := rfl
  have sinner : ∀ j, slot_sector (disk_write disk ino.doubly_indirect_ptr (words_block buf)) ino
      (Slot.inner j) = block_word (words_block buf) j := by
    intro j
    simp only [slot_sector, disk_write_same]
  have rdbl : slot_rank Slot.doubly < 131 + 129 * idx := by simp only [slot_rank]; omega
  have rind : slot_rank Slot.indirect < 131 + 129 * idx := by simp only [slot_rank]; omega
  have rinner : ∀ j, j < idx → slot_rank (Slot.inner j) < 131 + 129 * idx := by
    intro j hj
    simp only [slot_rank]; omega
  have hid : ino.indirect_ptr ≠ ino.doubly_indirect_ptr := by
    intro e
    have := ginv_inj hc hg rind rdbl (by rw [sind, sdbl, e])
    cases this
  have had : ino.doubly_indirect_ptr ≠ a := by
    have := ginv_next_fresh hc hg ha rdbl
    rwa [sdbl] at this
  have hai : ino.indirect_ptr ≠ a := by
    have := ginv_next_fresh hc hg ha rind
    rwa [sind] at this
  have hbuf : ∀ j, j ≠ idx →
      block_word (words_block (set_word buf idx a)) j = block_word (words_block buf) j := by
    intro j hj
    rw [block_word_words_block, block_word_words_block]
    simp [set_word, hj]
  apply ginv_alloc hc hg ha (Slot.inner idx)
  · simp only [slot_rank]
  · intro s hs
    cases s with
    | data k =>
      simp only [slot_sector, data_sector]
      by_cases k0 : k = 0
      · simp [k0]
      · by_cases k1 : k < 129
        · simp only [k0, k1, if_false, if_true]
          rw [disk_write_ne _ _ _ hid, disk_write_ne _ _ _ hai, disk_write_ne _ _ _ hid]
        · simp only [k0, k1, if_false, disk_write_same]
          have hr : 132 + 129 * ((k - 129) / 128) + (k - 129) % 128 < 131 + 129 * idx := by
            simp only [slot_rank, k0, k1, if_false] at hs
            exact hs
          have hjl : (k - 129) / 128 < idx := by omega
          have rj := rinner ((k - 129) / 128) hjl
          rw [hbuf _ (by omega)]
          have q1 : block_word (words_block buf) ((k - 129) / 128) ≠ ino.doubly_indirect_ptr := by
            intro e
            have := ginv_inj hc hg rj rdbl (by rw [sinner, sdbl, e])
            cases this
          have q3 : block_word (words_block buf) ((k - 129) / 128) ≠ a := by
            have := ginv_next_fresh hc hg ha rj
            rwa [sinner] at this
          rw [disk_write_ne _ _ _ q1, disk_write_ne _ _ _ q3, disk_write_ne _ _ _ q1]
    | indirect => rfl
    | doubly => rfl
    | inner j =>
      have hj : j < idx := by simp only [slot_rank] at hs; omega
      simp only [slot_sector, disk_write_same]
      exact hbuf j (by omega)
  · simp only [slot_sector, disk_write_same]
    rw [block_word_words_block_lt]
    · simp [set_word]
    · simp [set_word, hal]
  · intro t hta hp
    have htd : t ≠ ino.doubly_indirect_ptr := by
      intro e
      exact hp Slot.doubly (by simp [is_pointer]) rdbl (by rw [sdbl, e])
    rw [disk_write_ne _ _ _ htd, disk_write_ne _ _ _ hta, disk_write_ne _ _ _ htd]
  · intro h
    exact absurd (by simp [is_pointer]) h

/-- Case 3, an inner block in use is read: `disk_read (indirect_buffer[index],
&indirect_buffer2)`. -/
theorem ginv_norm_inner {d0 : Disk} {ino0 : inode} {c0 : Nat} {F0 : List Nat}
    (hc : GCtx d0 ino0 c0 F0) (disk : Disk) (ino : inode) (buf : Nat → Nat) (idx c : Nat)
    (hb : buf idx < 4294967296) (hcr : 131 + 129 * idx < c)
    (hg : GInv d0 ino0 c0 F0 (disk_write disk ino.doubly_indirect_ptr (words_block buf)) ino c) :
    GInv d0 ino0 c0 F0
      (disk_write (disk_write disk (buf idx) (words_block (block_word (disk (buf idx)))))
        ino.doubly_indirect_ptr (words_block buf)) ino c := by
  have sdbl : slot_sector (disk_write disk ino.doubly_indirect_ptr (words_block buf)) ino
      Slot.doubly = ino.doubly_indirect_ptr := rfl
  have sind : slot_sector (disk_write disk ino.doubly_indirect_ptr (words_block buf)) ino
      Slot.indirect = ino.indirect_ptr := rfl
  have sinner : ∀ j, slot_sector (disk_write disk ino.doubly_indirect_ptr (words_block buf)) ino
      (Slot.inner j) = block_word (words_block buf) j := by
    intro j
    simp only [slot_sector, disk_write_same]
  have sidx : block_word (words_block buf) idx = buf idx := block_word_words_block_lt buf idx hb
  have rdbl : slot_rank Slot.doubly < c := by simp only [slot_rank]; omega
  have rind : slot_rank Slot.indirect < c := by simp only [slot_rank]; omega
  have ridx : slot_rank (Slot.inner idx) < c := by simp only [slot_rank]; omega
  have hpd : buf idx ≠ ino.doubly_indirect_ptr := by
    intro e
    have := ginv_inj hc hg ridx rdbl (by rw [sinner, sidx, sdbl, e])
    cases this
  have hid : ino.indirect_ptr ≠ ino.doubly_indirect_ptr := by
    intro e
    have := ginv_inj hc hg rind rdbl (by rw [sind, sdbl, e])
    cases this
  have hip : ino.indirect_ptr ≠ buf idx := by
    intro e
    have := ginv_inj hc hg rind ridx (by rw [sind, sinner, sidx, e])
    cases this
  apply ginv_transfer hc hg
  · intro s hs
    cases s with
    | data k =>
      simp only [slot_sector, data_sector]
      by_cases k0 : k = 0
      · simp [k0]
      · by_cases k1 : k < 129
        · simp only [k0, k1, if_false, if_true]
          rw [disk_write_ne _ _ _ hid, disk_write_ne _ _ _ hip, disk_write_ne _ _ _ hid]
        · simp only [k0, k1, if_false, disk_write_same]
          by_cases hj : (k - 129) / 128 = idx
          · rw [hj, sidx, disk_write_ne _ _ _ hpd, disk_write_same, disk_write_ne _ _ _ hpd,
              block_word_words_block_lt _ _ (block_word_lt _ _)]
          · have q2 : block_word (words_block buf) ((k - 129) / 128) ≠ buf idx := by
              intro e
              have hrj : slot_rank (Slot.inner ((k - 129) / 128)) < c := by
                have : slot_rank (Slot.inner ((k - 129) / 128)) < slot_rank (Slot.data k) := by
                  simp only [slot_rank, k0, k1, if_false]; omega
                omega
              have := ginv_inj hc hg hrj ridx (by rw [sinner, sinner, sidx, e])
              simp only [Slot.inner.injEq] at this
              exact hj this
            by_cases q1 : block_word (words_block buf) ((k - 129) / 128) = ino.doubly_indirect_ptr
            · rw [q1, disk_write_same, disk_write_same]
            · rw [disk_write_ne _ _ _ q1, disk_write_ne _ _ _ q2, disk_write_ne _ _ _ q1]
    | indirect => rfl
    | doubly => rfl
    | inner j => simp only [slot_sector, disk_write_same]
  · intro t hp
    have htd : t ≠ ino.doubly_indirect_ptr := by
      intro e
      exact hp Slot.doubly (by simp [is_pointer]) rdbl (by rw [sdbl, e])
    have htp : t ≠ buf idx := by
      intro e
      exact hp (Slot.inner idx) (by simp [is_pointer]) ridx (by rw [sinner, sidx, e])
    rw [disk_write_ne _ _ _ htd, disk_write_ne _ _ _ htp, disk_write_ne _ _ _ htd]

set_option maxRecDepth 8000 in
theorem loop_outer_spec {d0 : Disk} {ino0 : inode} {c0 : Nat} {F0 : List Nat}
    (hc : GCtx d0 ino0 c0 F0) (L n : Nat) (hlen : slot_count n ≤ c0 + F0.length)
    (fuel : Nat) (g : GrowState) (c : Nat) (h129 : 129 ≤ g.old_sectors)
    (hc1 : (g.old_sectors - 129) % 128 = 0 → c = 131 + 129 * ((g.old_sectors - 129) / 128))
    (hc2 : (g.old_sectors - 129) % 128 ≠ 0 →
      c = 132 + 129 * ((g.old_sectors - 129) / 128) + (g.old_sectors - 129) % 128 ∧
      g.indirect_buffer ((g.old_sectors - 129) / 128) < 4294967296)
    (hg : GInv d0 ino0 c0 F0
      (disk_write g.disk g.ino.doubly_indirect_ptr (words_block g.indirect_buffer)) g.ino c)
    (hadd : 1 ≤ g.sectors_to_add) (hn : g.old_sectors + g.sectors_to_add = n)
    (hf : g.sectors_to_add ≤ fuel) (hfree : g.free_map.free = F0.drop (c - c0)) :
    ∃ g1, grow_outer_loop fuel g L = some g1 ∧ same_meta g1.ino g.ino ∧
      GInv d0 ino0 c0 F0 g1.disk g1.ino (slot_count n) ∧ g1.ino.length = L ∧
      g1.free_map.free = F0.drop (slot_count n - c0) := by
  induction fuel generalizing g c with
  | zero => omega
  | succ fuel ih =>
    unfold grow_outer_loop
    simp only
    have hle := hg.le
    generalize hg1 : (if g.old_sectors % 128 = 1 then
        ({ g with free_map := (free_map_allocate g.free_map
                     (g.indirect_buffer ((g.old_sectors - 129) / 128))).2.1,
                  indirect_buffer := set_word g.indirect_buffer ((g.old_sectors - 129) / 128)
                    (free_map_allocate g.free_map
                      (g.indirect_buffer ((g.old_sectors - 129) / 128))).2.2 } : GrowState)
      else { g with indirect_buffer2 :=
                block_word (g.disk (g.indirect_buffer ((g.old_sectors - 129) / 128))) }) = g1
    have hsel : g1.old_sectors = g.old_sectors ∧ g1.sectors_to_add = g.sectors_to_add ∧
        g1.ino = g.ino ∧ g1.indirect_buffer ((g.old_sectors - 129) / 128) < 4294967296 ∧
        GInv d0 ino0 c0 F0
          (disk_write (disk_write g1.disk (g1.indirect_buffer ((g.old_sectors - 129) / 128))
            (words_block g1.indirect_buffer2)) g1.ino.doubly_indirect_ptr
            (words_block g1.indirect_buffer)) g1.ino
          (132 + 129 * ((g.old_sectors - 129) / 128)
            + (g1.old_sectors - (129 + 128 * ((g.old_sectors - 129) / 128)))) ∧
        g1.free_map.free = F0.drop (132 + 129 * ((g.old_sectors - 129) / 128)
            + (g1.old_sectors - (129 + 128 * ((g.old_sectors - 129) / 128))) - c0) := by
      rw [← hg1]
      by_cases hfr : g.old_sectors % 128 = 1
      · simp only [hfr, if_true]
        have hi0 : (g.old_sectors - 129) % 128 = 0 := by omega
        have hcv := hc1 hi0
        subst hcv
        have hlive : slot_rank (Slot.inner ((g.old_sectors - 129) / 128)) < slot_count n :=
          (slot_live_iff_rank n _).mp (by simp only [slot_live]; omega)
        have hidx : 131 + 129 * ((g.old_sectors - 129) / 128) - c0 < F0.length := by
          simp only [slot_rank] at hlive
          omega
        obtain ⟨a, ha⟩ : ∃ a, F0[131 + 129 * ((g.old_sectors - 129) / 128) - c0]? = some a :=
          ⟨_, List.getElem?_eq_getElem hidx⟩
        have hal := free_map_allocate_some (g.indirect_buffer ((g.old_sectors - 129) / 128))
          hfree ha
        have hstep := ginv_step_inner_ptr hc g.disk g.ino g.indirect_buffer g.indirect_buffer2
          ((g.old_sectors - 129) / 128) a hg ha
        have hsm : a < 4294967296 := hc.small a (List.mem_iff_getElem?.mpr ⟨_, ha⟩)
        have e1 : set_word g.indirect_buffer ((g.old_sectors - 129) / 128) a
            ((g.old_sectors - 129) / 128) = a := by simp [set_word]
        have e2 : 132 + 129 * ((g.old_sectors - 129) / 128)
            + (g.old_sectors - (129 + 128 * ((g.old_sectors - 129) / 128)))
            = 131 + 129 * ((g.old_sectors - 129) / 128) + 1 := by omega
        simp only [hal]
        refine ⟨trivial, trivial, trivial, by rw [e1]; exact hsm, ?_, ?_⟩
        · rw [e1, e2]
          exact hstep
        · congr 1
          omega
      · simp only [hfr, if_false]
        have hi0 : (g.old_sectors - 129) % 128 ≠ 0 := by omega
        obtain ⟨hcv, hbv⟩ := hc2 hi0
        subst hcv
        have hnorm := ginv_norm_inner hc g.disk g.ino g.indirect_buffer
          ((g.old_sectors - 129) / 128) _ hbv (by omega) hg
        have e2 : 132 + 129 * ((g.old_sectors - 129) / 128)
            + (g.old_sectors - (129 + 128 * ((g.old_sectors - 129) / 128)))
            = 132 + 129 * ((g.old_sectors - 129) / 128) + (g.old_sectors - 129) % 128 := by
          omega
        refine ⟨trivial, trivial, trivial, hbv, ?_, ?_⟩
        · rw [e2]
          exact hnorm
        · rw [hfree]
          congr 1
          omega
    obtain ⟨ho, hs, hi, hb1, hgi, hf1⟩ := hsel
    obtain ⟨g2, flag, r1, r2, r3, r4⟩ := loop_inner_spec hc L n hlen
      ((g.old_sectors - 129) / 128) g1.sectors_to_add g1 hb1 (by omega) (by omega) hgi
      (by omega) (by omega) (le_refl _) hf1
    rw [r1]
    cases flag with
    | true =>
      obtain ⟨a1, a2, a3⟩ := r3 rfl
      exact ⟨g2, rfl, by rw [← hi]; exact r2, a1, a2, a3⟩
    | false =>
      obtain ⟨b1, b2, b3, b4, b5, b6, b7⟩ := r4 rfl
      simp only
      have hidx : (129 + 128 * ((g.old_sectors - 129) / 128) + 128 - 129) / 128
          = (g.old_sectors - 129) / 128 + 1 := by omega
      have hmod : (129 + 128 * ((g.old_sectors - 129) / 128) + 128 - 129) % 128 = 0 := by
        omega
      obtain ⟨g4, e1, e2, e3, e4, e5⟩ := ih
        ⟨disk_write g2.disk (g2.indirect_buffer ((g.old_sectors - 129) / 128))
          (words_block g2.indirect_buffer2), g2.free_map, g2.ino, g2.indirect_buffer,
          g2.indirect_buffer2, g2.old_sectors, g2.sectors_to_add⟩
        (131 + 129 * ((g.old_sectors - 129) / 128 + 1))
        (by simp only; omega)
        (by simp only; intro _; rw [b1, hidx])
        (by simp only; intro h; rw [b1] at h; exact absurd hmod h)
        b6 (by simp only; omega) (by simp only; omega) (by simp only; omega) b7
      refine ⟨g4, e1, ?_, e3, e4, e5⟩
      simp only at e2
      rw [b5, hi] at e2
      exact e2

/-- Case 1: the direct sector. -/
theorem ginv_step_direct {d0 : Disk} {ino0 : inode} {c0 : Nat} {F0 : List Nat}
    (hc : GCtx d0 ino0 c0 F0) (vd : Disk) (ino : inode) (a : Nat)
    (hg : GInv d0 ino0 c0 F0 vd ino 0) (ha : F0[0 - c0]? = some a) :
    GInv d0 ino0 c0 F0 (disk_write vd a zeros) { ino with direct_ptr := a } (0 + 1) := by
  apply ginv_alloc hc hg ha (Slot.data 0)
  · simp [slot_rank]
  · intro s hs
    omega
  · simp [slot_sector, data_sector]
  · intro t hta _
    rw [disk_write_ne _ _ _ hta]
  · intro _
    rw [disk_write_same]

/-- Case 2, a new indirect block: `free_map_allocate (1, &inode->indirect_ptr)`. -/
theorem ginv_step_indirect_ptr {d0 : Disk} {ino0 : inode} {c0 : Nat} {F0 : List Nat}
    (hc : GCtx d0 ino0 c0 F0) (vd : Disk) (ino : inode) (buf : Nat → Nat) (a : Nat)
    (hg : GInv d0 ino0 c0 F0 vd ino 1) (ha : F0[1 - c0]? = some a) :
    GInv d0 ino0 c0 F0 (disk_write vd a (words_block buf)) { ino with indirect_ptr := a }
      (1 + 1) := by
  apply ginv_alloc hc hg ha Slot.indirect
  · simp [slot_rank]
  · intro s hs
    cases s with
    | data k =>
      have : k = 0 := by
        simp only [slot_rank] at hs
        split_ifs at hs <;> omega
      subst this
      simp [slot_sector, data_sector]
    | indirect => simp [slot_rank] at hs
    | doubly => simp [slot_rank] at hs
    | inner j => simp [slot_rank] at hs
  · simp [slot_sector]
  · intro t hta _
    rw [disk_write_ne _ _ _ hta]
  · intro h
    exact absurd (by simp [is_pointer]) h

/-- Case 2, the indirect block in use is read and written back. -/
theorem ginv_norm_indirect {d0 : Disk} {ino0 : inode} {c0 : Nat} {F0 : List Nat}
    (hc : GCtx d0 ino0 c0 F0) (vd : Disk) (ino : inode) (c : Nat) (hcr : 1 < c)
    (hg : GInv d0 ino0 c0 F0 vd ino c) :
    GInv d0 ino0 c0 F0
      (disk_write vd ino.indirect_ptr (words_block (block_word (vd ino.indirect_ptr)))) ino c := by
  have rind : slot_rank Slot.indirect < c := by simp only [slot_rank]; omega
  have sind : slot_sector vd ino Slot.indirect = ino.indirect_ptr := rfl
  apply ginv_transfer hc hg
  · intro s hs
    cases s with
    | data k =>
      simp only [slot_sector, data_sector]
      by_cases k0 : k = 0
      · simp [k0]
      · by_cases k1 : k < 129
        · simp only [k0, k1, if_false, if_true, disk_write_same]
          rw [block_word_words_block_lt _ _ (block_word_lt _ _)]
        · simp only [k0, k1, if_false]
          have hrk : slot_rank (Slot.data k)
              = 132 + 129 * ((k - 129) / 128) + (k - 129) % 128 := by
            simp only [slot_rank, k0, k1, if_false]
          have rdbl : slot_rank Slot.doubly < c := by simp only [slot_rank]; omega
          have rj : slot_rank (Slot.inner ((k - 129) / 128)) < c := by
            simp only [slot_rank]; omega
          have hid : ino.doubly_indirect_ptr ≠ ino.indirect_ptr := by
            intro e
            have := ginv_inj hc hg rdbl rind (by simp only [slot_sector]; exact e)
            cases this
          rw [disk_write_ne _ _ _ hid]
          have hq : block_word (vd ino.doubly_indirect_ptr) ((k - 129) / 128)
              ≠ ino.indirect_ptr := by
            intro e
            have := ginv_inj hc hg rj rind (by simp only [slot_sector]; exact e)
            cases this
          rw [disk_write_ne _ _ _ hq]
    | indirect => rfl
    | doubly => rfl
    | inner j =>
      have rdbl : slot_rank Slot.doubly < c := by simp only [slot_rank] at hs ⊢; omega
      have hid : ino.doubly_indirect_ptr ≠ ino.indirect_ptr := by
        intro e
        have := ginv_inj hc hg rdbl rind (by simp only [slot_sector]; exact e)
        cases this
      simp only [slot_sector]
      rw [disk_write_ne _ _ _ hid]
  · intro t hp
    have hti : t ≠ ino.indirect_ptr := by
      intro e
      exact hp Slot.indirect (by simp [is_pointer]) rind (by rw [sind, e])
    rw [disk_write_ne _ _ _ hti]

/-- Case 3, a new doubly indirect block:
`free_map_allocate (1, &inode->doubly_indirect_ptr)`. -/
theorem ginv_step_doubly_ptr {d0 : Disk} {ino0 : inode} {c0 : Nat} {F0 : List Nat}
    (hc : GCtx d0 ino0 c0 F0) (vd : Disk) (ino : inode) (buf : Nat → Nat) (a : Nat)
    (hg : GInv d0 ino0 c0 F0 vd ino 130) (ha : F0[130 - c0]? = some a) :
    GInv d0 ino0 c0 F0 (disk_write vd a (words_block buf)) { ino with doubly_indirect_ptr := a }
      (130 + 1) := by
  have rind : slot_rank Slot.indirect < 130 := by simp only [slot_rank]; omega
  have hai : ino.indirect_ptr ≠ a := by
    have := ginv_next_fresh hc hg ha rind
    exact this
  apply ginv_alloc hc hg ha Slot.doubly
  · simp [slot_rank]
  · intro s hs
    cases s with
    | data k =>
      have hk : k < 129 := by
        simp only [slot_rank] at hs
        split_ifs at hs <;> omega
      simp only [slot_sector, data_sector]
      by_cases k0 : k = 0
      · simp [k0]
      · simp only [k0, hk, if_false, if_true]
        rw [disk_write_ne _ _ _ hai]
    | indirect => rfl
    | doubly => simp [slot_rank] at hs
    | inner j => simp [slot_rank] at hs; omega
  · simp [slot_sector]
  · intro t hta _
    rw [disk_write_ne _ _ _ hta]
  · intro h
    exact absurd (by simp [is_pointer]) h

/-- Case 3, the doubly indirect block in use is read. -/
theorem ginv_norm_doubly {d0 : Disk} {ino0 : inode} {c0 : Nat} {F0 : List Nat}
    (hc : GCtx d0 ino0 c0 F0) (vd : Disk) (ino : inode) (c : Nat) (hcr : 130 < c)
    (hg : GInv d0 ino0 c0 F0 vd ino c) :
    GInv d0 ino0 c0 F0
      (disk_write vd ino.doubly_indirect_ptr
        (words_block (block_word (vd ino.doubly_indirect_ptr)))) ino c := by
  have rind : slot_rank Slot.indirect < c := by simp only [slot_rank]; omega
  have rdbl : slot_rank Slot.doubly < c := by simp only [slot_rank]; omega
  have hid : ino.indirect_ptr ≠ ino.doubly_indirect_ptr := by
    intro e
    have := ginv_inj hc hg rind rdbl (by simp only [slot_sector]; exact e)
    cases this
  apply ginv_transfer hc hg
  · intro s hs
    cases s with
    | data k =>
      simp only [slot_sector, data_sector]
      by_cases k0 : k = 0
      · simp [k0]
      · by_cases k1 : k < 129
        · simp only [k0, k1, if_false, if_true]
          rw [disk_write_ne _ _ _ hid]
        · simp only [k0, k1, if_false, disk_write_same]
          rw [block_word_words_block_lt _ _ (block_word_lt _ _)]
          have rj : slot_rank (Slot.inner ((k - 129) / 128)) < c := by
            simp only [slot_rank, k0, k1, if_false] at hs ⊢
            omega
          have hq : block_word (vd ino.doubly_indirect_ptr) ((k - 129) / 128)
              ≠ ino.doubly_indirect_ptr := by
            intro e
            have := ginv_inj hc hg rj rdbl (by simp only [slot_sector]; exact e)
            cases this
          rw [disk_write_ne _ _ _ hq]
    | indirect => rfl
    | doubly => rfl
    | inner j =>
      simp only [slot_sector, disk_write_same]
      rw [block_word_words_block_lt _ _ (block_word_lt _ _)]
  · intro t hp
    have htd : t ≠ ino.doubly_indirect_ptr := by
      intro e
      exact hp Slot.doubly (by simp [is_pointer]) rdbl (by simp only [slot_sector]; exact e.symm)
    rw [disk_write_ne _ _ _ htd]

theorem ginv_init (d0 : Disk) (ino0 : inode) (c0 : Nat) (F0 : List Nat) :
    GInv d0 ino0 c0 F0 d0 ino0 c0 :=
  ⟨le_refl _, fun _ _ => rfl, fun _ h1 h2 => absurd h2 (by omega),
    fun _ h1 h2 => absurd h2 (by omega), fun _ _ _ => rfl⟩

theorem grow_case1_spec {d0 : Disk} {ino0 : inode} {c0 : Nat} {F0 : List Nat}
    (hc : GCtx d0 ino0 c0 F0) (L n : Nat) (hlen : slot_count n ≤ c0 + F0.length)
    (g : GrowState) (hcount : c0 = slot_count g.old_sectors)
    (hg : GInv d0 ino0 c0 F0 g.disk g.ino c0) (hadd : 1 ≤ g.sectors_to_add)
    (hn : g.old_sectors + g.sectors_to_add = n) (hfree : g.free_map.free = F0) :
    same_meta (grow_case1 g L).1.ino g.ino ∧
    ((grow_case1 g L).2 = true →
      GInv d0 ino0 c0 F0 (grow_case1 g L).1.disk (grow_case1 g L).1.ino (slot_count n) ∧
      (grow_case1 g L).1.ino.length = L ∧
      (grow_case1 g L).1.free_map.free = F0.drop (slot_count n - c0)) ∧
    ((grow_case1 g L).2 = false →
      1 ≤ (grow_case1 g L).1.old_sectors ∧
      (grow_case1 g L).1.old_sectors + (grow_case1 g L).1.sectors_to_add = n ∧
      1 ≤ (grow_case1 g L).1.sectors_to_add ∧
      GInv d0 ino0 c0 F0 (grow_case1 g L).1.disk (grow_case1 g L).1.ino
        (slot_count (grow_case1 g L).1.old_sectors) ∧
      (grow_case1 g L).1.free_map.free
        = F0.drop (slot_count (grow_case1 g L).1.old_sectors - c0)) := by
  unfold grow_case1
  by_cases h0 : g.old_sectors = 0
  · simp only [h0, if_true]
    have hc0 : c0 = 0 := by rw [hcount, h0]; simp [slot_count]
    subst hc0
    have hpos : 0 < slot_count n := by
      simp only [slot_count]; split_ifs <;> omega
    obtain ⟨a, ha⟩ : ∃ a, F0[0 - 0]? = some a :=
      ⟨_, List.getElem?_eq_getElem (by omega)⟩
    have hal := free_map_allocate_some g.ino.direct_ptr (by rw [hfree]; rfl) ha
    have hstep := ginv_step_direct hc g.disk g.ino a hg ha
    simp only [hal]
    by_cases hz : g.sectors_to_add - 1 = 0
    · simp only [hz, if_true]
      have hcnt : slot_count n = 0 + 1 := by
        simp only [slot_count]; split_ifs <;> omega
      refine ⟨same_meta_refl _, fun _ => ⟨?_, rfl, ?_⟩, (fun h => by cases h)⟩
      · rw [hcnt]
        exact ginv_congr_ino hstep rfl rfl rfl
      · simp only [grow_finish, hcnt]
    · simp only [hz, if_false, Nat.zero_add]
      refine ⟨same_meta_refl _, (fun h => by cases h), fun _ => ⟨le_refl _, by omega, by omega,
        ?_, ?_⟩⟩
      · have : slot_count 1 = 0 + 1 := by simp [slot_count]
        rw [this]
        exact hstep
      · simp [slot_count]
  · simp only [h0, if_false]
    refine ⟨same_meta_refl _, (fun h => by cases h), fun _ => ⟨by omega, hn, hadd, ?_, ?_⟩⟩
    · rw [← hcount]; exact hg
    · rw [← hcount, hfree]; simp

set_option maxRecDepth 8000 in
theorem grow_case2_spec {d0 : Disk} {ino0 : inode} {c0 : Nat} {F0 : List Nat}
    (hc : GCtx d0 ino0 c0 F0) (L n : Nat) (hlen : slot_count n ≤ c0 + F0.length)
    (g : GrowState) (hm : 1 ≤ g.old_sectors)
    (hg : GInv d0 ino0 c0 F0 g.disk g.ino (slot_count g.old_sectors))
    (hadd : 1 ≤ g.sectors_to_add) (hn : g.old_sectors + g.sectors_to_add = n)
    (hfree : g.free_map.free = F0.drop (slot_count g.old_sectors - c0)) :
    ∃ g2 flag, grow_case2 g L = some (g2, flag) ∧ same_meta g2.ino g.ino ∧
      (flag = true → GInv d0 ino0 c0 F0 g2.disk g2.ino (slot_count n) ∧ g2.ino.length = L ∧
        g2.free_map.free = F0.drop (slot_count n - c0)) ∧
      (flag = false → 129 ≤ g2.old_sectors ∧ g2.old_sectors + g2.sectors_to_add = n ∧
        1 ≤ g2.sectors_to_add ∧
        GInv d0 ino0 c0 F0 g2.disk g2.ino (slot_count g2.old_sectors) ∧
        g2.free_map.free = F0.drop (slot_count g2.old_sectors - c0)) := by
  unfold grow_case2
  simp only
  have hle := hg.le
  generalize hg1 : (if g.old_sectors = 1 then
      ({ g with free_map := (free_map_allocate g.free_map g.ino.indirect_ptr).2.1,
                ino := { g.ino with indirect_ptr :=
                  (free_map_allocate g.free_map g.ino.indirect_ptr).2.2 } } : GrowState)
    else { g with indirect_buffer := block_word (g.disk g.ino.indirect_ptr) }) = g1
  have hsel : g1.old_sectors = g.old_sectors ∧ g1.sectors_to_add = g.sectors_to_add ∧
      same_meta g1.ino g.ino ∧ g1.ino.length = g.ino.length ∧ g1.disk = g.disk ∧
      GInv d0 ino0 c0 F0
        (disk_write g1.disk g1.ino.indirect_ptr (words_block g1.indirect_buffer)) g1.ino
        (if g.old_sectors = 1 then 2 else slot_count g.old_sectors) ∧
      g1.free_map.free
        = F0.drop ((if g.old_sectors = 1 then 2 else slot_count g.old_sectors) - c0) := by
    rw [← hg1]
    by_cases h1 : g.old_sectors = 1
    · simp only [h1, if_true]
      have hc1 : slot_count g.old_sectors = 1 := by rw [h1]; simp [slot_count]
      rw [hc1] at hg hfree hle
      have hcn : 2 < slot_count n := by
        simp only [slot_count]; split_ifs <;> omega
      obtain ⟨a, ha⟩ : ∃ a, F0[1 - c0]? = some a :=
        ⟨_, List.getElem?_eq_getElem (by omega)⟩
      have hal := free_map_allocate_some g.ino.indirect_ptr hfree ha
      have hstep := ginv_step_indirect_ptr hc g.disk g.ino g.indirect_buffer a hg ha
      simp only [hal]
      refine ⟨trivial, trivial, same_meta_refl _, trivial, trivial, hstep, ?_⟩
      congr 1
      omega
    · simp only [h1, if_false]
      have hc1 : 1 < slot_count g.old_sectors := by
        simp only [slot_count]; split_ifs <;> omega
      exact ⟨trivial, trivial, same_meta_refl _, trivial, trivial,
        ginv_norm_indirect hc g.disk g.ino _ hc1 hg, hfree⟩
  obtain ⟨ho, hs, hsm, hlen1, hdisk, hgi, hf1⟩ := hsel
  by_cases hbig : g.old_sectors ≤ 129
  · have hcv : (if g.old_sectors = 1 then 2 else slot_count g.old_sectors)
        = g.old_sectors + 1 := by
      simp only [slot_count]; split_ifs <;> omega
    rw [hcv] at hgi hf1
    obtain ⟨g2, flag, r1, r2, r3, r4⟩ := loop_indirect_spec hc L n hlen g1.sectors_to_add g1
      (by rw [ho]; exact hgi) (by omega) (by omega) (by omega) (by omega) (le_refl _)
      (by rw [ho]; exact hf1)
    rw [r1]
    cases flag with
    | true =>
      simp only
      exact ⟨g2, true, rfl, same_meta_trans r2 hsm, r3, (fun h => by cases h)⟩
    | false =>
      simp only
      obtain ⟨b1, b2, b3, b4, b5, b6, b7⟩ := r4 rfl
      refine ⟨_, false, rfl, same_meta_trans r2 hsm, (fun h => by cases h), fun _ => ?_⟩
      have hc129 : slot_count 129 = 130 := by simp [slot_count]
      simp only [b2, hc129]
      exact ⟨le_refl _, by omega, b4, b6, b7⟩
  · have hnl : ¬ g1.old_sectors < 129 := by omega
    have hcv : (if g.old_sectors = 1 then 2 else slot_count g.old_sectors)
        = slot_count g.old_sectors := by
      split_ifs <;> omega
    rw [hcv] at hgi hf1
    cases hfu : g1.sectors_to_add with
    | zero => omega
    | succ k =>
      unfold grow_indirect_loop
      simp only [hnl, if_false]
      refine ⟨_, false, rfl, hsm, (fun h => by cases h), fun _ => ?_⟩
      simp only [ho, hs]
      exact ⟨by omega, hn, hadd, hgi, hf1⟩

set_option maxRecDepth 8000 in
theorem grow_case3_spec {d0 : Disk} {ino0 : inode} {c0 : Nat} {F0 : List Nat}
    (hc : GCtx d0 ino0 c0 F0) (L n : Nat) (hlen : slot_count n ≤ c0 + F0.length)
    (hcap : n ≤ 16513) (g : GrowState) (hm : 129 ≤ g.old_sectors)
    (hg : GInv d0 ino0 c0 F0 g.disk g.ino (slot_count g.old_sectors))
    (hadd : 1 ≤ g.sectors_to_add) (hn : g.old_sectors + g.sectors_to_add = n)
    (hfree : g.free_map.free = F0.drop (slot_count g.old_sectors - c0)) :
    ∃ g3, grow_case3 g L = some g3 ∧ same_meta g3.ino g.ino ∧
      GInv d0 ino0 c0 F0 g3.disk g3.ino (slot_count n) ∧ g3.ino.length = L ∧
      g3.free_map.free = F0.drop (slot_count n - c0) := by
  unfold grow_case3
  have hassert : g.old_sectors ≤ 16513 := by omega
  simp only [hassert, if_true]
  have hle := hg.le
  generalize hg1 : (if g.old_sectors = 129 then
      ({ g with free_map := (free_map_allocate g.free_map g.ino.doubly_indirect_ptr).2.1,
                ino := { g.ino with doubly_indirect_ptr :=
                  (free_map_allocate g.free_map g.ino.doubly_indirect_ptr).2.2 } } : GrowState)
    else { g with indirect_buffer := block_word (g.disk g.ino.doubly_indirect_ptr) }) = g1
  have hsel : g1.old_sectors = g.old_sectors ∧ g1.sectors_to_add = g.sectors_to_add ∧
      same_meta g1.ino g.ino ∧
      ((g.old_sectors - 129) % 128 ≠ 0 →
        g1.indirect_buffer ((g.old_sectors - 129) / 128) < 4294967296) ∧
      GInv d0 ino0 c0 F0
        (disk_write g1.disk g1.ino.doubly_indirect_ptr (words_block g1.indirect_buffer)) g1.ino
        (if g.old_sectors = 129 then 131 else slot_count g.old_sectors) ∧
      g1.free_map.free
        = F0.drop ((if g.old_sectors = 129 then 131 else slot_count g.old_sectors) - c0) := by
    rw [← hg1]
    by_cases h1 : g.old_sectors = 129
    · simp only [h1, if_true]
      have hc1 : slot_count g.old_sectors = 130 := by rw [h1]; simp [slot_count]
      rw [hc1] at hg hfree hle
      have hcn : 131 < slot_count n := by
        simp only [slot_count]; split_ifs <;> omega
      obtain ⟨a, ha⟩ : ∃ a, F0[130 - c0]? = some a :=
        ⟨_, List.getElem?_eq_getElem (by omega)⟩
      have hal := free_map_allocate_some g.ino.doubly_indirect_ptr hfree ha
      have hstep := ginv_step_doubly_ptr hc g.disk g.ino g.indirect_buffer a hg ha
      simp only [hal]
      refine ⟨trivial, trivial, same_meta_refl _, ?_, hstep, ?_⟩
      · intro h; omega
      · congr 1
        omega
    · simp only [h1, if_false]
      have hc1 : 130 < slot_count g.old_sectors := by
        simp only [slot_count]; split_ifs <;> omega
      exact ⟨trivial, trivial, same_meta_refl _, fun _ => block_word_lt _ _,
        ginv_norm_doubly hc g.disk g.ino _ hc1 hg, hfree⟩
  obtain ⟨ho, hs, hsm, hb, hgi, hf1⟩ := hsel
  obtain ⟨g3, r1, r2, r3, r4, r5⟩ := loop_outer_spec hc L n hlen g1.sectors_to_add g1
    (if g.old_sectors = 129 then 131 else slot_count g.old_sectors) (by omega)
    (by
      rw [ho]
      intro h0
      simp only [slot_count]
      split_ifs <;> omega)
    (by
      rw [ho]
      intro h0
      refine ⟨?_, hb h0⟩
      simp only [slot_count]
      split_ifs <;> omega)
    hgi (by omega) (by omega) (le_refl _) hf1
  exact ⟨g3, r1, same_meta_trans r2 hsm, r3, r4, r5⟩

/-- Growth by at least one sector, with enough fresh free sectors: the new
index structure keeps the sector of every slot that was in use, names the
free sectors in allocation order for the new slots, the new data sectors are
zero on the disk, and the disk is unchanged outside the new sectors and the
pointer blocks of the inode. -/
theorem inode_grow_spec (d : Disk) (fm : FreeMap) (ino : inode) (L : Nat)
    (stack : (Nat → Nat) × (Nat → Nat))
    (hlt : bytes_to_sectors ino.length < bytes_to_sectors L)
    (hcap : bytes_to_sectors L ≤ 16513)
    (hc : GCtx d ino (slot_count (bytes_to_sectors ino.length)) fm.free)
    (hlen : slot_count (bytes_to_sectors L)
      ≤ slot_count (bytes_to_sectors ino.length) + fm.free.length) :
    ∃ d1 fm1 ino1, inode_grow d fm ino L stack = some (d1, fm1, ino1) ∧
      same_meta ino1 ino ∧ ino1.length = L ∧
      GInv d ino (slot_count (bytes_to_sectors ino.length)) fm.free d1 ino1
        (slot_count (bytes_to_sectors L)) ∧
      fm1.free = fm.free.drop
        (slot_count (bytes_to_sectors L) - slot_count (bytes_to_sectors ino.length)) := by
  unfold inode_grow
  simp only
  have hadd : (bytes_to_sectors L + 4294967296 - bytes_to_sectors ino.length) % 4294967296
      = bytes_to_sectors L - bytes_to_sectors ino.length := by omega
  rw [hadd]
  have hz : ¬ bytes_to_sectors L - bytes_to_sectors ino.length = 0 := by omega
  simp only [hz, if_false]
  obtain ⟨c1, c2, c3⟩ := grow_case1_spec hc L (bytes_to_sectors L) hlen
    ⟨d, fm, ino, stack.1, stack.2, bytes_to_sectors ino.length,
      bytes_to_sectors L - bytes_to_sectors ino.length⟩ rfl (ginv_init _ _ _ _)
    (by simp only; omega) (by simp only; omega) rfl
  generalize grow_case1 ⟨d, fm, ino, stack.1, stack.2, bytes_to_sectors ino.length,
      bytes_to_sectors L - bytes_to_sectors ino.length⟩ L = r1 at c1 c2 c3
  cases hflag : r1.2 with
  | true =>
    simp only [if_true]
    obtain ⟨a1, a2, a3⟩ := c2 hflag
    exact ⟨_, _, _, rfl, c1, a2, a1, a3⟩
  | false =>
    simp only [Bool.false_eq_true, if_false]
    obtain ⟨b1, b2, b3, b4, b5⟩ := c3 hflag
    obtain ⟨g2, flag, r1', r2, r3, r4⟩ := grow_case2_spec hc L (bytes_to_sectors L) hlen r1.1 b1
      b4 b3 b2 b5
    rw [r1']
    cases flag with
    | true =>
      simp only
      obtain ⟨a1, a2, a3⟩ := r3 rfl
      exact ⟨_, _, _, rfl, same_meta_trans r2 c1, a2, a1, a3⟩
    | false =>
      simp only
      obtain ⟨e1, e2, e3, e4, e5⟩ := r4 rfl
      obtain ⟨g3, s1, s2, s3, s4, s5⟩ := grow_case3_spec hc L (bytes_to_sectors L) hlen hcap g2
        e1 e4 e3 e2 e5
      rw [s1]
      exact ⟨_, _, _, rfl, same_meta_trans s2 (same_meta_trans r2 c1), s4, s3, s5⟩

/-! ### Reading and writing through the cache -/

theorem byte_to_sector_data (d : Disk) (ino : inode) (pos length : Nat) (h : pos < length)
    (hpos : pos < 2147483648) :
    byte_to_sector d ino pos length = data_sector d ino (pos / 512) := by
  have e1 : ¬ pos ≥ length := by omega
  unfold byte_to_sector data_sector
  simp only [e1, if_false, DISK_SECTOR_SIZE]
  by_cases h1 : pos < 512
  · have : pos / 512 = 0 := by omega
    simp only [h1, if_true, this]
  · have k0 : ¬ pos / 512 = 0 := by omega
    simp only [h1, if_false, k0]
    by_cases h2 : pos < 512 * 129
    · have k1 : pos / 512 < 129 := by omega
      have e3 : ((pos - 512) / 512) % 4294967296 = pos / 512 - 1 := by omega
      simp only [h2, if_true, k1, e3]
    · have k1 : ¬ pos / 512 < 129 := by omega
      have e4 : ((pos - 512 * 129) / (512 * 128)) % 4294967296 = (pos / 512 - 129) / 128 := by
        omega
      have e5 : ((pos - 512 * 129 + 4294967296
          - ((pos / 512 - 129) / 128 * 512 * 128) % 4294967296) % 4294967296 / 512)
            % 4294967296 = (pos / 512 - 129) % 128 := by
        omega
      simp only [h2, if_false, k1, e4, e5]

theorem slot_sector_agree {d dref : Disk} {ino : inode} {n : Nat}
    (h : ∀ t, ptr_sector dref ino n t → d t = dref t) (s : Slot) (hs : slot_live n s) :
    slot_sector d ino s = slot_sector dref ino s := by
  have hind : 1 < n → d ino.indirect_ptr = dref ino.indirect_ptr := fun h1 =>
    h _ ⟨Slot.indirect, by simp [is_pointer], h1, rfl⟩
  have hdbl : 129 < n → d ino.doubly_indirect_ptr = dref ino.doubly_indirect_ptr := fun h1 =>
    h _ ⟨Slot.doubly, by simp [is_pointer], h1, rfl⟩
  have hinner : ∀ j, 129 + 128 * j < n →
      d (block_word (dref ino.doubly_indirect_ptr) j)
        = dref (block_word (dref ino.doubly_indirect_ptr) j) := fun j h1 =>
    h _ ⟨Slot.inner j, by simp [is_pointer], h1, rfl⟩
  cases s with
  | data k =>
    simp only [slot_live] at hs
    simp only [slot_sector, data_sector]
    by_cases k0 : k = 0
    · simp [k0]
    · by_cases k1 : k < 129
      · simp only [k0, k1, if_false, if_true]
        rw [hind (by omega)]
      · simp only [k0, k1, if_false]
        rw [hdbl (by omega), hinner _ (by omega)]
  | indirect => rfl
  | doubly => rfl
  | inner j =>
    simp only [slot_live] at hs
    simp only [slot_sector]
    rw [hdbl (by omega)]

theorem data_not_ptr {dref : Disk} {ino : inode} {n : Nat} (hwf : inode_wf dref ino n)
    {k : Nat} (hk : k < n) : ¬ ptr_sector dref ino n (data_sector dref ino k) := by
  rintro ⟨s, hp, hl, e⟩
  have := hwf s (Slot.data k) hl hk e
  subst this
  exact hp

theorem data_sector_inj {dref : Disk} {ino : inode} {n : Nat} (hwf : inode_wf dref ino n)
    {k1 k2 : Nat} (h1 : k1 < n) (h2 : k2 < n)
    (e : data_sector dref ino k1 = data_sector dref ino k2) : k1 = k2 := by
  have := hwf (Slot.data k1) (Slot.data k2) h1 h2 e
  simpa using this

theorem memcpy_apply (dst : Nat → Nat) (dofs : Nat) (src : Nat → Nat) (sofs n i : Nat) :
    memcpy dst dofs src sofs n i
      = if dofs ≤ i ∧ i < dofs + n then src (sofs + (i - dofs)) else dst i := rfl

theorem write_loop_spec (dref : Disk) (ino : inode) (n : Nat) (buffer : Nat → Nat)
    (hwf : inode_wf dref ino n) (hn : ino.length ≤ 512 * n) (hlen : ino.length < 2147483648)
    (fuel : Nat) (fs : Filesys) (size offset bw : Nat)
    (hok : fs_ok dref ino n fs) (hend : offset + size ≤ ino.length) (hf : size ≤ fuel) :
    ∃ fs1, write_loop fuel fs ino buffer size offset bw = some (fs1, bw + size) ∧
      fs_ok dref ino n fs1 ∧ fs1.free_map = fs.free_map ∧
      ∀ k p, k < n → p < 512 →
        fs_logical fs1 (data_sector dref ino k) p =
          if offset ≤ 512 * k + p ∧ 512 * k + p < offset + size then
            buffer (bw + (512 * k + p - offset))
          else fs_logical fs (data_sector dref ino k) p := by
  induction fuel generalizing fs size offset bw with
  | zero =>
    have : size = 0 := by omega
    subst this
    refine ⟨fs, by simp [write_loop], hok, rfl, ?_⟩
    intro k p _ _
    have : ¬ (offset ≤ 512 * k + p ∧ 512 * k + p < offset + 0) := by omega
    simp only [this, if_false]
  | succ fuel ih =>
    unfold write_loop
    by_cases hs : size > 0
    · simp only [hs, if_true]
      have hmod : offset % 512 < 512 := Nat.mod_lt _ (by norm_num)
      generalize hch : (if size < (if ino.length - offset < DISK_SECTOR_SIZE - offset % DISK_SECTOR_SIZE
          then ino.length - offset else DISK_SECTOR_SIZE - offset % DISK_SECTOR_SIZE) then size
          else (if ino.length - offset < DISK_SECTOR_SIZE - offset % DISK_SECTOR_SIZE
            then ino.length - offset else DISK_SECTOR_SIZE - offset % DISK_SECTOR_SIZE)) = chunk
      have hc1 : 0 < chunk := by
        rw [← hch]; simp only [DISK_SECTOR_SIZE]; split_ifs <;> omega
      have hc2 : chunk ≤ size := by
        rw [← hch]; simp only [DISK_SECTOR_SIZE]; split_ifs <;> omega
      have hc5 : chunk ≤ 512 - offset % 512 := by
        rw [← hch]; simp only [DISK_SECTOR_SIZE]; split_ifs <;> omega
      have hl : ¬ chunk ≤ 0 := by omega
      simp only [hl, if_false]
      have hk0 : offset / 512 < n := by omega
      obtain ⟨hinv, hnc, hdisk⟩ := hok
      have hsec : byte_to_sector fs.disk ino offset ino.length
          = data_sector dref ino (offset / 512) := by
        rw [byte_to_sector_data _ _ _ _ (by omega) (by omega)]
        exact slot_sector_agree hdisk (Slot.data (offset / 512)) hk0
      obtain ⟨c1, d1, i, cl, e1, e2, e3, e4, e5, e6, e7, e8, e9⟩ :=
        get_cache_line_spec fs.cache fs.disk (data_sector dref ino (offset / 512)) 1 hinv
      simp only [hsec, e1, e2]
      have hi : i < c1.buffer_cache.length := (List.getElem?_eq_some.mp e2).1
      have hnl : (⟨memcpy cl.block (offset % DISK_SECTOR_SIZE) buffer bw chunk, cl.sector_idx,
          cl.accessed, cl.dirty⟩ : cache_line).sector_idx = cl.sector_idx := rfl
      have hdirty : cl.dirty ≠ 0 := e5 (by decide)
      have hok2 : fs_ok dref ino n
          ⟨d1, ⟨c1.buffer_cache.set i ⟨memcpy cl.block (offset % DISK_SECTOR_SIZE) buffer bw
            chunk, cl.sector_idx, cl.accessed, cl.dirty⟩, c1.buffer_cache_size⟩,
            fs.read_ahead_queue, fs.free_map⟩ := by
        refine ⟨⟨?_, ?_, ?_⟩, ?_, ?_⟩
        · have := e6.1
          unfold cache_wf at *
          simp only [List.length_set]
          exact this
        · exact unique_set_same e6.2.1 e2 hnl
        · intro j a ha hda
          rcases get_set_cases ha with ⟨_, ea⟩ | ⟨_, ha1⟩
          · subst ea
            exact absurd hda hdirty
          · exact e6.2.2 j a ha1 hda
        · intro t ht hc
          simp only at hc
          rw [cached_set_same e2 hnl] at hc
          rcases e9 t hc with e | e
          · rw [e] at ht
            exact data_not_ptr hwf hk0 ht
          · exact hnc t ht e
        · intro t ht
          simp only
          rw [e8 t (hnc t ht)]
          exact hdisk t ht
      obtain ⟨fs1, r1, r2, r3, r4⟩ := ih _ (size - chunk) (offset + chunk) (bw + chunk) hok2
        (by omega) (by omega)
      refine ⟨fs1, ?_, r2, r3, ?_⟩
      · rw [r1]
        congr 2
        omega
      · intro k p hk hp
        rw [r4 k p hk hp]
        have hlog : fs_logical
            ⟨d1, ⟨c1.buffer_cache.set i ⟨memcpy cl.block (offset % DISK_SECTOR_SIZE) buffer bw
              chunk, cl.sector_idx, cl.accessed, cl.dirty⟩, c1.buffer_cache_size⟩,
              fs.read_ahead_queue, fs.free_map⟩ (data_sector dref ino k) p
            = if k = offset / 512 then
                (if offset % 512 ≤ p ∧ p < offset % 512 + chunk then
                  buffer (bw + (p - offset % 512))
                 else fs_logical fs (data_sector dref ino k) p)
              else fs_logical fs (data_sector dref ino k) p := by
          unfold fs_logical
          simp only
          rw [logical_set_same d1 e6.2.1 e2 hnl, e3]
          by_cases hkk : k = offset / 512
          · subst hkk
            simp only [if_true, memcpy_apply, DISK_SECTOR_SIZE, e4]
          · have : data_sector dref ino k ≠ data_sector dref ino (offset / 512) :=
              fun e => hkk (data_sector_inj hwf hk hk0 e)
            simp only [this, if_false, hkk, e7]
        rw [hlog]
        by_cases hkk : k = offset / 512
        · simp only [hkk, if_true]
          subst hkk
          by_cases ha : offset + chunk ≤ 512 * (offset / 512) + p ∧
              512 * (offset / 512) + p < offset + chunk + (size - chunk)
          · have hb : offset ≤ 512 * (offset / 512) + p ∧
                512 * (offset / 512) + p < offset + size := by omega
            simp only [ha, hb, and_self, if_true]
            congr 1
            omega
          · simp only [ha, if_false]
            by_cases hb : offset % 512 ≤ p ∧ p < offset % 512 + chunk
            · have hb2 : offset ≤ 512 * (offset / 512) + p ∧
                  512 * (offset / 512) + p < offset + size := by omega
              simp only [hb, hb2, and_self, if_true]
              congr 1
              omega
            · have hb2 : ¬ (offset ≤ 512 * (offset / 512) + p ∧
                  512 * (offset / 512) + p < offset + size) := by omega
              simp only [hb, hb2, if_false]
        · simp only [hkk, if_false]
          by_cases ha : offset + chunk ≤ 512 * k + p ∧
              512 * k + p < offset + chunk + (size - chunk)
          · have hb : offset ≤ 512 * k + p ∧ 512 * k + p < offset + size := by omega
            simp only [ha, hb, and_self, if_true]
            congr 1
            omega
          · have hb : ¬ (offset ≤ 512 * k + p ∧ 512 * k + p < offset + size) := by
              intro hb
              apply ha
              have : k ≠ offset / 512 := hkk
              omega
            simp only [ha, hb, if_false]
    · have : size = 0 := by omega
      subst this
      refine ⟨fs, by simp, hok, rfl, ?_⟩
      intro k p _ _
      have : ¬ (offset ≤ 512 * k + p ∧ 512 * k + p < offset + 0) := by omega
      simp only [this, if_false]

theorem read_loop_spec (dref : Disk) (ino : inode) (n : Nat)
    (hwf : inode_wf dref ino n) (hn : ino.read_length ≤ 512 * n)
    (hlen : ino.read_length < 2147483648)
    (fuel : Nat) (fs : Filesys) (buffer : Nat → Nat) (size offset br : Nat)
    (hok : fs_ok dref ino n fs) (hf : size ≤ fuel) :
    ∃ fs1 buf1, read_loop fuel fs ino buffer size offset br
        = some (fs1, buf1, br + min size (ino.read_length - offset)) ∧
      fs_ok dref ino n fs1 ∧ (∀ t, fs_logical fs1 t = fs_logical fs t) ∧
      (∀ j, br ≤ j → j < br + min size (ino.read_length - offset) →
        buf1 j = fs_logical fs (data_sector dref ino ((offset + (j - br)) / 512))
          ((offset + (j - br)) % 512)) ∧
      (∀ j, j < br ∨ br + min size (ino.read_length - offset) ≤ j → buf1 j = buffer j) := by
  induction fuel generalizing fs buffer size offset br with
  | zero =>
    have : size = 0 := by omega
    subst this
    refine ⟨fs, buffer, by simp [read_loop], hok, fun _ => rfl, ?_, fun _ _ => rfl⟩
    intro j h1 h2
    simp at h2
    omega
  | succ fuel ih =>
    unfold read_loop
    by_cases hs : size > 0
    · simp only [hs, if_true]
      have hmod : offset % 512 < 512 := Nat.mod_lt _ (by norm_num)
      generalize hch : (if size < (if ino.read_length - offset < DISK_SECTOR_SIZE - offset % DISK_SECTOR_SIZE
          then ino.read_length - offset else DISK_SECTOR_SIZE - offset % DISK_SECTOR_SIZE) then size
          else (if ino.read_length - offset < DISK_SECTOR_SIZE - offset % DISK_SECTOR_SIZE
            then ino.read_length - offset else DISK_SECTOR_SIZE - offset % DISK_SECTOR_SIZE)) = chunk
      have hc2 : chunk ≤ size := by
        rw [← hch]; simp only [DISK_SECTOR_SIZE]; split_ifs <;> omega
      have hc3 : chunk ≤ ino.read_length - offset := by
        rw [← hch]; simp only [DISK_SECTOR_SIZE]; split_ifs <;> omega
      have hc4 : chunk = 0 → ino.read_length - offset = 0 := by
        rw [← hch]; simp only [DISK_SECTOR_SIZE]; split_ifs <;> omega
      have hc5 : chunk ≤ 512 - offset % 512 := by
        rw [← hch]; simp only [DISK_SECTOR_SIZE]; split_ifs <;> omega
      by_cases hl : chunk ≤ 0
      · have hz := hc4 (by omega)
        refine ⟨fs, buffer, ?_, hok, fun _ => rfl, ?_, fun _ _ => rfl⟩
        · simp only [hl, if_true]
          rw [hz]
          simp
        · intro j h1 h2
          rw [hz] at h2
          simp at h2
          omega
      · simp only [hl, if_false]
        have hc1 : 0 < chunk := by omega
        generalize hfs1 : (if byte_to_sector fs.disk ino (offset + chunk) ino.read_length ≠ 4294967295
          then read_ahead_put fs (byte_to_sector fs.disk ino (offset + chunk) ino.read_length)
          else fs) = fsq
        have hfc : fsq.cache = fs.cache := by
          rw [← hfs1]; unfold read_ahead_put; split_ifs <;> rfl
        have hfd : fsq.disk = fs.disk := by
          rw [← hfs1]; unfold read_ahead_put; split_ifs <;> rfl
        have hk0 : offset / 512 < n := by omega
        obtain ⟨hinv, hnc, hdisk⟩ := hok
        have hsec : byte_to_sector fs.disk ino offset ino.read_length
            = data_sector dref ino (offset / 512) := by
          rw [byte_to_sector_data _ _ _ _ (by omega) (by omega)]
          exact slot_sector_agree hdisk (Slot.data (offset / 512)) hk0
        obtain ⟨c1, d1, i, cl, e1, e2, e3, e4, e5, e6, e7, e8, e9⟩ :=
          get_cache_line_spec fs.cache fs.disk (data_sector dref ino (offset / 512)) 0 hinv
        rw [hfc, hfd]
        simp only [hsec, e1, e2]
        have hok2 : fs_ok dref ino n { fsq with cache := c1, disk := d1 } := by
          refine ⟨e6, ?_, ?_⟩
          · intro t ht hc
            rcases e9 t hc with e | e
            · rw [e] at ht
              exact data_not_ptr hwf hk0 ht
            · exact hnc t ht e
          · intro t ht
            simp only
            rw [e8 t (hnc t ht)]
            exact hdisk t ht
        obtain ⟨fs1, buf1, r1, r2, r3, r4, r5⟩ := ih { fsq with cache := c1, disk := d1 }
          (memcpy buffer br cl.block (offset % DISK_SECTOR_SIZE) chunk)
          (size - chunk) (offset + chunk) (br + chunk) hok2 (by omega)
        have hlog : ∀ t, fs_logical { fsq with cache := c1, disk := d1 } t = fs_logical fs t :=
          fun t => e7 t
        refine ⟨fs1, buf1, ?_, r2, fun t => (r3 t).trans (hlog t), ?_, ?_⟩
        · rw [r1]
          congr 3
          omega
        · intro j h1 h2
          by_cases hj : j < br + chunk
          · rw [r5 j (Or.inl hj), memcpy_apply]
            have : br ≤ j ∧ j < br + chunk := ⟨h1, hj⟩
            simp only [this, and_self, if_true, e4, DISK_SECTOR_SIZE]
            have a1 : (offset + (j - br)) / 512 = offset / 512 := by omega
            have a2 : (offset + (j - br)) % 512 = offset % 512 + (j - br) := by omega
            rw [a1, a2]
            rfl
          · rw [r4 j (by omega) (by omega), hlog]
            have a1 : offset + chunk + (j - (br + chunk)) = offset + (j - br) := by omega
            rw [a1]
        · intro j hj
          rw [r5 j (by omega), memcpy_apply]
          have : ¬ (br ≤ j ∧ j < br + chunk) := by omega
          simp only [this, if_false]
    · have : size = 0 := by omega
      subst this
      refine ⟨fs, buffer, by simp, hok, fun _ => rfl, ?_, fun _ _ => rfl⟩
      intro j h1 h2
      simp at h2
      omega

theorem bytes_to_sectors_mono {a b : Nat} (h : a ≤ b) : bytes_to_sectors a ≤ bytes_to_sectors b := by
  unfold bytes_to_sectors
  simp only [DISK_SECTOR_SIZE]
  omega

theorem bytes_to_sectors_bound (a : Nat) :
    a ≤ 512 * bytes_to_sectors a ∧ 512 * bytes_to_sectors a < a + 512 := by
  unfold bytes_to_sectors
  simp only [DISK_SECTOR_SIZE]
  omega

theorem gctx_of_ready {fs : Filesys} {ino : inode} (h : write_ready fs ino) :
    GCtx fs.disk ino (slot_count (bytes_to_sectors ino.length)) fs.free_map.free := by
  obtain ⟨hwf, ⟨hnd, hsm, hfr⟩, _, _, _⟩ := h
  refine ⟨?_, hnd, hsm, ?_⟩
  · intro s1 s2 h1 h2 e
    exact hwf s1 s2 ((slot_live_iff_rank _ _).mpr h1) ((slot_live_iff_rank _ _).mpr h2) e
  · intro a ha s hs
    exact hfr a ha s ((slot_live_iff_rank _ _).mpr hs)

theorem inode_grow_any (d : Disk) (fm : FreeMap) (ino : inode) (L : Nat)
    (stack : (Nat → Nat) × (Nat → Nat))
    (hlt : ino.length < L) (hcap : bytes_to_sectors L ≤ 16513)
    (hc : GCtx d ino (slot_count (bytes_to_sectors ino.length)) fm.free)
    (hlen : slot_count (bytes_to_sectors L)
      ≤ slot_count (bytes_to_sectors ino.length) + fm.free.length) :
    ∃ d1 fm1 ino1, inode_grow d fm ino L stack = some (d1, fm1, ino1) ∧ same_meta ino1 ino ∧
      ino1.length = L ∧
      GInv d ino (slot_count (bytes_to_sectors ino.length)) fm.free d1 ino1
        (slot_count (bytes_to_sectors L)) ∧
      fm1.free = fm.free.drop
        (slot_count (bytes_to_sectors L) - slot_count (bytes_to_sectors ino.length)) := by
  have hmono : bytes_to_sectors ino.length ≤ bytes_to_sectors L :=
    bytes_to_sectors_mono (by omega)
  rcases Nat.lt_or_ge (bytes_to_sectors ino.length) (bytes_to_sectors L) with h | h
  · exact inode_grow_spec d fm ino L stack h hcap hc hlen
  · have heq : bytes_to_sectors L = bytes_to_sectors ino.length := by omega
    have hz : (bytes_to_sectors L + 4294967296 - bytes_to_sectors ino.length) % 4294967296 = 0 := by
      rw [heq]; omega
    refine ⟨d, fm, { ino with length := L }, ?_, ⟨rfl, rfl, rfl, rfl, rfl, rfl, rfl⟩, rfl, ?_, ?_⟩
    · unfold inode_grow
      simp only [hz, if_true]
    · rw [heq]
      exact ginv_congr_ino (ginv_init d ino _ fm.free) rfl rfl rfl
    · rw [heq, Nat.sub_self]
      rfl

theorem grown_state (fs : Filesys) (ino : inode) (d1 : Disk) (ino1 : inode) (n1 : Nat)
    (fm1 : FreeMap) (hready : write_ready fs ino)
    (hg : GInv fs.disk ino (slot_count (bytes_to_sectors ino.length)) fs.free_map.free d1 ino1
      (slot_count n1)) :
    inode_wf d1 ino1 n1 ∧ fs_ok d1 ino1 n1 { fs with disk := d1, free_map := fm1 } ∧
      (∀ k, bytes_to_sectors ino.length ≤ k → k < n1 →
        fs_logical { fs with disk := d1, free_map := fm1 } (data_sector d1 ino1 k) = zeros) ∧
      (∀ k, k < bytes_to_sectors ino.length →
        fs_logical { fs with disk := d1, free_map := fm1 } (data_sector d1 ino1 k)
          = fs_logical fs (data_sector fs.disk ino k)) := by
  have hc := gctx_of_ready hready
  obtain ⟨hwf, ⟨hnd, hsm, hfr⟩, ⟨hcw, hcu, hcc⟩, hnf, hnp⟩ := hready
  have hA : ∀ s : Slot, slot_live n1 s →
      (slot_live (bytes_to_sectors ino.length) s ∧
        slot_sector d1 ino1 s = slot_sector fs.disk ino s) ∨
      (¬ slot_live (bytes_to_sectors ino.length) s ∧
        slot_sector d1 ino1 s ∈ fs.free_map.free) := by
    intro s hl
    have hr := (slot_live_iff_rank _ _).mp hl
    by_cases o : slot_rank s < slot_count (bytes_to_sectors ino.length)
    · exact Or.inl ⟨(slot_live_iff_rank _ _).mpr o, hg.old s o⟩
    · refine Or.inr ⟨fun h => o ((slot_live_iff_rank _ _).mp h), ?_⟩
      exact List.mem_iff_getElem?.mpr ⟨_, hg.new s (by omega) hr⟩
  have hB : ∀ t, cached fs.cache.buffer_cache t → d1 t = fs.disk t := by
    intro t ht
    apply hg.frame
    · intro i _ e
      exact hnf t (List.mem_iff_getElem?.mpr ⟨i, e⟩) ht
    · intro s hp hr e
      exact hnp t ⟨s, hp, (slot_live_iff_rank _ _).mpr hr, e⟩ ht
  refine ⟨?_, ⟨⟨hcw, hcu, ?_⟩, ?_, fun _ _ => rfl⟩, ?_, ?_⟩
  · intro s1 s2 l1 l2 e
    exact ginv_inj hc hg ((slot_live_iff_rank _ _).mp l1) ((slot_live_iff_rank _ _).mp l2) e
  · intro j cl hj hdirty
    have h1 : cl.block = fs.disk cl.sector_idx := hcc j cl hj hdirty
    have h2 : d1 cl.sector_idx = fs.disk cl.sector_idx := hB _ ⟨j, cl, hj, rfl⟩
    exact h1.trans h2.symm
  · intro t ht hcd
    obtain ⟨s, hp, hl, e⟩ := ht
    rcases hA s hl with ⟨l0, e0⟩ | ⟨_, m⟩
    · exact hnp t ⟨s, hp, l0, by rw [← e0, e]⟩ hcd
    · rw [e] at m
      exact hnf t m hcd
  · intro k hk0 hk1
    have hl : slot_live n1 (Slot.data k) := hk1
    have hr := (slot_live_iff_rank _ _).mp hl
    have hnl : ¬ slot_live (bytes_to_sectors ino.length) (Slot.data k) := by
      intro h
      have : k < bytes_to_sectors ino.length := h
      omega
    have hro : ¬ slot_rank (Slot.data k) < slot_count (bytes_to_sectors ino.length) :=
      fun h => hnl ((slot_live_iff_rank _ _).mpr h)
    rcases hA _ hl with ⟨l0, _⟩ | ⟨_, m⟩
    · exact absurd l0 hnl
    · have hz := hg.zero k (by omega) hr
      have hm : logical fs.cache.buffer_cache d1 (data_sector d1 ino1 k)
          = d1 (data_sector d1 ino1 k) := logical_miss d1 (hnf _ m)
      exact hm.trans hz
  · intro k hk
    have l0 : slot_live (bytes_to_sectors ino.length) (Slot.data k) := hk
    have hr := (slot_live_iff_rank _ _).mp l0
    have e0 : data_sector d1 ino1 k = data_sector fs.disk ino k := hg.old (Slot.data k) hr
    show logical fs.cache.buffer_cache d1 (data_sector d1 ino1 k)
      = logical fs.cache.buffer_cache fs.disk (data_sector fs.disk ino k)
    rw [e0]
    by_cases hcd : cached fs.cache.buffer_cache (data_sector fs.disk ino k)
    · exact logical_cached_disk fs.disk d1 hcd
    · rw [logical_miss d1 hcd, logical_miss fs.disk hcd]
      apply hg.frame
      · intro i _ e
        exact hfr _ (List.mem_iff_getElem?.mpr ⟨i, e⟩) (Slot.data k) l0 rfl
      · intro s hp hr1 e
        have := hwf s (Slot.data k) ((slot_live_iff_rank _ _).mpr hr1) l0 e
        rw [this] at hp
        exact hp

theorem inode_wf_congr {d : Disk} {i1 i2 : inode} {n : Nat} (h : inode_wf d i1 n)
    (h1 : i2.direct_ptr = i1.direct_ptr) (h2 : i2.indirect_ptr = i1.indirect_ptr)
    (h3 : i2.doubly_indirect_ptr = i1.doubly_indirect_ptr) : inode_wf d i2 n := by
  intro s1 s2 l1 l2 e
  rw [slot_sector_congr d h1 h2 h3 s1, slot_sector_congr d h1 h2 h3 s2] at e
  exact h s1 s2 l1 l2 e

theorem fs_ok_congr {d : Disk} {i1 i2 : inode} {n : Nat} {fs : Filesys} (h : fs_ok d i1 n fs)
    (h1 : i2.direct_ptr = i1.direct_ptr) (h2 : i2.indirect_ptr = i1.indirect_ptr)
    (h3 : i2.doubly_indirect_ptr = i1.doubly_indirect_ptr) : fs_ok d i2 n fs := by
  have hp : ∀ t, ptr_sector d i2 n t → ptr_sector d i1 n t := by
    intro t ht
    obtain ⟨s, hs, hl, e⟩ := ht
    exact ⟨s, hs, hl, by rw [← slot_sector_congr d h1 h2 h3 s, e]⟩
  exact ⟨h.1, fun t ht => h.2.1 t (hp t ht), fun t ht => h.2.2 t (hp t ht)⟩

theorem write_prepare (fs : Filesys) (ino : inode) (buffer : Nat → Nat) (size offset : Nat)
    (stack : (Nat → Nat) × (Nat → Nat))
    (hd : ino.deny_write_cnt = 0) (hcap : offset + size ≤ 8388096)
    (hrange : ino.length < 2147483648) (hready : write_ready fs ino)
    (hfree : slot_count (bytes_to_sectors (offset + size))
      ≤ slot_count (bytes_to_sectors ino.length) + fs.free_map.free.length) :
    ∃ fs1 ino1 dref n,
      (∀ fs2 bw, write_loop size fs1 ino1 buffer size offset 0 = some (fs2, bw) →
        inode_write_at fs ino buffer size offset stack
          = some (fs2, { ino1 with read_length := ino1.length }, bw)) ∧
      inode_wf dref ino1 n ∧ fs_ok dref ino1 n fs1 ∧ ino1.length ≤ 512 * n ∧
      ino1.length < 2147483648 ∧ offset + size ≤ ino1.length ∧ ino.length ≤ ino1.length ∧
      (ino.length < offset + size → ino1.length = offset + size) ∧
      bytes_to_sectors ino.length ≤ n ∧ 512 * n < ino1.length + 512 ∧
      (∀ k, bytes_to_sectors ino.length ≤ k → k < n →
        fs_logical fs1 (data_sector dref ino1 k) = zeros) ∧
      (∀ k, k < bytes_to_sectors ino.length →
        fs_logical fs1 (data_sector dref ino1 k) = fs_logical fs (data_sector fs.disk ino k)) := by
  by_cases hg : offset + size > ino.length
  · have hcap2 : bytes_to_sectors (offset + size) ≤ 16513 := by
      have := (bytes_to_sectors_bound (offset + size)).2
      omega
    obtain ⟨d1, fm1, ino1, e1, _, e3, e4, _⟩ := inode_grow_any fs.disk fs.free_map ino
      (offset + size) stack hg hcap2 (gctx_of_ready hready) hfree
    obtain ⟨g1, g2, g3, g4⟩ := grown_state fs ino d1 ino1 (bytes_to_sectors (offset + size))
      fm1 hready e4
    have hb := bytes_to_sectors_bound (offset + size)
    refine ⟨{ fs with disk := d1, free_map := fm1 }, ino1, d1, bytes_to_sectors (offset + size),
      ?_, g1, g2, by rw [e3]; exact hb.1, by omega, by omega, by omega, fun _ => e3,
      bytes_to_sectors_mono (by omega), by rw [e3]; exact hb.2, g3, g4⟩
    intro fs2 bw hw
    unfold inode_write_at
    simp only [hd, ne_eq, not_true_eq_false, if_false, hg, if_true, e1, hw]
  · have hb := bytes_to_sectors_bound ino.length
    obtain ⟨hwf, _, hci, _, hnp⟩ := hready
    refine ⟨fs, ino, fs.disk, bytes_to_sectors ino.length, ?_, hwf,
      ⟨hci, hnp, fun _ _ => rfl⟩, hb.1, hrange, by omega, le_refl _, fun h => absurd h hg,
      le_refl _, hb.2, fun k h1 h2 => absurd h2 (by omega), fun _ _ => rfl⟩
    intro fs2 bw hw
    unfold inode_write_at
    simp only [hd, ne_eq, not_true_eq_false, if_false, hg, hw]

theorem read_after (dref : Disk) (ino1 : inode) (n : Nat) (fs2 : Filesys)
    (hwf : inode_wf dref ino1 n) (hok : fs_ok dref ino1 n fs2) (hn : ino1.length ≤ 512 * n)
    (hrange : ino1.length < 2147483648) (buf : Nat → Nat) (size offset : Nat) :
    ∃ fs3 buf1, inode_read_at fs2 { ino1 with read_length := ino1.length } buf size offset
        = some (fs3, buf1, min size (ino1.length - offset)) ∧
      ∀ j, j < min size (ino1.length - offset) →
        buf1 j = fs_logical fs2 (data_sector dref ino1 ((offset + j) / 512)) ((offset + j) % 512) := by
  unfold inode_read_at
  by_cases ho : offset ≥ ino1.length
  · have hz : min size (ino1.length - offset) = 0 := by omega
    rw [hz]
    simp only [ho, if_true]
    exact ⟨fs2, buf, rfl, fun j hj => absurd hj (by omega)⟩
  · simp only [ho, if_false]
    obtain ⟨fs3, buf1, r1, _, _, r4, _⟩ := read_loop_spec dref
      { ino1 with read_length := ino1.length } n (inode_wf_congr hwf rfl rfl rfl) hn hrange size
      fs2 buf size offset 0 (fs_ok_congr hok rfl rfl rfl) (le_refl _)
    simp only [Nat.zero_add] at r1 r4
    refine ⟨fs3, buf1, r1, ?_⟩
    intro j hj
    have := r4 j (Nat.zero_le _) hj
    simp only [Nat.sub_zero] at this
    rw [this]
    have e : data_sector dref { ino1 with read_length := ino1.length } ((offset + j) / 512)
        = data_sector dref ino1 ((offset + j) / 512) :=
      slot_sector_congr dref rfl rfl rfl (Slot.data ((offset + j) / 512))
    rw [e]

theorem slot_live_zero (s : Slot) : ¬ slot_live 0 s := by
  cases s <;> simp [slot_live]

theorem fresh_free_empty (d : Disk) (ino : inode) (F : List Nat) (h1 : F.Nodup)
    (h2 : ∀ a ∈ F, a < 4294967296) : fresh_free d ino 0 F :=
  ⟨h1, h2, fun _ _ s hl => absurd hl (slot_live_zero s)⟩

theorem cached_nil (t : Nat) : ¬ cached [] t := by
  intro h
  obtain ⟨j, cl, h1, _⟩ := h
  simp at h1

theorem cache_inv_init (d : Disk) : cache_inv init_buffer_cache d := by
  refine ⟨rfl, ?_, ?_⟩
  · intro i j a b h
    simp [init_buffer_cache] at h
  · intro j cl h
    simp [init_buffer_cache] at h

theorem write_ready_fresh : write_ready fresh_fs sample_inode := by
  have e : bytes_to_sectors sample_inode.length = 0 := by decide
  unfold write_ready
  rw [e]
  refine ⟨fun s1 _ l1 => absurd l1 (slot_live_zero s1),
    fresh_free_empty _ _ _ (by decide) (by decide), cache_inv_init _,
    fun a _ => cached_nil a, ?_⟩
  intro t ht
  obtain ⟨s, _, hl, _⟩ := ht
  exact absurd hl (slot_live_zero s)

/-- C1 fails in the growth path of `inode_write_at`.  `inode_grow` writes the
pointer blocks and the zeroed data sectors straight to the disk, past the
cache, and a sector that is freed keeps its cache line.  On `stale_fs`, where
the free sector 2 still has a dirty line from an earlier use, every allocation
succeeds with a fresh sector, yet a write of the 513 bytes `two_part_bytes` at
offset 0 of the empty file followed by a read of 513 bytes at offset 0 returns
513 both times and byte 0 of the result is 2, not 1.  The first
`get_cache_line` evicts the dirty line of sector 2, which `inode_grow` has
just made the indirect block, so the second sector of the file becomes
sector 1 again. -/
theorem round_trip_lost_with_stale_line :
    sample_inode.deny_write_cnt = 0 ∧ cache_wf stale_fs.cache ∧
    fresh_free stale_fs.disk sample_inode (bytes_to_sectors sample_inode.length)
      stale_fs.free_map.free ∧
    (inode_write_at stale_fs sample_inode two_part_bytes 513 0 (zeros, zeros)).bind (fun w =>
      (inode_read_at w.1 w.2.1 (fun _ => 0) 513 0).map (fun r => (w.2.2, r.2.2, r.2.1 0)))
      = some (513, 513, 2) ∧
    two_part_bytes 0 = 1 := by
  refine ⟨rfl, rfl, fresh_free_empty _ _ _ (by decide) (by decide), ?_, rfl⟩
  decide!

/-- The round trip on a cache that is in step with the disk: for an inode
with `deny_write_cnt = 0` whose index structure is well formed, a buffer cache
that is consistent with the disk and holds no line for a free sector or for a
pointer block of the inode, and a free map that hands out enough fresh
sectors, `inode_write_at (I, B, L, 0)` with
`0 < L <= 8,388,096` returns `L`, and a following `inode_read_at (I, buf, L, 0)`
returns `L` with the first `L` bytes of `buf` equal to those of `B`. -/
theorem write_read_round_trip (fs : Filesys) (ino : inode) (B buf : Nat → Nat) (L : Nat)
    (stack : (Nat → Nat) × (Nat → Nat))
    (hd : ino.deny_write_cnt = 0) (hL0 : 0 < L) (hL : L ≤ MAX_FILE_SIZE)
    (hrange : ino.length < 2147483648) (hready : write_ready fs ino)
    (hfree : slot_count (bytes_to_sectors L)
      ≤ slot_count (bytes_to_sectors ino.length) + fs.free_map.free.length) :
    ∃ fs1 ino1 fs2 buf1, inode_write_at fs ino B L 0 stack = some (fs1, ino1, L) ∧
      inode_read_at fs1 ino1 buf L 0 = some (fs2, buf1, L) ∧ ∀ j, j < L → buf1 j = B j := by
  have hL1 : 0 + L ≤ 8388096 := by
    simp only [MAX_FILE_SIZE] at hL
    omega
  have hfree1 : slot_count (bytes_to_sectors (0 + L))
      ≤ slot_count (bytes_to_sectors ino.length) + fs.free_map.free.length := by
    rw [Nat.zero_add]; exact hfree
  obtain ⟨fs1, ino1, dref, n, p1, hwf, hok, hn, hr1, hend, _, _, _, _, _, _⟩ :=
    write_prepare fs ino B L 0 stack hd hL1 hrange hready hfree1
  obtain ⟨fs2, w1, w2, _, w4⟩ := write_loop_spec dref ino1 n B hwf hn hr1 L fs1 L 0 0 hok hend
    (le_refl _)
  have hw := p1 fs2 (0 + L) w1
  rw [Nat.zero_add] at hw
  obtain ⟨fs3, buf1, r1, r2⟩ := read_after dref ino1 n fs2 hwf w2 hn hr1 buf L 0
  have hmin : min L (ino1.length - 0) = L := by omega
  rw [hmin] at r1 r2
  refine ⟨fs2, _, fs3, buf1, hw, r1, ?_⟩
  intro j hj
  rw [r2 j hj, w4 ((0 + j) / 512) ((0 + j) % 512) (by omega) (Nat.mod_lt _ (by norm_num))]
  have hpos : 512 * ((0 + j) / 512) + (0 + j) % 512 = j := by omega
  rw [hpos, if_pos (by omega)]
  congr 1
  omega

/-- C2 fails in the growth path of `inode_write_at`.  The zero fill of
`inode_grow` goes straight to the disk, past the cache, and a sector that is
freed keeps its cache line; growth inside the last sector of the file fills
nothing.  With the disk holding the byte 7 everywhere, a write of one byte at
offset 3 of a one-byte file leaves position 1 reading 7; with a line of the
free sector 2 in the cache holding the byte 7, left from an earlier use of
that sector, a write of one byte at offset 1 of the empty file leaves
position 0 reading 7. -/
theorem sparse_growth_reads_old_bytes :
    one_byte_inode.deny_write_cnt = 0 ∧ one_byte_inode.length = 1 ∧
    (inode_write_at sevens_fs one_byte_inode (fun _ => 9) 1 3 (zeros, zeros)).bind (fun w =>
      (inode_read_at w.1 w.2.1 (fun _ => 0) 4 0).map (fun r => (w.2.2, r.2.2, r.2.1 1)))
      = some (1, 4, 7) ∧
    sample_inode.deny_write_cnt = 0 ∧ sample_inode.length = 0 ∧
    (inode_write_at stale_data_fs sample_inode (fun _ => 9) 1 1 (zeros, zeros)).bind (fun w =>
      (inode_read_at w.1 w.2.1 (fun _ => 0) 2 0).map (fun r => (w.2.2, r.2.2, r.2.1 0)))
      = some (1, 2, 7) := by
  refine ⟨rfl, rfl, ?_, rfl, rfl, ?_⟩
  · decide!
  · decide!

/-- Sparse growth on a cache that is in step with the disk: for an inode of
length `L0` with `deny_write_cnt = 0` whose index structure is well formed, a
buffer cache that is consistent with the disk and holds no line for a free
sector or for a pointer block of the inode, a free map that hands out enough
fresh sectors, and a last sector whose bytes
from `L0` on are zero, after `inode_write_at (I, b, 1, offset)` with
`offset > L0` and `offset + 1 <= 8,388,096` every `inode_read_at` returns, and
every byte it returns for a position in `[L0, offset)` is 0. -/
theorem sparse_growth_reads_zero (fs : Filesys) (ino : inode) (b : Nat → Nat) (offset : Nat)
    (stack : (Nat → Nat) × (Nat → Nat))
    (hd : ino.deny_write_cnt = 0) (hoff : ino.length < offset)
    (hcap : offset + 1 ≤ MAX_FILE_SIZE) (hready : write_ready fs ino)
    (hfree : slot_count (bytes_to_sectors (offset + 1))
      ≤ slot_count (bytes_to_sectors ino.length) + fs.free_map.free.length)
    (htail : ∀ pos, ino.length ≤ pos → pos < 512 * bytes_to_sectors ino.length →
      fs_logical fs (data_sector fs.disk ino (pos / 512)) (pos % 512) = 0) :
    ∃ fs1 ino1, inode_write_at fs ino b 1 offset stack = some (fs1, ino1, 1) ∧
      ∀ (buf : Nat → Nat) (size off : Nat), ∃ fs2 buf1 r,
        inode_read_at fs1 ino1 buf size off = some (fs2, buf1, r) ∧
        ∀ j, j < r → ino.length ≤ off + j → off + j < offset → buf1 j = 0 := by
  have hcap1 : offset + 1 ≤ 8388096 := by
    simp only [MAX_FILE_SIZE] at hcap
    omega
  obtain ⟨fs1, ino1, dref, n, p1, hwf, hok, hn, hr1, hend, _, hlen, hn0, _, hzero, hold⟩ :=
    write_prepare fs ino b 1 offset stack hd hcap1 (by omega) hready hfree
  have hlen1 := hlen (by omega)
  obtain ⟨fs2, w1, w2, _, w4⟩ := write_loop_spec dref ino1 n b hwf hn hr1 1 fs1 1 offset 0 hok
    hend (le_refl _)
  have hw := p1 fs2 (0 + 1) w1
  refine ⟨fs2, _, hw, ?_⟩
  intro buf size off
  obtain ⟨fs3, buf1, r1, r2⟩ := read_after dref ino1 n fs2 hwf w2 hn hr1 buf size off
  refine ⟨fs3, buf1, _, r1, ?_⟩
  intro j hj h1 h2
  rw [r2 j hj, w4 ((off + j) / 512) ((off + j) % 512) (by omega) (Nat.mod_lt _ (by norm_num))]
  have hpos : 512 * ((off + j) / 512) + (off + j) % 512 = off + j := by omega
  rw [hpos, if_neg (by omega)]
  by_cases hk : (off + j) / 512 < bytes_to_sectors ino.length
  · rw [hold _ hk]
    exact htail (off + j) h1 (by omega)
  · rw [hzero _ (by omega) (by omega)]
    rfl

theorem write_read_round_trip_witness :
    sample_inode.deny_write_cnt = 0 ∧ write_ready fresh_fs sample_inode ∧
    ∃ fs1 ino1 fs2 buf1,
      inode_write_at fresh_fs sample_inode (fun _ => 65) 1 0 (zeros, zeros)
        = some (fs1, ino1, 1) ∧
      inode_read_at fs1 ino1 (fun _ => 0) 1 0 = some (fs2, buf1, 1) ∧
      ∀ j, j < 1 → buf1 j = (fun _ => 65) j :=
  ⟨rfl, write_ready_fresh,
    write_read_round_trip fresh_fs sample_inode (fun _ => 65) (fun _ => 0) 1 (zeros, zeros) rfl
      (by decide) (by decide) (by decide) write_ready_fresh (by decide)⟩

theorem sparse_growth_reads_zero_witness :
    sample_inode.length < 1 ∧ write_ready fresh_fs sample_inode ∧
    ∃ fs1 ino1, inode_write_at fresh_fs sample_inode (fun _ => 9) 1 1 (zeros, zeros)
        = some (fs1, ino1, 1) ∧
      ∀ (buf : Nat → Nat) (size off : Nat), ∃ fs2 buf1 r,
        inode_read_at fs1 ino1 buf size off = some (fs2, buf1, r) ∧
        ∀ j, j < r → sample_inode.length ≤ off + j → off + j < 1 → buf1 j = 0 :=
  ⟨by decide, write_ready_fresh,
    sparse_growth_reads_zero fresh_fs sample_inode (fun _ => 9) 1 (zeros, zeros) rfl
      (by decide) (by decide) write_ready_fresh (by decide)
      (fun pos _ h => absurd h (Nat.not_lt_zero pos))⟩

/-! ### Flushing -/

theorem write_behind_writes_cons (cl : cache_line) (rest : List cache_line) :
    write_behind_writes (cl :: rest)
      = if cl.dirty ≠ 0 then (cl.sector_idx, cl.block) :: write_behind_writes rest
        else write_behind_writes rest := rfl

theorem write_behind_loop_disk (done : Bool) (ls : List cache_line) (d : Disk) (n : Nat) :
    (write_behind_loop done ls d n).2.1 = disk_replay d (write_behind_writes ls) := by
  induction ls generalizing d n with
  | nil => rfl
  | cons cl rest ih =>
    unfold write_behind_loop
    cases done
    · simp only [Bool.false_eq_true, if_false]
      rw [ih, write_behind_writes_cons]
      by_cases h : cl.dirty ≠ 0
      · simp only [h, if_true, not_false_eq_true, disk_replay, List.foldl_cons, ne_eq]
      · simp only [h, if_false, disk_replay]
    · simp only [if_true]
      rw [ih, write_behind_writes_cons]
      by_cases h : cl.dirty ≠ 0
      · simp only [h, if_true, not_false_eq_true, disk_replay, List.foldl_cons, ne_eq]
      · simp only [h, if_false, disk_replay]

theorem write_behind_writes_clean {ls : List cache_line} (h : ∀ cl ∈ ls, cl.dirty = 0) :
    write_behind_writes ls = [] := by
  induction ls with
  | nil => rfl
  | cons cl rest ih =>
    rw [write_behind_writes_cons]
    have h0 : cl.dirty = 0 := h cl (List.mem_cons_self _ _)
    simp only [h0, ne_eq, not_true_eq_false, if_false]
    exact ih (fun x hx => h x (List.mem_cons_of_mem _ hx))

theorem write_behind_writes_mem {ls : List cache_line} {w : Nat × Block}
    (h : w ∈ write_behind_writes ls) : ∃ cl ∈ ls, cl.sector_idx = w.1 := by
  induction ls with
  | nil => simp [write_behind_writes] at h
  | cons cl rest ih =>
    rw [write_behind_writes_cons] at h
    by_cases hd : cl.dirty ≠ 0
    · simp only [hd, if_true, List.mem_cons, ne_eq, not_false_eq_true] at h
      rcases h with h | h
      · exact ⟨cl, List.mem_cons_self _ _, by rw [h]⟩
      · obtain ⟨x, hx, e⟩ := ih h
        exact ⟨x, List.mem_cons_of_mem _ hx, e⟩
    · simp only [hd, if_false] at h
      obtain ⟨x, hx, e⟩ := ih h
      exact ⟨x, List.mem_cons_of_mem _ hx, e⟩

theorem disk_replay_other (d : Disk) (ws : List (Nat × Block)) (s : Nat)
    (h : ∀ w ∈ ws, w.1 ≠ s) : disk_replay d ws s = d s := by
  induction ws generalizing d with
  | nil => rfl
  | cons w rest ih =>
    have h1 : disk_replay d (w :: rest) = disk_replay (disk_write d w.1 w.2) rest := rfl
    rw [h1, ih _ (fun x hx => h x (List.mem_cons_of_mem _ hx))]
    exact disk_write_ne d w.1 w.2 (fun e => h w (List.mem_cons_self _ _) e.symm)

theorem cache_unique_tail {cl : cache_line} {rest : List cache_line}
    (h : cache_unique (cl :: rest)) :
    cache_unique rest ∧ ∀ b ∈ rest, b.sector_idx ≠ cl.sector_idx := by
  constructor
  · intro i j a b hi hj e
    have := h (i + 1) (j + 1) a b (by simpa using hi) (by simpa using hj) e
    omega
  · intro b hb e
    obtain ⟨j, hj⟩ := List.mem_iff_getElem?.mp hb
    have := h 0 (j + 1) cl b (by simp) (by simpa using hj) e.symm
    omega

theorem disk_replay_holds {ls : List cache_line} (d : Disk) (hu : cache_unique ls)
    {cl : cache_line} (hm : cl ∈ ls) (hd : cl.dirty ≠ 0) :
    disk_replay d (write_behind_writes ls) cl.sector_idx = cl.block := by
  induction ls generalizing d with
  | nil => simp at hm
  | cons c0 rest ih =>
    obtain ⟨hu1, hne⟩ := cache_unique_tail hu
    rw [write_behind_writes_cons]
    rcases List.mem_cons.mp hm with e | hin
    · subst e
      simp only [hd, if_true, ne_eq, not_false_eq_true]
      have h1 : disk_replay d ((cl.sector_idx, cl.block) :: write_behind_writes rest)
          = disk_replay (disk_write d cl.sector_idx cl.block) (write_behind_writes rest) := rfl
      rw [h1, disk_replay_other]
      · exact disk_write_same d _ _
      · intro w hw e
        obtain ⟨x, hx, ex⟩ := write_behind_writes_mem hw
        exact hne x hx (by rw [ex, e])
    · by_cases h0 : c0.dirty ≠ 0
      · simp only [h0, if_true, ne_eq, not_false_eq_true]
        exact ih _ hu1 hin
      · simp only [h0, if_false]
        exact ih _ hu1 hin

theorem map_clean_dirty (ls : List cache_line) :
    ∀ cl ∈ ls.map (fun cl => if cl.dirty ≠ 0 then { cl with dirty := 0 } else cl),
      cl.dirty = 0 := by
  intro cl h
  obtain ⟨x, _, e⟩ := List.mem_map.mp h
  by_cases hx : x.dirty ≠ 0
  · simp only [hx, if_true, ne_eq, not_false_eq_true] at e
    rw [← e]
  · simp only [hx, if_false] at e
    rw [← e]
    simpa using hx

theorem map_clean_id {ls : List cache_line} (h : ∀ cl ∈ ls, cl.dirty = 0) :
    ls.map (fun cl => if cl.dirty ≠ 0 then { cl with dirty := 0 } else cl) = ls := by
  induction ls with
  | nil => rfl
  | cons c0 rest ih =>
    have h0 : c0.dirty = 0 := h c0 (List.mem_cons_self _ _)
    simp only [List.map_cons, h0, ne_eq, not_true_eq_false, if_false]
    rw [ih (fun x hx => h x (List.mem_cons_of_mem _ hx))]

/-- C11: after `write_behind_all (false)` every line has `dirty = 0`, the disk
is the old disk with the block of every dirty line written (so it holds the
block of every line that was dirty, no sector being held twice), and a second
`write_behind_all (false)` right after it performs no disk write and leaves
the cache and the disk as they are. -/
theorem flush_idempotent (c : BufferCache) (d : Disk) (hu : cache_unique c.buffer_cache) :
    (∀ cl ∈ (write_behind_all c d false).1.buffer_cache, cl.dirty = 0) ∧
    (write_behind_all c d false).2 = disk_replay d (write_behind_writes c.buffer_cache) ∧
    (∀ cl ∈ c.buffer_cache, cl.dirty ≠ 0 →
      (write_behind_all c d false).2 cl.sector_idx = cl.block) ∧
    write_behind_writes (write_behind_all c d false).1.buffer_cache = [] ∧
    write_behind_all (write_behind_all c d false).1 (write_behind_all c d false).2 false
      = write_behind_all c d false := by
  have hk := write_behind_loop_keep c.buffer_cache d c.buffer_cache_size
  have hdisk := write_behind_loop_disk false c.buffer_cache d c.buffer_cache_size
  have e1 : (write_behind_all c d false).1.buffer_cache
      = c.buffer_cache.map (fun cl => if cl.dirty ≠ 0 then { cl with dirty := 0 } else cl) :=
    hk.1
  have e2 : (write_behind_all c d false).2 = disk_replay d (write_behind_writes c.buffer_cache) :=
    hdisk
  have e3 : (write_behind_all c d false).1.buffer_cache_size = c.buffer_cache_size := hk.2
  have hclean : ∀ cl ∈ (write_behind_all c d false).1.buffer_cache, cl.dirty = 0 := by
    rw [e1]
    exact map_clean_dirty _
  refine ⟨hclean, e2, ?_, write_behind_writes_clean hclean, ?_⟩
  · intro cl hm hd
    rw [e2]
    exact disk_replay_holds d hu hm hd
  · generalize hr : write_behind_all c d false = r at hclean
    have hk2 := write_behind_loop_keep r.1.buffer_cache r.2 r.1.buffer_cache_size
    have hd2 := write_behind_loop_disk false r.1.buffer_cache r.2 r.1.buffer_cache_size
    rw [map_clean_id hclean] at hk2
    rw [write_behind_writes_clean hclean] at hd2
    unfold write_behind_all
    simp only
    rw [hk2.1, hk2.2, hd2]
    rfl

/-! ### Write denial count and visible length -/

theorem open_scan_deny {t t1 : OpenInodes} {S p : Nat} (h : open_scan t S = some (t1, p))
    (hinv : deny_inv t) : deny_inv t1 := by
  induction t generalizing t1 p with
  | nil => simp [open_scan] at h
  | cons x rest ih =>
    obtain ⟨q, ino⟩ := x
    unfold open_scan at h
    have hx : ino.deny_write_cnt ≤ ino.open_cnt := hinv (q, ino) (List.mem_cons_self _ _)
    have hrest : deny_inv rest := fun e he => hinv e (List.mem_cons_of_mem _ he)
    by_cases hs : ino.sector = S
    · rw [if_pos hs] at h
      simp only [Option.some.injEq, Prod.mk.injEq] at h
      rw [← h.1]
      intro e he
      rcases List.mem_cons.mp he with e1 | e1
      · rw [e1]
        show ino.deny_write_cnt ≤ ino.open_cnt + 1
        omega
      · exact hrest e e1
    · rw [if_neg hs] at h
      cases hr : open_scan rest S with
      | none => rw [hr] at h; simp at h
      | some r =>
        obtain ⟨rest1, q1⟩ := r
        rw [hr] at h
        simp only [Option.some.injEq, Prod.mk.injEq] at h
        rw [← h.1]
        intro e he
        rcases List.mem_cons.mp he with e1 | e1
        · rw [e1]; exact hx
        · exact ih hr hrest e e1

theorem open_scan_length {t t1 : OpenInodes} {S p : Nat} (h : open_scan t S = some (t1, p))
    (hinv : length_inv t) : length_inv t1 := by
  induction t generalizing t1 p with
  | nil => simp [open_scan] at h
  | cons x rest ih =>
    obtain ⟨q, ino⟩ := x
    unfold open_scan at h
    have hx : ino.read_length ≤ ino.length := hinv (q, ino) (List.mem_cons_self _ _)
    have hrest : length_inv rest := fun e he => hinv e (List.mem_cons_of_mem _ he)
    by_cases hs : ino.sector = S
    · rw [if_pos hs] at h
      simp only [Option.some.injEq, Prod.mk.injEq] at h
      rw [← h.1]
      intro e he
      rcases List.mem_cons.mp he with e1 | e1
      · rw [e1]; exact hx
      · exact hrest e e1
    · rw [if_neg hs] at h
      cases hr : open_scan rest S with
      | none => rw [hr] at h; simp at h
      | some r =>
        obtain ⟨rest1, q1⟩ := r
        rw [hr] at h
        simp only [Option.some.injEq, Prod.mk.injEq] at h
        rw [← h.1]
        intro e he
        rcases List.mem_cons.mp he with e1 | e1
        · rw [e1]; exact hx
        · exact ih hr hrest e e1

theorem inode_open_deny (t : OpenInodes) (d : Disk) (sector : Nat) (m : Option Nat)
    (hinv : deny_inv t) : deny_inv (inode_open t d sector m).1 := by
  unfold inode_open
  cases hs : open_scan t sector with
  | some r =>
    obtain ⟨t1, p⟩ := r
    exact open_scan_deny hs hinv
  | none =>
    cases m with
    | none => exact hinv
    | some p =>
      intro e he
      rcases List.mem_cons.mp he with e1 | e1
      · subst e1
        show (0 : Int) ≤ 1
        omega
      · exact hinv e e1

theorem inode_open_length (t : OpenInodes) (d : Disk) (sector : Nat) (m : Option Nat)
    (hinv : length_inv t) : length_inv (inode_open t d sector m).1 := by
  unfold inode_open
  cases hs : open_scan t sector with
  | some r =>
    obtain ⟨t1, p⟩ := r
    exact open_scan_length hs hinv
  | none =>
    cases m with
    | none => exact hinv
    | some p =>
      intro e he
      rcases List.mem_cons.mp he with e1 | e1
      · subst e1
        exact le_refl _
      · exact hinv e e1

theorem inode_reopen_deny (t : OpenInodes) (p : Option Nat) (hinv : deny_inv t) :
    deny_inv (inode_reopen t p).1 := by
  unfold inode_reopen
  cases p with
  | none => exact hinv
  | some a =>
    intro e he
    obtain ⟨x, hx, ex⟩ := List.mem_map.mp he
    have h0 := hinv x hx
    by_cases ha : x.1 = a
    · rw [if_pos ha] at ex
      rw [← ex]
      show x.2.deny_write_cnt ≤ x.2.open_cnt + 1
      omega
    · rw [if_neg ha] at ex
      rw [← ex]
      exact h0

theorem inode_close_deny (t : OpenInodes) (fs : Filesys) (a : Nat) (unused : Nat → Nat)
    (ino : inode) (hinv : deny_inv t) (hat : inode_at t a = some ino)
    (hlt : ino.deny_write_cnt < ino.open_cnt ∨ ino.open_cnt = 1) :
    ∃ t1 fs1, inode_close t fs (some a) unused = some (t1, fs1) ∧ deny_inv t1 := by
  unfold inode_close
  simp only [hat]
  have hfilter : deny_inv (t.filter (fun e => e.1 ≠ a)) :=
    fun e he => hinv e (List.mem_of_mem_filter he)
  by_cases h0 : ino.open_cnt - 1 = 0
  · simp only [h0, if_true]
    by_cases hr : ino.removed = true
    · simp only [hr, if_true]
      exact ⟨_, _, rfl, hfilter⟩
    · simp only [hr, if_false]
      exact ⟨_, _, rfl, hfilter⟩
  · simp only [h0, if_false]
    refine ⟨_, _, rfl, ?_⟩
    intro e he
    obtain ⟨x, hx, ex⟩ := List.mem_map.mp he
    by_cases ha : x.1 = a
    · rw [if_pos ha] at ex
      rw [← ex]
      show ino.deny_write_cnt ≤ ino.open_cnt - 1
      omega
    · rw [if_neg ha] at ex
      rw [← ex]
      exact hinv x hx

theorem inode_write_at_visible (fs : Filesys) (ino : inode) (buffer : Nat → Nat)
    (size offset : Nat) (stack : (Nat → Nat) × (Nat → Nat))
    (hi : ino.read_length ≤ ino.length) (hwf : cache_wf fs.cache)
    (hold : bytes_to_sectors ino.length ≤ 16513) :
    ∃ fs1 ino1 n, inode_write_at fs ino buffer size offset stack = some (fs1, ino1, n) ∧
      ino1.read_length ≤ ino1.length ∧
      (ino.deny_write_cnt = 0 → ino1.read_length = ino1.length ∧ n = size) ∧
      (ino.deny_write_cnt ≠ 0 → ino1 = ino ∧ n = 0) := by
  by_cases hd : ino.deny_write_cnt = 0
  · by_cases hg : offset + size > ino.length
    · obtain ⟨d1, fm1, ino1, e1, _, e3⟩ := inode_grow_total fs.disk fs.free_map ino
        (offset + size) stack hold
      obtain ⟨fs2, h4, _⟩ := write_loop_length size { fs with disk := d1, free_map := fm1 } ino1
        buffer size offset 0 hwf (le_refl _)
      have hm : min size (ino1.length - offset) = size := by rw [e3]; omega
      rw [hm, Nat.zero_add] at h4
      refine ⟨fs2, { ino1 with read_length := ino1.length }, size, ?_, le_refl _,
        fun _ => ⟨rfl, rfl⟩, fun h => absurd hd h⟩
      unfold inode_write_at
      simp only [hd, ne_eq, not_true_eq_false, if_false, hg, if_true, e1, h4]
    · obtain ⟨fs2, h4, _⟩ := write_loop_length size fs ino buffer size offset 0 hwf (le_refl _)
      have hm : min size (ino.length - offset) = size := by omega
      rw [hm, Nat.zero_add] at h4
      refine ⟨fs2, { ino with read_length := ino.length }, size, ?_, le_refl _,
        fun _ => ⟨rfl, rfl⟩, fun h => absurd hd h⟩
      unfold inode_write_at
      simp only [hd, ne_eq, not_true_eq_false, if_false, hg, h4]
  · refine ⟨fs, ino, 0, ?_, hi, fun h => absurd h hd, fun _ => ⟨rfl, rfl⟩⟩
    unfold inode_write_at
    simp only [hd, ne_eq, not_false_eq_true, if_true]

theorem cache_unique_single (cl : cache_line) : cache_unique [cl] := by
  intro i j a b hi hj _
  have h1 : i < 1 := by
    have := (List.getElem?_eq_some.mp hi).1
    simpa using this
  have h2 : j < 1 := by
    have := (List.getElem?_eq_some.mp hj).1
    simpa using this
  omega

theorem deny_inv_single (a : Nat) (ino : inode) (h : ino.deny_write_cnt ≤ ino.open_cnt) :
    deny_inv [(a, ino)] := by
  intro e he
  rw [List.mem_singleton.mp he]
  exact h

theorem inode_read_at_returns (fs : Filesys) (ino : inode) (buf : Nat → Nat) (size offset : Nat)
    (hwf : cache_wf fs.cache) :
    ∃ fs1 buf1 n, inode_read_at fs ino buf size offset = some (fs1, buf1, n) := by
  unfold inode_read_at
  by_cases ho : offset ≥ ino.read_length
  · simp only [ho, if_true]
    exact ⟨_, _, _, rfl⟩
  · simp only [ho, if_false]
    obtain ⟨fs1, buf1, h, _⟩ := read_loop_length size fs ino buf size offset 0 hwf (le_refl _)
    exact ⟨_, _, _, h⟩

/-- C14, as stated, fails for `inode_close`: an inode opened twice and
write-denied twice satisfies `deny_write_cnt <= open_cnt`, and after one
`inode_close` it has `deny_write_cnt = 2` and `open_cnt = 1`. -/
theorem inode_close_breaks_deny_count :
    deny_inv denied_open ∧
    (inode_close denied_open sample_fs (some 100) zeros).map
        (fun r => r.1.map (fun e => (e.2.deny_write_cnt, e.2.open_cnt)))
      = some [(2, 1)] := by
  refine ⟨deny_inv_single _ _ (by decide), ?_⟩
  decide

theorem deny_inv_store (t : OpenInodes) (a : Nat) (ino1 : inode) (hinv : deny_inv t)
    (h1 : ino1.deny_write_cnt ≤ ino1.open_cnt) :
    deny_inv (t.map (fun e => if e.1 = a then (e.1, ino1) else e)) := by
  intro e he
  obtain ⟨x, hx, ex⟩ := List.mem_map.mp he
  by_cases ha : x.1 = a
  · rw [if_pos ha] at ex
    rw [← ex]
    exact h1
  · rw [if_neg ha] at ex
    rw [← ex]
    exact hinv x hx

/-- C14 (amended): on a list of in-memory inodes that all have
`deny_write_cnt <= open_cnt`, the empty list of `inode_init` included, the
invariant holds after `inode_open` and after `inode_reopen`.  For every inode
of the list it holds after `inode_close` of that inode when the inode had
`deny_write_cnt < open_cnt` or is freed by the call (`open_cnt = 1`); when
`inode_deny_write` returns (it does when `deny_write_cnt < open_cnt`, and
panics otherwise) and when `inode_allow_write` returns (it does when
`deny_write_cnt > 0`), the inode satisfies it and so does the list with the
inode stored back. -/
theorem deny_count_invariant (t : OpenInodes) (d : Disk) (fs : Filesys) (sector : Nat)
    (m p : Option Nat) (unused : Nat → Nat) (hinv : deny_inv t) :
    deny_inv (inode_open t d sector m).1 ∧
    deny_inv (inode_reopen t p).1 ∧
    ∀ (a : Nat) (ino : inode), inode_at t a = some ino →
      ((ino.deny_write_cnt < ino.open_cnt ∨ ino.open_cnt = 1) →
        ∃ t1 fs1, inode_close t fs (some a) unused = some (t1, fs1) ∧ deny_inv t1) ∧
      (∀ ino1, inode_deny_write ino = some ino1 →
        ino1.deny_write_cnt ≤ ino1.open_cnt ∧
        deny_inv (t.map (fun e => if e.1 = a then (e.1, ino1) else e))) ∧
      (ino.deny_write_cnt < ino.open_cnt → ∃ ino1, inode_deny_write ino = some ino1) ∧
      (0 < ino.deny_write_cnt →
        ∃ ino1, inode_allow_write ino = some ino1 ∧ ino1.deny_write_cnt ≤ ino1.open_cnt ∧
          deny_inv (t.map (fun e => if e.1 = a then (e.1, ino1) else e))) := by
  refine ⟨inode_open_deny t d sector m hinv, inode_reopen_deny t p hinv, ?_⟩
  intro a ino hat
  have h0 : ino.deny_write_cnt ≤ ino.open_cnt := hinv (a, ino) (inode_at_mem hat)
  refine ⟨fun h => inode_close_deny t fs a unused ino hinv hat h, ?_, ?_, ?_⟩
  · intro ino1 h1
    unfold inode_deny_write at h1
    by_cases hc : ino.deny_write_cnt + 1 ≤ ino.open_cnt
    · simp only [hc, if_true, Option.some.injEq] at h1
      have hle : ino1.deny_write_cnt ≤ ino1.open_cnt := by
        rw [← h1]
        exact hc
      exact ⟨hle, deny_inv_store t a ino1 hinv hle⟩
    · simp only [hc, if_false] at h1
      cases h1
  · intro hlt
    have hc : ino.deny_write_cnt + 1 ≤ ino.open_cnt := by omega
    unfold inode_deny_write
    simp only [hc, if_true]
    exact ⟨_, rfl⟩
  · intro hpos
    unfold inode_allow_write
    simp only [gt_iff_lt, hpos, if_true, h0]
    have hle : ino.deny_write_cnt - 1 ≤ ino.open_cnt := by omega
    exact ⟨_, rfl, hle, deny_inv_store t a _ hinv hle⟩

/-- C15, as stated, fails in its last part: a write to an inode with
`deny_write_cnt = 1`, `length = 10` and `read_length = 5` returns 0 and leaves
`read_length = 5`, not equal to `length`. -/
theorem denied_write_keeps_lag :
    lagging_inode.read_length ≤ lagging_inode.length ∧
    (inode_write_at sample_fs lagging_inode (fun _ => 65) 1 0 (zeros, zeros)).map
        (fun r => (r.2.1.read_length, r.2.1.length, r.2.2))
      = some (5, 10, 0) := by
  refine ⟨by decide, ?_⟩
  decide

/-- C15 (amended): when every in-memory inode has `read_length <= length`,
this holds after `inode_open`; `inode_read_at` returns and has no inode among
its results; `inode_write_at`, growth included, returns with
`read_length <= length`, with `read_length = length` when `deny_write_cnt = 0`
on entry, and with the inode as it was (and the result 0) when the write is
refused. -/
theorem visible_length_invariant (t : OpenInodes) (d : Disk) (sector : Nat) (m : Option Nat)
    (fs : Filesys) (ino : inode) (buffer buf : Nat → Nat) (size offset rsize roffset : Nat)
    (stack : (Nat → Nat) × (Nat → Nat))
    (ht : length_inv t) (hi : ino.read_length ≤ ino.length) (hwf : cache_wf fs.cache)
    (hold : bytes_to_sectors ino.length ≤ 16513) :
    length_inv (inode_open t d sector m).1 ∧
    (∃ fs1 buf1 n, inode_read_at fs ino buf rsize roffset = some (fs1, buf1, n)) ∧
    ∃ fs1 ino1 n, inode_write_at fs ino buffer size offset stack = some (fs1, ino1, n) ∧
      ino1.read_length ≤ ino1.length ∧
      (ino.deny_write_cnt = 0 → ino1.read_length = ino1.length ∧ n = size) ∧
      (ino.deny_write_cnt ≠ 0 → ino1 = ino ∧ n = 0) :=
  ⟨inode_open_length t d sector m ht, inode_read_at_returns fs ino buf rsize roffset hwf,
    inode_write_at_visible fs ino buffer size offset stack hi hwf hold⟩

theorem flush_idempotent_witness :
    cache_unique one_dirty_cache.buffer_cache ∧
    (∀ cl ∈ (write_behind_all one_dirty_cache (fun _ => zeros) false).1.buffer_cache,
      cl.dirty = 0) ∧
    write_behind_writes (write_behind_all one_dirty_cache (fun _ => zeros) false).1.buffer_cache
      = [] :=
  ⟨cache_unique_single _,
    (flush_idempotent one_dirty_cache (fun _ => zeros) (cache_unique_single _)).1,
    (flush_idempotent one_dirty_cache (fun _ => zeros) (cache_unique_single _)).2.2.2.1⟩

theorem deny_count_invariant_witness :
    deny_inv inode_init ∧
    deny_inv (inode_open inode_init sample_fs.disk 5 (some 100)).1 ∧
    (inode_open inode_init sample_fs.disk 5 (some 100)).1.map
        (fun e => (e.2.deny_write_cnt, e.2.open_cnt)) = [(0, 1)] ∧
    deny_inv once_denied ∧
    deny_inv (inode_open once_denied sample_fs.disk 7 (some 200)).1 ∧
    deny_inv (inode_reopen once_denied (some 100)).1 ∧
    (∃ t1 fs1, inode_close once_denied sample_fs (some 100) zeros = some (t1, fs1) ∧
      deny_inv t1) ∧
    (inode_close once_denied sample_fs (some 100) zeros).map
        (fun r => r.1.map (fun e => (e.2.deny_write_cnt, e.2.open_cnt))) = some [(1, 1)] ∧
    (∃ ino1, inode_deny_write ⟨5, 2, false, 1, 0, 0, 0, 0, 0, 0, 1⟩ = some ino1) ∧
    (∃ ino1, inode_allow_write ⟨5, 2, false, 1, 0, 0, 0, 0, 0, 0, 1⟩ = some ino1 ∧
      ino1.deny_write_cnt ≤ ino1.open_cnt ∧
      deny_inv (once_denied.map (fun e => if e.1 = 100 then (e.1, ino1) else e))) :=
  have h0 : deny_inv inode_init := fun e he => absurd he (List.not_mem_nil e)
  have h1 : deny_inv once_denied := deny_inv_single _ _ (by decide)
  have r := deny_count_invariant once_denied sample_fs.disk sample_fs 7 (some 200) (some 100)
    zeros h1
  have r1 := r.2.2 100 ⟨5, 2, false, 1, 0, 0, 0, 0, 0, 0, 1⟩ rfl
  ⟨h0, (deny_count_invariant inode_init sample_fs.disk sample_fs 5 (some 100) none zeros h0).1,
    by decide, h1, r.1, r.2.1, r1.1 (Or.inl (by decide)), by decide, r1.2.2.1 (by decide),
    r1.2.2.2 (by decide)⟩

theorem visible_length_invariant_witness :
    length_inv [(100, sample_inode)] ∧ sample_inode.read_length ≤ sample_inode.length ∧
    cache_wf sample_fs.cache ∧ bytes_to_sectors sample_inode.length ≤ 16513 ∧
    ∃ fs1 ino1 n,
      inode_write_at sample_fs sample_inode (fun _ => 65) 1 0 (zeros, zeros)
        = some (fs1, ino1, n) ∧
      ino1.read_length ≤ ino1.length ∧
      (sample_inode.deny_write_cnt = 0 → ino1.read_length = ino1.length ∧ n = 1) ∧
      (sample_inode.deny_write_cnt ≠ 0 → ino1 = sample_inode ∧ n = 0) :=
  ⟨fun e he => by rw [List.mem_singleton.mp he]; exact le_refl _, le_refl _, rfl, by decide,
    (visible_length_invariant [(100, sample_inode)] sample_fs.disk 5 none sample_fs sample_inode
      (fun _ => 65) (fun _ => 0) 1 0 1 0 (zeros, zeros)
      (fun e he => by rw [List.mem_singleton.mp he]; exact le_refl _) (le_refl _) rfl
      (by decide)).2.2⟩

/-! ### Memory mapping -/

theorem hash_find_cons (x : spte) (rest : List spte) (p : Nat) :
    hash_find (x :: rest) p = if x.page = p then some x else hash_find rest p := rfl

theorem hash_find_none {h : List spte} {p : Nat} :
    hash_find h p = none ↔ ∀ e ∈ h, e.page ≠ p := by
  induction h with
  | nil => simp [hash_find]
  | cons x rest ih =>
    unfold hash_find
    by_cases hx : x.page = p
    · rw [if_pos hx]
      constructor
      · intro h; cases h
      · intro h; exact absurd hx (h x (List.mem_cons_self _ _))
    · rw [if_neg hx, ih]
      constructor
      · intro h e he
        rcases List.mem_cons.mp he with e1 | e1
        · rw [e1]; exact hx
        · exact h e e1
      · intro h e he
        exact h e (List.mem_cons_of_mem _ he)

theorem hash_find_append_none {h1 : List spte} (h2 : List spte) {p : Nat}
    (hn : hash_find h1 p = none) : hash_find (h1 ++ h2) p = hash_find h2 p := by
  induction h1 with
  | nil => rfl
  | cons x rest ih =>
    unfold hash_find at hn
    by_cases hx : x.page = p
    · rw [if_pos hx] at hn; cases hn
    · rw [if_neg hx] at hn
      show hash_find (x :: (rest ++ h2)) p = hash_find h2 p
      rw [hash_find_cons, if_neg hx]
      exact ih hn

theorem hash_find_append_some {h1 : List spte} (h2 : List spte) {p : Nat} {e : spte}
    (hs : hash_find h1 p = some e) : hash_find (h1 ++ h2) p = some e := by
  induction h1 with
  | nil => simp [hash_find] at hs
  | cons x rest ih =>
    unfold hash_find at hs
    show hash_find (x :: (rest ++ h2)) p = some e
    rw [hash_find_cons]
    by_cases hx : x.page = p
    · rw [if_pos hx] at hs ⊢
      exact hs
    · rw [if_neg hx] at hs ⊢
      exact ih hs

theorem hash_delete_absent {h : List spte} {q : Nat} (hn : hash_find h q = none) :
    hash_delete h q = h := by
  unfold hash_delete
  rw [List.filter_eq_self]
  intro e he
  have := hash_find_none.mp hn e he
  simpa using this

theorem hash_delete_append (h1 h2 : List spte) (q : Nat) :
    hash_delete (h1 ++ h2) q = hash_delete h1 q ++ hash_delete h2 q := by
  unfold hash_delete
  exact List.filter_append _ _

theorem pg_round_down_aligned {a : Nat} (h : a % PGSIZE = 0) : pg_round_down a = a := by
  unfold pg_round_down
  omega

theorem mmap_entry_page (f start L : Nat) (fresh : Nat → spte) (i : Nat) :
    (mmap_entry f start L fresh i).page = start + PGSIZE * i := rfl

theorem mmap_undo_zero (start i : Nat) (st : VM) : mmap_undo start 0 i st = some st := rfl

theorem mmap_undo_succ (start n i : Nat) (st : VM) :
    mmap_undo start (n + 1) i st =
      match find_spte st ((start + i * PGSIZE) % 4294967296) with
      | none => none
      | some spte1 =>
        mmap_undo start n (i + 1) { st with spt := hash_delete st.spt spte1.page } := rfl

theorem mmap_undo_spec (start : Nat) (spt0 : List spte) (ents : Nat → spte)
    (hpage : ∀ i, (ents i).page = start + PGSIZE * i) (hal : start % PGSIZE = 0) :
    ∀ (c i : Nat) (st : VM), st.spt = spt0 ++ (List.range' i c).map ents →
      (∀ j, i ≤ j → j < i + c → hash_find spt0 (start + PGSIZE * j) = none) →
      (0 < c → start + PGSIZE * (i + c) ≤ 4294967296) →
      mmap_undo start c i st = some { st with spt := spt0 } := by
  intro c
  induction c with
  | zero =>
    intro i st hs _ _
    rw [mmap_undo_zero]
    simp only [List.range'_zero, List.map_nil, List.append_nil] at hs
    rw [← hs]
  | succ c ih =>
    intro i st hs hnone hb0
    have hb := hb0 (by omega)
    rw [mmap_undo_succ]
    have haddr : (start + i * PGSIZE) % 4294967296 = start + PGSIZE * i := by
      simp only [PGSIZE] at hb ⊢
      omega
    have hal2 : (start + PGSIZE * i) % PGSIZE = 0 := by
      simp only [PGSIZE] at hal ⊢
      omega
    have hn0 := hnone i (le_refl _) (by omega)
    have hfind : find_spte st ((start + i * PGSIZE) % 4294967296) = some (ents i) := by
      rw [haddr]
      unfold find_spte
      rw [pg_round_down_aligned hal2, hs, hash_find_append_none _ hn0, List.range'_succ,
        List.map_cons, hash_find_cons, if_pos (hpage i)]
    rw [hfind]
    simp only
    have hrest : hash_delete ((List.range' (i + 1) c).map ents) (ents i).page
        = (List.range' (i + 1) c).map ents := by
      apply hash_delete_absent
      rw [hash_find_none]
      intro e he
      obtain ⟨j, hj, ej⟩ := List.mem_map.mp he
      have hj2 := List.mem_range'_1.mp hj
      rw [← ej, hpage j, hpage i]
      simp only [PGSIZE]
      omega
    have hdel : hash_delete st.spt (ents i).page = spt0 ++ (List.range' (i + 1) c).map ents := by
      rw [hs, hash_delete_append, List.range'_succ, List.map_cons]
      rw [hash_delete_absent (by rw [hpage i]; exact hn0)]
      congr 1
      have hc : hash_delete (ents i :: (List.range' (i + 1) c).map ents) (ents i).page
          = hash_delete ((List.range' (i + 1) c).map ents) (ents i).page := by
        unfold hash_delete
        rw [List.filter_cons_of_neg]
        simp
      rw [hc, hrest]
    rw [hdel]
    exact ih (i + 1) { st with spt := spt0 ++ (List.range' (i + 1) c).map ents } rfl
      (fun j h1 h2 => hnone j (by omega) (by omega)) (fun _ => by
        have : i + 1 + c = i + (c + 1) := by omega
        rw [this]; exact hb)

theorem hash_find_entries (ents : Nat → spte) (start : Nat)
    (hpage : ∀ i, (ents i).page = start + PGSIZE * i) (k j : Nat) (hj : k ≤ j) :
    hash_find ((List.range k).map ents) (start + PGSIZE * j) = none := by
  rw [hash_find_none]
  intro e he
  obtain ⟨i, hi, ei⟩ := List.mem_map.mp he
  have hi2 := List.mem_range.mp hi
  rw [← ei, hpage i]
  simp only [PGSIZE]
  omega

theorem pages_of_pos {L k : Nat} (hk : k ≤ pages_of L) :
    (0 < L - PGSIZE * k ↔ k < pages_of L) ∧ PGSIZE * k < L + PGSIZE := by
  unfold pages_of at hk ⊢
  simp only [PGSIZE] at hk ⊢
  omega

theorem vm_spt_eta (st0 : VM) (a : List spte) :
    ({ ({ st0 with spt := a } : VM) with spt := st0.spt } : VM) = st0 := rfl

theorem mmap_loop_spec (f start L : Nat) (fresh : Nat → spte) (hal : start % PGSIZE = 0)
    (st0 : VM) :
    ∀ (fuel k : Nat) (st : VM) (rb ofs : Nat),
      st = { st0 with spt := st0.spt ++ (List.range k).map (mmap_entry f start L fresh) } →
      rb = L - PGSIZE * k → (0 < rb → ofs = PGSIZE * k) → k ≤ pages_of L → rb ≤ fuel →
      (∀ j, j < k → hash_find st0.spt (start + PGSIZE * j) = none ∧
        start + PGSIZE * j < PHYS_BASE) →
      ((∀ j, k ≤ j → j < pages_of L → start + PGSIZE * j < PHYS_BASE ∧
          hash_find st0.spt (start + PGSIZE * j) = none) →
        mmap_loop f start fresh fuel st rb ofs (start + PGSIZE * k) k
          = some ({ st0 with spt := st0.spt ++
              (List.range (pages_of L)).map (mmap_entry f start L fresh) },
            some (pages_of L))) ∧
      ((∃ j, k ≤ j ∧ j < pages_of L ∧ ¬ (start + PGSIZE * j < PHYS_BASE ∧
          hash_find st0.spt (start + PGSIZE * j) = none)) →
        mmap_loop f start fresh fuel st rb ofs (start + PGSIZE * k) k = some (st0, none)) := by
  intro fuel
  induction fuel with
  | zero =>
    intro k st rb ofs hst hrb _ hk hf _
    have hz : rb = 0 := by omega
    have hkn : ¬ k < pages_of L := by
      have := (pages_of_pos hk).1
      rw [← hrb, hz] at this
      exact fun h => absurd (this.mpr h) (by omega)
    have hkeq : k = pages_of L := by omega
    constructor
    · intro _
      unfold mmap_loop
      simp only [hz, gt_iff_lt, lt_self_iff_false, if_false]
      rw [hst, hkeq]
    · intro h
      obtain ⟨j, h1, h2, _⟩ := h
      omega
  | succ fuel ih =>
    intro k st rb ofs hst hrb hofs hk hf hprev
    have hpp := pages_of_pos hk
    by_cases hpos : rb > 0
    · have hklt : k < pages_of L := hpp.1.mp (by rw [← hrb]; exact hpos)
      have hofs1 := hofs hpos
      have hal2 : (start + PGSIZE * k) % PGSIZE = 0 := by
        simp only [PGSIZE] at hal ⊢
        omega
      have hfind : find_spte st (start + PGSIZE * k) = hash_find st0.spt (start + PGSIZE * k) := by
        unfold find_spte
        rw [pg_round_down_aligned hal2, hst]
        show hash_find (st0.spt ++ (List.range k).map (mmap_entry f start L fresh)) _ = _
        cases h0 : hash_find st0.spt (start + PGSIZE * k) with
        | none =>
          rw [hash_find_append_none _ h0]
          exact hash_find_entries _ start (mmap_entry_page f start L fresh) k k (le_refl _)
        | some e => exact hash_find_append_some _ h0
      unfold mmap_loop
      simp only [hpos, if_true]
      by_cases hbad : (!is_user_vaddr (start + PGSIZE * k) ||
          (find_spte st (start + PGSIZE * k)).isSome) = true
      · simp only [hbad, if_true]
        have hundo := mmap_undo_spec start st0.spt (mmap_entry f start L fresh)
          (mmap_entry_page f start L fresh) hal k 0 st
          (by rw [hst, List.range_eq_range'])
          (fun j _ h2 => (hprev j (by omega)).1)
          (by
            intro h0
            have := (hprev (k - 1) (by omega)).2
            simp only [PGSIZE, PHYS_BASE] at this ⊢
            omega)
        rw [hundo, hst]
        have hnotok : ¬ (start + PGSIZE * k < PHYS_BASE ∧
            hash_find st0.spt (start + PGSIZE * k) = none) := by
          intro h
          rw [hfind, h.2] at hbad
          simp [is_user_vaddr, h.1] at hbad
        constructor
        · intro hall
          exact absurd (hall k (le_refl _) hklt) hnotok
        · intro _
          rfl
      · simp only [hbad, if_false]
        have hok : start + PGSIZE * k < PHYS_BASE ∧
            hash_find st0.spt (start + PGSIZE * k) = none := by
          rw [hfind] at hbad
          cases h0 : hash_find st0.spt (start + PGSIZE * k) with
          | none =>
            rw [h0] at hbad
            simp only [is_user_vaddr, Option.isSome_none, Bool.or_false, Bool.not_eq_true',
              decide_eq_false_iff_not, not_not] at hbad
            exact ⟨hbad, rfl⟩
          | some e =>
            rw [h0] at hbad
            simp at hbad
        have hins : hash_find st.spt (start + PGSIZE * k) = none := by
          have := hfind
          unfold find_spte at this
          rw [pg_round_down_aligned hal2] at this
          rw [this]
          exact hok.2
        have hentry : ({ fresh k with page := start + PGSIZE * k, file := f, ofs := ofs,
                                      read_bytes := (if rb < PGSIZE then rb else PGSIZE),
                                      zero_bytes := PGSIZE - (if rb < PGSIZE then rb else PGSIZE),
                                      writable := true, from_mmap := true, on_type := 1,
                                      accessing := false } : spte)
            = mmap_entry f start L fresh k := by
          have hrbe : (if rb < PGSIZE then rb else PGSIZE) = min (L - PGSIZE * k) PGSIZE := by
            rw [← hrb]
            split_ifs <;> omega
          unfold mmap_entry
          rw [hrbe, hofs1]
        have hadd : add_spte st (start + PGSIZE * k) f ofs (if rb < PGSIZE then rb else PGSIZE)
            (PGSIZE - (if rb < PGSIZE then rb else PGSIZE)) true true (fresh k)
            = ({ st0 with spt := st0.spt ++
                (List.range (k + 1)).map (mmap_entry f start L fresh) }, true) := by
          unfold add_spte hash_insert
          simp only [hentry, mmap_entry_page, hins]
          rw [hst]
          simp only [List.range_succ, List.map_append, List.map_cons, List.map_nil,
            List.append_assoc, Option.isNone_none]
        rw [hadd]
        simp only [Bool.not_true, Bool.false_eq_true, if_false]
        have haddr : start + PGSIZE * k + PGSIZE = start + PGSIZE * (k + 1) := by
          simp only [PGSIZE]; omega
        rw [haddr]
        have hih := ih (k + 1) _ (rb - (if rb < PGSIZE then rb else PGSIZE))
          (ofs + (if rb < PGSIZE then rb else PGSIZE)) rfl
          (by rw [hrb]; simp only [PGSIZE]; split_ifs <;> omega)
          (by
            intro h
            rw [hofs1]
            simp only [PGSIZE] at h ⊢
            split_ifs at h ⊢ <;> omega)
          (by omega)
          (by
            simp only [PGSIZE] at hpos ⊢
            split_ifs <;> omega)
          (by
            intro j hj
            rcases Nat.lt_or_ge j k with h | h
            · exact hprev j h
            · have : j = k := by omega
              rw [this]
              exact ⟨hok.2, hok.1⟩)
        constructor
        · intro hall
          exact hih.1 (fun j h1 h2 => hall j (by omega) h2)
        · intro hex
          obtain ⟨j, h1, h2, h3⟩ := hex
          have hjk : j ≠ k := by
            intro e
            rw [e] at h3
            exact h3 hok
          exact hih.2 ⟨j, by omega, h2, h3⟩
    · have hz : rb = 0 := by omega
      have hkn : ¬ k < pages_of L := by
        intro h
        have := hpp.1.mpr h
        omega
      have hkeq : k = pages_of L := by omega
      constructor
      · intro _
        unfold mmap_loop
        simp only [hz, gt_iff_lt, lt_self_iff_false, if_false]
        rw [hst, hkeq]
      · intro h
        obtain ⟨j, h1, h2, _⟩ := h
        omega

theorem vm_spt_nil (st : VM) (g : Nat → spte) :
    st = { st with spt := st.spt ++ (List.range 0).map g } := by
  simp

theorem find_spte_aligned (st : VM) {a : Nat} (h : a % PGSIZE = 0) :
    find_spte st a = hash_find st.spt a := by
  unfold find_spte
  rw [pg_round_down_aligned h]

theorem mmap_failure (st : VM) (fd : Int) (addr : Nat) (fresh : Nat → spte)
    (h : mmap_fails st fd addr) : mmap st fd addr fresh = some (st, -1) := by
  unfold mmap
  by_cases c1 : addr = 0 ∨ addr < 134512640
  · rw [if_pos c1]
  · rw [if_neg c1]
    by_cases c2 : pg_ofs addr ≠ 0
    · rw [if_pos c2]
    · rw [if_neg c2]
      have hal : addr % PGSIZE = 0 := by
        unfold pg_ofs at c2
        simpa using c2
      rcases h with h | h | h | h | h
      · exact absurd (Or.inl h) c1
      · exact absurd (Or.inr h) c1
      · exact absurd h c2
      · simp only [h]
      · obtain ⟨fd1, hfd, h⟩ := h
        simp only [hfd, file_reopen]
        by_cases c3 : file_length st fd1.f = 0
        · rw [if_pos c3]
        · rw [if_neg c3]
          rcases h with h | h
          · exact absurd h c3
          · obtain ⟨i, hi, hbad⟩ := h
            have hspec := (mmap_loop_spec fd1.f addr (file_length st fd1.f) fresh hal st
              (file_length st fd1.f) 0 st (file_length st fd1.f) 0 (vm_spt_nil st _)
              (by simp) (fun _ => by simp) (Nat.zero_le _) (le_refl _)
              (fun j hj => absurd hj (by omega))).2
            have hal2 : (addr + PGSIZE * i) % PGSIZE = 0 := by
              simp only [PGSIZE] at hal ⊢
              omega
            have hex : ∃ j, 0 ≤ j ∧ j < pages_of (file_length st fd1.f) ∧
                ¬ (addr + PGSIZE * j < PHYS_BASE ∧ hash_find st.spt (addr + PGSIZE * j) = none) := by
              refine ⟨i, Nat.zero_le _, hi, ?_⟩
              intro hc
              rcases hbad with hb | hb
              · simp [is_user_vaddr, hc.1] at hb
              · rw [find_spte_aligned st hal2, hc.2] at hb
                simp at hb
            have := hspec hex
            simp only [Nat.mul_zero, Nat.add_zero] at this
            rw [this]

theorem mmap_success (st : VM) (fd : Int) (addr : Nat) (fresh : Nat → spte) (fd1 : fd_elem)
    (h1 : addr ≠ 0) (h2 : 134512640 ≤ addr) (h3 : pg_ofs addr = 0)
    (hfd : find_fd st.fd_list fd = some fd1) (hL : 0 < file_length st fd1.f)
    (hall : ∀ i, i < pages_of (file_length st fd1.f) →
      is_user_vaddr (addr + PGSIZE * i) = true ∧ find_spte st (addr + PGSIZE * i) = none) :
    mmap st fd addr fresh = some (mapped_vm st fd1.f addr fresh, st.md_count) := by
  unfold mmap
  have c1 : ¬ (addr = 0 ∨ addr < 134512640) := by
    intro h
    rcases h with h | h
    · exact h1 h
    · omega
  have c2 : ¬ pg_ofs addr ≠ 0 := fun h => h h3
  have c3 : ¬ file_length st fd1.f = 0 := by omega
  have hal : addr % PGSIZE = 0 := h3
  rw [if_neg c1, if_neg c2]
  simp only [hfd, file_reopen]
  rw [if_neg c3]
  have hspec := (mmap_loop_spec fd1.f addr (file_length st fd1.f) fresh hal st
    (file_length st fd1.f) 0 st (file_length st fd1.f) 0 (vm_spt_nil st _)
    (by simp) (fun _ => by simp) (Nat.zero_le _) (le_refl _)
    (fun j hj => absurd hj (by omega))).1
  have hok : ∀ j, 0 ≤ j → j < pages_of (file_length st fd1.f) →
      addr + PGSIZE * j < PHYS_BASE ∧ hash_find st.spt (addr + PGSIZE * j) = none := by
    intro j _ hj
    have hal2 : (addr + PGSIZE * j) % PGSIZE = 0 := by
      simp only [PGSIZE] at hal ⊢
      omega
    obtain ⟨u, v⟩ := hall j hj
    rw [find_spte_aligned st hal2] at v
    refine ⟨?_, v⟩
    simpa [is_user_vaddr] using u
  have := hspec hok
  simp only [Nat.mul_zero, Nat.add_zero] at this
  rw [this]
  rfl

theorem hash_find_entries_some (ents : Nat → spte) (start : Nat)
    (hpage : ∀ i, (ents i).page = start + PGSIZE * i) (k i : Nat) (hi : i < k) :
    hash_find ((List.range k).map ents) (start + PGSIZE * i) = some (ents i) := by
  induction k with
  | zero => omega
  | succ k ih =>
    rw [List.range_succ, List.map_append]
    rcases Nat.lt_or_ge i k with h | h
    · exact hash_find_append_some _ (ih h)
    · have e : i = k := by omega
      rw [hash_find_append_none _ (hash_find_entries ents start hpage k i h), e]
      simp only [List.map_cons, List.map_nil]
      rw [hash_find_cons, if_pos (hpage k)]

theorem read_bytes_sum (L : Nat) : ∀ n : Nat,
    (L ≤ PGSIZE * n → ((List.range n).map (fun i => min (L - PGSIZE * i) PGSIZE)).sum = L) ∧
    (PGSIZE * n ≤ L →
      ((List.range n).map (fun i => min (L - PGSIZE * i) PGSIZE)).sum = PGSIZE * n) := by
  intro n
  induction n with
  | zero =>
    simp only [PGSIZE]
    constructor
    · intro h
      simp
      omega
    · intro _
      simp
  | succ n ih =>
    rw [List.range_succ, List.map_append, List.sum_append]
    simp only [List.map_cons, List.map_nil, List.sum_cons, List.sum_nil, Nat.add_zero]
    constructor
    · intro h
      rcases Nat.le_total L (PGSIZE * n) with h1 | h1
      · rw [ih.1 h1]
        simp only [PGSIZE] at h1 ⊢
        omega
      · rw [ih.2 h1]
        simp only [PGSIZE] at h h1 ⊢
        omega
    · intro h
      have h1 : PGSIZE * n ≤ L := by
        simp only [PGSIZE] at h ⊢
        omega
      rw [ih.2 h1]
      simp only [PGSIZE] at h ⊢
      omega

/-! ### Unmapping -/

theorem mmap_ok_of_not_fails (st : VM) (fd : Int) (addr : Nat) (fd1 : fd_elem)
    (hfd : find_fd st.fd_list fd = some fd1) (hn : ¬ mmap_fails st fd addr) :
    addr ≠ 0 ∧ 134512640 ≤ addr ∧ pg_ofs addr = 0 ∧ 0 < file_length st fd1.f ∧
      ∀ i, i < pages_of (file_length st fd1.f) →
        is_user_vaddr (addr + PGSIZE * i) = true ∧ find_spte st (addr + PGSIZE * i) = none := by
  refine ⟨fun h => hn (Or.inl h), ?_, ?_, ?_, ?_⟩
  · by_contra h
    exact hn (Or.inr (Or.inl (by omega)))
  · by_contra h
    exact hn (Or.inr (Or.inr (Or.inl h)))
  · by_contra h
    exact hn (Or.inr (Or.inr (Or.inr (Or.inr ⟨fd1, hfd, Or.inl (by omega)⟩))))
  · intro i hi
    by_contra h
    apply hn
    refine Or.inr (Or.inr (Or.inr (Or.inr ⟨fd1, hfd, Or.inr ⟨i, hi, ?_⟩⟩)))
    by_cases hu : is_user_vaddr (addr + PGSIZE * i) = true
    · right
      cases hs : find_spte st (addr + PGSIZE * i) with
      | none => exact absurd ⟨hu, hs⟩ h
      | some e => rfl
    · left
      simpa using hu

/-- C16: when `mmap (fd, addr)` returns a mapping id (not -1) for a file of
length `L`, then `L > 0`, the table has gained exactly `ceil (L / 4096)`
entries, entry `i` being for page `addr + 4096 i` with offset `4096 i`,
`read_bytes = min (L - 4096 i, 4096)`, `zero_bytes = 4096 - read_bytes`,
state on-file, writable and from a mapping (`mmap_entry`); the `read_bytes`
sum to `L` and `offset + read_bytes <= L` on every page; one descriptor with
the returned id, `addr` and the page count is appended. -/
theorem mmap_layout (st : VM) (fd : Int) (addr : Nat) (fresh : Nat → spte) (fd1 : fd_elem)
    (st1 : VM) (r : Int) (hfd : find_fd st.fd_list fd = some fd1)
    (hr : mmap st fd addr fresh = some (st1, r)) (hok : r ≠ -1) :
    0 < file_length st fd1.f ∧
    st1.spt = st.spt ++ (List.range (pages_of (file_length st fd1.f))).map
      (mmap_entry fd1.f addr (file_length st fd1.f) fresh) ∧
    (∀ i, i < pages_of (file_length st fd1.f) →
      find_spte st1 (addr + PGSIZE * i)
        = some (mmap_entry fd1.f addr (file_length st fd1.f) fresh i)) ∧
    ((List.range (pages_of (file_length st fd1.f))).map
      (fun i => (mmap_entry fd1.f addr (file_length st fd1.f) fresh i).read_bytes)).sum
        = file_length st fd1.f ∧
    (∀ i, i < pages_of (file_length st fd1.f) →
      (mmap_entry fd1.f addr (file_length st fd1.f) fresh i).ofs +
        (mmap_entry fd1.f addr (file_length st fd1.f) fresh i).read_bytes
          ≤ file_length st fd1.f) ∧
    st1.md_list = st.md_list ++ [⟨r, addr, pages_of (file_length st fd1.f)⟩] ∧
    r = st.md_count := by
  by_cases hf : mmap_fails st fd addr
  · rw [mmap_failure st fd addr fresh hf] at hr
    simp only [Option.some.injEq, Prod.mk.injEq] at hr
    exact absurd hr.2.symm hok
  · obtain ⟨h1, h2, h3, hL, hall⟩ := mmap_ok_of_not_fails st fd addr fd1 hfd hf
    rw [mmap_success st fd addr fresh fd1 h1 h2 h3 hfd hL hall] at hr
    simp only [Option.some.injEq, Prod.mk.injEq] at hr
    obtain ⟨e1, e2⟩ := hr
    have hal : addr % PGSIZE = 0 := h3
    refine ⟨hL, by rw [← e1]; rfl, ?_, ?_, ?_, by rw [← e1, ← e2]; rfl, e2.symm⟩
    · intro i hi
      have hal2 : (addr + PGSIZE * i) % PGSIZE = 0 := by
        simp only [PGSIZE] at hal ⊢
        omega
      have hnone := (hall i hi).2
      rw [find_spte_aligned st hal2] at hnone
      rw [find_spte_aligned st1 hal2, ← e1]
      show hash_find (st.spt ++ _) _ = _
      rw [hash_find_append_none _ hnone]
      exact hash_find_entries_some _ addr (mmap_entry_page fd1.f addr _ fresh) _ i hi
    · have hs := (read_bytes_sum (file_length st fd1.f) (pages_of (file_length st fd1.f))).1
        (by unfold pages_of; simp only [PGSIZE]; omega)
      exact hs
    · intro i hi
      show PGSIZE * i + min (file_length st fd1.f - PGSIZE * i) PGSIZE ≤ file_length st fd1.f
      unfold pages_of at hi
      simp only [PGSIZE] at hi ⊢
      omega

/-- C17: whenever one of the failure conditions of `mmap (fd, addr)` holds
(`addr` is 0, below `0x08048000` or not page aligned, `fd` is not open, the
file is empty, or a page of the range is not a user address or has an entry
already), `mmap` returns -1 and the state, with the supplemental page table
and the list of mappings, is what it was before the call. -/
theorem mmap_atomic (st : VM) (fd : Int) (addr : Nat) (fresh : Nat → spte)
    (hfail : mmap_fails st fd addr) :
    ∃ st1, mmap st fd addr fresh = some (st1, -1) ∧ st1.spt = st.spt ∧
      st1.md_list = st.md_list ∧ st1.md_count = st.md_count :=
  ⟨st, mmap_failure st fd addr fresh hfail, rfl, rfl, rfl⟩

/-- C12 fails in `munmap`.  In `evicted_map_vm` the mapped page `0x20000000`
is on file, its `frame` field still names the frame it was evicted from, and
that frame now holds the resident stack page `0xbffff000`, the only entry of
the frame table.  `munmap (0)` calls `free_frame_table` with the stale
`frame` field: afterwards the stack page is still resident (`on_type = 0`)
and the frame table is empty. -/
theorem munmap_breaks_residency :
    evicted_map_vm.map residency_view
      = some ([(536870912, 1, 3222274048), (3221221376, 0, 3222274048)],
          [(3222274048, 3221221376)]) ∧
    (evicted_map_vm.bind (fun st => munmap st 0)).map residency_view
      = some ([(3221221376, 0, 3222274048)], []) := by
  constructor
  · decide!
  · decide!

/-- C13 fails in `destroy_spt`.  In `swapped_stack_vm` the stack page
`0xbffff000` is on swap in slot 0 and bit 0 of the bitmap is set; after
`destroy_spt` no entry exists and bit 0 is still set. -/
theorem destroy_spt_leaks_swap_slot :
    swapped_stack_vm.map swap_view
      = some ([(3221221376, 2, 0), (3221217280, 0, 0)], [true, false]) ∧
    (swapped_stack_vm.map destroy_spt).map swap_view = some ([], [true, false]) := by
  constructor
  · decide!
  · decide!

/-- C19 fails when the uninitialised `i` of `check_valid_buffer_helper` is
not 0.  With `esp = 0xbfffffc0`, an empty table and the address `esp - 33`:
for `i = 1` the helper grows the stack and returns the new entry, for `i = 0`
the process exits with -1. -/
theorem helper_admits_below_heuristic :
    helper_view (check_valid_buffer_helper boot_vm (3221225408 - 33) 3221225408 1
        (some blank_spte))
      = (some ([3221221376], some 3221221376), none) ∧
    helper_view (check_valid_buffer_helper boot_vm (3221225408 - 33) 3221225408 0
        (some blank_spte))
      = (none, some (-1)) := by
  constructor
  · decide!
  · decide!

/-- C20 fails: `check_valid_pointer` compares the address with `page - 32`,
not with the stack pointer.  For the address `0xbf800000`, which has no entry
and is 8 MiB below `PHYS_BASE` (far more than 32 bytes below any stack
pointer above it), it returns 1 and has made the page a resident writable
stack page. -/
theorem check_valid_pointer_grows_anywhere :
    (check_valid_pointer boot_vm 3212836864 1 (fun _ => some blank_spte)).map
        (fun r => (r.2, r.1.spt.map (fun e => (e.page, e.on_type, e.writable))))
      = some (1, [(3212836864, 0, true)]) := by
  decide!

theorem mmap_layout_witness :
    find_fd boot_vm.fd_list 2 = some ⟨2, 7⟩ ∧
    mmap boot_vm 2 536870912 (fun _ => blank_spte)
      = some (mapped_vm boot_vm 7 536870912 (fun _ => blank_spte), 0) ∧
    (mapped_vm boot_vm 7 536870912 (fun _ => blank_spte)).spt
      = boot_vm.spt ++ (List.range (pages_of (file_length boot_vm 7))).map
          (mmap_entry 7 536870912 (file_length boot_vm 7) (fun _ => blank_spte)) :=
  ⟨rfl, rfl,
    (mmap_layout boot_vm 2 536870912 (fun _ => blank_spte) ⟨2, 7⟩
      (mapped_vm boot_vm 7 536870912 (fun _ => blank_spte)) 0 rfl rfl (by decide)).2.1⟩

theorem mmap_atomic_witness :
    mmap_fails boot_vm 2 0 ∧
    ∃ st1, mmap boot_vm 2 0 (fun _ => blank_spte) = some (st1, -1) ∧ st1.spt = boot_vm.spt ∧
      st1.md_list = boot_vm.md_list ∧ st1.md_count = boot_vm.md_count :=
  ⟨Or.inl rfl, mmap_atomic boot_vm 2 0 (fun _ => blank_spte) (Or.inl rfl)⟩

/-- One step of the eviction scan at a line whose accessed flag is set. -/
theorem evict_loop_accessed (fuel : Nat) (ls : List cache_line) (d : Disk) (e : Nat)
    (cl : cache_line) (hcl : ls[e]? = some cl) (ha : cl.accessed ≠ 0) :
    evict_loop (fuel + 1) ls d e
      = evict_loop fuel (ls.set e { cl with accessed := 0 }) d
          (if e + 1 = ls.length then 0 else e + 1) := by
  rw [evict_loop]
  simp only [hcl, ne_eq, ha, not_false_eq_true, if_true]

/-- One step of the eviction scan at a line whose accessed flag is clear. -/
theorem evict_loop_clear (fuel : Nat) (ls : List cache_line) (d : Disk) (e : Nat)
    (cl : cache_line) (hcl : ls[e]? = some cl) (ha : cl.accessed = 0) :
    evict_loop (fuel + 1) ls d e = some (ls, evict_disk d cl, e) := by
  rw [evict_loop]
  simp only [hcl, ne_eq, ha, not_true_eq_false, if_false, evict_disk]

/-- The eviction scan from `e` to the first line `v` at or after `e` whose
accessed flag is clear: the flags of the lines in between are cleared. -/
theorem evict_loop_scan (fuel : Nat) (ls : List cache_line) (d : Disk) (e v : Nat)
    (clv : cache_line) (he : e ≤ v) (hclv : ls[v]? = some clv) (h0 : clv.accessed = 0)
    (hacc : ∀ (j : Nat) (cl : cache_line), e ≤ j → j < v → ls[j]? = some cl → cl.accessed ≠ 0)
    (hf : v - e + 1 ≤ fuel) :
    ∃ ls1, evict_loop fuel ls d e = some (ls1, evict_disk d clv, v) ∧
      ls1.length = ls.length ∧
      ∀ j, ls1[j]? = if e ≤ j ∧ j < v then (ls[j]?).map clear_accessed else ls[j]? := by
  induction fuel generalizing ls e with
  | zero => omega
  | succ fuel ih =>
    have hv : v < ls.length := (List.getElem?_eq_some.mp hclv).1
    by_cases hev : e = v
    · subst hev
      refine ⟨ls, evict_loop_clear fuel ls d e clv hclv h0, rfl, ?_⟩
      intro j
      have : ¬ (e ≤ j ∧ j < e) := by omega
      simp only [this, if_false]
    · have hlt : e < v := by omega
      have hel : e < ls.length := by omega
      obtain ⟨cl, hcl⟩ : ∃ cl, ls[e]? = some cl := ⟨ls[e], List.getElem?_eq_getElem hel⟩
      have ha : cl.accessed ≠ 0 := hacc e cl (le_refl e) hlt hcl
      have hw : ¬ e + 1 = ls.length := by omega
      rw [evict_loop_accessed fuel ls d e cl hcl ha]
      simp only [hw, if_false]
      have hne : e ≠ v := hev
      obtain ⟨ls1, h1, h2, h3⟩ := ih (ls.set e { cl with accessed := 0 }) (e + 1) (by omega)
        (by rw [List.getElem?_set_ne hne]; exact hclv)
        (by
          intro j c hj hjv hjc
          have hje : e ≠ j := by omega
          rw [List.getElem?_set_ne hje] at hjc
          exact hacc j c (by omega) hjv hjc)
        (by omega)
      refine ⟨ls1, h1, by rw [h2, List.length_set], ?_⟩
      intro j
      rw [h3 j]
      by_cases hje : e = j
      · subst hje
        have c1 : ¬ (e + 1 ≤ e ∧ e < v) := by omega
        have c2 : e ≤ e ∧ e < v := ⟨le_refl e, hlt⟩
        simp only [c1, c2, if_false, if_true, hcl, Option.map_some']
        simp [List.getElem?_set, hel, clear_accessed]
      · rw [List.getElem?_set_ne hje]
        by_cases hc : e + 1 ≤ j ∧ j < v
        · have c2 : e ≤ j ∧ j < v := ⟨by omega, hc.2⟩
          simp only [hc, c2, and_self, if_true]
        · have c2 : ¬ (e ≤ j ∧ j < v) := by omega
          simp only [hc, c2, if_false]

/-- The eviction scan from `e` to the end of a list whose lines from `e` on
all have the accessed flag set: the scan clears them and starts again at the
head. -/
theorem evict_loop_wrap (fuel : Nat) (ls : List cache_line) (d : Disk) (e : Nat)
    (he : e < ls.length)
    (hacc : ∀ (j : Nat) (cl : cache_line), e ≤ j → ls[j]? = some cl → cl.accessed ≠ 0)
    (hf : ls.length - e ≤ fuel) :
    ∃ ls1, evict_loop fuel ls d e = evict_loop (fuel - (ls.length - e)) ls1 d 0 ∧
      ls1.length = ls.length ∧
      ∀ j, ls1[j]? = if e ≤ j then (ls[j]?).map clear_accessed else ls[j]? := by
  induction fuel generalizing ls e with
  | zero => omega
  | succ fuel ih =>
    obtain ⟨cl, hcl⟩ : ∃ cl, ls[e]? = some cl := ⟨ls[e], List.getElem?_eq_getElem he⟩
    have ha : cl.accessed ≠ 0 := hacc e cl (le_refl e) hcl
    rw [evict_loop_accessed fuel ls d e cl hcl ha]
    have hset : ∀ j, (ls.set e { cl with accessed := 0 })[j]?
        = if e = j then (ls[j]?).map clear_accessed else ls[j]? := by
      intro j
      by_cases hje : e = j
      · subst hje
        simp [List.getElem?_set, he, hcl, clear_accessed]
      · rw [List.getElem?_set_ne hje]
        simp only [hje, if_false]
    by_cases hw : e + 1 = ls.length
    · simp only [hw, if_true]
      refine ⟨ls.set e { cl with accessed := 0 }, ?_, List.length_set _ _ _, ?_⟩
      · have : fuel + 1 - (ls.length - e) = fuel := by omega
        rw [this]
      · intro j
        rw [hset j]
        by_cases hje : e = j
        · subst hje
          simp only [le_refl, if_true]
        · simp only [hje, if_false]
          by_cases hle : e ≤ j
          · have hj : ls.length ≤ j := by omega
            simp only [hle, if_true, List.getElem?_eq_none hj, Option.map_none']
          · simp only [hle, if_false]
    · simp only [hw, if_false]
      obtain ⟨ls1, h1, h2, h3⟩ := ih (ls.set e { cl with accessed := 0 }) (e + 1)
        (by rw [List.length_set]; omega)
        (by
          intro j c hj hjc
          have hje : e ≠ j := by omega
          rw [List.getElem?_set_ne hje] at hjc
          exact hacc j c (by omega) hjc)
        (by rw [List.length_set]; omega)
      rw [List.length_set] at h1 h2
      refine ⟨ls1, ?_, h2, ?_⟩
      · rw [h1]
        have : fuel - (ls.length - (e + 1)) = fuel + 1 - (ls.length - e) := by omega
        rw [this]
      · intro j
        rw [h3 j, hset j]
        by_cases hje : e = j
        · subst hje
          have c1 : ¬ e + 1 ≤ e := by omega
          simp only [c1, if_false, if_true, le_refl]
        · simp only [hje, if_false]
          by_cases hle : e + 1 ≤ j
          · have c2 : e ≤ j := by omega
            simp only [hle, c2, if_true]
          · have c2 : ¬ e ≤ j := by omega
            simp only [hle, c2, if_false]

/-- C25. Second-chance eviction of the buffer cache.  For every non-empty
list of lines `evict_cache_line` returns, and its result is determined as
follows.  When `v` is the first position whose line has a clear accessed flag,
the victim is `v`, the lines before `v` have had their accessed flag cleared
and every other line is as it was.  When every line has its accessed flag
set, all flags are cleared and the victim is the head.  In both cases the disk
returned is the old disk with the block of a dirty victim written to the
victim's sector, and the list keeps its length and, position by position, its
lines up to the accessed flag. -/
theorem evict_cache_line_second_chance (ls : List cache_line) (d : Disk)
    (hne : 0 < ls.length) :
    (∀ (v : Nat) (clv : cache_line), ls[v]? = some clv → clv.accessed = 0 →
        (∀ (j : Nat) (cl : cache_line), j < v → ls[j]? = some cl → cl.accessed ≠ 0) →
        ∃ ls1, evict_cache_line ls d = some (ls1, evict_disk d clv, v) ∧
          ls1[v]? = some clv ∧
          ∀ j : Nat, ls1[j]? = if j < v then (ls[j]?).map clear_accessed else ls[j]?) ∧
    ((∀ (j : Nat) (cl : cache_line), ls[j]? = some cl → cl.accessed ≠ 0) →
        ∀ hd : cache_line, ls[0]? = some hd →
        ∃ ls1, evict_cache_line ls d = some (ls1, evict_disk d hd, 0) ∧
          ls1[0]? = some (clear_accessed hd) ∧
          ∀ j : Nat, ls1[j]? = (ls[j]?).map clear_accessed) ∧
    (∃ ls1 d1 v clv, evict_cache_line ls d = some (ls1, d1, v) ∧
        ls1[v]? = some clv ∧ clv.accessed = 0 ∧ d1 = evict_disk d clv ∧
        ls1.length = ls.length ∧ ls1.map clear_accessed = ls.map clear_accessed) := by
  refine ⟨?_, ?_, ?_⟩
  · intro v clv hclv h0 hacc
    have hv : v < ls.length := (List.getElem?_eq_some.mp hclv).1
    obtain ⟨ls1, h1, _, h3⟩ := evict_loop_scan (2 * ls.length + 1) ls d 0 v clv (Nat.zero_le v)
      hclv h0 (fun j cl _ hj hcl => hacc j cl hj hcl) (by omega)
    refine ⟨ls1, h1, ?_, ?_⟩
    · rw [h3 v]
      have : ¬ (0 ≤ v ∧ v < v) := by omega
      simp only [this, if_false, hclv]
    · intro j
      rw [h3 j]
      simp only [Nat.zero_le, true_and]
  · intro hall hd hhd
    obtain ⟨ls1, h1, h2, h3⟩ := evict_loop_wrap (2 * ls.length + 1) ls d 0 hne
      (fun j cl _ hcl => hall j cl hcl) (by omega)
    have hhd1 : ls1[0]? = some (clear_accessed hd) := by
      rw [h3 0]
      simp only [le_refl, if_true, hhd, Option.map_some']
    obtain ⟨ls2, k1, _, k3⟩ := evict_loop_scan (2 * ls.length + 1 - (ls.length - 0)) ls1 d 0 0
      (clear_accessed hd) (le_refl 0) hhd1 rfl (fun j cl _ hj _ => absurd hj (Nat.not_lt_zero j))
      (by omega)
    have hls2 : ls2 = ls1 := by
      apply List.ext_getElem?
      intro j
      rw [k3 j]
      have : ¬ (0 ≤ j ∧ j < 0) := by omega
      simp only [this, if_false]
    subst hls2
    refine ⟨ls2, ?_, hhd1, ?_⟩
    · unfold evict_cache_line
      rw [h1, k1]
      rfl
    · intro j
      rw [h3 j]
      simp only [Nat.zero_le, if_true]
  · obtain ⟨ls1, v, clv, h1, h2, h3, h4⟩ := evict_cache_line_spec ls d hne
    refine ⟨ls1, _, v, clv, h1, h2, h3, rfl, ?_, h4⟩
    have := congrArg List.length h4
    simpa using this

/-- The list returned by `get_cache_line` has at most 64 lines when the list
it started from has. -/
theorem get_cache_line_length (c : BufferCache) (d : Disk) (s dirty : Nat) (hwf : cache_wf c)
    (h64 : c.buffer_cache.length ≤ 64) (c1 : BufferCache) (d1 : Disk) (i : Nat)
    (h : get_cache_line c d s dirty = some (c1, d1, i)) : c1.buffer_cache.length ≤ 64 := by
  rcases get_cache_line_shape c d s dirty hwf with
    ⟨j, cl, _, _, h3⟩ | ⟨_, hsz, h3⟩ | ⟨_, _, ls1, v, clv, _, _, hsame, h3⟩
  · rw [h3] at h
    simp only [Option.some.injEq, Prod.mk.injEq] at h
    rw [← h.1]
    simpa using h64
  · rw [h3] at h
    simp only [Option.some.injEq, Prod.mk.injEq] at h
    rw [← h.1]
    unfold cache_wf at hwf
    simp only [List.length_append, List.length_singleton]
    omega
  · rw [h3] at h
    simp only [Option.some.injEq, Prod.mk.injEq] at h
    rw [← h.1]
    simp only [List.length_set]
    rw [same_lines_length hsame]
    exact h64

/-- One round of the read-ahead thread keeps the logical contents of every
sector, the consistency of the cache and the bound of 64 lines. -/
theorem read_ahead_get_spec (c : BufferCache) (d : Disk) (s : Nat) (fresh : cache_line)
    (hinv : cache_inv c d) (h64 : c.buffer_cache.length ≤ 64) :
    ∃ c1 d1, read_ahead_get c d s fresh = some (c1, d1) ∧ cache_inv c1 d1 ∧
      c1.buffer_cache.length ≤ 64 ∧
      (∀ t, logical c1.buffer_cache d1 t = logical c.buffer_cache d t) ∧
      cached c1.buffer_cache s := by
  obtain ⟨hwf, hu, hco⟩ := hinv
  rcases read_ahead_get_shape c d s fresh hwf with
    ⟨hc, h3⟩ | ⟨hn, hsz, h3⟩ | ⟨hn, hsz, ls1, v, clv, h1, h2, hsame, h3⟩
  · exact ⟨c, d, h3, ⟨hwf, hu, hco⟩, h64, fun _ => rfl, hc⟩
  · have hnl : ({ fresh with sector_idx := s, block := d s } : cache_line).sector_idx = s := rfl
    refine ⟨_, _, h3, ⟨?_, ?_, ?_⟩, ?_, ?_, ?_⟩
    · unfold cache_wf at *; simp [hwf]
    · exact unique_append hu hn hnl
    · intro j a ha hda
      rcases get_append_cases ha with ⟨_, ha1⟩ | ⟨_, ea⟩
      · exact hco j a ha1 hda
      · subst ea; rfl
    · unfold cache_wf at hwf
      simp only [List.length_append, List.length_singleton]
      omega
    · intro t
      simp only
      rw [logical_append d hu hn hnl t]
      by_cases ht : t = s
      · simp only [ht, if_true]
        exact (logical_miss d hn).symm
      · simp only [ht, if_false]
    · exact (cached_append hnl s).mpr (Or.inl rfl)
  · have hv : v < ls1.length := (List.getElem?_eq_some.mp h1).1
    have hu1 : cache_unique ls1 := same_lines_unique hsame hu
    have hco1 : coherent ls1 d := same_lines_coherent hsame hco
    have hn1 : ¬ cached ls1 s := fun h => hn (same_lines_cached hsame h)
    have hsv : s ≠ clv.sector_idx := by
      intro e
      exact hn1 ⟨v, clv, h1, e.symm⟩
    have hds : evict_disk d clv s = d s := evict_disk_ne d clv hsv
    have hnl : ({ clv with sector_idx := s, block := evict_disk d clv s } : cache_line).sector_idx
        = s := rfl
    refine ⟨_, _, h3, ⟨?_, ?_, ?_⟩, ?_, ?_, ?_⟩
    · unfold cache_wf at *
      simp only [List.length_set]
      rw [same_lines_length hsame]; exact hwf
    · exact unique_set_new hu1 hn1 hnl
    · intro j a ha hda
      rcases get_set_cases ha with ⟨_, ea⟩ | ⟨hj, ha1⟩
      · subst ea; rfl
      · have hne : a.sector_idx ≠ clv.sector_idx := by
          intro e
          exact hj (hu1 v j clv a h1 ha1 e.symm)
        rw [evict_disk_ne d clv hne]
        exact hco1 j a ha1 hda
    · simp only [List.length_set]
      rw [same_lines_length hsame]
      exact h64
    · intro t
      simp only
      rw [logical_set_new _ hu1 h1 hn1 hnl t]
      by_cases ht : t = s
      · simp only [ht, if_true]
        rw [hds]; exact (logical_miss d hn).symm
      · simp only [ht, if_false]
        by_cases ht2 : t = clv.sector_idx
        · simp only [ht2, if_true]
          rw [evict_disk_self d clv (hco1 v clv h1), ← same_lines_logical hsame]
          exact (logical_hit d hu1 h1).symm
        · simp only [ht2, if_false]
          rw [← same_lines_logical hsame d t]
          by_cases hc : cached ls1 t
          · exact logical_cached_disk d _ hc
          · rw [logical_miss _ hc, logical_miss _ hc, evict_disk_ne d clv ht2]
    · exact (cached_set_new hu1 h1 hnl s).mpr (Or.inl rfl)

/-- C29. The cache never loses data.  The logical content of a sector is the
block of the line holding it, the disk content when no line holds it.  From a
cache of at most 64 lines in which the counter is the number of lines, no
sector is held twice and every clean line agrees with the disk,
`get_cache_line` and one round of the read-ahead thread both return, leave the
logical content of every sector unchanged and keep these properties and the
bound of 64 lines; the line `get_cache_line` returns holds the requested sector
and its block is the logical content of that sector. -/
theorem cache_never_loses_data (c : BufferCache) (d : Disk) (s dirty : Nat) (fresh : cache_line)
    (hinv : cache_inv c d) (h64 : c.buffer_cache.length ≤ 64) :
    (∃ c1 d1 i cl, get_cache_line c d s dirty = some (c1, d1, i) ∧
      c1.buffer_cache[i]? = some cl ∧ cl.sector_idx = s ∧
      cl.block = logical c.buffer_cache d s ∧
      (∀ t, logical c1.buffer_cache d1 t = logical c.buffer_cache d t) ∧
      cache_inv c1 d1 ∧ c1.buffer_cache.length ≤ 64) ∧
    (∃ c1 d1, read_ahead_get c d s fresh = some (c1, d1) ∧
      (∀ t, logical c1.buffer_cache d1 t = logical c.buffer_cache d t) ∧
      cache_inv c1 d1 ∧ c1.buffer_cache.length ≤ 64) := by
  constructor
  · obtain ⟨c1, d1, i, cl, h1, h2, h3, h4, _, h6, h7, _, _⟩ := get_cache_line_spec c d s dirty hinv
    exact ⟨c1, d1, i, cl, h1, h2, h3, h4, h7, h6,
      get_cache_line_length c d s dirty hinv.1 h64 c1 d1 i h1⟩
  · obtain ⟨c1, d1, h1, h2, h3, h4, _⟩ := read_ahead_get_spec c d s fresh hinv h64
    exact ⟨c1, d1, h1, h4, h2, h3⟩

/-! ### Index bounds -/

theorem byte_to_sector_checked_eq (d : Disk) (ino : inode) (pos length : Nat)
    (hpos : pos < 8388096) :
    byte_to_sector_checked d ino pos length = some (byte_to_sector d ino pos length) := by
  unfold byte_to_sector_checked byte_to_sector
  simp only [DISK_SECTOR_SIZE]
  by_cases h1 : pos ≥ length
  · simp only [h1, if_true]
  · simp only [h1, if_false]
    by_cases h2 : pos < 512
    · simp only [h2, if_true]
    · simp only [h2, if_false]
      by_cases h3 : pos < 512 * 129
      · simp only [h3, if_true]
        have hi : (pos - 512) / 512 % 4294967296 < 128 := by omega
        simp only [hi, if_true]
      · simp only [h3, if_false]
        have hi : (pos - 512 * 129) / (512 * 128) % 4294967296 < 128 := by omega
        simp only [hi, if_true]
        have hi2 : (pos - 512 * 129 + 4294967296
            - (pos - 512 * 129) / (512 * 128) % 4294967296 * 512 * 128 % 4294967296)
              % 4294967296 / 512 % 4294967296 < 128 := by omega
        simp only [hi2, if_true]

theorem grow_indirect_loop_checked_eq (fuel : Nat) (g : GrowState) (L : Nat)
    (h1 : 1 ≤ g.old_sectors) :
    grow_indirect_loop_checked fuel g L = grow_indirect_loop fuel g L := by
  induction fuel generalizing g with
  | zero =>
    rw [grow_indirect_loop_checked, grow_indirect_loop]
  | succ fuel ih =>
    rw [grow_indirect_loop_checked, grow_indirect_loop]
    by_cases hlt : g.old_sectors < 129
    · simp only [hlt, if_true]
      have hidx : (g.old_sectors + 4294967296 - 1) % 4294967296 = g.old_sectors - 1 := by omega
      have hb : g.old_sectors - 1 < 128 := by omega
      simp only [hidx, hb, if_true]
      by_cases hz : g.sectors_to_add - 1 = 0
      · simp only [hz, if_true]
      · simp only [hz, if_false]
        apply ih
        simp only
        omega
    · simp only [hlt, if_false]

theorem grow_indirect_loop_sum (fuel : Nat) (g g2 : GrowState) (L : Nat)
    (h1 : 1 ≤ g.sectors_to_add) (h : grow_indirect_loop fuel g L = some (g2, false)) :
    1 ≤ g2.sectors_to_add ∧ g.old_sectors ≤ g2.old_sectors ∧ 129 ≤ g2.old_sectors ∧
      g2.old_sectors + g2.sectors_to_add = g.old_sectors + g.sectors_to_add := by
  induction fuel generalizing g with
  | zero =>
    rw [grow_indirect_loop] at h
    by_cases hlt : g.old_sectors < 129
    · simp [hlt] at h
    · simp only [hlt, if_false, Option.some.injEq, Prod.mk.injEq, and_true] at h
      subst h
      exact ⟨h1, le_refl _, by omega, rfl⟩
  | succ fuel ih =>
    rw [grow_indirect_loop] at h
    by_cases hlt : g.old_sectors < 129
    · simp only [hlt, if_true] at h
      by_cases hz : g.sectors_to_add - 1 = 0
      · simp [hz] at h
      · simp only [hz, if_false] at h
        have := ih _ (by simp only; omega) h
        simp only at this
        omega
    · simp only [hlt, if_false, Option.some.injEq, Prod.mk.injEq, and_true] at h
      subst h
      exact ⟨h1, le_refl _, by omega, rfl⟩

theorem grow_inner_loop_checked_eq (fuel : Nat) (g : GrowState) (L index : Nat)
    (h129 : 129 ≤ g.old_sectors) :
    grow_inner_loop_checked fuel g L index = grow_inner_loop fuel g L index := by
  induction fuel generalizing g with
  | zero =>
    rw [grow_inner_loop_checked, grow_inner_loop]
  | succ fuel ih =>
    rw [grow_inner_loop_checked, grow_inner_loop]
    by_cases hlt : g.old_sectors < 129 + (index + 1) * 128
    · simp only [hlt, if_true]
      have hidx : (g.old_sectors + 4294967296 - 129) % 4294967296 % 128
          = (g.old_sectors - 129) % 128 := by omega
      have hb : (g.old_sectors - 129) % 128 < 128 := by omega
      simp only [hidx, hb, if_true]
      by_cases hz : g.sectors_to_add - 1 = 0
      · simp only [hz, if_true]
      · simp only [hz, if_false]
        apply ih
        simp only
        omega
    · simp only [hlt, if_false]

theorem grow_inner_loop_sum (fuel : Nat) (g g2 : GrowState) (L index : Nat)
    (h1 : 1 ≤ g.sectors_to_add) (h : grow_inner_loop fuel g L index = some (g2, false)) :
    1 ≤ g2.sectors_to_add ∧ g.old_sectors ≤ g2.old_sectors ∧
      g2.old_sectors + g2.sectors_to_add = g.old_sectors + g.sectors_to_add ∧
      (g.old_sectors < 129 + (index + 1) * 128 → g2.sectors_to_add < g.sectors_to_add) := by
  induction fuel generalizing g with
  | zero =>
    rw [grow_inner_loop] at h
    by_cases hlt : g.old_sectors < 129 + (index + 1) * 128
    · simp [hlt] at h
    · simp only [hlt, if_false, Option.some.injEq, Prod.mk.injEq, and_true] at h
      subst h
      exact ⟨h1, le_refl _, rfl, fun hh => absurd hh hlt⟩
  | succ fuel ih =>
    rw [grow_inner_loop] at h
    by_cases hlt : g.old_sectors < 129 + (index + 1) * 128
    · simp only [hlt, if_true] at h
      by_cases hz : g.sectors_to_add - 1 = 0
      · simp [hz] at h
      · simp only [hz, if_false] at h
        have := ih _ (by simp only; omega) h
        simp only at this
        omega
    · simp only [hlt, if_false, Option.some.injEq, Prod.mk.injEq, and_true] at h
      subst h
      exact ⟨h1, le_refl _, rfl, fun hh => absurd hh hlt⟩

theorem grow_outer_loop_checked_eq (fuel : Nat) (g : GrowState) (L : Nat)
    (h129 : 129 ≤ g.old_sectors) (h1 : 1 ≤ g.sectors_to_add)
    (hsum : g.old_sectors + g.sectors_to_add ≤ 16512) :
    grow_outer_loop_checked fuel g L = grow_outer_loop fuel g L := by
  induction fuel generalizing g with
  | zero =>
    rw [grow_outer_loop_checked, grow_outer_loop]
  | succ fuel ih =>
    rw [grow_outer_loop_checked, grow_outer_loop]
    have hidx : (g.old_sectors + 4294967296 - 129) % 4294967296 / 128
        = (g.old_sectors - 129) / 128 := by omega
    have hb : (g.old_sectors - 129) / 128 < 128 := by omega
    simp only [hidx, hb, if_true]
    generalize hg1 : (if g.old_sectors % 128 = 1 then
        ({ g with free_map := (free_map_allocate g.free_map
                     (g.indirect_buffer ((g.old_sectors - 129) / 128))).2.1,
                  indirect_buffer := set_word g.indirect_buffer ((g.old_sectors - 129) / 128)
                    (free_map_allocate g.free_map
                      (g.indirect_buffer ((g.old_sectors - 129) / 128))).2.2 } : GrowState)
      else { g with indirect_buffer2 :=
                block_word (g.disk (g.indirect_buffer ((g.old_sectors - 129) / 128))) }) = g1
    have hs : g1.sectors_to_add = g.sectors_to_add := by rw [← hg1]; split_ifs <;> rfl
    have ho : g1.old_sectors = g.old_sectors := by rw [← hg1]; split_ifs <;> rfl
    rw [grow_inner_loop_checked_eq g1.sectors_to_add g1 L _ (by omega)]
    cases hr : grow_inner_loop g1.sectors_to_add g1 L ((g.old_sectors - 129) / 128) with
    | none => rfl
    | some r =>
      obtain ⟨g2, flag⟩ := r
      cases flag with
      | true => rfl
      | false =>
        simp only
        obtain ⟨a1, a2, a3, _⟩ := grow_inner_loop_sum _ g1 g2 L _ (by omega) hr
        apply ih
        · simp only; omega
        · simp only; omega
        · simp only; omega

theorem grow_case2_checked_eq (g : GrowState) (L : Nat) (h1 : 1 ≤ g.old_sectors) :
    grow_case2_checked g L = grow_case2 g L := by
  unfold grow_case2_checked grow_case2
  simp only
  generalize hg1 : (if g.old_sectors = 1 then
      ({ g with free_map := (free_map_allocate g.free_map g.ino.indirect_ptr).2.1,
                ino := { g.ino with indirect_ptr :=
                  (free_map_allocate g.free_map g.ino.indirect_ptr).2.2 } } : GrowState)
    else { g with indirect_buffer := block_word (g.disk g.ino.indirect_ptr) }) = g1
  have ho : g1.old_sectors = g.old_sectors := by rw [← hg1]; split_ifs <;> rfl
  rw [grow_indirect_loop_checked_eq _ g1 L (by omega)]

theorem grow_case2_sum (g g2 : GrowState) (L : Nat) (h1 : 1 ≤ g.sectors_to_add)
    (h : grow_case2 g L = some (g2, false)) :
    1 ≤ g2.sectors_to_add ∧ 129 ≤ g2.old_sectors ∧
      g2.old_sectors + g2.sectors_to_add = g.old_sectors + g.sectors_to_add := by
  unfold grow_case2 at h
  simp only at h
  generalize hg1 : (if g.old_sectors = 1 then
      ({ g with free_map := (free_map_allocate g.free_map g.ino.indirect_ptr).2.1,
                ino := { g.ino with indirect_ptr :=
                  (free_map_allocate g.free_map g.ino.indirect_ptr).2.2 } } : GrowState)
    else { g with indirect_buffer := block_word (g.disk g.ino.indirect_ptr) }) = g1 at h
  have hs : g1.sectors_to_add = g.sectors_to_add := by rw [← hg1]; split_ifs <;> rfl
  have ho : g1.old_sectors = g.old_sectors := by rw [← hg1]; split_ifs <;> rfl
  cases hr : grow_indirect_loop g1.sectors_to_add g1 L with
  | none => rw [hr] at h; simp at h
  | some r =>
    obtain ⟨g3, flag⟩ := r
    rw [hr] at h
    cases flag with
    | true => simp at h
    | false =>
      simp only [Option.some.injEq, Prod.mk.injEq, and_true] at h
      obtain ⟨a1, _, a3, a4⟩ := grow_indirect_loop_sum _ g1 g3 L (by omega) hr
      subst h
      simp only
      omega

theorem grow_case3_checked_eq (g : GrowState) (L : Nat) (h129 : 129 ≤ g.old_sectors)
    (h1 : 1 ≤ g.sectors_to_add) (hsum : g.old_sectors + g.sectors_to_add ≤ 16512) :
    grow_case3_checked g L = grow_case3 g L := by
  unfold grow_case3_checked grow_case3
  by_cases hle : g.old_sectors ≤ 16513
  · simp only [hle, if_true]
    by_cases h : g.old_sectors = 129
    · simp only [h, if_true]
      apply grow_outer_loop_checked_eq
      · simp only; omega
      · simp only; omega
      · simp only; omega
    · simp only [h, if_false]
      apply grow_outer_loop_checked_eq
      · simp only; omega
      · simp only; omega
      · simp only; omega
  · simp only [hle, if_false]

theorem grow_case1_sum (g : GrowState) (L : Nat) (h1 : 1 ≤ g.sectors_to_add)
    (h : (grow_case1 g L).2 = false) :
    1 ≤ (grow_case1 g L).1.sectors_to_add ∧ 1 ≤ (grow_case1 g L).1.old_sectors ∧
      (grow_case1 g L).1.old_sectors + (grow_case1 g L).1.sectors_to_add
        = g.old_sectors + g.sectors_to_add := by
  unfold grow_case1 at h ⊢
  simp only at h ⊢
  by_cases h0 : g.old_sectors = 0
  · simp only [h0, if_true] at h ⊢
    by_cases hz : g.sectors_to_add - 1 = 0
    · simp [hz] at h
    · simp only [hz, if_false]
      omega
  · simp only [h0, if_false]
    exact ⟨h1, by omega, trivial⟩

theorem inode_grow_checked_eq (d : Disk) (fm : FreeMap) (ino : inode) (L : Nat)
    (stack : (Nat → Nat) × (Nat → Nat)) (hle : ino.length ≤ L) (hcap : L ≤ 8388096) :
    inode_grow_checked d fm ino L stack = inode_grow d fm ino L stack := by
  have hn : bytes_to_sectors ino.length ≤ bytes_to_sectors L := bytes_to_sectors_mono hle
  have hn1 : bytes_to_sectors L ≤ 16383 := by
    unfold bytes_to_sectors
    simp only [DISK_SECTOR_SIZE]
    omega
  unfold inode_grow_checked inode_grow
  simp only
  by_cases hz : (bytes_to_sectors L + 4294967296 - bytes_to_sectors ino.length) % 4294967296 = 0
  · simp only [hz, if_true]
  · simp only [hz, if_false]
    have hadd : (bytes_to_sectors L + 4294967296 - bytes_to_sectors ino.length) % 4294967296
        = bytes_to_sectors L - bytes_to_sectors ino.length := by omega
    rw [hadd] at hz ⊢
    generalize hg : (⟨d, fm, ino, stack.1, stack.2, bytes_to_sectors ino.length,
      bytes_to_sectors L - bytes_to_sectors ino.length⟩ : GrowState) = g
    have hgs : g.sectors_to_add = bytes_to_sectors L - bytes_to_sectors ino.length := by
      rw [← hg]
    have hgo : g.old_sectors = bytes_to_sectors ino.length := by rw [← hg]
    cases hflag : (grow_case1 g L).2 with
    | true => simp only [if_true]
    | false =>
      simp only [Bool.false_eq_true, if_false]
      obtain ⟨k1, k2, k3⟩ := grow_case1_sum g L (by omega) hflag
      rw [grow_case2_checked_eq _ L k2]
      cases hr : grow_case2 (grow_case1 g L).1 L with
      | none => rfl
      | some r =>
        obtain ⟨g2, flag⟩ := r
        cases flag with
        | true => rfl
        | false =>
          simp only
          obtain ⟨a1, a2, a3⟩ := grow_case2_sum _ g2 L k1 hr
          rw [grow_case3_checked_eq g2 L a2 a1 (by omega)]

/-! ### Exact growth -/

theorem slot_rank_surj (r : Nat) : ∃ s : Slot, slot_rank s = r := by
  by_cases h0 : r = 0
  · exact ⟨Slot.data 0, by simp [slot_rank, h0]⟩
  by_cases h1 : r = 1
  · exact ⟨Slot.indirect, by simp [slot_rank, h1]⟩
  by_cases h2 : r ≤ 129
  · refine ⟨Slot.data (r - 1), ?_⟩
    simp only [slot_rank]
    split_ifs <;> omega
  by_cases h3 : r = 130
  · exact ⟨Slot.doubly, by simp [slot_rank, h3]⟩
  by_cases h4 : (r - 131) % 129 = 0
  · refine ⟨Slot.inner ((r - 131) / 129), ?_⟩
    simp only [slot_rank]
    omega
  · refine ⟨Slot.data (129 + 128 * ((r - 131) / 129) + ((r - 131) % 129 - 1)), ?_⟩
    simp only [slot_rank]
    split_ifs <;> omega

theorem gctx_of_wf {d : Disk} {ino : inode} {n : Nat} {F : List Nat}
    (hwf : inode_wf d ino n) (hfr : fresh_free d ino n F) : GCtx d ino (slot_count n) F := by
  obtain ⟨hnd, hsm, hfr⟩ := hfr
  refine ⟨?_, hnd, hsm, ?_⟩
  · intro s1 s2 h1 h2 e
    exact hwf s1 s2 ((slot_live_iff_rank _ _).mpr h1) ((slot_live_iff_rank _ _).mpr h2) e
  · intro a ha s hs
    exact hfr a ha s ((slot_live_iff_rank _ _).mpr hs)

theorem slot_count_mono {a b : Nat} (h : a ≤ b) : slot_count a ≤ slot_count b := by
  unfold slot_count
  split_ifs <;> omega

theorem bytes_to_sectors_div {pos L : Nat} (h : pos < L) : pos / 512 < bytes_to_sectors L := by
  unfold bytes_to_sectors
  simp only [DISK_SECTOR_SIZE]
  omega

/-- C24. Exact growth.  For an inode whose index structure is well formed
for its length `L0`, a free map that hands out fresh sectors and has enough of
them, and every `L` with `L0 < L <= 8388096`, `inode_grow` returns with the
length set to `L`.  The sectors it takes are the first sectors of the free map,
as many as there are new slots; each of them is the data sector of a sector
index in `[ceil(L0/512), ceil(L/512))` or a pointer block.  For every position
below `L` whose sector index is in that range `byte_to_sector` returns one of
the sectors taken, the disk holds zeros in it, and different sector indices
get different sectors; for every position below `L0` `byte_to_sector` returns
what it returned before. -/
theorem exact_growth (d : Disk) (fm : FreeMap) (ino : inode) (L : Nat)
    (stack : (Nat → Nat) × (Nat → Nat))
    (hwf : inode_wf d ino (bytes_to_sectors ino.length))
    (hfresh : fresh_free d ino (bytes_to_sectors ino.length) fm.free)
    (hlt : ino.length < L) (hcap : L ≤ MAX_FILE_SIZE)
    (hfree : slot_count (bytes_to_sectors L)
      ≤ slot_count (bytes_to_sectors ino.length) + fm.free.length) :
    ∃ d1 fm1 ino1, inode_grow d fm ino L stack = some (d1, fm1, ino1) ∧ ino1.length = L ∧
      fm1.free = fm.free.drop
        (slot_count (bytes_to_sectors L) - slot_count (bytes_to_sectors ino.length)) ∧
      (∀ i, i < slot_count (bytes_to_sectors L) - slot_count (bytes_to_sectors ino.length) →
        ∃ s : Slot, fm.free[i]? = some (slot_sector d1 ino1 s) ∧
          (is_pointer s ∨ ∃ k, s = Slot.data k ∧ bytes_to_sectors ino.length ≤ k ∧
            k < bytes_to_sectors L)) ∧
      (∀ pos, pos < L → bytes_to_sectors ino.length ≤ pos / 512 →
        (∃ i, i < slot_count (bytes_to_sectors L) - slot_count (bytes_to_sectors ino.length) ∧
          fm.free[i]? = some (byte_to_sector d1 ino1 pos ino1.length)) ∧
        d1 (byte_to_sector d1 ino1 pos ino1.length) = zeros) ∧
      (∀ pos1 pos2, pos1 < L → pos2 < L → bytes_to_sectors ino.length ≤ pos1 / 512 →
        bytes_to_sectors ino.length ≤ pos2 / 512 →
        byte_to_sector d1 ino1 pos1 ino1.length = byte_to_sector d1 ino1 pos2 ino1.length →
        pos1 / 512 = pos2 / 512) ∧
      (∀ pos, pos < ino.length →
        byte_to_sector d1 ino1 pos ino1.length = byte_to_sector d ino pos ino.length) := by
  have hcap1 : L ≤ 8388096 := hcap
  have hn1 : bytes_to_sectors L ≤ 16513 := by
    unfold bytes_to_sectors
    simp only [DISK_SECTOR_SIZE]
    omega
  have hc := gctx_of_wf hwf hfresh
  obtain ⟨d1, fm1, ino1, e1, _, e3, hg, e5⟩ := inode_grow_any d fm ino L stack hlt hn1 hc hfree
  have hmono : slot_count (bytes_to_sectors ino.length) ≤ slot_count (bytes_to_sectors L) :=
    slot_count_mono (bytes_to_sectors_mono (Nat.le_of_lt hlt))
  have hdata : ∀ pos, pos < L →
      byte_to_sector d1 ino1 pos ino1.length = slot_sector d1 ino1 (Slot.data (pos / 512)) := by
    intro pos hp
    rw [byte_to_sector_data d1 ino1 pos ino1.length (by rw [e3]; exact hp) (by omega)]
    rfl
  have hnew : ∀ pos, pos < L → bytes_to_sectors ino.length ≤ pos / 512 →
      slot_count (bytes_to_sectors ino.length) ≤ slot_rank (Slot.data (pos / 512)) ∧
      slot_rank (Slot.data (pos / 512)) < slot_count (bytes_to_sectors L) := by
    intro pos hp hk
    constructor
    · by_contra hcon
      have := (slot_live_iff_rank (bytes_to_sectors ino.length) (Slot.data (pos / 512))).mpr
        (by omega)
      simp only [slot_live] at this
      omega
    · exact (slot_live_iff_rank _ _).mp (bytes_to_sectors_div hp)
  refine ⟨d1, fm1, ino1, e1, e3, e5, ?_, ?_, ?_, ?_⟩
  · intro i hi
    obtain ⟨s, hs⟩ := slot_rank_surj (slot_count (bytes_to_sectors ino.length) + i)
    refine ⟨s, ?_, ?_⟩
    · have := hg.new s (by omega) (by omega)
      rw [hs] at this
      simpa using this
    · cases s with
      | data k =>
        right
        refine ⟨k, rfl, ?_, ?_⟩
        · by_contra hcon
          have := (slot_live_iff_rank (bytes_to_sectors ino.length) (Slot.data k)).mp
            (by simp only [slot_live]; omega)
          omega
        · have := (slot_live_iff_rank (bytes_to_sectors L) (Slot.data k)).mpr (by omega)
          simpa [slot_live] using this
      | indirect => exact Or.inl trivial
      | doubly => exact Or.inl trivial
      | inner j => exact Or.inl trivial
  · intro pos hp hk
    obtain ⟨r1, r2⟩ := hnew pos hp hk
    rw [hdata pos hp]
    refine ⟨⟨slot_rank (Slot.data (pos / 512)) - slot_count (bytes_to_sectors ino.length),
      by omega, hg.new _ r1 r2⟩, hg.zero _ r1 r2⟩
  · intro pos1 pos2 hp1 hp2 hk1 hk2 heq
    rw [hdata pos1 hp1, hdata pos2 hp2] at heq
    have := ginv_inj hc hg (hnew pos1 hp1 hk1).2 (hnew pos2 hp2 hk2).2 heq
    exact Slot.data.inj this
  · intro pos hp
    rw [hdata pos (by omega),
      byte_to_sector_data d ino pos ino.length hp (by omega)]
    exact hg.old (Slot.data (pos / 512))
      ((slot_live_iff_rank _ _).mp (bytes_to_sectors_div hp))

theorem exact_growth_witness :
    inode_wf (fun _ => zeros) sample_inode (bytes_to_sectors sample_inode.length) ∧
    fresh_free (fun _ => zeros) sample_inode (bytes_to_sectors sample_inode.length) [20, 21, 22] ∧
    ∃ d1 fm1 ino1, inode_grow (fun _ => zeros) ⟨[20, 21, 22]⟩ sample_inode 1000 (zeros, zeros)
        = some (d1, fm1, ino1) ∧ ino1.length = 1000 ∧ fm1.free = [] ∧
      ∀ pos, pos < sample_inode.length →
        byte_to_sector d1 ino1 pos ino1.length
          = byte_to_sector (fun _ => zeros) sample_inode pos sample_inode.length :=
  have hwf : inode_wf (fun _ => zeros) sample_inode (bytes_to_sectors sample_inode.length) :=
    fun s1 _ l1 => absurd l1 (slot_live_zero s1)
  have hfr : fresh_free (fun _ => zeros) sample_inode (bytes_to_sectors sample_inode.length)
      [20, 21, 22] := fresh_free_empty _ _ _ (by decide) (by decide)
  ⟨hwf, hfr,
    match exact_growth (fun _ => zeros) ⟨[20, 21, 22]⟩ sample_inode 1000 (zeros, zeros) hwf hfr
      (by decide) (by decide) (by decide) with
    | ⟨d1, fm1, ino1, e1, e2, e3, _, _, _, e7⟩ => ⟨d1, fm1, ino1, e1, e2, e3, e7⟩⟩

/-! ### Victim selection in the frame table -/

theorem find_victim_loop_pinned (fuel : Nat) (st : VM) (e : Nat) (zero : Bool) (fte1 : fte)
    (spte1 : spte) (h1 : st.frame_list[e]? = some fte1)
    (h2 : hash_find st.spt fte1.spte = some spte1) (h3 : spte1.accessing = true) :
    find_victim_loop fuel st e zero = none := by
  induction fuel with
  | zero => rfl
  | succ fuel ih =>
    rw [find_victim_loop]
    simp only [h1, h2, h3, Bool.not_true, Bool.false_eq_true, if_false]
    exact ih

theorem find_victim_loop_read_only (st : VM) (zero : Bool)
    (h : st.frame_list.all (clean_read_only st) = true) (fuel : Nat) :
    ∀ e, e < st.frame_list.length → find_victim_loop fuel st e zero = none := by
  induction fuel with
  | zero => intro e _; rfl
  | succ fuel ih =>
    intro e he
    obtain ⟨fte1, hf⟩ : ∃ f, st.frame_list[e]? = some f :=
      ⟨st.frame_list[e], List.getElem?_eq_getElem he⟩
    have hmem : fte1 ∈ st.frame_list := by
      rw [List.getElem?_eq_getElem he] at hf
      rw [← Option.some.inj hf]
      exact List.getElem_mem he
    have hc := List.all_eq_true.mp h fte1 hmem
    unfold clean_read_only at hc
    cases hs : hash_find st.spt fte1.spte with
    | none => rw [hs] at hc; simp at hc
    | some s =>
      rw [hs] at hc
      simp only [Bool.and_eq_true, Bool.not_eq_true'] at hc
      obtain ⟨⟨⟨c1, c2⟩, c3⟩, c4⟩ := hc
      rw [find_victim_loop]
      simp only [hf, hs, c1, c2, c3, c4, Bool.not_false, if_true, Bool.false_eq_true, if_false]
      apply ih
      split_ifs <;> omega

/-! ### Path resolution -/

theorem strtok_r_run (c q cur : List Char) (hc : '/' ∉ c) :
    strtok_r (c ++ '/' :: q) cur
      = if cur ++ c = [] then strtok_r q [] else (cur ++ c) :: strtok_r q [] := by
  induction c generalizing cur with
  | nil =>
    simp only [List.nil_append, List.append_nil]
    rw [strtok_r]
    simp only [if_true]
  | cons a c ih =>
    have ha : a ≠ '/' := fun e => hc (by rw [e]; exact List.mem_cons_self _ _)
    have hc1 : '/' ∉ c := fun h => hc (List.mem_cons_of_mem _ h)
    rw [List.cons_append, strtok_r]
    simp only [ha, if_false]
    rw [ih (cur ++ [a]) hc1]
    have e : cur ++ [a] ++ c = cur ++ a :: c := by simp
    rw [e]

theorem get_dir_loop_file (t : DirTree) (dir : Nat) (prev_token token : List Char)
    (rest : List (List Char)) (inode : Nat) (h1 : prev_token ≠ ['.'])
    (h2 : prev_token ≠ ['.', '.']) (h3 : dir_lookup t dir prev_token = some inode)
    (h4 : inode_is_dir t inode = false) :
    get_dir_loop t dir prev_token (token :: rest) = get_dir_loop t dir token rest := by
  rw [get_dir_loop]
  simp only [h1, h2, if_false, h3, h4, Bool.false_eq_true]

theorem get_dir_loop_dot (t : DirTree) (dir : Nat) (rest : List (List Char)) :
    get_dir_loop t dir ['.'] rest = some dir := by
  induction rest with
  | nil => rfl
  | cons token rest ih =>
    rw [get_dir_loop]
    simp only [if_true]
    exact ih

/-- C22 fails in `get_dir`.  In `sample_tree` the first component of `f/x` is
the regular file `f` of the root; `get_dir` closes its inode, goes on with the
next component in the same directory and returns the root, not `NULL`. -/
theorem interior_file_not_rejected :
    dir_lookup sample_tree ROOT_DIR_SECTOR ['f'] = some 3 ∧
    inode_is_dir sample_tree 3 = false ∧
    get_dir sample_tree none ['f', '/', 'x'] = some ROOT_DIR_SECTOR := by
  decide

/-- What the loop of `get_dir` does with an interior regular file.  When the
component under work is followed by another component, is neither `.` nor
`..`, and `dir_lookup` resolves it in the
directory reached so far to an inode that is not a directory, the loop of
`get_dir` goes on with the next component in the same directory; it does not
return `NULL` for that component, and when nothing follows the next component
the result is the directory reached so far.  For a path whose first component
is such a file of the starting directory, `get_dir` returns what it returns
for the rest of the path. -/
theorem get_dir_passes_interior_file (t : DirTree) (dir : Nat) (prev_token token : List Char)
    (rest : List (List Char)) (inode : Nat) (h1 : prev_token ≠ ['.'])
    (h2 : prev_token ≠ ['.', '.']) (h3 : dir_lookup t dir prev_token = some inode)
    (h4 : inode_is_dir t inode = false) :
    get_dir_loop t dir prev_token (token :: rest) = get_dir_loop t dir token rest ∧
    get_dir_loop t dir prev_token [token] = some dir ∧
    (∀ (cwd : Option Nat) (q : List Char), prev_token ≠ [] → '/' ∉ prev_token →
      q.head? ≠ some '/' → dir = cwd.getD ROOT_DIR_SECTOR →
      get_dir t cwd (prev_token ++ '/' :: q) = get_dir t cwd q) := by
  refine ⟨get_dir_loop_file t dir prev_token token rest inode h1 h2 h3 h4, ?_, ?_⟩
  · rw [get_dir_loop_file t dir prev_token token [] inode h1 h2 h3 h4]
    rfl
  · intro cwd q hne hsl hq hdir
    have hhead : (prev_token ++ '/' :: q).head? ≠ some '/' := by
      cases prev_token with
      | nil => exact absurd rfl hne
      | cons a c =>
        simp only [List.cons_append, List.head?_cons, ne_eq, Option.some.injEq]
        intro e
        exact hsl (by rw [e]; exact List.mem_cons_self _ _)
    have hstart : ∀ name : List Char, name.head? ≠ some '/' →
        get_dir t cwd name =
          match strtok_r name [] with
          | [] => some dir
          | p :: r => get_dir_loop t dir p r := by
      intro name hn
      unfold get_dir
      cases cwd with
      | none => subst hdir; rfl
      | some c =>
        simp only [hn, if_false]
        subst hdir
        rfl
    rw [hstart _ hhead, hstart _ hq, strtok_r_run prev_token q [] hsl]
    simp only [List.nil_append, hne, if_false]
    cases hr : strtok_r q [] with
    | nil => rfl
    | cons t1 r => exact get_dir_loop_file t dir prev_token t1 r inode h1 h2 h3 h4

theorem get_dir_passes_interior_file_witness :
    dir_lookup sample_tree 1 ['f'] = some 3 ∧ inode_is_dir sample_tree 3 = false ∧
    get_dir_loop sample_tree 1 ['f'] [['a'], ['b']] = get_dir_loop sample_tree 1 ['a'] [['b']] ∧
    get_dir_loop sample_tree 1 ['f'] [['a']] = some 1 ∧
    get_dir sample_tree none ['f', '/', 'a', '/', 'b'] = get_dir sample_tree none ['a', '/', 'b'] :=
  have h := get_dir_passes_interior_file sample_tree 1 ['f'] ['a'] [['b']] 3 (by decide)
    (by decide) (by decide) (by decide)
  ⟨by decide, by decide, h.1, h.2.1,
    h.2.2 none ['a', '/', 'b'] (by decide) (by decide) (by decide) rfl⟩

/-- C23 fails in `get_dir`.  Once the component under work is `.`, the loop
skips every remaining component and returns the directory reached so far.  In
`sample_tree`, from the root, `get_dir` of `a/b` is the directory `a`
(sector 2) and `get_dir` of `./a/b` is the root (sector 1); `get_filename` is
`b` for both. -/
theorem dot_component_swallows_path :
    (∀ (t : DirTree) (dir : Nat) (rest : List (List Char)),
      get_dir_loop t dir ['.'] rest = some dir) ∧
    get_dir sample_tree none ['a', '/', 'b'] = some 2 ∧
    get_dir sample_tree none ['.', '/', 'a', '/', 'b'] = some 1 ∧
    get_filename ['a', '/', 'b'] = ['b'] ∧
    get_filename ['.', '/', 'a', '/', 'b'] = ['b'] :=
  ⟨get_dir_loop_dot, by decide, by decide, by decide, by decide⟩

/-! ### Validation of a buffer -/

/-- C21 fails in `check_valid_buffer`.  On `boot_vm` (empty table, one free
frame) the one-byte buffer at `0xbfffefff` with `esp` at the same address is
accepted when the uninitialised local of the helper holds 1, and the only
entry made is for the page `0xbffff000`: the page `0xbfffe000` of the buffer
has no entry.  With the local at 0 the page of the buffer gets its entry.
With the local at 0 and the four-byte buffer at `0xbfffeffe`, which spans two
pages, the call returns as well, and the first page has been evicted to the
swap disk (`on_type = 2`) to make room for the second. -/
theorem check_valid_buffer_misses_page :
    buffer_view (check_valid_buffer boot_vm 3221221375 1 3221221375 true (fun _ => 1)
      (fun _ => some blank_spte)) = (some [(3221221376, 0, true)], none) ∧
    buffer_view (check_valid_buffer boot_vm 3221221375 1 3221221375 true (fun _ => 0)
      (fun _ => some blank_spte)) = (some [(3221217280, 0, true)], none) ∧
    buffer_view (check_valid_buffer boot_vm 3221221374 4 3221221374 true (fun _ => 0)
      (fun _ => some blank_spte))
      = (some [(3221217280, 2, true), (3221221376, 0, true)], none) := by
  refine ⟨?_, ?_, ?_⟩
  · decide!
  · decide!
  · decide!

/-! ### Victim selection: the claims -/

/-- C26 fails in `find_victim_frame`.  In `pinned_vm` the second entry of the
frame table is not pinned and writable, the first is pinned; the scan starts
at the first entry and never leaves it, whatever the number of steps. -/
theorem find_victim_frame_spins_on_pinned :
    (∃ f s, pinned_vm.frame_list[1]? = some f ∧ hash_find pinned_vm.spt f.spte = some s ∧
      s.accessing = false ∧ s.writable = true) ∧
    find_victim_frame pinned_vm false = none ∧
    ∀ fuel, find_victim_loop fuel pinned_vm 0 false = none := by
  have h : ∀ fuel, find_victim_loop fuel pinned_vm 0 false = none := fun fuel =>
    find_victim_loop_pinned fuel pinned_vm 0 false ⟨3222274048, 3221221376⟩
      ⟨3221221376, 3222274048, 0, 0, 0, 0, 0, true, false, 0, true⟩ rfl rfl rfl
  exact ⟨⟨⟨3222278144, 3221217280⟩,
    ⟨3221217280, 3222278144, 0, 0, 0, 0, 0, true, false, 0, false⟩, rfl, rfl, rfl, rfl⟩,
    h _, h⟩

/-- C27 fails in `find_victim_frame`.  In `read_only_vm` the scan meets the
clean read-only page `0x08048000` first, passes over it and swaps out the
stack page: afterwards the read-only page is still on memory with its
frame-table entry.  In `only_read_only_vm`, where that page holds the only
frame, the scan never returns, whatever the number of steps. -/
theorem find_victim_passes_read_only :
    (read_only_vm.bind (fun st => find_victim_frame st false)).map
      (fun r => (residency_view r.1, r.2))
      = some (([(134512640, 0, 3222274048), (3221221376, 2, 3222278144)],
          [(3222274048, 134512640)]), some 3222278144) ∧
    only_read_only_vm.map residency_view
      = some ([(134512640, 0, 3222274048)], [(3222274048, 134512640)]) ∧
    ∀ fuel, only_read_only_vm.bind (fun st => find_victim_loop fuel st 0 false) = none := by
  refine ⟨?_, ?_, ?_⟩
  · decide!
  · decide!
  · intro fuel
    have hk : only_read_only_vm.map
        (fun st => (st.frame_list.all (clean_read_only st), decide (0 < st.frame_list.length)))
        = some (true, true) := by decide!
    cases h : only_read_only_vm with
    | none => rfl
    | some st =>
      rw [h] at hk
      simp only [Option.map_some', Option.some.injEq, Prod.mk.injEq, decide_eq_true_eq] at hk
      exact find_victim_loop_read_only st false hk.1 fuel 0 hk.2

/-- C28 fails in `munmap`.  In `evicted_map_vm` the only mapping is mapping 0
of the page `0x20000000`, which is on file, and the only entry of the frame
table belongs to the stack page `0xbffff000`, which is outside the mapping.
After `munmap (0)` that entry is gone and its frame is among the free frames,
while the stack page is still mapped to the frame. -/
theorem munmap_frees_foreign_frame :
    evicted_map_vm.map (fun st => frame_view st 3221221376)
      = some ([(0, 536870912, 1)], [(3222274048, 3221221376)], [], some 3222274048) ∧
    (evicted_map_vm.bind (fun st => munmap st 0)).map (fun st => frame_view st 3221221376)
      = some ([], [], [3222274048], some 3222274048) := by
  constructor
  · decide!
  · decide!

/-! ### Index bounds: the claim -/

/-- C30. Index bounds under the size cap.  For every position below
8388096 the function `byte_to_sector` with checked array accesses returns what
`byte_to_sector` returns: the indices it computes are below 128.  For every
growth to a length of at most 8388096 the function `inode_grow` with checked
array accesses returns, with the result of `inode_grow`: the indices are below
128 and the assertion holds.  The cap does not exceed the capacity of the index
structure. -/
theorem index_bounds_under_cap (d : Disk) (fm : FreeMap) (ino : inode) (pos length L : Nat)
    (stack : (Nat → Nat) × (Nat → Nat)) :
    (pos < MAX_FILE_SIZE →
      byte_to_sector_checked d ino pos length = some (byte_to_sector d ino pos length)) ∧
    (ino.length ≤ L → L ≤ MAX_FILE_SIZE →
      ∃ r, inode_grow_checked d fm ino L stack = some r ∧ inode_grow d fm ino L stack = some r) ∧
    MAX_FILE_SIZE ≤ (1 + 128 + 128 * 128) * DISK_SECTOR_SIZE := by
  refine ⟨fun hpos => byte_to_sector_checked_eq d ino pos length hpos, ?_, by decide⟩
  intro hle hcap
  have hold : bytes_to_sectors ino.length ≤ 16513 := by
    have h1 : ino.length ≤ 8388096 := le_trans hle hcap
    unfold bytes_to_sectors
    simp only [DISK_SECTOR_SIZE]
    omega
  obtain ⟨d1, fm1, ino1, e1, _, _⟩ := inode_grow_total d fm ino L stack hold
  exact ⟨(d1, fm1, ino1), by rw [inode_grow_checked_eq d fm ino L stack hle hcap]; exact e1, e1⟩

theorem index_bounds_under_cap_witness :
    8388095 < MAX_FILE_SIZE ∧ removed_inode.length ≤ 8388096 ∧ 8388096 ≤ MAX_FILE_SIZE ∧
    byte_to_sector_checked removed_disk removed_inode 8388095 8388096
      = some (byte_to_sector removed_disk removed_inode 8388095 8388096) ∧
    ∃ r, inode_grow_checked removed_disk ⟨[]⟩ removed_inode 8388096 (zeros, zeros) = some r ∧
      inode_grow removed_disk ⟨[]⟩ removed_inode 8388096 (zeros, zeros) = some r :=
  ⟨by decide, by decide, by decide,
    (index_bounds_under_cap removed_disk ⟨[]⟩ removed_inode 8388095 8388096 8388096
      (zeros, zeros)).1 (by decide),
    (index_bounds_under_cap removed_disk ⟨[]⟩ removed_inode 8388095 8388096 8388096
      (zeros, zeros)).2.1 (by decide) (by decide)⟩

/-! ### Witnesses for the cache claims -/

theorem evict_cache_line_second_chance_witness :
    0 < second_chance_lines.length ∧
    ∃ ls1, evict_cache_line second_chance_lines (fun _ => zeros)
        = some (ls1, evict_disk (fun _ => zeros) ⟨zeros, 6, 0, 1⟩, 1) ∧
      ls1[1]? = some ⟨zeros, 6, 0, 1⟩ ∧
      ∀ j : Nat, ls1[j]? =
        if j < 1 then (second_chance_lines[j]?).map clear_accessed else second_chance_lines[j]? :=
  ⟨by decide,
    (evict_cache_line_second_chance second_chance_lines (fun _ => zeros) (by decide)).1 1
      ⟨zeros, 6, 0, 1⟩ rfl rfl
      (fun j cl hj hcl => by
        have hj0 : j = 0 := by omega
        subst hj0
        have e : cl = ⟨zeros, 5, 1, 0⟩ := (Option.some.inj hcl).symm
        rw [e]
        decide)⟩

theorem cache_never_loses_data_witness :
    cache_inv one_dirty_cache (fun _ => zeros) ∧ one_dirty_cache.buffer_cache.length ≤ 64 ∧
    (∃ c1 d1 i cl, get_cache_line one_dirty_cache (fun _ => zeros) 2 0 = some (c1, d1, i) ∧
      c1.buffer_cache[i]? = some cl ∧ cl.sector_idx = 2 ∧
      cl.block = logical one_dirty_cache.buffer_cache (fun _ => zeros) 2 ∧
      (∀ t, logical c1.buffer_cache d1 t = logical one_dirty_cache.buffer_cache (fun _ => zeros) t) ∧
      cache_inv c1 d1 ∧ c1.buffer_cache.length ≤ 64) ∧
    (∃ c1 d1, read_ahead_get one_dirty_cache (fun _ => zeros) 2 blank_line = some (c1, d1) ∧
      (∀ t, logical c1.buffer_cache d1 t = logical one_dirty_cache.buffer_cache (fun _ => zeros) t) ∧
      cache_inv c1 d1 ∧ c1.buffer_cache.length ≤ 64) :=
  have hinv : cache_inv one_dirty_cache (fun _ => zeros) :=
    ⟨rfl, cache_unique_single _, fun j cl hj hd => by
      have hj0 : j < 1 := by
        have := (List.getElem?_eq_some.mp hj).1
        simpa [one_dirty_cache] using this
      have hj1 : j = 0 := by omega
      subst hj1
      have e : cl = ⟨fun _ => 7, 2, 0, 1⟩ := (Option.some.inj hj).symm
      rw [e] at hd
      exact absurd hd (by decide)⟩
  ⟨hinv, by decide,
    cache_never_loses_data one_dirty_cache (fun _ => zeros) 2 0 blank_line hinv (by decide)⟩

end Pintos
